import Mathlib

/-!
# ASMFS: the in-memory filesystem engine of `system/lib/fetch/asmfs.cpp`

A shallow embedding of the engine and theorems about it.

Conventions of the embedding.

* A C string is the list of its characters before the terminating NUL.  A
  pointer into a string (`s1+1`, `path+n`) is the suffix of the list that
  starts there, so comparing two pointers into the same string is comparing
  the lengths of two suffixes.
* An `inode *` is a natural number: `0` is the null pointer and `p + 1` is the
  address of cell `p` of the heap, the list of all inodes ever allocated by
  `create_inode`.  (`delete_inode` is never called in the file, so cells are
  never released.)
* The target is the 32-bit Emscripten ABI: `int`, `long`, `ssize_t` are signed
  32-bit, `size_t` is unsigned 32-bit, `int64_t` is signed 64-bit.  Arithmetic
  that can leave its type is reduced explicitly.
* A function whose C body can dereference a null or wild pointer, overrun a
  buffer, or loop without bound returns in `Run`: either a value or the
  `Fault` that was hit.  Loops over the pointer graph take a `fuel` argument.
* The text of diagnostic output (`EM_ASM`, `printf`) goes to the host console,
  which is outside the engine, and is not modelled.  The calls that compute it
  (`inode_abspath` in `link_inode`, `emscripten_dump_fs_root` in `open`) are
  modelled, since they write to the state of the engine and to local arrays.
-/

namespace Asmfs

/-! ## Outcomes -/

/-- The ways a run of the C code can fail to produce a defined result. -/
inductive Fault where
  | nullDeref
  | wildPointer
  | bufferOverflow
  | assertFailed
  | outOfFuel
  deriving DecidableEq, Repr

/-- Either the value a C function produces, or the fault it ran into. -/
inductive Run (α : Type) where
  | ok : α → Run α
  | fault : Fault → Run α
  deriving DecidableEq, Repr

/-- Sequencing of runs: a fault stops the computation. -/
def Run.bind {α β : Type} : Run α → (α → Run β) → Run β
  | .ok a, f => f a
  | .fault e, _ => .fault e

instance : Monad Run where
  pure := Run.ok
  bind := Run.bind

/-! ## Constants of the platform headers -/

/-- Modelled from the spec: the headers that declare these constants
(`limits.h`, `errno.h`, `fcntl.h`, `stdio.h`) are not among the sources; the
values are those of the Linux/musl ABI that the engine emulates (section 6,
"matching the numeric contract of the syscalls being emulated"). -/
def NAME_MAX : Nat := 255

/-- Modelled from the spec: `PATH_MAX` of `limits.h`, which is not among the
sources (Linux/musl ABI). -/
def PATH_MAX : Nat := 4096

/-- Source: `#define MAX_PATHNAME_LENGTH 2000`. -/
def MAX_PATHNAME_LENGTH : Nat := 2000

/-- Source: `#define MAX_DIRECTORY_DEPTH 512`. -/
def MAX_DIRECTORY_DEPTH : Nat := 512

/-- Source: `#define INODE_FILE 1`. -/
def INODE_FILE : Nat := 1

/-- Source: `#define INODE_DIR  2`. -/
def INODE_DIR : Nat := 2

/-- Source: `#define EM_FILEDESCRIPTOR_MAGIC 0x64666d65U`. -/
def EM_FILEDESCRIPTOR_MAGIC : Nat := 0x64666d65

/-- Modelled from the spec: errno values of the Linux/musl ABI (`errno.h` is
not among the sources). -/
def EPERM : Int := 1

/-- Modelled from the spec: errno value of the Linux/musl ABI. -/
def ENOENT : Int := 2

/-- Modelled from the spec: errno value of the Linux/musl ABI. -/
def EBADF : Int := 9

/-- Modelled from the spec: errno value of the Linux/musl ABI. -/
def EACCES : Int := 13

/-- Modelled from the spec: errno value of the Linux/musl ABI. -/
def EFAULT : Int := 14

/-- Modelled from the spec: errno value of the Linux/musl ABI. -/
def EBUSY : Int := 16

/-- Modelled from the spec: errno value of the Linux/musl ABI. -/
def EEXIST : Int := 17

/-- Modelled from the spec: errno value of the Linux/musl ABI. -/
def ENOTDIR : Int := 20

/-- Modelled from the spec: errno value of the Linux/musl ABI. -/
def EISDIR : Int := 21

/-- Modelled from the spec: errno value of the Linux/musl ABI. -/
def EINVAL : Int := 22

/-- Modelled from the spec: errno value of the Linux/musl ABI. -/
def ERANGE : Int := 34

/-- Modelled from the spec: errno value of the Linux/musl ABI. -/
def ENAMETOOLONG : Int := 36

/-- Modelled from the spec: errno value of the Linux/musl ABI. -/
def ENOTEMPTY : Int := 39

/-- Modelled from the spec: errno value of the Linux/musl ABI. -/
def EOVERFLOW : Int := 75

/-- Modelled from the spec: errno value of the Linux/musl ABI. -/
def EOPNOTSUPP : Int := 95

/-- Modelled from the spec: musl defines `ENOTSUP` as `EOPNOTSUPP`. -/
def ENOTSUP : Int := 95

/-- Modelled from the spec: open flags of the Linux/musl ABI (`fcntl.h` is not
among the sources); octal as in the header. -/
def O_RDONLY : Nat := 0o0

/-- Modelled from the spec: open flag of the Linux/musl ABI. -/
def O_WRONLY : Nat := 0o1

/-- Modelled from the spec: open flag of the Linux/musl ABI. -/
def O_RDWR : Nat := 0o2

/-- Modelled from the spec: open flag of the Linux/musl ABI. -/
def O_CREAT : Nat := 0o100

/-- Modelled from the spec: open flag of the Linux/musl ABI. -/
def O_EXCL : Nat := 0o200

/-- Modelled from the spec: open flag of the Linux/musl ABI. -/
def O_TRUNC : Nat := 0o1000

/-- Modelled from the spec: open flag of the Linux/musl ABI. -/
def O_APPEND : Nat := 0o2000

/-- Modelled from the spec: open flag of the Linux/musl ABI. -/
def O_NONBLOCK : Nat := 0o4000

/-- Modelled from the spec: `O_NDELAY` is `O_NONBLOCK`. -/
def O_NDELAY : Nat := 0o4000

/-- Modelled from the spec: open flag of the Linux/musl ABI. -/
def O_DSYNC : Nat := 0o10000

/-- Modelled from the spec: open flag of the Linux/musl ABI. -/
def O_ASYNC : Nat := 0o20000

/-- Modelled from the spec: open flag of the Linux/musl ABI. -/
def O_DIRECT : Nat := 0o40000

/-- Modelled from the spec: open flag of the Linux/musl ABI. -/
def O_DIRECTORY : Nat := 0o200000

/-- Modelled from the spec: open flag of the Linux/musl ABI. -/
def O_SYNC : Nat := 0o4010000

/-- Modelled from the spec: open flag of the Linux/musl ABI. -/
def O_PATH : Nat := 0o10000000

/-- Modelled from the spec: open flag of the Linux/musl ABI (it contains the
`O_DIRECTORY` bit). -/
def O_TMPFILE : Nat := 0o20200000

/-- Modelled from the spec: musl defines `O_ACCMODE` as `03|O_SEARCH` with
`O_SEARCH` equal to `O_PATH`. -/
def O_ACCMODE : Nat := 0o10000003

/-- Modelled from the spec: `whence` values of `stdio.h`. -/
def SEEK_SET : Nat := 0

/-- Modelled from the spec: `whence` value of `stdio.h`. -/
def SEEK_CUR : Nat := 1

/-- Modelled from the spec: `whence` value of `stdio.h`. -/
def SEEK_END : Nat := 2

/-! ## Machine integers -/

/-- Conversion to an unsigned 32-bit value (`size_t`, `uint32_t`). -/
def toU32 (x : Int) : Nat := (x % 4294967296).toNat

/-- Conversion to a signed 32-bit value (`int`, `long`, `ssize_t`). -/
def toS32 (x : Int) : Int := (x + 2147483648) % 4294967296 - 2147483648

/-- Conversion to a signed 64-bit value (`int64_t`). -/
def toS64 (x : Int) : Int :=
  (x + 9223372036854775808) % 18446744073709551616 - 9223372036854775808

/-! ## Data model -/

/-- Modelled from the spec: the record behind `emscripten_fetch_t *`, declared
in `emscripten/fetch.h`, which is not among the sources.  Only the fields the
engine reads are kept; the record is the state of the transfer once
`emscripten_fetch_wait` has returned.  `data = none` is a null data pointer,
`some bytes` the downloaded block. -/
structure emscripten_fetch_t where
  status : Nat
  totalBytes : Nat
  numBytes : Nat
  data : Option (List Nat)
  deriving DecidableEq, Repr

/-- Source: `struct inode`.  `name` is the content of the `char[NAME_MAX+1]`
array before its NUL; `data = none` is a null `data` pointer and `some bytes`
the allocated block (`capacity` bytes long); `fetch = none` is a null `fetch`
pointer. -/
structure inode where
  name : List Char
  parent : Nat
  sibling : Nat
  child : Nat
  uid : Nat
  gid : Nat
  mode : Nat
  ctime : Nat
  mtime : Nat
  atime : Nat
  size : Nat
  capacity : Nat
  data : Option (List Nat)
  type : Nat
  fetch : Option emscripten_fetch_t
  deriving DecidableEq, Repr

/-- Source: `struct FileDescriptor`.  `file_pos` is an `ssize_t`. -/
structure FileDescriptor where
  magic : Nat
  file_pos : Int
  mode : Nat
  flags : Nat
  node : Nat
  deriving DecidableEq, Repr

/-- Source: `struct iovec`.  `iov_base = none` is a null pointer; `some m` is
the memory block the pointer refers to. -/
structure iovec where
  iov_base : Option (List Nat)
  iov_len : Nat
  deriving DecidableEq, Repr

/-- The engine's global state: the heap of inodes, the function-local static
`root_node` of `filesystem_root` (`0` until its first call), the global
`cwd_inode`, the descriptors allocated by `open` (descriptor number `i + 3` is
cell `i`; `malloc` never returns the addresses 0, 1 or 2), the value `time(0)`
returns, the two line buffers of `print_stream` with the lines handed to the
log sink. -/
structure FS where
  heap : List inode
  root_node : Nat
  cwd_inode : Nat
  fds : List FileDescriptor
  clock : Nat
  stdout_buffer : List Nat
  stderr_buffer : List Nat
  log : List (Bool × List Nat)
  deriving DecidableEq, Repr

/-- The state of a process that has not called into the engine yet. -/
def FS.init : FS :=
  { heap := [], root_node := 0, cwd_inode := 0, fds := [], clock := 0,
    stdout_buffer := [], stderr_buffer := [], log := [] }

/-! ## Heap access -/

/-- Reading through an `inode *`. -/
def deref (h : List inode) (p : Nat) : Run inode :=
  if p = 0 then .fault .nullDeref
  else match h[p - 1]? with
    | some n => .ok n
    | none => .fault .wildPointer

/-- Writing through an `inode *` that is known to be valid. -/
def store (h : List inode) (p : Nat) (n : inode) : List inode :=
  h.set (p - 1) n

/-! ## String helpers of the source -/

/-- Source: `path_cmp`.  Compares `s1` and `s2` until a NUL or a '/' is hit;
`none` is the null result, `some r` the pointer into `s1` that is returned. -/
def path_cmp : List Char → List Char → Option (List Char)
  | [], [] => some []
  | [], c2 :: _ => if c2 = '/' then some [] else none
  | c1 :: r1, [] => if c1 = '/' then some r1 else none
  | c1 :: r1, c2 :: r2 =>
    if c1 = c2 then
      if c1 = '/' then some r1 else path_cmp r1 r2
    else none

/-- Source: `strcpy_inodename`, the characters it copies into `dst`: `path`
up to its first '/' or its end.  The value the C function returns is the
length of this list. -/
def strcpy_inodename : List Char → List Char
  | [] => []
  | c :: rest => if c = '/' then [] else c :: strcpy_inodename rest

/-- The loop of `basename_part`: `s` is the candidate result, replaced by
`path+1` each time `*path` is a '/'. -/
def basename_loop : List Char → List Char → List Char
  | [], s => s
  | c :: rest, s => basename_loop rest (if c = '/' then rest else s)

/-- Source: `basename_part`: the string after the last '/'. -/
def basename_part (path : List Char) : List Char :=
  basename_loop path path

/-! ## Inode tree -/

/-- Source: `create_inode`: a zeroed cell with the three timestamps set to
`time(0)` and the given type.  Returns the new pointer and the grown heap. -/
def create_inode (s : FS) (type : Nat) : Nat × FS :=
  let i : inode :=
    { name := [], parent := 0, sibling := 0, child := 0, uid := 0, gid := 0,
      mode := 0, ctime := s.clock, mtime := s.clock, atime := s.clock,
      size := 0, capacity := 0, data := none, type := type, fetch := none }
  (s.heap.length + 1, { s with heap := s.heap ++ [i] })

/-- Source: `filesystem_root`.  The static `root_node` is created by the first
call; every call sets its mode to 0777. -/
def filesystem_root (s : FS) : Run (Nat × FS) :=
  let (r, s1) :=
    if s.root_node = 0 then
      let (p, s0) := create_inode s INODE_DIR
      (p, { s0 with root_node := p })
    else (s.root_node, s)
  match deref s1.heap r with
  | .ok n => .ok (r, { s1 with heap := store s1.heap r { n with mode := 0o777 } })
  | .fault e => .fault e

/-- Source: `get_cwd`. -/
def get_cwd (s : FS) : Run (Nat × FS) :=
  if s.cwd_inode = 0 then
    match filesystem_root s with
    | .ok (r, s1) => .ok (r, { s1 with cwd_inode := r })
    | .fault e => .fault e
  else .ok (s.cwd_inode, s)

/-- Source: `set_cwd`. -/
def set_cwd (s : FS) (node : Nat) : FS :=
  { s with cwd_inode := node }

/-! ## Path reconstruction -/

/-- The NUL character. -/
def NUL : Char := Char.ofNat 0

/-- The C string stored at the start of a memory block: its characters before
the first NUL. -/
def cstring (mem : List Char) : List Char :=
  mem.takeWhile (fun c => c != NUL)

/-- Storing characters into a memory block from index `i` on; a store past the
end of the block is a fault. -/
def poke (mem : List Char) (i : Nat) (cs : List Char) : Run (List Char) :=
  if i + cs.length ≤ mem.length then .ok (mem.take i ++ cs ++ mem.drop (i + cs.length))
  else .fault .bufferOverflow

/-- Source: the first loop of `inode_abspath`: while `node->parent` is set and
fewer than `MAX_DIRECTORY_DEPTH` nodes are stacked, `node` is pushed and
replaced by its parent.  `room` is `MAX_DIRECTORY_DEPTH - depth`; the result is
the stack, last pushed first. -/
def inode_abspath_climb (h : List inode) : Nat → Nat → List Nat → Run (List Nat)
  | room, node, stack =>
    match deref h node with
    | .fault e => .fault e
    | .ok n =>
      if n.parent = 0 then .ok stack
      else match room with
        | 0 => .ok stack
        | room + 1 => inode_abspath_climb h room n.parent (node :: stack)

/-- Source: the second loop of `inode_abspath`: while nodes are stacked and
`dst < dstEnd`, a '/' and then at most `dstEnd - dst` characters of the name of
the popped node are stored at `dst` (`strncpy` with the length of the name
stores no NUL).  `dst` and `dstEnd` are offsets into the block `mem`. -/
def inode_abspath_emit (h : List inode) :
    List Nat → List Char → Nat → Nat → Run (List Char)
  | [], mem, _, _ => .ok mem
  | node :: stack, mem, dst, dstEnd =>
    if dst < dstEnd then
      match poke mem dst ['/'] with
      | .fault e => .fault e
      | .ok mem1 =>
        match deref h node with
        | .fault e => .fault e
        | .ok n =>
          let len := min n.name.length (dstEnd - (dst + 1))
          match poke mem1 (dst + 1) (n.name.take len) with
          | .fault e => .fault e
          | .ok mem2 => inode_abspath_emit h stack mem2 (dst + 1 + len) dstEnd
    else .ok mem

/-- Source: `inode_abspath(inode *node, char *dst, int dstLen)`.  `mem` is the
memory that starts at `dst`, `dstLen` the length the caller announces; the
result is that memory afterwards.  The statement `*dstEnd-- = 0` stores the
NUL at offset `dstLen` and leaves `dstEnd` at offset `dstLen - 1`. -/
def inode_abspath (s : FS) (node : Nat) (mem : List Char) (dstLen : Nat) :
    Run (List Char × FS) :=
  if node = 0 then
    if dstLen < 7 then .fault .assertFailed
    else match poke mem 0 ("(null)".toList ++ [NUL]) with
      | .fault e => .fault e
      | .ok mem1 => .ok (mem1, s)
  else match filesystem_root s with
    | .fault e => .fault e
    | .ok (root, s1) =>
      if node = root then
        if dstLen < 2 then .fault .assertFailed
        else match poke mem 0 ['/', NUL] with
          | .fault e => .fault e
          | .ok mem1 => .ok (mem1, s1)
      else match inode_abspath_climb s1.heap MAX_DIRECTORY_DEPTH node [] with
        | .fault e => .fault e
        | .ok stack =>
          match poke mem dstLen [NUL] with
          | .fault e => .fault e
          | .ok mem1 =>
            match inode_abspath_emit s1.heap stack mem1 0 (dstLen - 1) with
            | .fault e => .fault e
            | .ok mem2 => .ok (mem2, s1)

/-! ## Inode tree: linking and lookup -/

/-- Source: `link_inode`, lines 131-132: the local array
`char parentName[PATH_MAX]` and the call
`inode_abspath(parent, parentName, PATH_MAX)` that fills it for the diagnostic
print.  This is `inode_abspath` with the array as `dst` and its size as
`dstLen` (theorem `link_inode_parent_name_eq`): for the null pointer and for
the root a short string is stored at the start of the array; for every other
parent the statement `*dstEnd-- = 0` stores at `parentName[PATH_MAX]`, past the
array.  The state changes through the call of `filesystem_root`. -/
def link_inode_parent_name (s : FS) (parent : Nat) : Run FS :=
  if parent = 0 then .ok s
  else match filesystem_root s with
    | .fault e => .fault e
    | .ok (root, s1) =>
      if parent = root then .ok s1
      else match inode_abspath_climb s1.heap MAX_DIRECTORY_DEPTH parent [] with
        | .fault e => .fault e
        | .ok _ => .fault .bufferOverflow

/-- Source: `link_inode`, lines 135-151, the statements after the diagnostic
print: the two assertions, then `node->parent = parent` and the publication
`node->sibling = parent->child; parent->child = node`, which a single caller
performs in one round of the compare-and-swap loop. -/
def link_inode_publish (h : List inode) (node parent : Nat) : Run (List inode) := do
  let n ← deref h node
  if n.parent ≠ 0 then .fault .assertFailed
  else if n.sibling ≠ 0 then .fault .assertFailed
  else
    let h1 := store h node { n with parent := parent }
    let p ← deref h1 parent
    let n1 ← deref h1 node
    let h2 := store h1 node { n1 with sibling := p.child }
    let p2 ← deref h2 parent
    .ok (store h2 parent { p2 with child := node })

/-- Source: `link_inode`: the path of the parent is computed for the diagnostic
print, then the node is published. -/
def link_inode (s : FS) (node parent : Nat) : Run FS :=
  match link_inode_parent_name s parent with
  | .fault e => .fault e
  | .ok s1 =>
    match link_inode_publish s1.heap node parent with
    | .fault e => .fault e
    | .ok h => .ok { s1 with heap := h }

/-- The `while(node)` loop of the two-argument `find_inode`, started at
`node` with the rest of the path still to be matched. -/
def find_inode_loop (h : List inode) : Nat → Nat → List Char → Run Nat
  | fuel, node, path =>
    if node = 0 then .ok 0
    else match fuel with
      | 0 => .fault .outOfFuel
      | fuel + 1 =>
        match deref h node with
        | .fault e => .fault e
        | .ok n =>
          match path_cmp path n.name with
          | some child_path =>
            if child_path = [] then .ok node
            else if child_path = ['/'] then .ok node
            else find_inode_loop h fuel n.child child_path
          | none => find_inode_loop h fuel n.sibling path

/-- Source: `find_inode(inode *root, const char *path, ...)`.  The optional
`out_closest_parent` is null at every call site of the file and is left
out.  The result `0` is the null pointer. -/
def find_inode (h : List inode) (fuel : Nat) (root : Nat) (path : List Char) : Run Nat :=
  if root = 0 then .ok 0
  else if path = [] ∨ path = ['/'] then .ok root
  else match deref h root with
    | .fault e => .fault e
    | .ok r => find_inode_loop h fuel r.child path

/-- Source: `find_inode(const char *path, ...)`: the root is the filesystem
root for a path that starts with '/', the current directory otherwise. -/
def find_inode_path (s : FS) (fuel : Nat) (path : List Char) : Run (Nat × FS) :=
  match path with
  | '/' :: rest =>
    match filesystem_root s with
    | .fault e => .fault e
    | .ok (root, s1) =>
      match find_inode s1.heap fuel root rest with
      | .fault e => .fault e
      | .ok r => .ok (r, s1)
  | _ =>
    match get_cwd s with
    | .fault e => .fault e
    | .ok (root, s1) =>
      match find_inode s1.heap fuel root path with
      | .fault e => .fault e
      | .ok r => .ok (r, s1)

/-- Source: `find_parent_inode`, its `while(node)` loop.  `basename` is the
pointer `basename_part(path)` computed before the loop; `path >= basename`
compares two pointers into the same string, that is, the lengths of the two
suffixes. -/
def find_parent_inode_loop (h : List inode) (root : Nat) (basename : List Char) :
    Nat → Nat → List Char → Run Nat
  | fuel, node, path =>
    if node = 0 then .ok root
    else match fuel with
      | 0 => .fault .outOfFuel
      | fuel + 1 =>
        match deref h node with
        | .fault e => .fault e
        | .ok n =>
          match path_cmp path n.name with
          | some child_path =>
            if child_path.length ≤ basename.length then .ok node
            else if child_path = [] then .ok 0
            else find_parent_inode_loop h root basename fuel n.child child_path
          | none => find_parent_inode_loop h root basename fuel n.sibling path

/-- Source: `find_parent_inode`. -/
def find_parent_inode (h : List inode) (fuel : Nat) (root : Nat) (path : List Char) : Run Nat :=
  if root = 0 then .ok 0
  else match deref h root with
    | .fault e => .fault e
    | .ok r => find_parent_inode_loop h root (basename_part path) fuel r.child path

/-- Source: the first loop of `create_directory_hierarchy_for_file`.  The
result `(node, none)` is the early `return node`; `(root, some path)` is the
state in which the loop is left. -/
def create_directory_hierarchy_find (h : List inode) :
    Nat → Nat → Nat → List Char → Run (Nat × Option (List Char))
  | fuel, root, node, path_to_file =>
    if node = 0 then .ok (root, some path_to_file)
    else match fuel with
      | 0 => .fault .outOfFuel
      | fuel + 1 =>
        match deref h node with
        | .fault e => .fault e
        | .ok n =>
          match path_cmp path_to_file n.name with
          | some child_path =>
            if child_path = [] then .ok (node, none)
            else if child_path = ['/'] then .ok (node, none)
            else create_directory_hierarchy_find h fuel node n.child child_path
          | none => create_directory_hierarchy_find h fuel root n.sibling path_to_file

/-- Writing a string into the `name` array of a cell (`strcpy`,
`strcpy_inodename`): more than `NAME_MAX` characters overrun the array. -/
def set_name (h : List inode) (node : Nat) (name : List Char) : Run (List inode) :=
  match deref h node with
  | .fault e => .fault e
  | .ok n =>
    if name.length > NAME_MAX then .fault .bufferOverflow
    else .ok (store h node { n with name := name })

/-- Assignment `node->mode = mode`. -/
def set_mode (h : List inode) (node : Nat) (mode : Nat) : Run (List inode) :=
  match deref h node with
  | .fault e => .fault e
  | .ok n => .ok (store h node { n with mode := mode % 4294967296 })

/-- Source: the second loop of `create_directory_hierarchy_for_file`: while
`path_to_file` is not at its end and lies before `basename_pos`, a directory
named by the next component is created under `root` and becomes `root`.  Each
round consumes at least one character, so `rounds`, started at the length of
the path, is never exhausted before the loop ends. -/
def create_directory_hierarchy_make (mode : Nat) (basename_pos : List Char) :
    Nat → FS → Nat → List Char → Run (Nat × FS)
  | rounds, s, root, path_to_file =>
    if path_to_file ≠ [] ∧ basename_pos.length < path_to_file.length then
      match rounds with
      | 0 => .fault .outOfFuel
      | rounds + 1 =>
        let (node, s1) := create_inode s INODE_DIR
        match set_mode s1.heap node mode with
        | .fault e => .fault e
        | .ok h1 =>
          let name := strcpy_inodename path_to_file
          match set_name h1 node name with
          | .fault e => .fault e
          | .ok h2 =>
            match link_inode { s1 with heap := h2 } node root with
            | .fault e => .fault e
            | .ok s3 =>
              create_directory_hierarchy_make mode basename_pos rounds
                s3 node (path_to_file.drop (name.length + 1))
    else .ok (root, s)

/-- Source: `create_directory_hierarchy_for_file(inode *root, const char
*path_to_file, unsigned int mode)`. -/
def create_directory_hierarchy_for_file (fuel : Nat) (s : FS) (root : Nat)
    (path_to_file : List Char) (mode : Nat) : Run (Nat × FS) :=
  if root = 0 then .fault .assertFailed
  else match deref s.heap root with
    | .fault e => .fault e
    | .ok r =>
      match create_directory_hierarchy_find s.heap fuel root r.child path_to_file with
      | .fault e => .fault e
      | .ok (node, none) => .ok (node, s)
      | .ok (root1, some path1) =>
        create_directory_hierarchy_make mode (basename_part path1) path1.length s root1 path1

/-- Source: `(pathname[0] == '/') ? filesystem_root() : get_cwd()`, the
directory a path is resolved from in `open` and `mkdir`. -/
def path_root (s : FS) (pathname : List Char) : Run (Nat × FS) :=
  if pathname.head? = some '/' then filesystem_root s else get_cwd s

/-- Source: `(pathname[0] == '/') ? pathname+1 : pathname`, the path relative
to that directory. -/
def path_rel (pathname : List Char) : List Char :=
  if pathname.head? = some '/' then pathname.tail else pathname

/-! ## Descriptors -/

/-- The descriptor behind `(FileDescriptor*)fd`: `none` for the null pointer,
otherwise the cell at that address.  An `fd` that is no address of a cell is a
wild pointer.  The cell of a closed descriptor keeps its content (with `magic`
cleared), so a stale `fd` is answered by the magic check. -/
def get_desc (s : FS) (fd : Nat) : Run (Option FileDescriptor) :=
  if fd = 0 then .ok none
  else if fd < 3 then .fault .wildPointer
  else match s.fds[fd - 3]? with
    | some d => .ok (some d)
    | none => .fault .wildPointer

/-- Writing a descriptor cell back. -/
def put_desc (s : FS) (fd : Nat) (d : FileDescriptor) : FS :=
  { s with fds := s.fds.set (fd - 3) d }

/-- The check `!desc || desc->magic != EM_FILEDESCRIPTOR_MAGIC` of every
descriptor-taking call: the valid descriptor, or `none` for `EBADF`. -/
def check_desc (s : FS) (fd : Nat) : Run (Option FileDescriptor) :=
  match get_desc s fd with
  | .fault e => .fault e
  | .ok none => .ok none
  | .ok (some d) => if d.magic ≠ EM_FILEDESCRIPTOR_MAGIC then .ok none else .ok (some d)

/-! ## open -/

/-- Source: `__syscall5`, lines 454-457: the checks on a node that exists.
`none` when all pass, otherwise the errno to return. -/
def open_checks (n : inode) (flags : Nat) : Option Int :=
  let accessMode := flags &&& O_ACCMODE
  if flags &&& O_DIRECTORY ≠ 0 ∧ n.type ≠ INODE_DIR then some ENOTDIR
  else if n.mode &&& 0o444 = 0 then some EACCES
  else if flags &&& O_CREAT ≠ 0 ∧ flags &&& O_EXCL ≠ 0 then some EEXIST
  else if n.type = INODE_DIR ∧ accessMode ≠ O_RDONLY then some EISDIR
  else none

/-- Source: `__syscall5`, lines 473-477 and 517-522: a new inode for
`pathname` is created under the directory that
`create_directory_hierarchy_for_file` returns, with the given mode, the
basename as name and the given fetch, and linked. -/
def open_new_node (fuel : Nat) (s : FS) (root : Nat) (pathname relpath : List Char)
    (flags mode : Nat) (fetch : Option emscripten_fetch_t) : Run (Nat × FS) :=
  match create_directory_hierarchy_for_file fuel s root relpath mode with
  | .fault e => .fault e
  | .ok (directory, s1) =>
    let (node, s2) := create_inode s1 (if flags &&& O_DIRECTORY ≠ 0 then INODE_DIR else INODE_FILE)
    match set_mode s2.heap node mode with
    | .fault e => .fault e
    | .ok h1 =>
      match set_name h1 node (basename_part pathname) with
      | .fault e => .fault e
      | .ok h2 =>
        match deref h2 node with
        | .fault e => .fault e
        | .ok n =>
          match link_inode { s2 with heap := store h2 node { n with fetch := fetch } } node
              directory with
          | .fault e => .fault e
          | .ok s3 => .ok (node, s3)

/-- Source: `__syscall5`, lines 533-545: the descriptor is allocated and its
address returned. -/
def open_finish (s : FS) (node : Nat) (flags mode : Nat) : Run (Int × FS) :=
  match deref s.heap node with
  | .fault e => .fault e
  | .ok n =>
    let file_pos : Int :=
      match n.fetch with
      | some f => if flags &&& O_APPEND ≠ 0 then toS32 f.totalBytes else 0
      | none => 0
    let desc : FileDescriptor :=
      { magic := EM_FILEDESCRIPTOR_MAGIC, file_pos := file_pos,
        mode := mode % 4294967296, flags := flags, node := node }
    .ok (((s.fds.length + 3 : Nat) : Int), { s with fds := s.fds ++ [desc] })

/-- Source: `__syscall5`, lines 462-479: the branch taken when `O_CREAT`,
`O_TRUNC` or `O_EXCL` is set. -/
def open_create (fuel : Nat) (s : FS) (root node : Nat) (pathname relpath : List Char)
    (flags mode : Nat) : Run (Nat × FS) :=
  if node ≠ 0 then
    match deref s.heap node with
    | .fault e => .fault e
    | .ok n => .ok (node, { s with heap := store s.heap node { n with fetch := none, size := 0 } })
  else open_new_node fuel s root pathname relpath flags mode none

/-- Source: `emscripten_dump_fs_tree`, its first loop: one line is printed for
each child of the directory; the loop reads every cell of the chain. -/
def emscripten_dump_fs_list (h : List inode) : Nat → Nat → Run Unit
  | fuel, child =>
    if child = 0 then .ok ()
    else match fuel with
      | 0 => .fault .outOfFuel
      | fuel + 1 =>
        match deref h child with
        | .fault e => .fault e
        | .ok c => emscripten_dump_fs_list h fuel c.sibling

/-- Source: `emscripten_dump_fs_tree`, its second loop, on the chain that
starts at `child`; `path` is the string in the caller's array of `PATH_MAX`
bytes when the function was entered, so `path_end` is at offset `path.length`.
For each directory, `strcpy(path_end, child->name)` and
`strcat(path_end, "/")` store the name, a '/' and a NUL from `path_end` on,
with no check against the size of the array, and the function calls itself on
the child with the longer path: its first loop on the child's chain, then this
loop. -/
def emscripten_dump_fs_dirs (h : List inode) : Nat → Nat → List Char → Run Unit
  | fuel, child, path =>
    if child = 0 then .ok ()
    else match fuel with
      | 0 => .fault .outOfFuel
      | fuel + 1 =>
        match deref h child with
        | .fault e => .fault e
        | .ok c =>
          let below : Run Unit :=
            if c.type = INODE_DIR then
              if path.length + c.name.length + 2 ≤ PATH_MAX then
                match emscripten_dump_fs_list h fuel c.child with
                | .fault e => .fault e
                | .ok _ => emscripten_dump_fs_dirs h fuel c.child (path ++ c.name ++ ['/'])
              else .fault .bufferOverflow
            else .ok ()
          match below with
          | .fault e => .fault e
          | .ok _ => emscripten_dump_fs_dirs h fuel c.sibling path

/-- Source: `emscripten_dump_fs_tree(root, path)`: the listing of the children
of `root`, then the same for every directory among them.  What `printf` prints
is handed to the C library and is not modelled. -/
def emscripten_dump_fs_tree (h : List inode) (fuel : Nat) (root : Nat) (path : List Char) :
    Run Unit :=
  match deref h root with
  | .fault e => .fault e
  | .ok r =>
    match emscripten_dump_fs_list h fuel r.child with
    | .fault e => .fault e
    | .ok _ => emscripten_dump_fs_dirs h fuel r.child path

/-- Source: `emscripten_dump_fs_root`: the tree under `filesystem_root()` is
dumped, with the array `char path[PATH_MAX]` holding `/` at the start. -/
def emscripten_dump_fs_root (fuel : Nat) (s : FS) : Run FS :=
  match filesystem_root s with
  | .fault e => .fault e
  | .ok (root, s1) =>
    match emscripten_dump_fs_tree s1.heap fuel root ['/'] with
    | .fault e => .fault e
    | .ok _ => .ok s1

/-- Source: `__syscall5`, lines 480-531: the branch taken without those flags
when the node is missing or has neither fetch nor data.  `provider` is the
transfer the external content provider delivers for a path, as observed after
`emscripten_fetch_wait`.  After `node->size` is set the tree is dumped by
`emscripten_dump_fs_root`.  The result is the node to open, or the errno. -/
def open_fetch (provider : List Char → emscripten_fetch_t) (fuel : Nat) (s : FS)
    (root node : Nat) (pathname relpath : List Char) (flags mode : Nat) :
    Run (Except Int (Nat × FS)) :=
  let accessMode := flags &&& O_ACCMODE
  let fetch : Option emscripten_fetch_t :=
    if flags &&& O_DIRECTORY = 0 ∧ accessMode ≠ O_WRONLY then some (provider pathname)
    else none
  if fetch.any (fun f => f.status != 200 || f.totalBytes == 0) then .ok (.error ENOENT)
  else
    let linked : Run (Except Int (Nat × FS)) :=
      if node ≠ 0 then
        match deref s.heap node with
        | .fault e => .fault e
        | .ok n =>
          if n.type = INODE_FILE then
            .ok (.ok (node, { s with heap := store s.heap node { n with fetch := fetch } }))
          else .ok (.ok (node, s))
      else if flags &&& O_CREAT ≠ 0 ∨ fetch.isSome then
        match open_new_node fuel s root pathname relpath flags mode fetch with
        | .fault e => .fault e
        | .ok r => .ok (.ok r)
      else .ok (.error ENOENT)
    match linked with
    | .fault e => .fault e
    | .ok (.error e) => .ok (.error e)
    | .ok (.ok (node1, s1)) =>
      match deref s1.heap node1 with
      | .fault e => .fault e
      | .ok n1 =>
        match n1.fetch with
        | none => .fault .nullDeref
        | some f =>
          let h2 := store s1.heap node1 { n1 with size := f.totalBytes % 4294967296 }
          match emscripten_dump_fs_root fuel { s1 with heap := h2 } with
          | .fault e => .fault e
          | .ok s2 => .ok (.ok (node1, s2))

/-- Source: `__syscall5`, lines 418-439: the flag checks.  `none` when all
pass, otherwise the errno to return. -/
def open_flag_checks (flags : Nat) : Option Int :=
  let accessMode := flags &&& O_ACCMODE
  if flags &&& O_ASYNC ≠ 0 then some ENOTSUP
  else if flags &&& O_DIRECT ≠ 0 then some ENOTSUP
  else if flags &&& O_DSYNC ≠ 0 then some ENOTSUP
  else if flags &&& O_EXCL ≠ 0 ∧ flags &&& O_CREAT = 0 then some EINVAL
  else if flags &&& (O_NONBLOCK ||| O_NDELAY) ≠ 0 then some ENOTSUP
  else if flags &&& O_PATH ≠ 0 then some ENOTSUP
  else if flags &&& O_SYNC ≠ 0 then some ENOTSUP
  else if flags &&& O_TMPFILE ≠ 0 then
    if accessMode ≠ O_WRONLY ∧ accessMode ≠ O_RDWR then some EINVAL else some EOPNOTSUPP
  else none

/-- Source: `__syscall5` (open).  The result is the value returned (the
address of the new descriptor, or a negated errno) and the state afterwards. -/
def __syscall5 (provider : List Char → emscripten_fetch_t) (fuel : Nat) (s : FS)
    (pathname : List Char) (flags mode : Nat) : Run (Int × FS) :=
  match open_flag_checks flags with
  | some e => .ok (-e, s)
  | none =>
    if pathname.length > MAX_PATHNAME_LENGTH then .ok (-ENAMETOOLONG, s)
    else if pathname.length = 0 then .ok (-ENOENT, s)
    else
      let relpath := path_rel pathname
      match path_root s pathname with
      | .fault e => .fault e
      | .ok (root, s1) =>
        match find_inode s1.heap fuel root relpath with
        | .fault e => .fault e
        | .ok node =>
          let found : Run (Option inode) :=
            if node = 0 then .ok none
            else match deref s1.heap node with
              | .fault e => .fault e
              | .ok n => .ok (some n)
          match found with
          | .fault e => .fault e
          | .ok found =>
            match found.bind (fun n => open_checks n flags) with
            | some e => .ok (-e, s1)
            | none =>
              if flags &&& O_CREAT ≠ 0 ∨ flags &&& O_TRUNC ≠ 0 ∨ flags &&& O_EXCL ≠ 0 then
                match open_create fuel s1 root node pathname relpath flags mode with
                | .fault e => .fault e
                | .ok (node1, s2) => open_finish s2 node1 flags mode
              else if found.all (fun n => n.fetch.isNone && n.data.isNone) then
                match open_fetch provider fuel s1 root node pathname relpath flags mode with
                | .fault e => .fault e
                | .ok (.error e) => .ok (-e, s1)
                | .ok (.ok (node1, s2)) => open_finish s2 node1 flags mode
              else open_finish s1 node flags mode

/-! ## close and llseek -/

/-- Source: `__syscall6` (close).  A fetch still attached to the node is
waited for and closed and `node->fetch` is cleared; the descriptor cell is
invalidated and released. -/
def __syscall6 (s : FS) (fd : Nat) : Run (Int × FS) :=
  match check_desc s fd with
  | .fault e => .fault e
  | .ok none => .ok (-EBADF, s)
  | .ok (some desc) =>
    let released : Run (List inode) :=
      if desc.node = 0 then .ok s.heap
      else match deref s.heap desc.node with
        | .fault e => .fault e
        | .ok n =>
          if n.fetch.isSome then .ok (store s.heap desc.node { n with fetch := none })
          else .ok s.heap
    match released with
    | .fault e => .fault e
    | .ok h1 => .ok (0, put_desc { s with heap := h1 } fd { desc with magic := 0 })

/-- Source: `__syscall140` (llseek).  `result` tells whether the `result`
pointer is non-null; the second component of the outcome is the value stored
through it, if any.  `offset_high` and `offset_low` are the two 32-bit halves
of the 64-bit offset. -/
def __syscall140 (s : FS) (fd : Nat) (offset_high offset_low : Nat) (result : Bool)
    (whence : Nat) : Run (Int × Option Int × FS) :=
  match check_desc s fd with
  | .fault e => .fault e
  | .ok none => .ok (-EBADF, none, s)
  | .ok (some desc) =>
    match deref s.heap desc.node with
    | .fault e => .fault e
    | .ok n =>
      let offset : Int :=
        toS64 ((offset_high % 4294967296 : Nat) * 4294967296 + (offset_low % 4294967296 : Nat))
      let newPos : Option Int :=
        if whence = SEEK_SET then some offset
        else if whence = SEEK_CUR then some (toS64 (desc.file_pos + offset))
        else if whence = SEEK_END then
          some (toS64 ((match n.fetch with
            | some f => (f.numBytes : Int)
            | none => (n.size : Int)) + offset))
        else none
      match newPos with
      | none => .ok (-EINVAL, none, s)
      | some newPos =>
        if newPos < 0 then .ok (-EINVAL, none, s)
        else if newPos > 0x7FFFFFFF then .ok (-EOVERFLOW, none, s)
        else
          .ok (0, (if result then some newPos else none),
            put_desc s fd { desc with file_pos := newPos })

/-! ## readv and writev -/

/-- Source: the first loop of `__syscall145` and of `__syscall146`: the sum of
the `iov_len` values as an `ssize_t`, or `none` for the two `EINVAL` exits (the
sum wraps below the running total; a null base with a positive length). -/
def iov_total : List iovec → Int → Option Int
  | [], total => some total
  | v :: rest, total =>
    let n := toS32 (total + v.iov_len)
    if n < total then none
    else if v.iov_base.isNone ∧ v.iov_len > 0 then none
    else iov_total rest n

/-- The call `memcpy(iov_base, &data[offset], n)` of `readv`: `n` bytes of
the block `data` from `offset` on replace the first `n` bytes of the block
behind `iov_base`.  Copying nothing touches no memory. -/
def memcpy_out (base : Option (List Nat)) (data : Option (List Nat)) (offset n : Nat) :
    Run (Option (List Nat)) :=
  if n = 0 then .ok base
  else match base, data with
    | some b, some d =>
      if n ≤ b.length ∧ offset + n ≤ d.length then
        .ok (some ((d.drop offset).take n ++ b.drop n))
      else .fault .bufferOverflow
    | _, _ => .fault .nullDeref

/-- Source: the second loop of `__syscall145`.  `size` is `node->size`,
`offset` the running `size_t offset`; the result is the buffers afterwards and
the final offset. -/
def readv_copy (size : Nat) (data : Option (List Nat)) :
    List iovec → Nat → Run (List iovec × Nat)
  | [], offset => .ok ([], offset)
  | v :: rest, offset =>
    let dataLeft := toS32 ((size : Int) - offset)
    if dataLeft ≤ 0 then .ok (v :: rest, offset)
    else
      let bytesToCopy := if dataLeft.toNat < v.iov_len then dataLeft.toNat else v.iov_len
      match memcpy_out v.iov_base data offset bytesToCopy with
      | .fault e => .fault e
      | .ok base1 =>
        match readv_copy size data rest ((offset + bytesToCopy) % 4294967296) with
        | .fault e => .fault e
        | .ok (rest1, offset1) => .ok ({ v with iov_base := base1 } :: rest1, offset1)

/-- Source: `__syscall145`, line 655: the block the bytes are read from,
`node->data` if set, else the data of the attached fetch, else null. -/
def file_data (node : inode) : Option (List Nat) :=
  match node.data with
  | some d => some d
  | none => node.fetch.bind (fun f => f.data)

/-- Source: `__syscall145` (readv).  `iov` is the array behind the `iov`
pointer and `iovcnt` the announced count; a non-negative count that is not the
length of the array reads entries outside it.  The outcome is the value
returned, the buffers afterwards and the state. -/
def __syscall145 (s : FS) (fd : Nat) (iov : List iovec) (iovcnt : Int) :
    Run (Int × List iovec × FS) :=
  match check_desc s fd with
  | .fault e => .fault e
  | .ok none => .ok (-EBADF, iov, s)
  | .ok (some desc) =>
    if desc.node = 0 then .ok (1, iov, s)
    else match deref s.heap desc.node with
      | .fault e => .fault e
      | .ok node =>
        if node.type = INODE_DIR then .ok (-EISDIR, iov, s)
        else if node.type ≠ INODE_FILE then .ok (-EINVAL, iov, s)
        else if node.size > 0 ∧ node.data.isNone ∧
            node.fetch.all (fun f => f.data.isNone) then .ok (1, iov, s)
        else if iovcnt < 0 then .ok (-EINVAL, iov, s)
        else if iovcnt ≠ iov.length then .fault .wildPointer
        else match iov_total iov 0 with
          | none => .ok (-EINVAL, iov, s)
          | some _ =>
            let offset := toU32 desc.file_pos
            match readv_copy node.size (file_data node) iov offset with
            | .fault e => .fault e
            | .ok (iov1, offset1) =>
              let numRead := toS32 ((offset1 : Int) - desc.file_pos)
              .ok (numRead, iov1, put_desc s fd { desc with file_pos := toS32 offset1 })

/-- The bytes of a block up to its first NUL byte (`Pointer_stringify`). -/
def stringify (bytes : List Nat) : List Nat :=
  bytes.takeWhile (fun b => b != 0)

/-- Source: the scan of `print_stream`: every byte 10 ends a line, which is
handed to the log sink as the string that starts at `new_buffer_start`; the
result is the lines printed and the bytes after the last newline.  `line` is
the part of the buffer since `new_buffer_start`. -/
def print_scan : List Nat → List Nat → List (List Nat) × List Nat
  | [], line => ([], line)
  | b :: rest, line =>
    if b = 10 then
      let (lines, tail) := print_scan rest []
      (stringify line :: lines, tail)
    else print_scan rest (line ++ [b])

/-- Source: `print_stream`.  `bytes` are the `numBytes` bytes to append; the
line buffers hold 4096 bytes. -/
def print_stream (s : FS) (bytes : List Nat) (stdout : Bool) : Run FS :=
  let buffer := if stdout then s.stdout_buffer else s.stderr_buffer
  if buffer.length + bytes.length > 4096 then .fault .bufferOverflow
  else
    let (lines, tail) := print_scan (buffer ++ bytes) []
    let log1 := s.log ++ lines.map (fun l => (stdout, l))
    if stdout then .ok { s with stdout_buffer := tail, log := log1 }
    else .ok { s with stderr_buffer := tail, log := log1 }

/-- The bytes `memcpy` reads from a source buffer of `iov_len` bytes. -/
def iov_bytes (v : iovec) : Run (List Nat) :=
  if v.iov_len = 0 then .ok []
  else match v.iov_base with
    | none => .fault .nullDeref
    | some b => if v.iov_len ≤ b.length then .ok (b.take v.iov_len) else .fault .bufferOverflow

/-- Source: the standard-stream loop of `__syscall146`. -/
def writev_print (stdout : Bool) : List iovec → FS → Int → Run (Int × FS)
  | [], s, bytesWritten => .ok (bytesWritten, s)
  | v :: rest, s, bytesWritten =>
    match iov_bytes v with
    | .fault e => .fault e
    | .ok bytes =>
      match print_stream s bytes stdout with
      | .fault e => .fault e
      | .ok s1 => writev_print stdout rest s1 (toS32 (bytesWritten + v.iov_len))

/-- The block `realloc(data, newCapacity)` returns: the old bytes that fit,
followed by bytes the allocator leaves unspecified (`uninit i` at index `i`).
The allocator is taken never to fail. -/
def realloc (uninit : Nat → Nat) (data : Option (List Nat)) (newCapacity : Nat) : List Nat :=
  let old := (data.getD []).take newCapacity
  old ++ (List.range (newCapacity - old.length)).map (fun i => uninit (old.length + i))

/-- The call `memcpy(node->data + file_pos, iov_base, iov_len)` of `writev`.
Copying nothing touches no memory. -/
def memcpy_in (data : Option (List Nat)) (file_pos : Int) (bytes : List Nat) :
    Run (Option (List Nat)) :=
  if bytes = [] then .ok data
  else match data with
    | none => .fault .nullDeref
    | some d =>
      if 0 ≤ file_pos ∧ file_pos.toNat + bytes.length ≤ d.length then
        .ok (some (d.take file_pos.toNat ++ bytes ++ d.drop (file_pos.toNat + bytes.length)))
      else .fault .bufferOverflow

/-- Source: the copy loop of `__syscall146`: each buffer is copied to
`node->data + desc->file_pos` and `file_pos` advances by its length. -/
def writev_copy : List iovec → Option (List Nat) → Int → Run (Option (List Nat) × Int)
  | [], data, file_pos => .ok (data, file_pos)
  | v :: rest, data, file_pos =>
    match iov_bytes v with
    | .fault e => .fault e
    | .ok bytes =>
      match memcpy_in data file_pos bytes with
      | .fault e => .fault e
      | .ok data1 => writev_copy rest data1 (toS32 (file_pos + v.iov_len))

/-- Source: `__syscall146`, lines 739-753: when the capacity is below
`newSize` the block is reallocated to `newCapacity` bytes and `size` and
`capacity` are set; otherwise the node is left as it is.  The product
`capacity*1.25` is exact in double precision for a 32-bit capacity, so its
truncation is `capacity * 5 / 4`. -/
def writev_grow (uninit : Nat → Nat) (node : inode) (newSize : Nat) : inode :=
  if node.capacity < newSize then
    let grown := node.capacity * 5 / 4 % 4294967296
    let newCapacity := if newSize > grown then newSize else grown
    { node with data := some (realloc uninit node.data newCapacity),
                size := newSize, capacity := newCapacity }
  else node

/-- Source: `__syscall146` (writev).  `uninit` gives the content of freshly
allocated memory. -/
def __syscall146 (uninit : Nat → Nat) (s : FS) (fd : Nat) (iov : List iovec) (iovcnt : Int) :
    Run (Int × FS) :=
  let checked : Run (Option (Option FileDescriptor)) :=
    if fd ≠ 1 ∧ fd ≠ 2 then
      match check_desc s fd with
      | .fault e => .fault e
      | .ok none => .ok none
      | .ok (some d) => .ok (some (some d))
    else .ok (some none)
  match checked with
  | .fault e => .fault e
  | .ok none => .ok (-EBADF, s)
  | .ok (some desc?) =>
    if iovcnt < 0 then .ok (-EINVAL, s)
    else if iovcnt ≠ iov.length then .fault .wildPointer
    else match iov_total iov 0 with
      | none => .ok (-EINVAL, s)
      | some total_write_amount =>
        match desc? with
        | none => writev_print (fd = 1) iov s 0
        | some desc =>
          let newSize := toU32 (desc.file_pos + total_write_amount)
          match deref s.heap desc.node with
          | .fault e => .fault e
          | .ok node =>
            let node1 := writev_grow uninit node newSize
            match writev_copy iov node1.data desc.file_pos with
            | .fault e => .fault e
            | .ok (data1, file_pos1) =>
              let s1 := { s with heap := store s.heap desc.node { node1 with data := data1 } }
              .ok (total_write_amount, put_desc s1 fd { desc with file_pos := file_pos1 })

/-! ## mkdir -/

/-- Source: `__syscall39` (mkdir). -/
def __syscall39 (fuel : Nat) (s : FS) (pathname : List Char) (mode : Nat) : Run (Int × FS) :=
  if pathname.length > MAX_PATHNAME_LENGTH then .ok (-ENAMETOOLONG, s)
  else if pathname.length = 0 then .ok (-ENOENT, s)
  else
    let relpath := path_rel pathname
    match path_root s pathname with
    | .fault e => .fault e
    | .ok (root, s1) =>
      match find_parent_inode s1.heap fuel root relpath with
      | .fault e => .fault e
      | .ok parent_dir =>
        if parent_dir = 0 then .ok (-ENOENT, s1)
        else match find_inode s1.heap fuel parent_dir (basename_part pathname) with
          | .fault e => .fault e
          | .ok existing =>
            if existing ≠ 0 then .ok (-EEXIST, s1)
            else match deref s1.heap parent_dir with
              | .fault e => .fault e
              | .ok pd =>
                if pd.mode &&& 0o222 = 0 then .ok (-EACCES, s1)
                else
                  let (directory, s2) := create_inode s1 INODE_DIR
                  match set_name s2.heap directory (basename_part pathname) with
                  | .fault e => .fault e
                  | .ok h1 =>
                    match set_mode h1 directory mode with
                    | .fault e => .fault e
                    | .ok h2 =>
                      match link_inode { s2 with heap := h2 } directory parent_dir with
                      | .fault e => .fault e
                      | .ok s3 => .ok (0, s3)

/-! ## unlink_inode -/

/-- Source: `find_predecessor_sibling`, its loop and the two statements after
it.  The loop is left when `child` is null or `child->sibling` is `node`; the
statement `if (!child->sibling)` then reads through `child`. -/
def find_predecessor_loop (h : List inode) (node : Nat) : Nat → Nat → Run Nat
  | fuel, child =>
    if child = 0 then .fault .nullDeref
    else match deref h child with
      | .fault e => .fault e
      | .ok c =>
        if c.sibling = node then
          if c.sibling = 0 then .ok 0 else .ok child
        else match fuel with
          | 0 => .fault .outOfFuel
          | fuel + 1 => find_predecessor_loop h node fuel c.sibling

/-- Source: `find_predecessor_sibling`. -/
def find_predecessor_sibling (h : List inode) (fuel : Nat) (node parent : Nat) : Run Nat :=
  match deref h parent with
  | .fault e => .fault e
  | .ok p =>
    if p.child = node then .ok 0
    else find_predecessor_loop h node fuel p.child

/-- Source: `unlink_inode`.  The names passed to its diagnostic print are not
read by the engine and are left out. -/
def unlink_inode (h : List inode) (fuel : Nat) (node : Nat) : Run (List inode) :=
  match deref h node with
  | .fault e => .fault e
  | .ok n =>
    let parent := n.parent
    if parent = 0 then .ok h
    else
      let h1 := store h node { n with parent := 0 }
      match deref h1 parent with
      | .fault e => .fault e
      | .ok p =>
        let spliced : Run (List inode) :=
          if p.child = node then .ok (store h1 parent { p with child := n.sibling })
          else match find_predecessor_sibling h1 fuel node parent with
            | .fault e => .fault e
            | .ok predecessor =>
              if predecessor = 0 then .ok h1
              else match deref h1 predecessor with
                | .fault e => .fault e
                | .ok q => .ok (store h1 predecessor { q with sibling := n.sibling })
        match spliced with
        | .fault e => .fault e
        | .ok h2 =>
          match deref h2 node with
          | .fault e => .fault e
          | .ok n2 => .ok (store h2 node { n2 with parent := 0, sibling := 0 })

/-! ## rmdir, unlink, access, chdir, chmod -/

/-- Source: the test `!strcmp(pathname, t) || (len >= k && !strcmp(pathname+len-k, "/" t))`
of `__syscall40`, for the component `t`, with `k` the length of `t` plus
one: the path is `t` or ends in `/t`. -/
def last_component_is (pathname t : List Char) : Bool :=
  pathname = t ∨
    (pathname.length ≥ t.length + 1 ∧
      pathname.drop (pathname.length - (t.length + 1)) = '/' :: t)

/-- Source: `__syscall40` (rmdir). -/
def __syscall40 (fuel : Nat) (s : FS) (pathname : List Char) : Run (Int × FS) :=
  if pathname.length > MAX_PATHNAME_LENGTH then .ok (-ENAMETOOLONG, s)
  else if pathname.length = 0 then .ok (-ENOENT, s)
  else if last_component_is pathname ['.'] then .ok (-EINVAL, s)
  else if last_component_is pathname ['.', '.'] then .ok (-ENOTEMPTY, s)
  else match find_inode_path s fuel pathname with
    | .fault e => .fault e
    | .ok (node, s1) =>
      if node = 0 then .ok (-ENOENT, s1)
      else match filesystem_root s1 with
        | .fault e => .fault e
        | .ok (root, s2) =>
          if node = root then .ok (-EBUSY, s2)
          else match get_cwd s2 with
            | .fault e => .fault e
            | .ok (cwd, s3) =>
              if node = cwd then .ok (-EBUSY, s3)
              else match deref s3.heap node with
                | .fault e => .fault e
                | .ok n =>
                  let parent_mode : Run (Option Nat) :=
                    if n.parent = 0 then .ok none
                    else match deref s3.heap n.parent with
                      | .fault e => .fault e
                      | .ok p => .ok (some p.mode)
                  match parent_mode with
                  | .fault e => .fault e
                  | .ok pm =>
                    if pm.any (fun m => m &&& 0o222 == 0) then .ok (-EACCES, s3)
                    else if n.type ≠ INODE_DIR then .ok (-ENOTDIR, s3)
                    else if n.child ≠ 0 then .ok (-ENOTEMPTY, s3)
                    else match unlink_inode s3.heap fuel node with
                      | .fault e => .fault e
                      | .ok h1 => .ok (0, { s3 with heap := h1 })

/-- Source: `__syscall10` (unlink). -/
def __syscall10 (fuel : Nat) (s : FS) (pathname : List Char) : Run (Int × FS) :=
  if pathname.length > MAX_PATHNAME_LENGTH then .ok (-ENAMETOOLONG, s)
  else if pathname.length = 0 then .ok (-ENOENT, s)
  else match find_inode_path s fuel pathname with
    | .fault e => .fault e
    | .ok (node, s1) =>
      if node = 0 then .ok (-ENOENT, s1)
      else match deref s1.heap node with
        | .fault e => .fault e
        | .ok n =>
          let parent_mode : Run (Option Nat) :=
            if n.parent = 0 then .ok none
            else match deref s1.heap n.parent with
              | .fault e => .fault e
              | .ok p => .ok (some p.mode)
          match parent_mode with
          | .fault e => .fault e
          | .ok pm =>
            if pm.any (fun m => m &&& 0o222 == 0) then .ok (-EACCES, s1)
            else if n.mode &&& 0o222 = 0 then
              if n.type = INODE_DIR then .ok (-EISDIR, s1) else .ok (-EPERM, s1)
            else if n.child ≠ 0 then .ok (-EISDIR, s1)
            else match unlink_inode s1.heap fuel node with
              | .fault e => .fault e
              | .ok h1 => .ok (0, { s1 with heap := h1 })

/-- Modelled from the spec: the access modes of `unistd.h`, which is not among
the sources (Linux/musl ABI). -/
def F_OK : Nat := 0

/-- Modelled from the spec: access mode of the Linux/musl ABI. -/
def R_OK : Nat := 4

/-- Modelled from the spec: access mode of the Linux/musl ABI. -/
def W_OK : Nat := 2

/-- Modelled from the spec: access mode of the Linux/musl ABI. -/
def X_OK : Nat := 1

/-- Source: `__syscall33` (access). -/
def __syscall33 (fuel : Nat) (s : FS) (pathname : List Char) (mode : Nat) : Run (Int × FS) :=
  if pathname.length > MAX_PATHNAME_LENGTH then .ok (-ENAMETOOLONG, s)
  else if pathname.length = 0 then .ok (-ENOENT, s)
  else if mode &&& F_OK ≠ 0 ∧ mode &&& (R_OK ||| W_OK ||| X_OK) ≠ 0 then .ok (-EINVAL, s)
  else match find_inode_path s fuel pathname with
    | .fault e => .fault e
    | .ok (node, s1) =>
      if node = 0 then .ok (-ENOENT, s1)
      else if mode &&& F_OK ≠ 0 then .ok (0, s1)
      else match deref s1.heap node with
        | .fault e => .fault e
        | .ok n =>
          if mode &&& R_OK ≠ 0 ∧ n.mode &&& 0o444 = 0 then .ok (-EACCES, s1)
          else if mode &&& W_OK ≠ 0 ∧ n.mode &&& 0o222 = 0 then .ok (-EACCES, s1)
          else if mode &&& X_OK ≠ 0 ∧ n.mode &&& 0o111 = 0 then .ok (-EACCES, s1)
          else .ok (0, s1)

/-- Source: `__syscall12` (chdir). -/
def __syscall12 (fuel : Nat) (s : FS) (pathname : List Char) : Run (Int × FS) :=
  if pathname.length > MAX_PATHNAME_LENGTH then .ok (-ENAMETOOLONG, s)
  else if pathname.length = 0 then .ok (-ENOENT, s)
  else match find_inode_path s fuel pathname with
    | .fault e => .fault e
    | .ok (node, s1) =>
      if node = 0 then .ok (-ENOENT, s1)
      else match deref s1.heap node with
        | .fault e => .fault e
        | .ok n =>
          if n.type ≠ INODE_DIR then .ok (-ENOTDIR, s1)
          else .ok (0, set_cwd s1 node)

/-- Source: `__syscall15` (chmod). -/
def __syscall15 (fuel : Nat) (s : FS) (pathname : List Char) (mode : Nat) : Run (Int × FS) :=
  if pathname.length > MAX_PATHNAME_LENGTH then .ok (-ENAMETOOLONG, s)
  else if pathname.length = 0 then .ok (-ENOENT, s)
  else match find_inode_path s fuel pathname with
    | .fault e => .fault e
    | .ok (node, s1) =>
      if node = 0 then .ok (-ENOENT, s1)
      else match deref s1.heap node with
        | .fault e => .fault e
        | .ok n =>
          if n.type ≠ INODE_DIR then .ok (-ENOTDIR, s1)
          else match set_mode s1.heap node mode with
            | .fault e => .fault e
            | .ok h1 => .ok (0, { s1 with heap := h1 })

/-! ## getdents64 -/

/-- Modelled from the spec: `struct dirent` of `dirent.h`, which is not among
the sources (Emscripten's musl: 8-byte `d_ino` and `d_off`, 2-byte `d_reclen`,
1-byte `d_type`, 256-byte `d_name`; 280 bytes in all).  `d_name` is the string
stored in the name array. -/
structure dirent where
  d_ino : Nat
  d_off : Int
  d_reclen : Nat
  d_type : Nat
  d_name : List Char
  deriving DecidableEq, Repr

/-- Modelled from the spec: `sizeof(dirent)` on the target. -/
def SIZEOF_DIRENT : Nat := 280

/-- Modelled from the spec: the size of a pointer on the 32-bit target, which
is what `sizeof(de)` denotes for `dirent *de`. -/
def SIZEOF_POINTER : Nat := 4

/-- Modelled from the spec: `DT_DIR` of `dirent.h`. -/
def DT_DIR : Nat := 4

/-- Modelled from the spec: `DT_REG` of `dirent.h`. -/
def DT_REG : Nat := 8

/-- Storing one more record at `de`, when `out` holds the records stored so
far, into a block of `room` bytes; a record that does not fit overruns the
block. -/
def emit_dirent (room : Nat) (out : List dirent) (e : dirent) : Run (List dirent) :=
  if (out.length + 1) * SIZEOF_DIRENT ≤ room then .ok (out ++ [e])
  else .fault .bufferOverflow

/-- Source: the `while(node && de < de_end)` loop of `__syscall220`.  `out` is
the list of records stored so far (so `de` is `out.length` records past its
start), `pos` is `desc->file_pos` and `file_pos` the local of that name. -/
def getdents_children (h : List inode) (room dirents_size : Nat) :
    Nat → Nat → List dirent → Int → Int → Run (List dirent × Int)
  | fuel, node, out, pos, file_pos =>
    if node = 0 ∨ ¬ out.length < dirents_size then .ok (out, pos)
    else match fuel with
      | 0 => .fault .outOfFuel
      | fuel + 1 =>
        match deref h node with
        | .fault e => .fault e
        | .ok n =>
          if pos ≤ file_pos then
            match emit_dirent room out
              { d_ino := node, d_off := file_pos, d_reclen := SIZEOF_DIRENT,
                d_type := if n.type = INODE_DIR then DT_DIR else DT_REG,
                d_name := n.name.take 255 } with
            | .fault e => .fault e
            | .ok out1 =>
              getdents_children h room dirents_size fuel n.sibling out1
                (toS32 (pos + SIZEOF_DIRENT)) (toS32 (file_pos + SIZEOF_DIRENT))
          else
            getdents_children h room dirents_size fuel n.sibling out pos
              (toS32 (file_pos + SIZEOF_DIRENT))

/-- Source: `__syscall220` (getdents64).  `count` is the byte count the caller
passes and `room` the size of the block behind `de`.  The outcome is the
value returned, the records stored at `de` and the state. -/
def __syscall220 (fuel : Nat) (s : FS) (fd : Nat) (room count : Nat) :
    Run (Int × List dirent × FS) :=
  let dirents_size := count % 4294967296 / SIZEOF_POINTER
  match check_desc s fd with
  | .fault e => .fault e
  | .ok none => .ok (-EBADF, [], s)
  | .ok (some desc) =>
    if desc.node = 0 then .ok (-ENOENT, [], s)
    else if dirents_size = 0 then .ok (-EINVAL, [], s)
    else match deref s.heap desc.node with
      | .fault e => .fault e
      | .ok node =>
        if node.type ≠ INODE_DIR then .ok (-ENOTDIR, [], s)
        else
          let dotdot := if node.parent ≠ 0 then node.parent else desc.node
          let orig_file_pos := desc.file_pos
          let dot : Run (List dirent × Int) :=
            if desc.file_pos ≤ 0 then
              match emit_dirent room []
                { d_ino := desc.node, d_off := 0, d_reclen := SIZEOF_DIRENT, d_type := DT_DIR,
                  d_name := ['.'] } with
              | .fault e => .fault e
              | .ok out => .ok (out, toS32 (desc.file_pos + SIZEOF_DIRENT))
            else .ok ([], desc.file_pos)
          match dot with
          | .fault e => .fault e
          | .ok (out1, pos1) =>
            if ¬ out1.length < dirents_size then
              .ok (toS32 (pos1 - orig_file_pos), out1, put_desc s fd { desc with file_pos := pos1 })
            else
              let dots : Run (List dirent × Int) :=
                if pos1 ≤ SIZEOF_DIRENT then
                  match emit_dirent room out1
                    { d_ino := dotdot, d_off := SIZEOF_DIRENT, d_reclen := SIZEOF_DIRENT,
                      d_type := DT_DIR, d_name := ['.', '.'] } with
                  | .fault e => .fault e
                  | .ok out => .ok (out, toS32 (pos1 + SIZEOF_DIRENT))
                else .ok (out1, pos1)
              match dots with
              | .fault e => .fault e
              | .ok (out2, pos2) =>
                match getdents_children s.heap room dirents_size fuel node.child out2 pos2
                    (2 * SIZEOF_DIRENT) with
                | .fault e => .fault e
                | .ok (out3, pos3) =>
                  .ok (toS32 (pos3 - orig_file_pos), out3,
                    put_desc s fd { desc with file_pos := pos3 })

/-! ## Buffer lists, as the specification sees them -/

/-- The part of a buffer a call may use: the first `iov_len` bytes of the
memory behind `iov_base`. -/
def iovec.window (v : iovec) : List Nat :=
  (v.iov_base.getD []).take v.iov_len

/-- Total capacity of a buffer list: the sum of the `iov_len` values. -/
def iov_capacity : List iovec → Nat
  | [] => 0
  | v :: rest => v.iov_len + iov_capacity rest

/-- A buffer is valid when it is empty or its base points to at least
`iov_len` bytes of memory. -/
def iovec.valid (v : iovec) : Bool :=
  v.iov_len == 0 ||
    match v.iov_base with
    | some b => decide (v.iov_len ≤ b.length)
    | none => false

/-! ## Trees, as the specification sees them -/

/-- The tree under a directory, read off the heap: a chain of siblings, each
with its address, its name and the chain of its own children. -/
inductive Chain where
  | nil : Chain
  | cons (id : Nat) (name : List Char) (kids : Chain) (rest : Chain) : Chain
  deriving DecidableEq, Repr

instance : Inhabited Chain := ⟨Chain.nil⟩

/-- Number of nodes of a chain, children included. -/
def Chain.size : Chain → Nat
  | .nil => 0
  | .cons _ _ kids rest => 1 + kids.size + rest.size

/-- The members of a chain in sibling order: address, name, children. -/
def Chain.entries : Chain → List (Nat × List Char × Chain)
  | .nil => []
  | .cons id name kids rest => (id, name, kids) :: rest.entries

/-- `rep h first parent c`: in heap `h` the sibling chain that starts at
pointer `first` is `c`: every node of it is a valid non-null cell with the
recorded name and with `parent` as its parent pointer, its `child` pointer
starts the recorded chain of children and its `sibling` pointer the rest. -/
def rep (h : List inode) : Nat → Nat → Chain → Bool
  | first, _, .nil => first == 0
  | first, parent, .cons id name kids rest =>
    first == id && id != 0 &&
    match h[id - 1]? with
    | none => false
    | some n =>
      n.name == name && n.parent == parent &&
      rep h n.child id kids && rep h n.sibling parent rest

/-- Every name in the chain, at every level, is free of '/'. -/
def Chain.slashFree : Chain → Bool
  | .nil => true
  | .cons _ name kids rest => !name.contains '/' && kids.slashFree && rest.slashFree

/-- Every name in the chain, at every level, is non-empty. -/
def Chain.namesNonempty : Chain → Bool
  | .nil => true
  | .cons _ name kids rest => !name.isEmpty && kids.namesNonempty && rest.namesNonempty

/-- No two siblings have the same name, at every level. -/
def Chain.uniqueNames : Chain → Bool
  | .nil => true
  | .cons _ name kids rest =>
    !(rest.entries.map (fun e => e.2.1)).contains name &&
    kids.uniqueNames && rest.uniqueNames

/-- The child whose name equals `seg`: its address and its children. -/
def Chain.lookup : Chain → List Char → Option (Nat × Chain)
  | .nil, _ => none
  | .cons id name kids rest, seg =>
    if name = seg then some (id, kids) else rest.lookup seg

/-- Descending from `root`, whose children are `c`, through the child whose
name equals each segment in turn: the node reached with its children, or
`none` when a segment has no child of that name. -/
def walk (root : Nat) (c : Chain) : List (List Char) → Option (Nat × Chain)
  | [] => some (root, c)
  | seg :: segs =>
    match c.lookup seg with
    | none => none
    | some (id, kids) => walk id kids segs

/-- The relative path made of the given segments, separated by single '/'. -/
def joinPath : List (List Char) → List Char
  | [] => []
  | [seg] => seg
  | seg :: segs => seg ++ '/' :: joinPath segs

/-- The pointer a resolution returns for the outcome of a walk. -/
def walkResult : Option (Nat × Chain) → Nat
  | none => 0
  | some (n, _) => n

/-- `isChain h first l`: in heap `h` the sibling list that starts at pointer
`first` consists of the cells `l`, in order, and ends with the null pointer. -/
def isChain (h : List inode) : Nat → List Nat → Prop
  | first, [] => first = 0
  | first, c :: l => first = c ∧ ∃ n, deref h c = .ok n ∧ isChain h n.sibling l

/-- Two cells that differ at most in their three link fields. -/
def sameData (a b : inode) : Prop :=
  b = { a with parent := b.parent, sibling := b.sibling, child := b.child }

/-- The addresses of the members of a chain, in sibling order. -/
def Chain.topIds : Chain → List Nat
  | .nil => []
  | .cons id _ _ rest => id :: rest.topIds

/-- The addresses of all nodes of a chain, children included. -/
def Chain.ids : Chain → List Nat
  | .nil => []
  | .cons id _ kids rest => id :: (kids.ids ++ rest.ids)

/-- The chain without its member at address `x`. -/
def Chain.eraseId : Chain → Nat → Chain
  | .nil, _ => .nil
  | .cons id name kids rest, x =>
    if id = x then rest else .cons id name kids (rest.eraseId x)

/-- The chain in which the node that `walk` reaches through `segs` has the
children `k`. -/
def Chain.setKids : Chain → List (List Char) → Chain → Chain
  | _, [], k => k
  | .nil, _ :: _, _ => .nil
  | .cons id name kids rest, seg :: segs, k =>
    if name = seg then .cons id name (kids.setKids segs k) rest
    else .cons id name kids (rest.setKids (seg :: segs) k)

/-- The names of the members of a chain, in sibling order. -/
def Chain.names (c : Chain) : List (List Char) :=
  c.entries.map (fun e => e.2.1)

/-- The current directory as `get_cwd` returns it: the root until one has
been set. -/
def cwdOf (s : FS) : Nat :=
  if s.cwd_inode = 0 then s.root_node else s.cwd_inode

/-- The directory a path is resolved from: the root for an absolute path, the
current directory for a relative one. -/
def startOf (s : FS) (absolute : Bool) : Nat :=
  if absolute then s.root_node else cwdOf s

/-- The path made of the given segments, absolute or relative. -/
def pathOf (absolute : Bool) (segs : List (List Char)) : List Char :=
  if absolute then '/' :: joinPath segs else joinPath segs

/-- A state in which the root exists with the mode `filesystem_root` gives it
and the current directory has been set: lookups leave such a state as it
is. -/
def settled (s : FS) : Prop :=
  s.cwd_inode ≠ 0 ∧ s.root_node ≠ 0 ∧
    ∃ r, deref s.heap s.root_node = .ok r ∧ r.mode = 0o777

/-- The name stored in the cell at `c` (empty for a pointer that is not
valid). -/
def nameAt (h : List inode) (c : Nat) : List Char :=
  match deref h c with
  | .ok n => n.name
  | .fault _ => []

/-- The outcome of a call is not the `ENAMETOOLONG` error. -/
def notTooLong (r : Run (Int × FS)) : Prop :=
  ∀ v s, r = .ok (v, s) → v ≠ -ENAMETOOLONG

/-- Source: the macro `RETURN_ERRNO(errno, error_reason)`: after its
diagnostic print it executes `return -errno;` with the argument put in the
place of `errno`, so the argument `-1` makes the statement `return - -1;`. -/
def RETURN_ERRNO (errno : Int) : Int := -errno

/-- Source: `__syscall41` (dup): the descriptor check, the check that the
descriptor has a node, and the stub that returns 0. -/
def __syscall41 (s : FS) (fd : Nat) : Run (Int × FS) :=
  match check_desc s fd with
  | .fault e => .fault e
  | .ok none => .ok (RETURN_ERRNO EBADF, s)
  | .ok (some desc) =>
    if desc.node = 0 then .ok (RETURN_ERRNO (-1), s)
    else .ok (0, s)

/-- The tree-shape invariant of the links of a heap.  The child list of every
cell `p` is a finite list of distinct cells, none of them `p`, each with `p` as
its parent pointer; every cell with a non-null parent pointer appears exactly
once in the child list of that parent; and every cell with a null parent
pointer (a cell that is not linked) has a null sibling pointer. -/
def treeShape (h : List inode) : Prop :=
  (∀ p pc, deref h p = .ok pc → ∃ l, isChain h pc.child l ∧ l.Nodup ∧ p ∉ l ∧
      ∀ c ∈ l, ∃ n, deref h c = .ok n ∧ n.parent = p)
  ∧ (∀ x n, deref h x = .ok n → n.parent ≠ 0 →
      ∃ pc l, deref h n.parent = .ok pc ∧ isChain h pc.child l ∧ l.count x = 1)
  ∧ (∀ x n, deref h x = .ok n → n.parent = 0 → n.sibling = 0)

/-- The program points of a caller of `link_inode`: at its entry; before the
atomic load of the loop body; before the atomic compare-and-exchange of the
loop condition; after the loop. -/
inductive LinkPc where
  | start
  | load
  | cas
  | done
  deriving DecidableEq, Repr

/-- Source: `link_inode`, lines 135-151, as the steps one caller takes between
two points at which another caller can run.  The accesses to `parent->child`
are the sequentially consistent atomic operations of the source; the
statements before the loop only touch `node`, which no other caller holds.  At
`start` the two assertions and `node->parent = parent`; at `load` the statement
`__atomic_load(&parent->child, &node->sibling)`; at `cas` the call
`__atomic_compare_exchange(&parent->child, &node->sibling, &node)`, which
stores `node` in `parent->child` and leaves the loop if `parent->child` equals
`node->sibling`, and otherwise stores `parent->child` in `node->sibling` and
repeats the loop body. -/
def link_publish_step (h : List inode) (node parent : Nat) :
    LinkPc → Run (List inode × LinkPc)
  | .start =>
    match deref h node with
    | .fault e => .fault e
    | .ok n =>
      if n.parent ≠ 0 then .fault .assertFailed
      else if n.sibling ≠ 0 then .fault .assertFailed
      else .ok (store h node { n with parent := parent }, .load)
  | .load =>
    match deref h parent with
    | .fault e => .fault e
    | .ok p =>
      match deref h node with
      | .fault e => .fault e
      | .ok n => .ok (store h node { n with sibling := p.child }, .cas)
  | .cas =>
    match deref h parent with
    | .fault e => .fault e
    | .ok p =>
      match deref h node with
      | .fault e => .fault e
      | .ok n =>
        if p.child = n.sibling then .ok (store h parent { p with child := node }, .done)
        else .ok (store h node { n with sibling := p.child }, .load)
  | .done => .ok (h, .done)

/-- Source: `link_inode`, as the steps one caller takes between two points at
which another caller can run.  The first step, at `start`, begins with the
diagnostic call `inode_abspath(parent, parentName, PATH_MAX)`, which reads the
parent pointers above `parent` and whose only store to shared memory is the
mode that `filesystem_root` writes to the root; the assertions and
`node->parent = parent` follow in the same step.  The later steps are those of
the compare-and-swap loop. -/
def link_step (s : FS) (node parent : Nat) (pc : LinkPc) : Run (FS × LinkPc) :=
  let entered : Run FS :=
    match pc with
    | .start => link_inode_parent_name s parent
    | _ => .ok s
  match entered with
  | .fault e => .fault e
  | .ok s1 =>
    match link_publish_step s1.heap node parent pc with
    | .fault e => .fault e
    | .ok (h, pc1) => .ok ({ s1 with heap := h }, pc1)

/-- Concurrent callers of `link_inode`, one for each cell of `nodes`, all with
the same `parent`, under an interleaving: the schedule names, step by step,
the cell whose caller runs next, and `pcs` gives the program point of the
caller of each cell.  A caller that has left `link_inode` takes no further
steps. -/
def run_links (parent : Nat) (nodes : List Nat) :
    List Nat → FS → (Nat → LinkPc) → Run (FS × (Nat → LinkPc))
  | [], s, pcs => .ok (s, pcs)
  | node :: sched, s, pcs =>
    if node ∈ nodes then
      match link_step s node parent (pcs node) with
      | .fault e => .fault e
      | .ok (s1, pc1) => run_links parent nodes sched s1 (Function.update pcs node pc1)
    else run_links parent nodes sched s pcs

/-- The interleaving of `run_links` on the heap alone, with the steps of
`link_publish_step`: what `run_links` does when the diagnostic call at the
entry of `link_inode` leaves the state as it is. -/
def run_publish (parent : Nat) (nodes : List Nat) :
    List Nat → List inode → (Nat → LinkPc) → Run (List inode × (Nat → LinkPc))
  | [], h, pcs => .ok (h, pcs)
  | node :: sched, h, pcs =>
    if node ∈ nodes then
      match link_publish_step h node parent (pcs node) with
      | .fault e => .fault e
      | .ok (h1, pc1) => run_publish parent nodes sched h1 (Function.update pcs node pc1)
    else run_publish parent nodes sched h pcs

/-- Number of callers that have not left `link_inode` yet. -/
def unfinished (nodes : List Nat) (pcs : Nat → LinkPc) : Nat :=
  nodes.countP (fun x => pcs x != .done)

/-- A bound on the number of steps the caller of `node` still takes: with `u`
callers unfinished, a compare-and-exchange that would succeed now is followed
by at most `u - 1` failed rounds of two steps each. -/
def stepsLeft (h : List inode) (parent : Nat) (nodes : List Nat) (pcs : Nat → LinkPc)
    (node : Nat) : Nat :=
  let u := unfinished nodes pcs
  match pcs node with
  | .start => 2 * u + 1
  | .load => 2 * u
  | .cas =>
    match deref h parent, deref h node with
    | .ok p, .ok n => if p.child = n.sibling then 2 * u - 1 else 2 * u + 1
    | _, _ => 2 * u + 1
  | .done => 0

/-- What the callers of `link_inode` rely on: `parent` is a valid cell, and
every cell of `nodes` is a valid cell other than `parent` that, as long as its
caller has not started, has neither parent nor sibling. -/
def linkersOk (h : List inode) (parent : Nat) (nodes : List Nat) (pcs : Nat → LinkPc) : Prop :=
  (∃ p, deref h parent = .ok p) ∧
    ∀ x ∈ nodes, x ≠ parent ∧ ∃ n, deref h x = .ok n ∧
      (pcs x = .start → n.parent = 0 ∧ n.sibling = 0)

/-- The child list of `parent` while callers are linking: it consists of the
cells `l` whose callers have left `link_inode`, each once, in some order,
followed by the children `old` that were there before. -/
def linkedSoFar (h : List inode) (parent : Nat) (nodes : List Nat) (pcs : Nat → LinkPc)
    (old l : List Nat) : Prop :=
  l.Nodup ∧ (∀ x, x ∈ l ↔ x ∈ nodes ∧ pcs x = .done) ∧
    ∃ p, deref h parent = .ok p ∧ isChain h p.child (l ++ old)

/-! ## Example states -/

/-- A cell with the given name, links, type and mode and every other field
zero. -/
def cell (name : List Char) (parent sibling child type mode : Nat) : inode :=
  { name := name, parent := parent, sibling := sibling, child := child, uid := 0,
    gid := 0, mode := mode, ctime := 0, mtime := 0, atime := 0, size := 0,
    capacity := 0, data := none, type := type, fetch := none }

/-- A state with the given heap, root, current directory and descriptors, and
nothing printed. -/
def fsOf (heap : List inode) (root cwd : Nat) (fds : List FileDescriptor) : FS :=
  { heap := heap, root_node := root, cwd_inode := cwd, fds := fds, clock := 0,
    stdout_buffer := [], stderr_buffer := [], log := [] }

/-- The heap after `mkdir foo`, `mkdir foobar`, `mkdir foo/bar` on an empty
root: cell 1 is the root, cell 2 `foo`, cell 3 `foobar` (linked last, so first
in the root's chain), cell 4 `bar` under `foo`. -/
def demoHeap : List inode :=
  [ cell [] 0 0 3 INODE_DIR 0o777,
    cell "foo".toList 1 0 4 INODE_DIR 0o777,
    cell "foobar".toList 1 2 0 INODE_DIR 0o777,
    cell "bar".toList 2 0 0 INODE_DIR 0o777 ]

/-- The tree under the root of `demoHeap`. -/
def demoChain : Chain :=
  .cons 3 "foobar".toList .nil (.cons 2 "foo".toList (.cons 4 "bar".toList .nil .nil) .nil)

/-- The state a run ends in (the initial state if it faulted). -/
def stateOf (r : Run (Int × FS)) : FS :=
  match r with
  | .ok (_, s) => s
  | .fault _ => FS.init

/-- A provider that has nothing: every transfer ends with status 404. -/
def notFound : List Char → emscripten_fetch_t :=
  fun _ => { status := 404, totalBytes := 0, numBytes := 0, data := none }

/-- A provider that serves the five bytes of `hello` for every path. -/
def serveHello : List Char → emscripten_fetch_t :=
  fun _ => { status := 200, totalBytes := 5, numBytes := 5,
             data := some [104, 101, 108, 108, 111] }

/-- Freshly allocated memory that holds the byte 170 everywhere. -/
def stale : Nat → Nat := fun _ => 170

/-- The state after `mkdir("/a", 0777)` in a fresh process. -/
def treeA : FS :=
  fsOf
    [ cell [] 0 0 2 INODE_DIR 0o777,
      cell "a".toList 1 0 0 INODE_DIR 0o777 ]
    1 0
    []

/-- The state after a failed `open("/f", O_RDONLY)` in a fresh process: only
the root exists. -/
def rootOnly : FS :=
  fsOf
    [ cell [] 0 0 0 INODE_DIR 0o777 ]
    1 0
    []

/-- The state after `open("/f", O_CREAT|O_RDWR, 0644)` on `rootOnly`. -/
def createdF : FS :=
  fsOf
    [ cell [] 0 0 2 INODE_DIR 0o777,
      cell "f".toList 1 0 0 INODE_FILE 0o644 ]
    1 0
    [⟨EM_FILEDESCRIPTOR_MAGIC, 0, 420, 66, 2⟩]

/-- The state a run with a second output ends in (the initial state if it
faulted). -/
def stateOf3 {α : Type} (r : Run (Int × α × FS)) : FS :=
  match r with
  | .ok (_, _, s) => s
  | .fault _ => FS.init

/-- The state after writing the bytes 1..8 through descriptor 3 of
`createdF`. -/
def wrote8 : FS :=
  fsOf
    [ cell [] 0 0 2 INODE_DIR 0o777,
      { cell "f".toList 1 0 0 INODE_FILE 0o644 with size := 8, capacity := 8, data := some [1, 2, 3, 4, 5, 6, 7, 8], fetch := none } ]
    1 0
    [⟨EM_FILEDESCRIPTOR_MAGIC, 8, 420, 66, 2⟩]

/-- The state after writing one more byte, 9. -/
def wrote9 : FS :=
  fsOf
    [ cell [] 0 0 2 INODE_DIR 0o777,
      { cell "f".toList 1 0 0 INODE_FILE 0o644 with size := 9, capacity := 10, data := some [1, 2, 3, 4, 5, 6, 7, 8, 9, 170], fetch := none } ]
    1 0
    [⟨EM_FILEDESCRIPTOR_MAGIC, 9, 420, 66, 2⟩]

/-- The state after writing one more byte, 10. -/
def wrote10 : FS :=
  fsOf
    [ cell [] 0 0 2 INODE_DIR 0o777,
      { cell "f".toList 1 0 0 INODE_FILE 0o644 with size := 9, capacity := 10, data := some [1, 2, 3, 4, 5, 6, 7, 8, 9, 10], fetch := none } ]
    1 0
    [⟨EM_FILEDESCRIPTOR_MAGIC, 10, 420, 66, 2⟩]

/-- The state after a second `open("/f", O_RDONLY)` on `wrote8`: descriptor 4
at offset 0 on the same file. -/
def reopened8 : FS :=
  fsOf
    [ cell [] 0 0 2 INODE_DIR 0o777,
      { cell "f".toList 1 0 0 INODE_FILE 0o644 with size := 8, capacity := 8, data := some [1, 2, 3, 4, 5, 6, 7, 8], fetch := none } ]
    1 0
    [⟨EM_FILEDESCRIPTOR_MAGIC, 8, 420, 66, 2⟩, ⟨EM_FILEDESCRIPTOR_MAGIC, 0, 420, 0, 2⟩]

/-- The state after `open("/h", O_RDWR)` in a fresh process with the provider
`serveHello`: descriptor 3 on cell 2, whose content is the fetch. -/
def openedH : FS :=
  fsOf
    [ cell [] 0 0 2 INODE_DIR 0o777,
      { cell "h".toList 1 0 0 INODE_FILE 0o644 with size := 5, capacity := 0, data := none, fetch := some { status := 200, totalBytes := 5, numBytes := 5, data := some [104, 101, 108, 108, 111] } } ]
    1 0
    [⟨EM_FILEDESCRIPTOR_MAGIC, 0, 420, 2, 2⟩]

/-- The state after a second `open("/h", O_RDONLY)`: descriptor 4 on the same
cell. -/
def openedTwice : FS :=
  fsOf
    [ cell [] 0 0 2 INODE_DIR 0o777,
      { cell "h".toList 1 0 0 INODE_FILE 0o644 with size := 5, capacity := 0, data := none, fetch := some { status := 200, totalBytes := 5, numBytes := 5, data := some [104, 101, 108, 108, 111] } } ]
    1 0
    [⟨EM_FILEDESCRIPTOR_MAGIC, 0, 420, 2, 2⟩, ⟨EM_FILEDESCRIPTOR_MAGIC, 0, 420, 0, 2⟩]

/-- The state after closing descriptor 3 of `openedTwice`. -/
def closedFirst : FS :=
  fsOf
    [ cell [] 0 0 2 INODE_DIR 0o777,
      { cell "h".toList 1 0 0 INODE_FILE 0o644 with size := 5, capacity := 0, data := none, fetch := none } ]
    1 0
    [⟨0, 0, 420, 2, 2⟩, ⟨EM_FILEDESCRIPTOR_MAGIC, 0, 420, 0, 2⟩]

/-- The state after closing descriptor 3 of `openedH`. -/
def closedH : FS :=
  fsOf
    [ cell [] 0 0 2 INODE_DIR 0o777,
      { cell "h".toList 1 0 0 INODE_FILE 0o644 with size := 5, capacity := 0, data := none, fetch := none } ]
    1 0
    [⟨0, 0, 420, 2, 2⟩]

/-- The state after seeking descriptor 3 of `openedH` to offset 4. -/
def seekH4 : FS :=
  fsOf
    [ cell [] 0 0 2 INODE_DIR 0o777,
      { cell "h".toList 1 0 0 INODE_FILE 0o644 with size := 5, capacity := 0, data := none, fetch := some { status := 200, totalBytes := 5, numBytes := 5, data := some [104, 101, 108, 108, 111] } } ]
    1 0
    [⟨EM_FILEDESCRIPTOR_MAGIC, 4, 420, 2, 2⟩]

/-- The state after writing the byte 33 at offset 4. -/
def bangH : FS :=
  fsOf
    [ cell [] 0 0 2 INODE_DIR 0o777,
      { cell "h".toList 1 0 0 INODE_FILE 0o644 with size := 5, capacity := 5, data := some [170, 170, 170, 170, 33], fetch := some { status := 200, totalBytes := 5, numBytes := 5, data := some [104, 101, 108, 108, 111] } } ]
    1 0
    [⟨EM_FILEDESCRIPTOR_MAGIC, 5, 420, 2, 2⟩]

/-- The state after seeking back to offset 0. -/
def seekH0 : FS :=
  fsOf
    [ cell [] 0 0 2 INODE_DIR 0o777,
      { cell "h".toList 1 0 0 INODE_FILE 0o644 with size := 5, capacity := 5, data := some [170, 170, 170, 170, 33], fetch := some { status := 200, totalBytes := 5, numBytes := 5, data := some [104, 101, 108, 108, 111] } } ]
    1 0
    [⟨EM_FILEDESCRIPTOR_MAGIC, 0, 420, 2, 2⟩]

/-- The state after writing ten bytes at offset 0 through descriptor 3 of
`openedH`. -/
def grownH : FS :=
  fsOf
    [ cell [] 0 0 2 INODE_DIR 0o777,
      { cell "h".toList 1 0 0 INODE_FILE 0o644 with size := 10, capacity := 10, data := some [0, 1, 2, 3, 4, 5, 6, 7, 8, 9], fetch := some { status := 200, totalBytes := 5, numBytes := 5, data := some [104, 101, 108, 108, 111] } } ]
    1 0
    [⟨EM_FILEDESCRIPTOR_MAGIC, 10, 420, 2, 2⟩]

/-- The tree of `treeA` with a second directory `a` (cell 3) under `/a`: what
the statements of `link_inode` after its diagnostic call make of `treeA` when
the cell created by a second `mkdir("/a", 0777)` is linked under cell 2. -/
def treeAA : FS :=
  fsOf
    [ cell [] 0 0 2 INODE_DIR 0o777,
      cell "a".toList 1 0 3 INODE_DIR 0o777,
      cell "a".toList 2 0 0 INODE_DIR 0o777 ]
    1 0
    []

/-- The state after `mkdir("/x/b", 0777)` in a fresh process. -/
def treeXB : FS :=
  fsOf
    [ cell [] 0 0 2 INODE_DIR 0o777,
      cell "b".toList 1 0 0 INODE_DIR 0o777 ]
    1 0
    []

/-- The state after `mkdir("/b", 0777)` on `treeA`: the root has the children
`b` and `a`, in chain order. -/
def treeAB : FS :=
  fsOf
    [ cell [] 0 0 3 INODE_DIR 0o777,
      cell "a".toList 1 0 0 INODE_DIR 0o777,
      cell "b".toList 1 2 0 INODE_DIR 0o777 ]
    1 0
    []

/-- `treeAB` with a descriptor, number 3, at offset 0 on the root directory. -/
def dirOpen : FS :=
  fsOf
    [ cell [] 0 0 3 INODE_DIR 0o777,
      cell "a".toList 1 0 0 INODE_DIR 0o777,
      cell "b".toList 1 2 0 INODE_DIR 0o777 ]
    1 0
    [⟨EM_FILEDESCRIPTOR_MAGIC, 0, 0, 0, 1⟩]

/-- The state after `unlink("/a")` on `treeA`. -/
def unlinkedA : FS :=
  fsOf
    [ cell [] 0 0 0 INODE_DIR 0o777,
      cell "a".toList 0 0 0 INODE_DIR 0o777 ]
    1 0
    []

/-- The state after `open("/f", O_CREAT|O_WRONLY, 0444)` in a fresh process. -/
def readOnlyF : FS :=
  fsOf
    [ cell [] 0 0 2 INODE_DIR 0o777,
      cell "f".toList 1 0 0 INODE_FILE 0o444 ]
    1 0
    [⟨EM_FILEDESCRIPTOR_MAGIC, 0, 292, 65, 2⟩]

/-- The state after `chmod("/", 0)` in a fresh process. -/
def chmodRoot : FS :=
  fsOf
    [ cell [] 0 0 0 INODE_DIR 0o0 ]
    1 0
    []

/-- The state after `access("/", R_OK)` on `chmodRoot`. -/
def accessedRoot : FS :=
  fsOf
    [ cell [] 0 0 0 INODE_DIR 0o777 ]
    1 0
    []

/-- The state after `chdir("/a")` on `treeA`. -/
def inA : FS :=
  fsOf
    [ cell [] 0 0 2 INODE_DIR 0o777,
      cell "a".toList 1 0 0 INODE_DIR 0o777 ]
    1 2
    []

/-- The state after `unlink("/a")` on `inA`. -/
def inAGone : FS :=
  fsOf
    [ cell [] 0 0 0 INODE_DIR 0o777,
      cell "a".toList 0 0 0 INODE_DIR 0o777 ]
    1 2
    []

/-- A state with the tree `/a/b`: the directory `a` under the root and the
directory `b` under `a`, all with mode 0777; the current directory is not
set. -/
def treeAb : FS :=
  fsOf
    [ cell [] 0 0 2 INODE_DIR 0o777,
      cell "a".toList 1 0 3 INODE_DIR 0o777,
      cell "b".toList 2 0 0 INODE_DIR 0o777 ]
    1 0
    []

/-- A state with the tree `/a/b/c`: three directories, each the only child
of the one before, all with mode 0777; the current directory is not set. -/
def treeAbc : FS :=
  fsOf
    [ cell [] 0 0 2 INODE_DIR 0o777,
      cell "a".toList 1 0 3 INODE_DIR 0o777,
      cell "b".toList 2 0 4 INODE_DIR 0o777,
      cell "c".toList 3 0 0 INODE_DIR 0o777 ]
    1 0
    []

/-- The state after `chmod("/a", 0555)` on `treeAbc`. -/
def treeAbcRO : FS :=
  fsOf
    [ cell [] 0 0 2 INODE_DIR 0o777,
      cell "a".toList 1 0 3 INODE_DIR 0o555,
      cell "b".toList 2 0 4 INODE_DIR 0o777,
      cell "c".toList 3 0 0 INODE_DIR 0o777 ]
    1 0
    []

/-- The links of the cells of a state: name, parent, sibling, child. -/
def linksOf (s : FS) : List (List Char × Nat × Nat × Nat) :=
  s.heap.map (fun n => (n.name, n.parent, n.sibling, n.child))

/-- A state in which descriptor 3 is valid and has no node behind it. -/
def orphanDesc : FS :=
  fsOf [] 0 0 [⟨EM_FILEDESCRIPTOR_MAGIC, 0, 0, 0, 0⟩]

/-- The state after `open("/f", O_WRONLY|O_APPEND)` on `wrote8`: descriptor 4
on the file of 8 bytes, at offset 0. -/
def appendOpen8 : FS :=
  fsOf
    [ cell [] 0 0 2 INODE_DIR 0o777,
      { cell "f".toList 1 0 0 INODE_FILE 0o644 with size := 8, capacity := 8, data := some [1, 2, 3, 4, 5, 6, 7, 8], fetch := none } ]
    1 0
    [⟨EM_FILEDESCRIPTOR_MAGIC, 8, 420, 66, 2⟩, ⟨EM_FILEDESCRIPTOR_MAGIC, 0, 420, 1025, 2⟩]

/-- The state after `open("/h", O_RDONLY|O_APPEND)` on `openedH`: descriptor 4
on the fetched file of 5 bytes, at offset 5. -/
def appendOpenH : FS :=
  fsOf
    [ cell [] 0 0 2 INODE_DIR 0o777,
      { cell "h".toList 1 0 0 INODE_FILE 0o644 with size := 5, capacity := 0, data := none, fetch := some { status := 200, totalBytes := 5, numBytes := 5, data := some [104, 101, 108, 108, 111] } } ]
    1 0
    [⟨EM_FILEDESCRIPTOR_MAGIC, 0, 420, 2, 2⟩, ⟨EM_FILEDESCRIPTOR_MAGIC, 5, 420, 1024, 2⟩]

/-- A heap in which the root (cell 1) has the three children `c` (cell 4), `b`
(cell 3) and `a` (cell 2), in chain order. -/
def threeKids : List inode :=
  [ cell [] 0 0 4 INODE_DIR 0o777,
    cell "a".toList 1 0 0 INODE_DIR 0o777,
    cell "b".toList 1 2 0 INODE_DIR 0o777,
    cell "c".toList 1 3 0 INODE_DIR 0o777 ]

/-- A heap of two cells that are not linked: the root and a directory `a`. -/
def twoCells : List inode :=
  [ cell [] 0 0 0 INODE_DIR 0o777,
    cell "a".toList 0 0 0 INODE_DIR 0o777 ]

/-- A heap in which the root (cell 1) has the child `a` (cell 2) and the two
directories `b` (cell 3) and `c` (cell 4) are not linked yet. -/
def twoToLink : List inode :=
  [ cell [] 0 0 2 INODE_DIR 0o777,
    cell "a".toList 1 0 0 INODE_DIR 0o777,
    cell "b".toList 0 0 0 INODE_DIR 0o777,
    cell "c".toList 0 0 0 INODE_DIR 0o777 ]

/-- An interleaving of the callers of cells 3 and 4 in which both load the
head of the list before either publishes: the compare-and-exchange of cell 3
succeeds, that of cell 4 fails once and succeeds in its second round.  The
steps after that find both callers finished. -/
def racingSchedule : List Nat :=
  [3, 4, 3, 4, 3, 4, 4, 4, 3, 3, 4]

/-- The heap after `racingSchedule` on `twoToLink`: the root's children are
`c`, `b`, `a`. -/
def twoLinked : List inode :=
  [ cell [] 0 0 4 INODE_DIR 0o777,
    cell "a".toList 1 0 0 INODE_DIR 0o777,
    cell "b".toList 1 2 0 INODE_DIR 0o777,
    cell "c".toList 1 3 0 INODE_DIR 0o777 ]

/-- A relative path whose first component has 300 bytes, more than
`NAME_MAX`: 300 times the letter `a`, then `/f`. -/
def longComponentPath : List Char :=
  List.replicate 300 'a' ++ "/f".toList

/-- The state after `mkdir("/a", 0777)` and `chmod("/", 0)`: the root has mode
0. -/
def treeARootZero : FS :=
  fsOf
    [ cell [] 0 0 2 INODE_DIR 0o0,
      cell "a".toList 1 0 0 INODE_DIR 0o777 ]
    1 0
    []

/-- The state after `chmod("/a", 0700)` on `treeARootZero`: `/a` has mode 0700
and the root has mode 0777. -/
def treeAChmod : FS :=
  fsOf
    [ cell [] 0 0 2 INODE_DIR 0o777,
      cell "a".toList 1 0 0 INODE_DIR 0o700 ]
    1 0
    []

/-- A block of 4097 newline bytes. -/
def manyNewlines : List Nat :=
  List.replicate 4097 10

/-- The tree of `treeAbc` after `chmod("/", 0)`: the root has mode 0, the
directories `a`, `b` and `c` have mode 0777. -/
def treeAbcChmod : FS :=
  fsOf
    [ cell [] 0 0 2 INODE_DIR 0,
      cell "a".toList 1 0 3 INODE_DIR 0o777,
      cell "b".toList 2 0 4 INODE_DIR 0o777,
      cell "c".toList 3 0 0 INODE_DIR 0o777 ]
    1 0
    []

/-- A state whose heap is `twoToLink`: the root is cell 1 and the current
directory is not set. -/
def linkersStart : FS :=
  fsOf twoToLink 1 0 []

/-! ## Theorems -/

theorem path_cmp_last (seg name : List Char)
    (hs : '/' ∉ seg) (hn : '/' ∉ name) :
    path_cmp seg name = if seg = name then some [] else none := by
  induction seg generalizing name with
  | nil =>
    cases name with
    | nil => simp [path_cmp]
    | cons c2 r2 =>
      have : c2 ≠ '/' := fun e => hn (by simp [e])
      simp [path_cmp, this]
  | cons c1 r1 ih =>
    have h1 : c1 ≠ '/' := fun e => hs (by simp [e])
    have hr1 : '/' ∉ r1 := fun e => hs (by simp [e])
    cases name with
    | nil => simp [path_cmp, h1]
    | cons c2 r2 =>
      have hr2 : '/' ∉ r2 := fun e => hn (by simp [e])
      by_cases hc : c1 = c2
      · subst hc
        simp [path_cmp, h1, ih r2 hr1 hr2]
      · simp [path_cmp, hc]

theorem path_cmp_inner (seg name t : List Char)
    (hs : '/' ∉ seg) (hn : '/' ∉ name) :
    path_cmp (seg ++ '/' :: t) name = if seg = name then some t else none := by
  induction seg generalizing name with
  | nil =>
    cases name with
    | nil => simp [path_cmp]
    | cons c2 r2 =>
      have : c2 ≠ '/' := fun e => hn (by simp [e])
      simp [path_cmp, this, Ne.symm this]
  | cons c1 r1 ih =>
    have h1 : c1 ≠ '/' := fun e => hs (by simp [e])
    have hr1 : '/' ∉ r1 := fun e => hs (by simp [e])
    cases name with
    | nil => simp [path_cmp, h1]
    | cons c2 r2 =>
      have hr2 : '/' ∉ r2 := fun e => hn (by simp [e])
      by_cases hc : c1 = c2
      · subst hc
        simp [path_cmp, h1, ih r2 hr1 hr2]
      · simp [path_cmp, hc]

theorem find_inode_loop_null (h : List inode) (fuel : Nat) (path : List Char) :
    find_inode_loop h fuel 0 path = .ok 0 := by
  unfold find_inode_loop
  simp

theorem find_inode_loop_step (h : List inode) (fuel node : Nat) (path : List Char)
    (n : inode) (hn : node ≠ 0) (hd : deref h node = .ok n) :
    find_inode_loop h (fuel + 1) node path =
      match path_cmp path n.name with
      | some child_path =>
        if child_path = [] then .ok node
        else if child_path = ['/'] then .ok node
        else find_inode_loop h fuel n.child child_path
      | none => find_inode_loop h fuel n.sibling path := by
  rw [find_inode_loop]
  simp [hn, hd]

theorem deref_of_get (h : List inode) (p : Nat) (n : inode)
    (hp : p ≠ 0) (hg : h[p - 1]? = some n) : deref h p = .ok n := by
  simp [deref, hp, hg]

theorem joinPath_cons_cons (a b : List Char) (l : List (List Char)) :
    joinPath (a :: b :: l) = a ++ '/' :: joinPath (b :: l) := rfl

theorem joinPath_ne (seg : List Char) (segs : List (List Char))
    (h1 : seg ≠ []) (h2 : '/' ∉ seg) :
    joinPath (seg :: segs) ≠ [] ∧ joinPath (seg :: segs) ≠ ['/'] := by
  cases seg with
  | nil => exact absurd rfl h1
  | cons c r =>
    have hc : c ≠ '/' := fun e => h2 (by simp [e])
    cases segs with
    | nil => simp [joinPath, hc]
    | cons b l => simp [joinPath, hc]

theorem walk_cons (root : Nat) (c : Chain) (seg : List Char) (segs : List (List Char)) :
    walk root c (seg :: segs) =
      match c.lookup seg with
      | none => none
      | some (id, kids) => walk id kids segs := rfl

theorem find_inode_loop_walk (h : List inode) (c : Chain) :
    ∀ (first parent fuel : Nat) (seg : List Char) (segs : List (List Char)),
      rep h first parent c = true → c.slashFree = true →
      (∀ s ∈ seg :: segs, s ≠ [] ∧ '/' ∉ s) → c.size ≤ fuel →
      find_inode_loop h fuel first (joinPath (seg :: segs))
        = .ok (walkResult (walk parent c (seg :: segs))) := by
  induction c with
  | nil =>
    intro first parent fuel seg segs hrep _ _ _
    simp [rep] at hrep
    subst hrep
    simp [find_inode_loop_null, walk_cons, Chain.lookup, walkResult]
  | cons id name kids rest ihk ihr =>
    intro first parent fuel seg segs hrep hsf hsegs hfuel
    simp only [rep, Bool.and_eq_true, beq_iff_eq, bne_iff_ne] at hrep
    obtain ⟨⟨hfirst, hid⟩, hmatch⟩ := hrep
    subst hfirst
    cases hg : h[first - 1]? with
    | none => simp [hg] at hmatch
    | some n =>
      simp only [hg, Bool.and_eq_true, beq_iff_eq] at hmatch
      obtain ⟨⟨⟨hname, hpar⟩, hkids⟩, hrest⟩ := hmatch
      simp only [Chain.slashFree, Bool.and_eq_true, Bool.not_eq_true',
        List.contains_eq_any_beq, List.any_eq_false, beq_iff_eq] at hsf
      obtain ⟨⟨hnm, hsk⟩, hsr⟩ := hsf
      have hnm' : '/' ∉ name := fun e => by simpa using hnm _ e
      have hseg := hsegs seg (by simp)
      simp only [Chain.size] at hfuel
      obtain ⟨f, rfl⟩ : ∃ f, fuel = f + 1 := ⟨fuel - 1, by omega⟩
      rw [find_inode_loop_step h f first _ n hid (deref_of_get h first n hid hg), hname]
      cases segs with
      | nil =>
        simp only [joinPath]
        rw [path_cmp_last seg name hseg.2 hnm']
        by_cases he : seg = name
        · subst he
          simp [walk_cons, Chain.lookup, walk, walkResult]
        · have he' : ¬ name = seg := fun e => he e.symm
          simp only [he, if_false]
          have hr := ihr n.sibling parent f seg [] hrest hsr hsegs (by omega)
          simp only [joinPath] at hr
          rw [hr]
          simp [walk_cons, Chain.lookup, he']
      | cons b l =>
        rw [joinPath_cons_cons, path_cmp_inner seg name _ hseg.2 hnm']
        have hb := hsegs b (by simp)
        have hne := joinPath_ne b l hb.1 hb.2
        by_cases he : seg = name
        · subst he
          simp only [if_true, hne.1, hne.2, if_false]
          rw [ihk n.child first f b l hkids hsk
            (fun s hs => hsegs s (List.mem_cons_of_mem _ hs)) (by omega)]
          simp [walk_cons, Chain.lookup]
        · have he' : ¬ name = seg := fun e => he e.symm
          simp only [he, if_false]
          rw [← joinPath_cons_cons,
            ihr n.sibling parent f seg (b :: l) hrest hsr hsegs (by omega)]
          simp [walk_cons, Chain.lookup, he']

theorem lookup_rep (h : List inode) (c : Chain) :
    ∀ (first parent : Nat) (seg : List Char) (id : Nat) (kids : Chain),
      rep h first parent c = true → c.lookup seg = some (id, kids) →
      id ≠ 0 ∧ ∃ n, deref h id = .ok n ∧ n.name = seg ∧ n.parent = parent ∧
        rep h n.child id kids = true := by
  induction c with
  | nil => intro first parent seg id kids _ hl; simp [Chain.lookup] at hl
  | cons i name ks rest _ ihr =>
    intro first parent seg id kids hrep hl
    simp only [rep, Bool.and_eq_true, beq_iff_eq, bne_iff_ne] at hrep
    obtain ⟨⟨hfirst, hid⟩, hmatch⟩ := hrep
    cases hg : h[i - 1]? with
    | none => simp [hg] at hmatch
    | some n =>
      simp only [hg, Bool.and_eq_true, beq_iff_eq] at hmatch
      obtain ⟨⟨⟨hname, hpar⟩, hkids⟩, hrest⟩ := hmatch
      by_cases he : name = seg
      · simp only [Chain.lookup, he, if_true, Option.some.injEq, Prod.mk.injEq] at hl
        obtain ⟨rfl, rfl⟩ := hl
        exact ⟨hid, n, deref_of_get h i n hid hg, hname.trans he, hpar, hkids⟩
      · simp only [Chain.lookup, he, if_false] at hl
        exact ihr n.sibling parent seg id kids hrest hl

theorem walk_rep (h : List inode) (segs : List (List Char)) :
    ∀ (root : Nat) (r : inode) (c : Chain) (n : Nat) (k : Chain),
      deref h root = .ok r → rep h r.child root c = true →
      walk root c segs = some (n, k) →
      n ≠ 0 ∧ ∃ cell, deref h n = .ok cell ∧ rep h cell.child n k = true := by
  induction segs with
  | nil =>
    intro root r c n k hroot hrep hw
    simp only [walk, Option.some.injEq, Prod.mk.injEq] at hw
    obtain ⟨rfl, rfl⟩ := hw
    refine ⟨?_, r, hroot, hrep⟩
    intro h0
    simp [deref, h0] at hroot
  | cons seg segs ih =>
    intro root r c n k hroot hrep hw
    rw [walk_cons] at hw
    cases hl : c.lookup seg with
    | none => simp [hl] at hw
    | some p =>
      obtain ⟨id, kids⟩ := p
      simp only [hl] at hw
      obtain ⟨_, cell, hcell, _, _, hk⟩ := lookup_rep h c r.child root seg id kids hrep hl
      exact ih id cell kids n k hcell hk hw

theorem lookup_eq_none_iff (c : Chain) (seg : List Char) :
    c.lookup seg = none ↔ ∀ e ∈ c.entries, e.2.1 ≠ seg := by
  induction c with
  | nil => simp [Chain.lookup, Chain.entries]
  | cons i name ks rest _ ihr =>
    by_cases he : name = seg
    · simp [Chain.lookup, Chain.entries, he]
    · simp [Chain.lookup, Chain.entries, he, ihr]

theorem walk_append (pre post : List (List Char)) :
    ∀ (root : Nat) (c : Chain),
      walk root c (pre ++ post) =
        match walk root c pre with
        | none => none
        | some (n, k) => walk n k post := by
  induction pre with
  | nil => intro root c; simp [walk]
  | cons seg pre ih =>
    intro root c
    simp only [List.cons_append, walk_cons]
    cases hl : c.lookup seg with
    | none => simp
    | some p => obtain ⟨id, kids⟩ := p; simp [ih]

theorem walk_eq_none_iff (segs : List (List Char)) :
    ∀ (root : Nat) (c : Chain),
      walk root c segs = none ↔
        ∃ pre seg post n k, segs = pre ++ seg :: post ∧
          walk root c pre = some (n, k) ∧ ∀ e ∈ k.entries, e.2.1 ≠ seg := by
  induction segs with
  | nil =>
    intro root c
    simp [walk]
  | cons seg segs ih =>
    intro root c
    rw [walk_cons]
    cases hl : c.lookup seg with
    | none =>
      simp only [true_iff]
      exact ⟨[], seg, segs, root, c, rfl, rfl, (lookup_eq_none_iff c seg).1 hl⟩
    | some p =>
      obtain ⟨id, kids⟩ := p
      simp only []
      rw [ih id kids]
      constructor
      · rintro ⟨pre, s, post, n, k, hsplit, hw, hno⟩
        refine ⟨seg :: pre, s, post, n, k, by simp [hsplit], ?_, hno⟩
        rw [walk_cons, hl]
        exact hw
      · rintro ⟨pre, s, post, n, k, hsplit, hw, hno⟩
        cases pre with
        | nil =>
          simp only [List.nil_append, List.cons.injEq] at hsplit
          obtain ⟨rfl, rfl⟩ := hsplit
          simp only [walk, Option.some.injEq, Prod.mk.injEq] at hw
          obtain ⟨rfl, rfl⟩ := hw
          have := (lookup_eq_none_iff c seg).2 hno
          rw [hl] at this
          exact absurd this (by simp)
        | cons a pre =>
          simp only [List.cons_append, List.cons.injEq] at hsplit
          obtain ⟨rfl, rfl⟩ := hsplit
          rw [walk_cons, hl] at hw
          exact ⟨pre, s, post, n, k, rfl, hw, hno⟩

theorem lookup_of_mem (c : Chain) (hu : c.uniqueNames = true) :
    ∀ e ∈ c.entries, c.lookup e.2.1 = some (e.1, e.2.2) := by
  induction c with
  | nil => intro e he; simp [Chain.entries] at he
  | cons i name ks rest _ ihr =>
    intro e he
    simp only [Chain.uniqueNames, Bool.and_eq_true, Bool.not_eq_true'] at hu
    obtain ⟨⟨hnot, _⟩, hur⟩ := hu
    simp only [Chain.entries, List.mem_cons] at he
    rcases he with rfl | he
    · simp [Chain.lookup]
    · have hne : name ≠ e.2.1 := by
        intro heq
        have hmem : name ∈ rest.entries.map (fun e => e.2.1) :=
          List.mem_map.2 ⟨e, he, heq.symm⟩
        have : (rest.entries.map (fun e => e.2.1)).contains name = true := by
          simpa using hmem
        rw [hnot] at this
        exact absurd this (by simp)
      simp only [Chain.lookup, hne, if_false]
      exact ihr hur e he

theorem lookup_unique (c : Chain) (hu : c.uniqueNames = true) :
    ∀ (seg : List Char) (id : Nat) (kids : Chain),
      c.lookup seg = some (id, kids) → kids.uniqueNames = true := by
  induction c with
  | nil => intro seg id kids hl; simp [Chain.lookup] at hl
  | cons i name ks rest _ ihr =>
    intro seg id kids hl
    simp only [Chain.uniqueNames, Bool.and_eq_true] at hu
    by_cases he : name = seg
    · simp only [Chain.lookup, he, if_true, Option.some.injEq, Prod.mk.injEq] at hl
      obtain ⟨_, rfl⟩ := hl
      exact hu.1.2
    · simp only [Chain.lookup, he, if_false] at hl
      exact ihr hu.2 seg id kids hl

theorem walk_unique (segs : List (List Char)) :
    ∀ (root : Nat) (c : Chain) (n : Nat) (k : Chain),
      c.uniqueNames = true → walk root c segs = some (n, k) →
      k.uniqueNames = true := by
  induction segs with
  | nil =>
    intro root c n k hu hw
    simp only [walk, Option.some.injEq, Prod.mk.injEq] at hw
    obtain ⟨_, rfl⟩ := hw
    exact hu
  | cons seg segs ih =>
    intro root c n k hu hw
    rw [walk_cons] at hw
    cases hl : c.lookup seg with
    | none => simp [hl] at hw
    | some p =>
      obtain ⟨id, kids⟩ := p
      simp only [hl] at hw
      exact ih id kids n k (lookup_unique c hu seg id kids hl) hw

/-- C1: on a tree whose names are free of '/' and unique among siblings, for a
relative path of non-empty '/'-free segments joined by single '/', `find_inode`
returns the node reached by descending from the root through the child whose
name equals each segment in turn (`walk`), and the null pointer exactly when
the walk fails, which is exactly when some segment has no child of that name
at the level reached; under unique sibling names every child of that name is
the one the walk takes; and `path_cmp` never matches a segment against a
different name, in particular not against a proper prefix or extension. -/
theorem find_inode_resolves (h : List inode) (root : Nat) (r : inode) (c : Chain)
    (segs : List (List Char)) (fuel : Nat)
    (hroot : deref h root = .ok r)
    (hrep : rep h r.child root c = true)
    (hslash : c.slashFree = true)
    (huniq : c.uniqueNames = true)
    (hsegs : ∀ s ∈ segs, s ≠ [] ∧ '/' ∉ s)
    (hfuel : c.size ≤ fuel) :
    find_inode h fuel root (joinPath segs) = .ok (walkResult (walk root c segs))
    ∧ (∀ n k, walk root c segs = some (n, k) → n ≠ 0 ∧ walkResult (walk root c segs) = n)
    ∧ (find_inode h fuel root (joinPath segs) = .ok 0 ↔ walk root c segs = none)
    ∧ (walk root c segs = none ↔
        ∃ pre seg post n k, segs = pre ++ seg :: post ∧
          walk root c pre = some (n, k) ∧ ∀ e ∈ k.entries, e.2.1 ≠ seg)
    ∧ (∀ pre n k, walk root c pre = some (n, k) → ∀ e ∈ k.entries,
        walk root c (pre ++ [e.2.1]) = some (e.1, e.2.2))
    ∧ (∀ seg name : List Char, '/' ∉ seg → '/' ∉ name → seg ≠ name →
        path_cmp seg name = none ∧ ∀ t, path_cmp (seg ++ '/' :: t) name = none) := by
  have hroot0 : root ≠ 0 := by
    intro h0
    simp [deref, h0] at hroot
  have hfind : find_inode h fuel root (joinPath segs)
      = .ok (walkResult (walk root c segs)) := by
    cases segs with
    | nil => simp [find_inode, hroot0, joinPath, walk, walkResult]
    | cons seg segs =>
      have hs := hsegs seg (by simp)
      have hne := joinPath_ne seg segs hs.1 hs.2
      simp only [find_inode, hroot0, if_false, hne.1, hne.2, or_self, hroot]
      exact find_inode_loop_walk h c r.child root fuel seg segs hrep hslash hsegs hfuel
  have hnz : ∀ n k, walk root c segs = some (n, k) →
      n ≠ 0 ∧ walkResult (walk root c segs) = n := by
    intro n k hw
    exact ⟨(walk_rep h segs root r c n k hroot hrep hw).1, by simp [hw, walkResult]⟩
  refine ⟨hfind, hnz, ?_, walk_eq_none_iff segs root c, ?_, ?_⟩
  · rw [hfind]
    cases hw : walk root c segs with
    | none => simp [walkResult]
    | some p =>
      obtain ⟨n, k⟩ := p
      have := (hnz n k hw).1
      simp [walkResult, this]
  · intro pre n k hw e he
    rw [walk_append, hw]
    simp only [walk_cons]
    rw [lookup_of_mem k (walk_unique pre root c n k huniq hw) e he]
    rfl
  · intro seg name hs hn hne
    refine ⟨?_, fun t => ?_⟩
    · rw [path_cmp_last seg name hs hn]; simp [hne]
    · rw [path_cmp_inner seg name t hs hn]; simp [hne]

/-- C1, at a concrete tree: in `demoHeap` the path `foo/bar` resolves from the
root by the walk through `foo` (not `foobar`) to `bar`. -/
theorem find_inode_resolves_witness :
    find_inode demoHeap 4 1 (joinPath ["foo".toList, "bar".toList])
      = .ok (walkResult (walk 1 demoChain ["foo".toList, "bar".toList])) :=
  (find_inode_resolves demoHeap 1 (cell [] 0 0 3 INODE_DIR 0o777) demoChain
    ["foo".toList, "bar".toList] 4 (by decide) (by decide) (by decide) (by decide)
    (by decide) (by decide)).1

theorem path_cmp_trailing (p : List Char) :
    ∀ name : List Char, p ≠ [] → (∀ q, p ≠ q ++ ['/']) →
      (path_cmp p name = none ∧ path_cmp (p ++ ['/']) name = none) ∨
      (path_cmp p name = some [] ∧ path_cmp (p ++ ['/']) name = some []) ∨
      (∃ r, r ≠ [] ∧ (∀ q, r ≠ q ++ ['/']) ∧ path_cmp p name = some r ∧
        path_cmp (p ++ ['/']) name = some (r ++ ['/'])) := by
  induction p with
  | nil => intro name hp; exact absurd rfl hp
  | cons c1 r1 ih =>
    intro name _ hend
    have hr1end : ∀ q, r1 ≠ q ++ ['/'] := fun q hq => hend (c1 :: q) (by simp [hq])
    have hslash : c1 = '/' →
        ∃ r, r ≠ [] ∧ (∀ q, r ≠ q ++ ['/']) ∧ some r1 = some r ∧
          some (r1 ++ ['/']) = some (r ++ ['/']) := by
      intro hc
      refine ⟨r1, ?_, hr1end, rfl, rfl⟩
      intro hr
      exact hend [] (by simp [hc, hr])
    cases name with
    | nil =>
      by_cases hc : c1 = '/'
      · right; right
        simpa [path_cmp, hc] using hslash hc
      · left
        simp [path_cmp, hc]
    | cons c2 r2 =>
      by_cases he : c1 = c2
      · by_cases hc : c1 = '/'
        · right; right
          have hc2 : c2 = '/' := he ▸ hc
          simpa [path_cmp, hc, hc2] using hslash hc
        · subst he
          simp only [List.cons_append, path_cmp, if_true, hc, if_false]
          cases r1 with
          | nil =>
            cases r2 with
            | nil => right; left; simp [path_cmp]
            | cons c r =>
              by_cases hcs : c = '/'
              · right; left; simp [path_cmp, hcs]
              · left; simp [path_cmp, hcs, Ne.symm hcs]
          | cons a b => exact ih r2 (by simp) hr1end
      · left
        simp [path_cmp, he]

theorem find_inode_loop_trailing (h : List inode) (fuel : Nat) :
    ∀ (node : Nat) (p : List Char), p ≠ [] → (∀ q, p ≠ q ++ ['/']) →
      find_inode_loop h fuel node (p ++ ['/']) = find_inode_loop h fuel node p := by
  induction fuel with
  | zero =>
    intro node p _ _
    unfold find_inode_loop
    rfl
  | succ f ih =>
    intro node p hp hend
    by_cases hn : node = 0
    · subst hn
      simp [find_inode_loop_null]
    · cases hd : deref h node with
      | fault e =>
        rw [find_inode_loop, find_inode_loop]
        simp [hn, hd]
      | ok n =>
        rw [find_inode_loop_step h f node _ n hn hd, find_inode_loop_step h f node _ n hn hd]
        rcases path_cmp_trailing p n.name hp hend with ⟨h1, h2⟩ | ⟨h1, h2⟩ | ⟨r, hr, hrend, h1, h2⟩
        · rw [h1, h2]
          exact ih n.sibling p hp hend
        · rw [h1, h2]
        · rw [h1, h2]
          have hr1 : r ≠ ['/'] := fun e => hrend [] (by simp [e])
          have hr2 : r ++ ['/'] ≠ ['/'] := by
            intro e
            cases r with
            | nil => exact hr rfl
            | cons a b => simp at e
          simp only [hr, hr1, hr2, if_false, List.append_eq_nil, false_and]
          exact ih n.child r hr hrend

theorem find_inode_loop_total (h : List inode) (c : Chain) :
    ∀ (first parent fuel : Nat) (path : List Char),
      rep h first parent c = true → c.size ≤ fuel →
      ∃ n, find_inode_loop h fuel first path = .ok n := by
  induction c with
  | nil =>
    intro first parent fuel path hrep _
    simp [rep] at hrep
    subst hrep
    exact ⟨0, find_inode_loop_null h fuel path⟩
  | cons id name kids rest ihk ihr =>
    intro first parent fuel path hrep hfuel
    simp only [rep, Bool.and_eq_true, beq_iff_eq, bne_iff_ne] at hrep
    obtain ⟨⟨hfirst, hid⟩, hmatch⟩ := hrep
    subst hfirst
    cases hg : h[first - 1]? with
    | none => simp [hg] at hmatch
    | some n =>
      simp only [hg, Bool.and_eq_true, beq_iff_eq] at hmatch
      obtain ⟨⟨⟨_, _⟩, hkids⟩, hrest⟩ := hmatch
      simp only [Chain.size] at hfuel
      obtain ⟨f, rfl⟩ : ∃ f, fuel = f + 1 := ⟨fuel - 1, by omega⟩
      rw [find_inode_loop_step h f first _ n hid (deref_of_get h first n hid hg)]
      cases hc : path_cmp path n.name with
      | none => exact ihr n.sibling parent f path hrest (by omega)
      | some cp =>
        simp only []
        by_cases h1 : cp = []
        · exact ⟨first, by simp [h1]⟩
        · by_cases h2 : cp = ['/']
          · exact ⟨first, by simp [h2]⟩
          · simp only [h1, h2, if_false]
            exact ihk n.child first f cp hkids (by omega)

/-- C2: `find_inode(root, "")` and `find_inode(root, "/")` return `root`; for
a non-empty path `p` that does not end in '/', `find_inode(root, p ++ "/")` and
`find_inode(root, p)` have the same outcome for every heap and every amount of
fuel; and on a heap whose cells under `root` form a tree both calls return a
pointer once the fuel covers the number of nodes. -/
theorem find_inode_trailing_slash (h : List inode) (fuel root : Nat) (p : List Char) :
    find_inode h fuel root [] = .ok root
    ∧ find_inode h fuel root ['/'] = .ok root
    ∧ (p ≠ [] → (∀ q, p ≠ q ++ ['/']) →
        find_inode h fuel root (p ++ ['/']) = find_inode h fuel root p
        ∧ ∀ (r : inode) (c : Chain), deref h root = .ok r →
            rep h r.child root c = true → c.size ≤ fuel →
            ∃ n, find_inode h fuel root p = .ok n) := by
  refine ⟨?_, ?_, ?_⟩
  · by_cases h0 : root = 0 <;> simp [find_inode, h0]
  · by_cases h0 : root = 0 <;> simp [find_inode, h0]
  · intro hp hend
    have hp1 : p ≠ ['/'] := fun e => hend [] (by simp [e])
    have hp2 : p ++ ['/'] ≠ ['/'] := by
      intro e
      cases p with
      | nil => exact hp rfl
      | cons a b => simp at e
    constructor
    · by_cases h0 : root = 0
      · simp [find_inode, h0]
      · cases hd : deref h root with
        | fault e => simp [find_inode, h0, hd, hp, hp1, hp2]
        | ok r =>
          simp only [find_inode, h0, if_false, hp, hp1, hp2, or_self, hd,
            List.append_eq_nil, false_and]
          exact find_inode_loop_trailing h fuel r.child p hp hend
    · intro r c hd hrep hfuel
      have h0 : root ≠ 0 := by
        intro h0
        simp [deref, h0] at hd
      simp only [find_inode, h0, if_false, hp, hp1, or_self, hd]
      exact find_inode_loop_total h c r.child root fuel p hrep hfuel

/-- C2, at a concrete tree: in `demoHeap`, `foo/bar/` resolves like `foo/bar`,
to a pointer. -/
theorem find_inode_trailing_slash_witness :
    find_inode demoHeap 4 1 ("foo/bar".toList ++ ['/']) = find_inode demoHeap 4 1 "foo/bar".toList
    ∧ ∃ n, find_inode demoHeap 4 1 "foo/bar".toList = .ok n :=
  have hw := (find_inode_trailing_slash demoHeap 4 1 "foo/bar".toList).2.2 (by decide)
    (by
      intro q hq
      have : ("foo/bar".toList).getLast? = (q ++ ['/']).getLast? := by rw [hq]
      simp at this)
  ⟨hw.1, hw.2 (cell [] 0 0 3 INODE_DIR 0o777) demoChain (by decide) (by decide) (by decide)⟩

/-- C3 (the code at the failing input): after `mkdir("/a")` the path `/a`
resolves to cell 2; `inode_abspath` on that node, given an 8-byte buffer that
holds `xxxxxxxx`, stores `/a` without a terminator, so the buffer reads
`/axxxxxx` (the only NUL stored is the one at offset 8, past the buffer), and
resolving that string gives the null pointer, not cell 2.  On a buffer that
was zero beforehand the string is `/a` and resolves to cell 2. -/
theorem inode_abspath_not_terminated :
    __syscall39 10 FS.init "/a".toList 0o777 = .ok (0, treeA)
    ∧ find_inode_path treeA 10 "/a".toList = .ok (2, treeA)
    ∧ inode_abspath treeA 2 ("xxxxxxxx".toList ++ ['y']) 8
        = .ok ("/axxxxxx".toList ++ [NUL], treeA)
    ∧ cstring ("/axxxxxx".toList ++ [NUL]) = "/axxxxxx".toList
    ∧ find_inode_path treeA 10 "/axxxxxx".toList = .ok (0, treeA)
    ∧ inode_abspath treeA 2 (List.replicate 9 NUL) 8
        = .ok ("/a".toList ++ List.replicate 7 NUL, treeA)
    ∧ cstring ("/a".toList ++ List.replicate 7 NUL) = "/a".toList := by
  decide!

/-- C4 (the code at the failing input): with a provider that has nothing,
`open("/f", O_RDONLY)` fails with `ENOENT`; `open("/f", O_CREAT|O_RDWR, 0644)`
then returns descriptor 3 and `/f` resolves to the new cell 2; a further open
without create flags then fails with `ENOENT` for `O_RDONLY` and `O_RDWR`, and
dereferences the null `fetch` pointer for `O_WRONLY`. -/
theorem open_after_create_fails :
    __syscall5 notFound 10 FS.init "/f".toList O_RDONLY 0o644 = .ok (-ENOENT, rootOnly)
    ∧ __syscall5 notFound 10 rootOnly "/f".toList (O_CREAT ||| O_RDWR) 0o644
        = .ok (3, createdF)
    ∧ find_inode_path createdF 10 "/f".toList = .ok (2, createdF)
    ∧ __syscall5 notFound 10 createdF "/f".toList O_RDONLY 0o644 = .ok (-ENOENT, createdF)
    ∧ __syscall5 notFound 10 createdF "/f".toList O_RDWR 0o644 = .ok (-ENOENT, createdF)
    ∧ __syscall5 notFound 10 createdF "/f".toList O_WRONLY 0o644 = .fault .nullDeref := by
  decide!

theorem toS64_of_range (x : Int) (h1 : -9223372036854775808 ≤ x)
    (h2 : x < 9223372036854775808) : toS64 x = x := by
  unfold toS64
  omega

theorem toS64_range (x : Int) :
    -9223372036854775808 ≤ toS64 x ∧ toS64 x < 9223372036854775808 := by
  unfold toS64
  omega

theorem toS32_of_range (x : Int) (h1 : -2147483648 ≤ x) (h2 : x < 2147483648) :
    toS32 x = x := by
  unfold toS32
  omega

/-- C9 (as amended): on a valid descriptor with offset `p`, `llseek` with the
64-bit offset `delta` computes `new = delta` for `SEEK_SET`, `p + delta` for
`SEEK_CUR` and `E + delta` for `SEEK_END`, where `E` is the `numBytes` of the
fetch attached to the node if there is one and the node's size otherwise.  For
`new` inside the signed 64-bit range the call stores and reports `new` and
returns 0 when `0 <= new <= 2^31 - 1`, returns `-EINVAL` when `new < 0` and
`-EOVERFLOW` when `new > 2^31 - 1`; every other `whence` returns `-EINVAL`;
every failure leaves the state, and so the offset, unchanged. -/
theorem llseek_spec (s : FS) (fd : Nat) (desc : FileDescriptor) (n : inode)
    (offset_high offset_low : Nat) (result : Bool) (whence : Nat) (new : Int)
    (hd : check_desc s fd = .ok (some desc))
    (hn : deref s.heap desc.node = .ok n)
    (hnew : (whence = SEEK_SET ∧
              new = toS64 ((offset_high % 4294967296 : Nat) * 4294967296
                + (offset_low % 4294967296 : Nat)))
        ∨ (whence = SEEK_CUR ∧
              new = desc.file_pos + toS64 ((offset_high % 4294967296 : Nat) * 4294967296
                + (offset_low % 4294967296 : Nat)))
        ∨ (whence = SEEK_END ∧
              new = (match n.fetch with
                | some f => (f.numBytes : Int)
                | none => (n.size : Int)) + toS64 ((offset_high % 4294967296 : Nat) * 4294967296
                + (offset_low % 4294967296 : Nat))))
    (hlo : -9223372036854775808 ≤ new) (hhi : new < 9223372036854775808) :
    (0 ≤ new → new ≤ 2147483647 →
      __syscall140 s fd offset_high offset_low result whence
        = .ok (0, (if result then some new else none),
            put_desc s fd { desc with file_pos := new }))
    ∧ (new < 0 →
      __syscall140 s fd offset_high offset_low result whence = .ok (-EINVAL, none, s))
    ∧ (2147483647 < new →
      __syscall140 s fd offset_high offset_low result whence = .ok (-EOVERFLOW, none, s))
    ∧ (∀ w, w ≠ SEEK_SET → w ≠ SEEK_CUR → w ≠ SEEK_END →
      __syscall140 s fd offset_high offset_low result w = .ok (-EINVAL, none, s)) := by
  have key : ∀ np : Option Int, np = some new →
      (match np with
        | none => (Run.ok (-EINVAL, none, s) : Run (Int × Option Int × FS))
        | some newPos =>
          if newPos < 0 then .ok (-EINVAL, none, s)
          else if newPos > 0x7FFFFFFF then .ok (-EOVERFLOW, none, s)
          else .ok (0, (if result then some newPos else none),
            put_desc s fd { desc with file_pos := newPos }))
      = (if new < 0 then .ok (-EINVAL, none, s)
          else if new > 0x7FFFFFFF then .ok (-EOVERFLOW, none, s)
          else .ok (0, (if result then some new else none),
            put_desc s fd { desc with file_pos := new })) := by
    intro np hnp
    subst hnp
    rfl
  have hcall : __syscall140 s fd offset_high offset_low result whence
      = (if new < 0 then .ok (-EINVAL, none, s)
          else if new > 0x7FFFFFFF then .ok (-EOVERFLOW, none, s)
          else .ok (0, (if result then some new else none),
            put_desc s fd { desc with file_pos := new })) := by
    unfold __syscall140
    simp only [hd, hn]
    apply key
    rcases hnew with ⟨hw, he⟩ | ⟨hw, he⟩ | ⟨hw, he⟩
    · simp [hw, he, SEEK_SET]
    · have : toS64 (desc.file_pos + toS64 ((offset_high % 4294967296 : Nat) * 4294967296
          + (offset_low % 4294967296 : Nat))) = new := by
        rw [← he]; exact toS64_of_range new hlo hhi
      simpa [hw, SEEK_SET, SEEK_CUR] using this
    · have : toS64 ((match n.fetch with
                | some f => (f.numBytes : Int)
                | none => (n.size : Int)) + toS64 ((offset_high % 4294967296 : Nat) * 4294967296
          + (offset_low % 4294967296 : Nat))) = new := by
        rw [← he]; exact toS64_of_range new hlo hhi
      simpa [hw, SEEK_SET, SEEK_CUR, SEEK_END] using this
  refine ⟨?_, ?_, ?_, ?_⟩
  · intro h0 h1
    rw [hcall]
    have : ¬ new < 0 := by omega
    have h2 : ¬ new > 0x7FFFFFFF := by omega
    simp [this, h2]
  · intro h0
    rw [hcall]
    simp [h0]
  · intro h1
    rw [hcall]
    have : ¬ new < 0 := by omega
    have h2 : new > 0x7FFFFFFF := by omega
    simp [this, h2]
  · intro w h0 h1 h2
    unfold __syscall140
    simp [hd, hn, h0, h1, h2]

theorem memcpy_out_spec (v : iovec) (data : Option (List Nat)) (offset n : Nat)
    (hv : v.valid = true) (hn : n ≤ v.iov_len)
    (hdata : offset + n ≤ (data.getD []).length) :
    ∃ base1, memcpy_out v.iov_base data offset n = .ok base1
      ∧ n ≤ ((base1.getD []).take v.iov_len).length
      ∧ ((base1.getD []).take v.iov_len).take n = ((data.getD []).drop offset).take n
      ∧ (n = 0 → base1 = v.iov_base) := by
  by_cases h0 : n = 0
  · subst h0
    exact ⟨v.iov_base, by simp [memcpy_out], by simp, by simp, fun _ => rfl⟩
  · have hlen : v.iov_len ≠ 0 := by omega
    cases hb : v.iov_base with
    | none => simp [iovec.valid, hb, hlen] at hv
    | some b =>
      have hbl : v.iov_len ≤ b.length := by simpa [iovec.valid, hb, hlen] using hv
      cases hd : data with
      | none => simp [hd] at hdata; omega
      | some d =>
        simp only [hd, Option.getD_some] at hdata
        have hc : n ≤ b.length ∧ offset + n ≤ d.length := ⟨by omega, hdata⟩
        refine ⟨some ((d.drop offset).take n ++ b.drop n), by simp [memcpy_out, h0, hc], ?_, ?_, ?_⟩
        · simp only [Option.getD_some, List.length_take, List.length_append, List.length_drop]
          omega
        · simp only [Option.getD_some]
          rw [List.take_take]
          have hl : ((d.drop offset).take n).length = n := by
            simp only [List.length_take, List.length_drop]; omega
          rw [Nat.min_eq_left hn, List.take_append_of_le_length (by omega)]
          rw [List.take_take]; simp
        · intro h; exact absurd h h0

theorem iov_capacity_lens (a b : List iovec)
    (h : a.map (fun v => v.iov_len) = b.map (fun v => v.iov_len)) :
    iov_capacity a = iov_capacity b := by
  induction a generalizing b with
  | nil => cases b with
    | nil => rfl
    | cons x y => simp at h
  | cons v rest ih =>
    cases b with
    | nil => simp at h
    | cons x y =>
      simp only [List.map_cons, List.cons.injEq] at h
      simp [iov_capacity, h.1, ih y h.2]

theorem readv_copy_spec (S : Nat) (data : Option (List Nat))
    (hS : S < 2147483648) (hdata : S ≤ (data.getD []).length) :
    ∀ (iov : List iovec) (offset : Nat), (∀ v ∈ iov, v.valid = true) →
      offset < 2147483648 →
      ∃ iov1, readv_copy S data iov offset
          = .ok (iov1, offset + min (S - offset) (iov_capacity iov))
        ∧ iov1.map (fun v => v.iov_len) = iov.map (fun v => v.iov_len)
        ∧ ((iov1.map iovec.window).flatten).take (min (S - offset) (iov_capacity iov))
            = ((data.getD []).drop offset).take (min (S - offset) (iov_capacity iov))
        ∧ (S ≤ offset → iov1 = iov) := by
  intro iov
  induction iov with
  | nil =>
    intro offset _ _
    exact ⟨[], by simp [readv_copy, iov_capacity], rfl, by simp [iov_capacity], fun _ => rfl⟩
  | cons v rest ih =>
    intro offset hvalid hoff
    have hleft : toS32 ((S : Int) - offset) = (S : Int) - offset :=
      toS32_of_range _ (by omega) (by omega)
    by_cases hle : S ≤ offset
    · have h0 : S - offset = 0 := by omega
      refine ⟨v :: rest, ?_, rfl, by simp [h0], fun _ => rfl⟩
      have : (S : Int) - offset ≤ 0 := by omega
      simp [readv_copy, hleft, this, h0]
    · have hpos : ¬ ((S : Int) - offset ≤ 0) := by omega
      have htoNat : ((S : Int) - offset).toNat = S - offset := by omega
      obtain ⟨base1, hcopy, hwl, hwin, _⟩ :=
        memcpy_out_spec v data offset (min (S - offset) v.iov_len)
          (hvalid v (by simp)) (Nat.min_le_right _ _) (by omega)
      have hmod : (offset + min (S - offset) v.iov_len) % 4294967296
          = offset + min (S - offset) v.iov_len := by omega
      obtain ⟨rest1, hrest, hlens, hjoin, _⟩ :=
        ih (offset + min (S - offset) v.iov_len)
          (fun w hw => hvalid w (List.mem_cons_of_mem _ hw)) (by omega)
      have hn : (if S - offset < v.iov_len then S - offset else v.iov_len)
          = min (S - offset) v.iov_len := by
        split <;> omega
      have hk : min (S - offset) (iov_capacity (v :: rest))
          = min (S - offset) v.iov_len
            + min (S - (offset + min (S - offset) v.iov_len)) (iov_capacity rest) := by
        simp only [iov_capacity]; omega
      refine ⟨{ v with iov_base := base1 } :: rest1, ?_, ?_, ?_, fun h => absurd h hle⟩
      · simp only [readv_copy, hleft, hpos, if_false, htoNat, hn, hcopy, hmod, hrest, hk]
        congr 2
        omega
      · simp [hlens]
      · rw [hk]
        simp only [List.map_cons, List.flatten_cons]
        have hw : iovec.window { v with iov_base := base1 }
            = (base1.getD []).take v.iov_len := rfl
        rw [hw]
        by_cases hfull : v.iov_len ≤ S - offset
        · have hmin : min (S - offset) v.iov_len = v.iov_len := by omega
          rw [hmin] at hwin hwl hjoin ⊢
          have hwlen : ((base1.getD []).take v.iov_len).length = v.iov_len := by
            have := List.length_take_le v.iov_len (base1.getD [])
            omega
          have hweq : (base1.getD []).take v.iov_len
              = ((data.getD []).drop offset).take v.iov_len := by
            have h := hwin
            rw [List.take_of_length_le (Nat.le_of_eq hwlen)] at h
            exact h
          have hX : (((data.getD []).drop offset).take v.iov_len).length = v.iov_len := by
            simp only [List.length_take, List.length_drop]; omega
          rw [hweq, List.take_append_eq_append_take,
            List.take_of_length_le (Nat.le_of_eq hX |>.trans (Nat.le_add_right _ _)), hX,
            Nat.add_sub_cancel_left, hjoin, List.take_add, List.drop_drop]
        · have hmin : min (S - offset) v.iov_len = S - offset := by omega
          have hz : min (S - (offset + (S - offset))) (iov_capacity rest) = 0 := by omega
          rw [hmin] at hwin hwl ⊢
          rw [hz, Nat.add_zero, List.take_append_of_le_length hwl, hwin]

theorem iov_total_ok : ∀ (iov : List iovec) (total : Int), 0 ≤ total →
    total + iov_capacity iov < 2147483648 → (∀ v ∈ iov, v.valid = true) →
    iov_total iov total = some (total + iov_capacity iov) := by
  intro iov
  induction iov with
  | nil => intro total _ _ _; simp [iov_total, iov_capacity]
  | cons v rest ih =>
    intro total h0 hcap hvalid
    simp only [iov_capacity, Nat.cast_add] at hcap
    have hn : toS32 (total + v.iov_len) = total + v.iov_len :=
      toS32_of_range _ (by omega) (by omega)
    have hlt : ¬ (total + (v.iov_len : Int) < total) := by omega
    have hv := hvalid v (by simp)
    have hbase : ¬ (v.iov_base.isNone = true ∧ v.iov_len > 0) := by
      rintro ⟨h1, h2⟩
      cases hb : v.iov_base with
      | none =>
        have : v.iov_len ≠ 0 := by omega
        simp [iovec.valid, hb, this] at hv
      | some b => simp [hb] at h1
    simp only [iov_total, hn, hlt, if_false, hbase]
    rw [ih (total + v.iov_len) (by omega) (by omega)
      (fun w hw => hvalid w (List.mem_cons_of_mem _ hw))]
    simp only [iov_capacity, Nat.cast_add]
    congr 1
    omega

theorem set_same {α : Type} (l : List α) (i : Nat) (a : α) (h : l[i]? = some a) :
    l.set i a = l := by
  induction l generalizing i with
  | nil => rfl
  | cons x xs ih =>
    cases i with
    | zero => simp at h; simp [h]
    | succ j => simp at h; simp [ih j h]

theorem check_desc_cell (s : FS) (fd : Nat) (desc : FileDescriptor)
    (hd : check_desc s fd = .ok (some desc)) :
    3 ≤ fd ∧ s.fds[fd - 3]? = some desc ∧ desc.magic = EM_FILEDESCRIPTOR_MAGIC := by
  unfold check_desc get_desc at hd
  by_cases h0 : fd = 0
  · simp [h0] at hd
  · by_cases h3 : fd < 3
    · simp [h0, h3] at hd
    · cases hg : s.fds[fd - 3]? with
      | none => simp [h0, h3, hg] at hd
      | some d =>
        simp only [h0, h3, if_false, hg] at hd
        by_cases hm : d.magic = EM_FILEDESCRIPTOR_MAGIC
        · simp [hm] at hd
          subst hd
          exact ⟨by omega, rfl, hm⟩
        · simp [hm] at hd

theorem put_desc_same (s : FS) (fd : Nat) (desc : FileDescriptor)
    (hd : check_desc s fd = .ok (some desc)) : put_desc s fd desc = s := by
  obtain ⟨_, hg, _⟩ := check_desc_cell s fd desc hd
  unfold put_desc
  rw [set_same s.fds (fd - 3) desc hg]

/-- C6 (as amended): for a valid descriptor with offset `p` on a regular file
of size `S` whose content is available (the block `node->data`, or else the
data of the attached fetch, holds at least `S` bytes; sizes and offsets within
the `ssize_t` range), and every list of valid buffers of total capacity `C`,
`readv` returns `min(max(S - p, 0), C)`, leaves the buffer lengths alone, the
buffers read in list order hold the file bytes at `p .. p + result - 1`, the
offset advances by the returned count, and for `p >= S` the call returns 0 and
changes neither the buffers nor the state. -/
theorem readv_spec (s : FS) (fd : Nat) (desc : FileDescriptor) (node : inode)
    (iov : List iovec)
    (hd : check_desc s fd = .ok (some desc))
    (hnz : desc.node ≠ 0)
    (hn : deref s.heap desc.node = .ok node)
    (hfile : node.type = INODE_FILE)
    (hdata : node.size ≤ ((file_data node).getD []).length)
    (hS : node.size < 2147483648)
    (hp0 : 0 ≤ desc.file_pos) (hp1 : desc.file_pos < 2147483648)
    (hvalid : ∀ v ∈ iov, v.valid = true)
    (hcap : iov_capacity iov < 2147483648) :
    ∃ iov1,
      __syscall145 s fd iov iov.length
        = .ok (((min (node.size - desc.file_pos.toNat) (iov_capacity iov) : Nat) : Int), iov1,
            put_desc s fd { desc with file_pos :=
              desc.file_pos + (min (node.size - desc.file_pos.toNat) (iov_capacity iov) : Nat) })
      ∧ iov1.map (fun v => v.iov_len) = iov.map (fun v => v.iov_len)
      ∧ ((iov1.map iovec.window).flatten).take
            (min (node.size - desc.file_pos.toNat) (iov_capacity iov))
          = (((file_data node).getD []).drop desc.file_pos.toNat).take
            (min (node.size - desc.file_pos.toNat) (iov_capacity iov))
      ∧ ((node.size : Int) ≤ desc.file_pos →
          __syscall145 s fd iov iov.length = .ok (0, iov, s)) := by
  have hoff : toU32 desc.file_pos = desc.file_pos.toNat := by
    unfold toU32; omega
  obtain ⟨iov1, hcopy, hlens, hwin, hsame⟩ :=
    readv_copy_spec node.size (file_data node) hS hdata iov desc.file_pos.toNat hvalid (by omega)
  have htotal := iov_total_ok iov 0 (le_refl 0) (by simpa using (by omega : (iov_capacity iov : Int) < 2147483648)) hvalid
  have hnoerr : ¬ (node.size > 0 ∧ node.data.isNone = true ∧
      node.fetch.all (fun f => f.data.isNone) = true) := by
    rintro ⟨h1, h2, h3⟩
    have : (file_data node) = none := by
      unfold file_data
      cases hdat : node.data with
      | some d => simp [hdat] at h2
      | none =>
        cases hf : node.fetch with
        | none => rfl
        | some f =>
          simp only [hf, Option.all_some, Option.isNone_iff_eq_none] at h3
          simp [h3]
    rw [this] at hdata
    simp at hdata
    omega
  have hdir : ¬ INODE_FILE = INODE_DIR := by decide!
  have hcall : __syscall145 s fd iov iov.length
      = .ok (((min (node.size - desc.file_pos.toNat) (iov_capacity iov) : Nat) : Int), iov1,
          put_desc s fd { desc with file_pos :=
            desc.file_pos + (min (node.size - desc.file_pos.toNat) (iov_capacity iov) : Nat) }) := by
    unfold __syscall145
    simp only [hd, hnz, if_false, hn, hdir, hfile, ne_eq, not_true_eq_false, hnoerr, htotal,
      hoff, hcopy]
    have hneg : ¬ ((iov.length : Int) < 0) := by omega
    simp only [hneg, if_false, ite_not, if_true]
    have e1 : toS32 (((desc.file_pos.toNat + min (node.size - desc.file_pos.toNat)
        (iov_capacity iov) : Nat) : Int) - desc.file_pos)
        = ((min (node.size - desc.file_pos.toNat) (iov_capacity iov) : Nat) : Int) := by
      rw [toS32_of_range _ (by omega) (by omega)]
      omega
    have e2 : toS32 ((desc.file_pos.toNat + min (node.size - desc.file_pos.toNat)
        (iov_capacity iov) : Nat) : Int)
        = desc.file_pos + (min (node.size - desc.file_pos.toNat) (iov_capacity iov) : Nat) := by
      rw [toS32_of_range _ (by omega) (by omega)]
      omega
    rw [e1, e2]
  refine ⟨iov1, hcall, hlens, hwin, ?_⟩
  intro hge
  have hz : min (node.size - desc.file_pos.toNat) (iov_capacity iov) = 0 := by omega
  rw [hcall, hz, hsame (by omega)]
  simp only [Nat.cast_zero, add_zero]
  rw [put_desc_same s fd desc hd]

theorem deref_inv (h : List inode) (p : Nat) (n : inode) (hd : deref h p = .ok n) :
    p ≠ 0 ∧ h[p - 1]? = some n := by
  unfold deref at hd
  by_cases h0 : p = 0
  · simp [h0] at hd
  · cases hg : h[p - 1]? with
    | none => simp [h0, hg] at hd
    | some m =>
      simp [h0, hg] at hd
      exact ⟨h0, by rw [hd]⟩

theorem deref_store_same (h : List inode) (p : Nat) (n m : inode)
    (hd : deref h p = .ok n) : deref (store h p m) p = .ok m := by
  obtain ⟨h0, hg⟩ := deref_inv h p n hd
  have hlt : p - 1 < h.length := by
    rcases Nat.lt_or_ge (p - 1) h.length with hl | hl
    · exact hl
    · rw [List.getElem?_eq_none hl] at hg; simp at hg
  unfold deref store
  simp [h0, hlt]

theorem check_desc_put (s : FS) (fd : Nat) (desc d : FileDescriptor)
    (hd : check_desc s fd = .ok (some desc)) (hm : d.magic = EM_FILEDESCRIPTOR_MAGIC) :
    check_desc (put_desc s fd d) fd = .ok (some d) := by
  obtain ⟨h3, hg, _⟩ := check_desc_cell s fd desc hd
  have hlt : fd - 3 < s.fds.length := by
    rcases Nat.lt_or_ge (fd - 3) s.fds.length with hl | hl
    · exact hl
    · rw [List.getElem?_eq_none hl] at hg; simp at hg
  have h0 : fd ≠ 0 := by omega
  have h3' : ¬ fd < 3 := by omega
  unfold check_desc get_desc put_desc
  simp [h0, h3', hlt, hm]

theorem check_desc_heap (s : FS) (h : List inode) (fd : Nat) :
    check_desc { s with heap := h } fd = check_desc s fd := rfl

theorem realloc_none_length (uninit : Nat → Nat) (n : Nat) :
    (realloc uninit none n).length = n := by
  simp [realloc]

theorem writev_copy_single (b junk : List Nat) (hN : b.length < 2147483648)
    (hj : junk.length = b.length) (hb : b ≠ []) :
    writev_copy [⟨some b, b.length⟩] (some junk) 0 = .ok (some b, (b.length : Int)) := by
  have hlen : b.length ≠ 0 := fun h => hb (List.length_eq_zero.1 h)
  have hbytes : iov_bytes ⟨some b, b.length⟩ = .ok b := by
    simp [iov_bytes, hlen]
  have hcopy : memcpy_in (some junk) 0 b = .ok (some b) := by
    simp [memcpy_in, hb, hj]
  have hs32 : toS32 (0 + (b.length : Int)) = b.length := by
    rw [toS32_of_range _ (by omega) (by omega)]
    omega
  simp only [writev_copy, hbytes, hcopy, hs32]

theorem writev_copy_empty (data : Option (List Nat)) :
    writev_copy [⟨some [], 0⟩] data 0 = .ok (data, 0) := by
  have hbytes : iov_bytes ⟨some [], 0⟩ = .ok [] := by
    simp [iov_bytes]
  have hcopy : memcpy_in data 0 [] = .ok data := by
    simp [memcpy_in]
  have hs32 : toS32 (0 + ((0 : Nat) : Int)) = 0 := by decide!
  simp only [writev_copy, hbytes, hcopy, hs32]

theorem writev_grow_fresh (uninit : Nat → Nat) (node : inode) (n : Nat)
    (hcap : node.capacity = 0) (hdata : node.data = none) (hn : 0 < n) :
    writev_grow uninit node n
      = { node with data := some (realloc uninit none n), size := n, capacity := n } := by
  have hgrown : 0 * 5 / 4 % 4294967296 = 0 := by decide!
  simp only [writev_grow, hcap, hn, if_true, hgrown, gt_iff_lt, hdata]

theorem writev_grow_zero (uninit : Nat → Nat) (node : inode) :
    writev_grow uninit node 0 = node := by
  simp [writev_grow]

theorem writev_fresh (uninit : Nat → Nat) (s : FS) (fd : Nat)
    (desc : FileDescriptor) (node : inode) (b : List Nat)
    (hd : check_desc s fd = .ok (some desc))
    (hn : deref s.heap desc.node = .ok node)
    (hsize : node.size = 0) (hcap : node.capacity = 0)
    (hdata : node.data = none)
    (hpos : desc.file_pos = 0)
    (hN : b.length < 2147483648) :
    __syscall146 uninit s fd [⟨some b, b.length⟩] 1
      = .ok ((b.length : Int),
          put_desc
            { s with heap := store s.heap desc.node { node with data := (if b = [] then none else some b), size := b.length, capacity := b.length } }
            fd { desc with file_pos := b.length }) := by
  obtain ⟨h3, _, _⟩ := check_desc_cell s fd desc hd
  have hfd : fd ≠ 1 ∧ fd ≠ 2 := ⟨by omega, by omega⟩
  have htot : iov_total [⟨some b, b.length⟩] 0 = some (b.length : Int) := by
    have := iov_total_ok [⟨some b, b.length⟩] 0 (le_refl 0)
      (by simp only [iov_capacity]; omega) (by simp [iovec.valid])
    simpa [iov_capacity] using this
  have hu32 : toU32 (0 + (b.length : Int)) = b.length := by unfold toU32; omega
  have hone : ¬ ((1 : Int) < 0) := by decide!
  have hlen1 : ¬ ((1 : Int) ≠ (([⟨some b, b.length⟩] : List iovec).length : Int)) := by simp
  unfold __syscall146
  simp only [hfd, ne_eq, not_false_eq_true, and_self, if_true, hd, hone, if_false, hlen1, htot,
    hpos, hu32, hn]
  by_cases hb : b = []
  · subst hb
    simp only [List.length_nil, writev_grow_zero, writev_copy_empty, if_true]
    cases node
    simp_all
  · have hlen : 0 < b.length := List.length_pos.2 hb
    rw [writev_grow_fresh uninit node b.length hcap hdata hlen]
    simp only [writev_copy_single b _ hN (realloc_none_length uninit b.length) hb, hb, if_false]

/-- C5: on a descriptor at offset 0 of a newly created regular file (no size,
no capacity, no data, no fetch), for every byte sequence `b` (of a length an
`ssize_t` can hold), writing `b` returns its length, seeking back to offset 0
succeeds, and reading `b.length` bytes into a buffer of that length returns
`b.length` and leaves exactly `b` in the buffer. -/
theorem write_read_roundtrip (uninit : Nat → Nat) (s : FS) (fd : Nat)
    (desc : FileDescriptor) (node : inode) (b buf : List Nat) (result : Bool)
    (hd : check_desc s fd = .ok (some desc))
    (hnz : desc.node ≠ 0)
    (hn : deref s.heap desc.node = .ok node)
    (hfile : node.type = INODE_FILE)
    (hsize : node.size = 0) (hcap : node.capacity = 0)
    (hdata : node.data = none) (hfetch : node.fetch = none)
    (hpos : desc.file_pos = 0)
    (hN : b.length < 2147483648) (hbuf : buf.length = b.length) :
    ∃ s1 s2 s3 reported iov1,
      __syscall146 uninit s fd [⟨some b, b.length⟩] 1 = .ok ((b.length : Int), s1)
      ∧ __syscall140 s1 fd 0 0 result SEEK_SET = .ok (0, reported, s2)
      ∧ __syscall145 s2 fd [⟨some buf, b.length⟩] 1 = .ok ((b.length : Int), iov1, s3)
      ∧ (iov1.map iovec.window).flatten = b := by
  obtain ⟨h3, hg, hmagic⟩ := check_desc_cell s fd desc hd
  have hfd : fd ≠ 1 ∧ fd ≠ 2 := ⟨by omega, by omega⟩
  -- the node after the write
  let node1 : inode :=
    { node with data := if b = [] then none else some b, size := b.length, capacity := b.length }
  let desc1 : FileDescriptor := { desc with file_pos := b.length }
  let s1 : FS := put_desc { s with heap := store s.heap desc.node node1 } fd desc1
  have hwrite : __syscall146 uninit s fd [⟨some b, b.length⟩] 1 = .ok ((b.length : Int), s1) :=
    writev_fresh uninit s fd desc node b hd hn hsize hcap hdata hpos hN
  have hd1 : check_desc s1 fd = .ok (some desc1) :=
    check_desc_put _ fd desc desc1 (by rw [check_desc_heap]; exact hd) hmagic
  have hn1 : deref s1.heap desc1.node = .ok node1 := deref_store_same s.heap desc.node node node1 hn
  let desc2 : FileDescriptor := { desc1 with file_pos := 0 }
  let s2 : FS := put_desc s1 fd desc2
  have hseek : __syscall140 s1 fd 0 0 result SEEK_SET
      = .ok (0, (if result then some 0 else none), s2) := by
    have := (llseek_spec s1 fd desc1 node1 0 0 result SEEK_SET 0 hd1 hn1
      (Or.inl ⟨rfl, by simp [toS64]⟩) (by omega) (by omega)).1 (le_refl 0) (by omega)
    exact this
  have hd2 : check_desc s2 fd = .ok (some desc2) := check_desc_put s1 fd desc1 desc2 hd1 hmagic
  have hn2 : deref s2.heap desc2.node = .ok node1 := hn1
  have hfd1 : ((file_data node1).getD []) = b := by
    by_cases hb : b = []
    · simp [file_data, node1, hb, hfetch]
    · simp [file_data, node1, hb]
  obtain ⟨iov1, hread, hlens, hwin, _⟩ :=
    readv_spec s2 fd desc2 node1 [⟨some buf, b.length⟩] hd2 hnz hn2 hfile
      (by rw [hfd1]) hN (le_refl 0) (by simp [desc2]) (by simp [iovec.valid, hbuf])
      (by simp [iov_capacity]; omega)
  have hmin : min (node1.size - desc2.file_pos.toNat)
      (iov_capacity [⟨some buf, b.length⟩]) = b.length := by
    show min (b.length - (0 : Int).toNat) (b.length + 0) = b.length
    simp
  rw [hmin] at hread hwin
  simp only [List.length_singleton, Nat.cast_one] at hread
  refine ⟨s1, s2, _, _, iov1, hwrite, hseek, hread, ?_⟩
  rw [hfd1] at hwin
  cases iov1 with
  | nil => simp at hlens
  | cons v rest =>
    cases rest with
    | cons x y => simp at hlens
    | nil =>
      simp only [List.map_cons, List.map_nil, List.cons.injEq, and_true] at hlens
      simp only [List.map_cons, List.map_nil, List.flatten_cons, List.flatten_nil,
        List.append_nil, List.drop_zero] at hwin ⊢
      have hwl : v.window.length ≤ b.length := by
        unfold iovec.window; rw [hlens]; exact List.length_take_le _ _
      rw [List.take_of_length_le hwl] at hwin
      rw [hwin]
      simp

/-- C5, at a concrete file: on descriptor 3 of the file just created in
`createdF`, writing the two bytes 104, 105, seeking back and reading two bytes
returns them. -/
theorem write_read_roundtrip_witness :
    ∃ s1 s2 s3 reported iov1,
      __syscall146 stale createdF 3 [⟨some [104, 105], 2⟩] 1 = .ok (2, s1)
      ∧ __syscall140 s1 3 0 0 true SEEK_SET = .ok (0, reported, s2)
      ∧ __syscall145 s2 3 [⟨some [0, 0], 2⟩] 1 = .ok (2, iov1, s3)
      ∧ (iov1.map iovec.window).flatten = [104, 105] :=
  write_read_roundtrip stale createdF 3
    ⟨EM_FILEDESCRIPTOR_MAGIC, 0, 0o644, O_CREAT ||| O_RDWR, 2⟩
    (cell "f".toList 1 0 0 INODE_FILE 0o644) [104, 105] [0, 0] true
    (by decide) (by decide) (by decide) (by decide) (by decide) (by decide) (by decide)
    (by decide) (by decide) (by decide) (by decide)

/-- C6, at a concrete file: descriptor 4 of `reopened8` is at offset 0 of a
file of 8 bytes; reading into buffers of 4 and 8 bytes returns 8 and the
buffers, read in order, start with the 8 bytes of the file. -/
theorem readv_spec_witness :
    ∃ iov1,
      __syscall145 reopened8 4
          [⟨some [0, 0, 0, 0], 4⟩, ⟨some [0, 0, 0, 0, 0, 0, 0, 0], 8⟩] 2
        = .ok (8, iov1, put_desc reopened8 4 ⟨EM_FILEDESCRIPTOR_MAGIC, 8, 0o644, O_RDONLY, 2⟩)
      ∧ ((iov1.map iovec.window).flatten).take 8 = [1, 2, 3, 4, 5, 6, 7, 8] := by
  obtain ⟨iov1, h1, _, h3, _⟩ := readv_spec reopened8 4
    ⟨EM_FILEDESCRIPTOR_MAGIC, 0, 0o644, O_RDONLY, 2⟩
    { cell "f".toList 1 0 0 INODE_FILE 0o644 with
      size := 8, capacity := 8, data := some [1, 2, 3, 4, 5, 6, 7, 8] }
    [⟨some [0, 0, 0, 0], 4⟩, ⟨some [0, 0, 0, 0, 0, 0, 0, 0], 8⟩]
    (by decide) (by decide) (by decide) (by decide) (by decide) (by decide) (by decide)
    (by decide) (by decide) (by decide)
  exact ⟨iov1, h1, h3⟩

/-- C6 (counterexample): after `/h` is opened twice and the first descriptor
is closed, descriptor 4 is a valid descriptor at offset 0 on a regular file of
size 5, yet `readv` with a 5-byte buffer returns 1, copies nothing and leaves
the offset at 0, where the claim has it return 5. -/
theorem readv_without_content :
    __syscall5 serveHello 10 FS.init "/h".toList O_RDWR 0o644 = .ok (3, openedH)
    ∧ __syscall5 serveHello 10 openedH "/h".toList O_RDONLY 0o644 = .ok (4, openedTwice)
    ∧ __syscall6 openedTwice 3 = .ok (0, closedFirst)
    ∧ check_desc closedFirst 4 = .ok (some ⟨EM_FILEDESCRIPTOR_MAGIC, 0, 0o644, O_RDONLY, 2⟩)
    ∧ (closedFirst.heap[1]?).map (fun n => (n.type, n.size)) = some (INODE_FILE, 5)
    ∧ __syscall145 closedFirst 4 [⟨some [0, 0, 0, 0, 0], 5⟩] 1
        = .ok (1, [⟨some [0, 0, 0, 0, 0], 5⟩], closedFirst) := by
  decide!

/-- C7 (the code at the failing input): on the file created in `createdF`,
writing 8 bytes, then 1 byte, then 1 byte through descriptor 3 returns 8, 1
and 1 and moves the offset to 10; the second write grows the capacity to 10
and sets the size to 9; the third write, at offset 9, fits the capacity, stores
its byte at position 9 and leaves the size at 9, not 10. -/
theorem writev_size_not_extended :
    __syscall146 stale createdF 3 [⟨some [1, 2, 3, 4, 5, 6, 7, 8], 8⟩] 1 = .ok (8, wrote8)
    ∧ __syscall146 stale wrote8 3 [⟨some [9], 1⟩] 1 = .ok (1, wrote9)
    ∧ (wrote9.heap[1]?).map (fun n => (n.size, n.capacity)) = some (9, 10)
    ∧ (wrote9.fds[0]?).map (fun d => d.file_pos) = some 9
    ∧ __syscall146 stale wrote9 3 [⟨some [10], 1⟩] 1 = .ok (1, wrote10)
    ∧ (wrote10.fds[0]?).map (fun d => d.file_pos) = some 10
    ∧ (wrote10.heap[1]?).map (fun n => (n.size, n.capacity, n.data))
        = some (9, 10, some [1, 2, 3, 4, 5, 6, 7, 8, 9, 10]) := by
  decide!

/-- C8 (the code at the failing input): `/h` is opened with the five bytes
`hello` delivered by the provider (size 5, capacity 0, content in the fetch).
Writing the byte 33 at offset 4 needs size 5, above the capacity 0; the new
capacity is 5, the maximum of 5 and 0, but the new block holds what the
allocator left there at positions 0..3, and reading the file from offset 0
returns those bytes instead of the first four bytes of `hello`. -/
theorem writev_drops_fetched_content :
    __syscall5 serveHello 10 FS.init "/h".toList O_RDWR 0o644 = .ok (3, openedH)
    ∧ (openedH.heap[1]?).map (fun n => (n.size, n.capacity, file_data n))
        = some (5, 0, some [104, 101, 108, 108, 111])
    ∧ __syscall140 openedH 3 0 4 false SEEK_SET = .ok (0, none, seekH4)
    ∧ __syscall146 stale seekH4 3 [⟨some [33], 1⟩] 1 = .ok (1, bangH)
    ∧ (bangH.heap[1]?).map (fun n => (n.size, n.capacity, file_data n))
        = some (5, 5, some [stale 0, stale 1, stale 2, stale 3, 33])
    ∧ __syscall140 bangH 3 0 0 false SEEK_SET = .ok (0, none, seekH0)
    ∧ (__syscall145 seekH0 3 [⟨some [0, 0, 0, 0, 0], 5⟩] 1).bind (fun r => .ok (r.1, r.2.1))
        = .ok (5, [⟨some [stale 0, stale 1, stale 2, stale 3, 33], 5⟩]) := by
  decide!

/-- C9, at a concrete descriptor: descriptor 3 of `wrote8` is at offset 8;
`SEEK_CUR` with the offset -9 would give -1 and fails with `EINVAL`, leaving
the state as it was. -/
theorem llseek_spec_witness :
    __syscall140 wrote8 3 4294967295 4294967287 true SEEK_CUR = .ok (-EINVAL, none, wrote8) :=
  (llseek_spec wrote8 3 ⟨EM_FILEDESCRIPTOR_MAGIC, 8, 0o644, O_CREAT ||| O_RDWR, 2⟩
    { cell "f".toList 1 0 0 INODE_FILE 0o644 with
      size := 8, capacity := 8, data := some [1, 2, 3, 4, 5, 6, 7, 8] }
    4294967295 4294967287 true SEEK_CUR (-1) (by decide) (by decide)
    (Or.inr (Or.inl ⟨rfl, by decide⟩)) (by decide) (by decide)).2.1 (by decide)

/-- C9 (counterexample): after ten bytes are written to the fetched file `/h`
its size is 10 while the attached fetch still has `numBytes` 5; `SEEK_END`
with offset 0 on the valid descriptor 3 reports 5, not the size 10. -/
theorem llseek_end_uses_fetch_length :
    __syscall5 serveHello 10 FS.init "/h".toList O_RDWR 0o644 = .ok (3, openedH)
    ∧ __syscall146 stale openedH 3 [⟨some [0, 1, 2, 3, 4, 5, 6, 7, 8, 9], 10⟩] 1
        = .ok (10, grownH)
    ∧ check_desc grownH 3 = .ok (some ⟨EM_FILEDESCRIPTOR_MAGIC, 10, 0o644, O_RDWR, 2⟩)
    ∧ (grownH.heap[1]?).map (fun n => (n.type, n.size)) = some (INODE_FILE, 10)
    ∧ __syscall140 grownH 3 0 0 true SEEK_END
        = .ok (0, some 5, put_desc grownH 3 ⟨EM_FILEDESCRIPTOR_MAGIC, 5, 0o644, O_RDWR, 2⟩) := by
  decide!

theorem deref_store_other (h : List inode) (p q : Nat) (m : inode)
    (hp : p ≠ 0) (hq : q ≠ p) : deref (store h p m) q = deref h q := by
  unfold deref store
  by_cases h0 : q = 0
  · simp [h0]
  · have : p - 1 ≠ q - 1 := by omega
    simp [h0, List.getElem?_set_ne this]

theorem find_inode_loop_congr (h g : List inode)
    (hs : ∀ p, deref h p = deref g p ∨
      ∃ a b, deref h p = .ok a ∧ deref g p = .ok b ∧
        a.name = b.name ∧ a.child = b.child ∧ a.sibling = b.sibling) :
    ∀ (fuel node : Nat) (path : List Char),
      find_inode_loop h fuel node path = find_inode_loop g fuel node path := by
  intro fuel
  induction fuel with
  | zero =>
    intro node path
    unfold find_inode_loop
    rfl
  | succ f ih =>
    intro node path
    by_cases hn : node = 0
    · subst hn; simp [find_inode_loop_null]
    · rcases hs node with he | ⟨a, b, ha, hb, h1, h2, h3⟩
      · cases hd : deref h node with
        | fault e =>
          rw [find_inode_loop, find_inode_loop]
          simp [hn, ← he, hd]
        | ok n =>
          rw [find_inode_loop_step h f node path n hn hd,
            find_inode_loop_step g f node path n hn (he ▸ hd)]
          cases path_cmp path n.name with
          | none => exact ih _ _
          | some cp => simp only [ih]
      · rw [find_inode_loop_step h f node path a hn ha,
          find_inode_loop_step g f node path b hn hb, h1, h2, h3]
        cases path_cmp path b.name with
        | none => exact ih _ _
        | some cp => simp only [ih]

theorem find_inode_store (h : List inode) (p : Nat) (n m : inode)
    (hd : deref h p = .ok n)
    (h1 : n.name = m.name) (h2 : n.child = m.child) (h3 : n.sibling = m.sibling)
    (fuel root : Nat) (path : List Char) :
    find_inode h fuel root path = find_inode (store h p m) fuel root path := by
  have hp : p ≠ 0 := (deref_inv h p n hd).1
  have hs : ∀ q, deref h q = deref (store h p m) q ∨
      ∃ a b, deref h q = .ok a ∧ deref (store h p m) q = .ok b ∧
        a.name = b.name ∧ a.child = b.child ∧ a.sibling = b.sibling := by
    intro q
    by_cases hq : q = p
    · subst hq
      exact Or.inr ⟨n, m, hd, deref_store_same h q n m hd, h1, h2, h3⟩
    · exact Or.inl (deref_store_other h p q m hp hq).symm
  unfold find_inode
  by_cases hr : root = 0
  · simp [hr]
  · by_cases hpath : path = [] ∨ path = ['/']
    · simp [hr, hpath]
    · simp only [hr, if_false, hpath]
      rcases hs root with he | ⟨a, b, ha, hb, _, hc, _⟩
      · rw [← he]
        cases deref h root with
        | fault e => rfl
        | ok r => exact find_inode_loop_congr h _ hs fuel r.child path
      · rw [ha, hb]
        show find_inode_loop h fuel a.child path = find_inode_loop (store h p m) fuel b.child path
        rw [hc]
        exact find_inode_loop_congr h _ hs fuel b.child path

theorem store_store (h : List inode) (p : Nat) (a b : inode) :
    store (store h p a) p b = store h p b := by
  unfold store
  simp

theorem open_existing_without_content (provider : List Char → emscripten_fetch_t)
    (fuel : Nat) (s : FS) (pathname : List Char) (flags mode root : Nat) (s1 : FS)
    (node : Nat) (n : inode)
    (hflags : open_flag_checks flags = none)
    (hlen1 : pathname.length ≤ MAX_PATHNAME_LENGTH) (hlen0 : pathname.length ≠ 0)
    (hroot : path_root s pathname = .ok (root, s1))
    (hfind : find_inode s1.heap fuel root (path_rel pathname) = .ok node)
    (hnode : node ≠ 0) (hn : deref s1.heap node = .ok n)
    (hchecks : open_checks n flags = none)
    (hc1 : flags &&& O_CREAT = 0) (hc2 : flags &&& O_TRUNC = 0) (hc3 : flags &&& O_EXCL = 0)
    (hfetch : n.fetch = none) (hdata : n.data = none)
    (hfile : n.type = INODE_FILE)
    (hdir : flags &&& O_DIRECTORY = 0) (hacc : flags &&& O_ACCMODE ≠ O_WRONLY) :
    __syscall5 provider fuel s pathname flags mode
      = if (provider pathname).status ≠ 200 ∨ (provider pathname).totalBytes = 0 then
          .ok (-ENOENT, s1)
        else
          (emscripten_dump_fs_root fuel
            { s1 with heap := store s1.heap node { n with fetch := some (provider pathname), size := (provider pathname).totalBytes % 4294967296 } }).bind
            (fun s2 => open_finish s2 node flags mode) := by
  have hlen1' : ¬ pathname.length > MAX_PATHNAME_LENGTH := by omega
  have hcreate : ¬ (flags &&& O_CREAT ≠ 0 ∨ flags &&& O_TRUNC ≠ 0 ∨ flags &&& O_EXCL ≠ 0) := by
    simp [hc1, hc2, hc3]
  have hwanted : flags &&& O_DIRECTORY = 0 ∧ flags &&& O_ACCMODE ≠ O_WRONLY := ⟨hdir, hacc⟩
  have hfetchres : open_fetch provider fuel s1 root node pathname (path_rel pathname) flags mode
      = if (provider pathname).status ≠ 200 ∨ (provider pathname).totalBytes = 0 then
          .ok (.error ENOENT)
        else
          (emscripten_dump_fs_root fuel
            { s1 with heap := store s1.heap node { n with fetch := some (provider pathname), size := (provider pathname).totalBytes % 4294967296 } }).bind
            (fun s2 => .ok (.ok (node, s2))) := by
    unfold open_fetch
    simp only [hwanted, and_self, if_true, Option.any_some, Bool.or_eq_true, bne_iff_ne, ne_eq,
      beq_iff_eq, hnode, not_false_eq_true, hn, hfile]
    by_cases hnf : (provider pathname).status ≠ 200 ∨ (provider pathname).totalBytes = 0
    · simp only [ne_eq] at hnf
      simp only [hnf, if_true, ne_eq]
    · simp only [ne_eq] at hnf
      simp only [hnf, if_false, ne_eq,
        deref_store_same s1.heap node n _ hn]
      rw [store_store]
      generalize emscripten_dump_fs_root fuel _ = d
      cases d <;> rfl
  unfold __syscall5
  simp only [hflags, hlen1', if_false, hlen0, hroot, hfind, hnode, hn, Option.some_bind, hchecks,
    hcreate, Option.all_some, hfetch, hdata, Option.isNone_none, Bool.and_self, if_true, hfetchres]
  by_cases hnf : (provider pathname).status ≠ 200 ∨ (provider pathname).totalBytes = 0
  · simp only [hnf, if_true]
  · simp only [hnf, if_false]
    generalize emscripten_dump_fs_root fuel _ = d
    cases d <;> rfl

/-- C11 (the code at the failing input): after `mkdir("/a")` the path `/a`
resolves to cell 2; a second `mkdir("/a", 0777)` does not return `-EEXIST`:
`find_parent_inode` returns cell 2 itself as the parent, `a` has no child named
`a`, so the existence check passes, a new directory inode is created and
`link_inode` is called with cell 2 as the parent.  Its diagnostic call of
`inode_abspath` stores past `parentName` for this parent, which is not the
root; the statements after it link the new cell `a` (cell 3) under cell 2. -/
theorem mkdir_existing_single_component :
    __syscall39 10 FS.init "/a".toList 0o777 = .ok (0, treeA)
    ∧ find_inode_path treeA 10 "/a".toList = .ok (2, treeA)
    ∧ find_parent_inode treeA.heap 10 1 "a".toList = .ok 2
    ∧ find_inode treeA.heap 10 2 "a".toList = .ok 0
    ∧ __syscall39 10 treeA "/a".toList 0o777 = .fault .bufferOverflow
    ∧ link_inode_parent_name treeA 2 = .fault .bufferOverflow
    ∧ link_inode_publish (treeA.heap ++ [cell "a".toList 0 0 0 INODE_DIR 0o777]) 3 2
        = .ok treeAA.heap
    ∧ linksOf treeA = [([], 0, 0, 2), ("a".toList, 1, 0, 0)]
    ∧ linksOf treeAA = [([], 0, 0, 2), ("a".toList, 1, 0, 3), ("a".toList, 2, 0, 0)] := by
  decide!

/-- C12 (the code at the failing input): in a fresh process, where the root
has no child `x`, `find_parent_inode(root, "x/b")` returns the root, not null,
and `mkdir("/x/b", 0777)` returns 0 and links a directory `b` under the root. -/
theorem mkdir_missing_intermediate :
    find_parent_inode rootOnly.heap 10 1 "x/b".toList = .ok 1
    ∧ linksOf rootOnly = [([], 0, 0, 0)]
    ∧ __syscall39 10 rootOnly "/x/b".toList 0o777 = .ok (0, treeXB)
    ∧ linksOf treeXB = [([], 0, 0, 2), ("b".toList, 1, 0, 0)] := by
  decide!

set_option maxHeartbeats 4000000 in
/-- C15 (counterexample): after `mkdir("/a", 0777)` the path `/a` resolves to
a directory; `unlink("/a")` returns 0, not `-EISDIR`, and the directory is no
longer linked: `/a` does not resolve any more. -/
theorem unlink_removes_empty_directory :
    __syscall39 10 FS.init "/a".toList 0o777 = .ok (0, treeA)
    ∧ find_inode_path treeA 10 "/a".toList = .ok (2, treeA)
    ∧ (treeA.heap[1]?).map (fun n => n.type) = some INODE_DIR
    ∧ __syscall10 10 treeA "/a".toList = .ok (0, unlinkedA)
    ∧ find_inode_path unlinkedA 10 "/a".toList = .ok (0, unlinkedA) := by
  decide!

/-- C16 (counterexample): `/f` is a regular file with mode 0444 in the root,
whose mode is 0777; `unlink("/f")` returns `-EPERM`, which is -1, not
`-EACCES`, which is -13, and leaves the state as it was. -/
theorem unlink_read_only_file_eperm :
    __syscall5 notFound 10 FS.init "/f".toList (O_CREAT ||| O_WRONLY) 0o444 = .ok (3, readOnlyF)
    ∧ (readOnlyF.heap[1]?).map (fun n => (n.type, n.mode, n.parent)) = some (INODE_FILE, 0o444, 1)
    ∧ (readOnlyF.heap[0]?).map (fun n => n.mode) = some 0o777
    ∧ __syscall10 10 readOnlyF "/f".toList = .ok (-EPERM, readOnlyF)
    ∧ -EPERM = (-1 : Int) ∧ -EACCES = (-13 : Int) := by
  decide!

/-- C17 (the code at the failing input): after `chmod("/", 0)` the root's mode
is 0; `access("/", R_OK)` returns 0, not `-EACCES`, and leaves the root's mode
at 0777: the lookup goes through `filesystem_root`, which sets the mode of the
root to 0777 on every call. -/
theorem access_root_ignores_chmod :
    __syscall15 10 FS.init "/".toList 0 = .ok (0, chmodRoot)
    ∧ (chmodRoot.heap[0]?).map (fun n => n.mode) = some 0
    ∧ find_inode_path chmodRoot 10 "/".toList = .ok (1, accessedRoot)
    ∧ __syscall33 10 chmodRoot "/".toList R_OK = .ok (0, accessedRoot)
    ∧ (accessedRoot.heap[0]?).map (fun n => n.mode) = some 0o777 := by
  decide!

/-- C18 (the code at the failing input): the root of `dirOpen` has the
children `b` and `a`, and descriptor 3 is at offset 0 on it.  With `count`
280, the size of one record, `sizeof(de)` makes the record limit 280 / 4 = 70,
so one call stores all four records: it overruns a block of 280 bytes, and,
given a block of 2000 bytes, returns 1120 with the records `.`, `..`, `b`,
`a`. -/
theorem getdents_exceeds_count :
    linksOf dirOpen = [([], 0, 0, 3), ("a".toList, 1, 0, 0), ("b".toList, 1, 2, 0)]
    ∧ check_desc dirOpen 3 = .ok (some ⟨EM_FILEDESCRIPTOR_MAGIC, 0, 0, O_RDONLY, 1⟩)
    ∧ __syscall220 10 dirOpen 3 280 280 = .fault .bufferOverflow
    ∧ (__syscall220 10 dirOpen 3 2000 280).bind
        (fun r => .ok (r.1, r.2.1.map (fun e => e.d_name)))
        = .ok (1120, [".".toList, "..".toList, "b".toList, "a".toList]) := by
  decide!

set_option maxHeartbeats 4000000 in
/-- C19 (the code at the failing input): after `mkdir("/a")` and `chdir("/a")`
the current directory is cell 2; `unlink("/a")` returns 0 and takes cell 2 out
of the root's chain, so the current directory is neither the root nor
reachable from it, while `rmdir("/a")` in the same state is refused with
`EBUSY`. -/
theorem unlink_removes_current_directory :
    __syscall12 10 treeA "/a".toList = .ok (0, inA)
    ∧ inA.cwd_inode = 2 ∧ inA.root_node = 1
    ∧ linksOf inA = [([], 0, 0, 2), ("a".toList, 1, 0, 0)]
    ∧ __syscall40 10 inA "/a".toList = .ok (-EBUSY, inA)
    ∧ __syscall10 10 inA "/a".toList = .ok (0, inAGone)
    ∧ inAGone.cwd_inode = 2 ∧ inAGone.root_node = 1
    ∧ linksOf inAGone = [([], 0, 0, 0), ("a".toList, 0, 0, 0)]
    ∧ find_inode_path inAGone 10 "/a".toList = .ok (0, inAGone) := by
  decide!

theorem last_component_is_iff (pathname t : List Char) :
    last_component_is pathname t = true ↔
      pathname = t ∨ ∃ pre, pathname = pre ++ '/' :: t := by
  unfold last_component_is
  simp only [ge_iff_le, Bool.decide_or, Bool.decide_and, Bool.or_eq_true, decide_eq_true_eq,
    Bool.and_eq_true]
  constructor
  · rintro (h | ⟨_, h2⟩)
    · exact Or.inl h
    · refine Or.inr ⟨pathname.take (pathname.length - (t.length + 1)), ?_⟩
      conv_lhs => rw [← List.take_append_drop (pathname.length - (t.length + 1)) pathname]
      rw [h2]
  · rintro (h | ⟨pre, h⟩)
    · exact Or.inl h
    · right
      subst h
      constructor
      · simp
      · have : (pre ++ '/' :: t).length - (t.length + 1) = pre.length := by simp
        rw [this]
        simp

theorem unlink_unfold (fuel : Nat) (s : FS) (pathname : List Char) (node : Nat) (s1 : FS)
    (n : inode)
    (hlen1 : pathname.length ≤ MAX_PATHNAME_LENGTH) (hlen0 : pathname.length ≠ 0)
    (hfind : find_inode_path s fuel pathname = .ok (node, s1))
    (hnode : node ≠ 0) (hn : deref s1.heap node = .ok n)
    (hparent : n.parent = 0 ∨ ∃ p, deref s1.heap n.parent = .ok p ∧ p.mode &&& 0o222 ≠ 0) :
    __syscall10 fuel s pathname
      = if n.mode &&& 0o222 = 0 then
          if n.type = INODE_DIR then .ok (-EISDIR, s1) else .ok (-EPERM, s1)
        else if n.child ≠ 0 then .ok (-EISDIR, s1)
        else match unlink_inode s1.heap fuel node with
          | .fault e => .fault e
          | .ok h1 => .ok (0, { s1 with heap := h1 }) := by
  have hlen1' : ¬ pathname.length > MAX_PATHNAME_LENGTH := by omega
  unfold __syscall10
  simp only [hlen1', if_false, hlen0, hfind, hnode, hn]
  rcases hparent with h0 | ⟨p, hp, hw⟩
  · simp only [h0, if_true, Option.any_none, Bool.false_eq_true, if_false]
  · by_cases h0 : n.parent = 0
    · simp only [h0, if_true, Option.any_none, Bool.false_eq_true, if_false]
    · simp only [h0, if_false, hp, Option.any_some, beq_iff_eq, hw]

/-- C16 (as amended): for a path of valid length that resolves to a node whose
mode has no write permission bit and whose parent is writable, `unlink` fails
with `EPERM` when the node is not a directory and with `EISDIR` when it is a
directory, and leaves the state as the lookup left it, so the node stays
linked. -/
theorem unlink_not_writable (fuel : Nat) (s : FS) (pathname : List Char) (node : Nat) (s1 : FS)
    (n p : inode)
    (hlen1 : pathname.length ≤ MAX_PATHNAME_LENGTH) (hlen0 : pathname.length ≠ 0)
    (hfind : find_inode_path s fuel pathname = .ok (node, s1))
    (hnode : node ≠ 0) (hn : deref s1.heap node = .ok n)
    (hp : deref s1.heap n.parent = .ok p) (hpw : p.mode &&& 0o222 ≠ 0)
    (hm : n.mode &&& 0o222 = 0) :
    (n.type ≠ INODE_DIR → __syscall10 fuel s pathname = .ok (-EPERM, s1))
    ∧ (n.type = INODE_DIR → __syscall10 fuel s pathname = .ok (-EISDIR, s1)) := by
  have hu := unlink_unfold fuel s pathname node s1 n hlen1 hlen0 hfind hnode hn
    (Or.inr ⟨p, hp, hpw⟩)
  constructor
  · intro ht
    rw [hu]
    simp only [hm, if_true, ht, if_false]
  · intro ht
    rw [hu]
    simp only [hm, if_true, ht]

/-- C16, at a concrete file: `/f` in `readOnlyF` is a regular file with mode
0444 in the writable root, and `unlink("/f")` fails with `EPERM`. -/
theorem unlink_not_writable_witness :
    __syscall10 10 readOnlyF "/f".toList = .ok (-EPERM, readOnlyF) :=
  (unlink_not_writable 10 readOnlyF "/f".toList 2 readOnlyF
    (cell "f".toList 1 0 0 INODE_FILE 0o444) (cell [] 0 0 2 INODE_DIR 0o777)
    (by decide) (by decide) (by decide) (by decide) (by decide) (by decide) (by decide)
    (by decide)).1 (by decide)

/-- C14 (as amended): for every non-empty path of at most 2000 bytes, `rmdir`
fails with `EINVAL` when the path is `.` or ends in `/.`, with `ENOTEMPTY`
when it is `..` or ends in `/..`, both whatever the state; otherwise with
`ENOENT` when the path does not resolve; with `EBUSY` when the target is the
root or the current directory; and for any other target under a writable
parent, with `ENOTDIR` when it is not a directory and with `ENOTEMPTY` when it
is a directory with at least one child; under a parent without write bit such
a target fails with `EACCES`.  Every failure leaves the state as the lookups
left it. -/
theorem rmdir_classification (fuel : Nat) (s : FS) (pathname : List Char)
    (hlen1 : pathname.length ≤ MAX_PATHNAME_LENGTH) (hlen0 : pathname.length ≠ 0) :
    ((pathname = ['.'] ∨ ∃ pre, pathname = pre ++ ['/', '.']) →
      __syscall40 fuel s pathname = .ok (-EINVAL, s))
    ∧ ((pathname = ['.', '.'] ∨ ∃ pre, pathname = pre ++ ['/', '.', '.']) →
      __syscall40 fuel s pathname = .ok (-ENOTEMPTY, s))
    ∧ (¬ (pathname = ['.'] ∨ ∃ pre, pathname = pre ++ ['/', '.']) →
       ¬ (pathname = ['.', '.'] ∨ ∃ pre, pathname = pre ++ ['/', '.', '.']) →
       ∀ node s1, find_inode_path s fuel pathname = .ok (node, s1) →
        (node = 0 → __syscall40 fuel s pathname = .ok (-ENOENT, s1))
        ∧ (node ≠ 0 → ∀ root s2, filesystem_root s1 = .ok (root, s2) →
            (node = root → __syscall40 fuel s pathname = .ok (-EBUSY, s2))
            ∧ (node ≠ root → ∀ cwd s3, get_cwd s2 = .ok (cwd, s3) →
                (node = cwd → __syscall40 fuel s pathname = .ok (-EBUSY, s3))
                ∧ (node ≠ cwd → ∀ n p, deref s3.heap node = .ok n → n.parent ≠ 0 →
                    deref s3.heap n.parent = .ok p →
                    (p.mode &&& 0o222 = 0 →
                      __syscall40 fuel s pathname = .ok (-EACCES, s3))
                    ∧ (p.mode &&& 0o222 ≠ 0 → n.type ≠ INODE_DIR →
                      __syscall40 fuel s pathname = .ok (-ENOTDIR, s3))
                    ∧ (p.mode &&& 0o222 ≠ 0 → n.type = INODE_DIR → n.child ≠ 0 →
                      __syscall40 fuel s pathname = .ok (-ENOTEMPTY, s3)))))) := by
  have hlen1' : ¬ pathname.length > MAX_PATHNAME_LENGTH := by omega
  have hdot := last_component_is_iff pathname ['.']
  have hdots := last_component_is_iff pathname ['.', '.']
  refine ⟨?_, ?_, ?_⟩
  · intro h
    unfold __syscall40
    simp only [hlen1', if_false, hlen0, hdot.2 h, if_true]
  · intro h
    have hnd : last_component_is pathname ['.'] = false := by
      rw [← Bool.not_eq_true, hdot]
      rintro (h1 | ⟨pre, h1⟩)
      · rcases h with h2 | ⟨pre2, h2⟩
        · rw [h1] at h2; simp at h2
        · rw [h1] at h2
          have := congrArg List.length h2
          simp at this
      · rcases h with h2 | ⟨pre2, h2⟩
        · rw [h2] at h1
          have h3 := congrArg List.reverse h1
          simp at h3
        · rw [h2] at h1
          have h3 := congrArg List.reverse h1
          simp at h3
    unfold __syscall40
    simp only [hlen1', if_false, hlen0, hnd, hdots.2 h, if_true, Bool.false_eq_true]
  · intro hnd hndd node s1 hfind
    have hnd' : last_component_is pathname ['.'] = false := by
      rw [← Bool.not_eq_true]; exact fun h => hnd (hdot.1 h)
    have hndd' : last_component_is pathname ['.', '.'] = false := by
      rw [← Bool.not_eq_true]; exact fun h => hndd (hdots.1 h)
    have hstart : __syscall40 fuel s pathname
        = if node = 0 then .ok (-ENOENT, s1)
          else match filesystem_root s1 with
            | .fault e => .fault e
            | .ok (root, s2) =>
              if node = root then .ok (-EBUSY, s2)
              else match get_cwd s2 with
                | .fault e => .fault e
                | .ok (cwd, s3) =>
                  if node = cwd then .ok (-EBUSY, s3)
                  else match deref s3.heap node with
                    | .fault e => .fault e
                    | .ok n =>
                      let parent_mode : Run (Option Nat) :=
                        if n.parent = 0 then .ok none
                        else match deref s3.heap n.parent with
                          | .fault e => .fault e
                          | .ok p => .ok (some p.mode)
                      match parent_mode with
                      | .fault e => .fault e
                      | .ok pm =>
                        if pm.any (fun m => m &&& 0o222 == 0) then .ok (-EACCES, s3)
                        else if n.type ≠ INODE_DIR then .ok (-ENOTDIR, s3)
                        else if n.child ≠ 0 then .ok (-ENOTEMPTY, s3)
                        else match unlink_inode s3.heap fuel node with
                          | .fault e => .fault e
                          | .ok h1 => .ok (0, { s3 with heap := h1 }) := by
      unfold __syscall40
      simp only [hlen1', if_false, hlen0, hnd', hndd', hfind, Bool.false_eq_true]
    refine ⟨?_, ?_⟩
    · intro h0
      rw [hstart]
      simp only [h0, if_true]
    · intro h0 root s2 hroot
      refine ⟨?_, ?_⟩
      · intro hr
        subst hr
        rw [hstart]
        simp only [h0, if_false, hroot, if_true]
      · intro hr cwd s3 hcwd
        refine ⟨?_, ?_⟩
        · intro hc
          subst hc
          rw [hstart]
          simp only [h0, if_false, hroot, hr, hcwd, if_true]
        · intro hc n p hn hpar hp
          have hrest : __syscall40 fuel s pathname
              = if p.mode &&& 0o222 = 0 then .ok (-EACCES, s3)
                else if n.type ≠ INODE_DIR then .ok (-ENOTDIR, s3)
                else if n.child ≠ 0 then .ok (-ENOTEMPTY, s3)
                else match unlink_inode s3.heap fuel node with
                  | .fault e => .fault e
                  | .ok h1 => .ok (0, { s3 with heap := h1 }) := by
            rw [hstart]
            simp only [h0, if_false, hroot, hr, hcwd, hc, hn, hpar, hp, Option.any_some,
              beq_iff_eq]
          refine ⟨?_, ?_, ?_⟩
          · intro hm
            rw [hrest]
            simp only [hm, if_true]
          · intro hm ht
            rw [hrest]
            simp only [hm, if_false, ht, ne_eq, not_false_eq_true, if_true]
          · intro hm ht hch
            rw [hrest]
            simp only [hm, if_false, ht, ne_eq, not_true_eq_false, hch, not_false_eq_true,
              if_true]

/-- Each example state is what the named call leaves behind, starting from a
fresh process. -/
theorem example_states_reached :
    treeA = stateOf (__syscall39 10 FS.init "/a".toList 0o777)
    ∧ rootOnly = stateOf (__syscall5 notFound 10 FS.init "/f".toList O_RDONLY 0o644)
    ∧ createdF = stateOf (__syscall5 notFound 10 rootOnly "/f".toList (O_CREAT ||| O_RDWR) 0o644)
    ∧ wrote8 = stateOf (__syscall146 stale createdF 3 [⟨some [1, 2, 3, 4, 5, 6, 7, 8], 8⟩] 1)
    ∧ wrote9 = stateOf (__syscall146 stale wrote8 3 [⟨some [9], 1⟩] 1)
    ∧ wrote10 = stateOf (__syscall146 stale wrote9 3 [⟨some [10], 1⟩] 1)
    ∧ reopened8 = stateOf (__syscall5 notFound 10 wrote8 "/f".toList O_RDONLY 0o644)
    ∧ openedH = stateOf (__syscall5 serveHello 10 FS.init "/h".toList O_RDWR 0o644)
    ∧ openedTwice = stateOf (__syscall5 serveHello 10 openedH "/h".toList O_RDONLY 0o644)
    ∧ closedFirst = stateOf (__syscall6 openedTwice 3)
    ∧ closedH = stateOf (__syscall6 openedH 3)
    ∧ seekH4 = stateOf3 (__syscall140 openedH 3 0 4 false SEEK_SET)
    ∧ bangH = stateOf (__syscall146 stale seekH4 3 [⟨some [33], 1⟩] 1)
    ∧ seekH0 = stateOf3 (__syscall140 bangH 3 0 0 false SEEK_SET)
    ∧ grownH = stateOf (__syscall146 stale openedH 3 [⟨some [0, 1, 2, 3, 4, 5, 6, 7, 8, 9], 10⟩] 1)
    ∧ treeXB = stateOf (__syscall39 10 FS.init "/x/b".toList 0o777)
    ∧ treeAB = stateOf (__syscall39 10 treeA "/b".toList 0o777)
    ∧ dirOpen = { treeAB with fds := [⟨EM_FILEDESCRIPTOR_MAGIC, 0, 0, O_RDONLY, 1⟩] }
    ∧ unlinkedA = stateOf (__syscall10 10 treeA "/a".toList)
    ∧ readOnlyF = stateOf (__syscall5 notFound 10 FS.init "/f".toList (O_CREAT ||| O_WRONLY) 0o444)
    ∧ chmodRoot = stateOf (__syscall15 10 FS.init "/".toList 0)
    ∧ accessedRoot = stateOf (__syscall33 10 chmodRoot "/".toList R_OK)
    ∧ inA = stateOf (__syscall12 10 treeA "/a".toList)
    ∧ inAGone = stateOf (__syscall10 10 inA "/a".toList)
    ∧ treeAbcRO = stateOf (__syscall15 10 treeAbc "/a".toList 0o555) := by
  repeat' apply And.intro
  all_goals decide!

/-- C14, at a concrete tree: in `treeAbc` the directory `/a/b` has the child
`c` and a writable parent, and `rmdir("/a/b")` fails with `ENOTEMPTY`; the
only change to the state is that the current directory is initialised. -/
theorem rmdir_classification_witness :
    __syscall40 10 treeAbc "/a/b".toList = .ok (-ENOTEMPTY, { treeAbc with cwd_inode := 1 }) :=
  ((((((rmdir_classification 10 treeAbc "/a/b".toList (by decide) (by decide)).2.2
    (fun h => absurd ((last_component_is_iff _ _).2 h) (by decide))
    (fun h => absurd ((last_component_is_iff _ _).2 h) (by decide))
    3 treeAbc (by decide)).2 (by decide) 1 treeAbc (by decide)).2 (by decide)
    1 { treeAbc with cwd_inode := 1 } (by decide)).2 (by decide)
    (cell "b".toList 2 0 4 INODE_DIR 0o777) (cell "a".toList 1 0 3 INODE_DIR 0o777)
    (by decide) (by decide) (by decide)).2.2) (by decide) (by decide) (by decide)

/-- C14 (counterexample): in `treeAbcRO` the path `/a/b` resolves to cell 3, a
directory that has the child `c` and is neither the root nor the current
directory, under the parent `/a` with mode 0555; `rmdir("/a/b")` fails with
`EACCES`, not with `ENOTEMPTY`. -/
theorem rmdir_nonempty_under_read_only_parent :
    __syscall15 10 treeAbc "/a".toList 0o555 = .ok (0, treeAbcRO)
    ∧ find_inode_path treeAbcRO 10 "/a/b".toList = .ok (3, treeAbcRO)
    ∧ (treeAbcRO.heap[2]?).map (fun n => (n.type, n.parent, n.child)) = some (INODE_DIR, 2, 4)
    ∧ (treeAbcRO.heap[1]?).map (fun n => n.mode) = some 0o555
    ∧ treeAbcRO.root_node = 1 ∧ treeAbcRO.cwd_inode = 0
    ∧ __syscall40 10 treeAbcRO "/a/b".toList
        = .ok (-EACCES, { treeAbcRO with cwd_inode := 1 })
    ∧ -EACCES ≠ -ENOTEMPTY := by
  decide!

theorem sameData_refl (a : inode) : sameData a a := rfl

theorem sameData_trans (a b c : inode) (h1 : sameData a b) (h2 : sameData b c) :
    sameData a c := by
  unfold sameData at *
  rw [h2, h1]

theorem sameData_eq (a b : inode) (h : sameData a b) (hp : b.parent = a.parent)
    (hs : b.sibling = a.sibling) (hc : b.child = a.child) : b = a := by
  unfold sameData at h
  rw [h, hp, hs, hc]

theorem isChain_congr (h g : List inode) :
    ∀ (l : List Nat) (first : Nat),
      (∀ c ∈ l, ∀ a, deref h c = .ok a → ∃ b, deref g c = .ok b ∧ b.sibling = a.sibling) →
      isChain h first l → isChain g first l := by
  intro l
  induction l with
  | nil => intro first _ hc; exact hc
  | cons c l ih =>
    intro first hs hc
    obtain ⟨hf, n, hn, hrest⟩ := hc
    obtain ⟨b, hb, hbs⟩ := hs c (by simp) n hn
    refine ⟨hf, b, hb, ?_⟩
    rw [hbs]
    exact ih n.sibling (fun c hc => hs c (List.mem_cons_of_mem _ hc)) hrest

theorem isChain_unique (h : List inode) :
    ∀ (l1 l2 : List Nat) (first : Nat), isChain h first l1 → isChain h first l2 → l1 = l2 := by
  intro l1
  induction l1 with
  | nil =>
    intro l2 first h1 h2
    cases l2 with
    | nil => rfl
    | cons c l =>
      obtain ⟨hf, n, hn, _⟩ := h2
      have h0 : first = 0 := h1
      have := (deref_inv h c n hn).1
      omega
  | cons c l ih =>
    intro l2 first h1 h2
    obtain ⟨hf, n, hn, hrest⟩ := h1
    cases l2 with
    | nil =>
      have h0 : first = 0 := h2
      have := (deref_inv h c n hn).1
      omega
    | cons c2 l2 =>
      obtain ⟨hf2, n2, hn2, hrest2⟩ := h2
      have hc : c = c2 := by omega
      subst hc
      rw [hn] at hn2
      cases hn2
      rw [ih l2 n.sibling hrest hrest2]

theorem isChain_valid (h : List inode) :
    ∀ (l : List Nat) (first : Nat), isChain h first l → ∀ c ∈ l, ∃ n, deref h c = .ok n := by
  intro l
  induction l with
  | nil => intro first _ c hc; simp at hc
  | cons a l ih =>
    intro first hch c hc
    obtain ⟨_, n, hn, hrest⟩ := hch
    rcases List.mem_cons.1 hc with rfl | hm
    · exact ⟨n, hn⟩
    · exact ih n.sibling hrest c hm

theorem find_predecessor_loop_spec (h : List inode) (x pred : Nat) (post : List Nat)
    (hx : x ≠ 0) :
    ∀ (pre : List Nat) (cur fuel : Nat),
      isChain h cur (pre ++ pred :: x :: post) → x ∉ pre → pred ≠ x → pre.length ≤ fuel →
      find_predecessor_loop h x fuel cur = .ok pred := by
  intro pre
  induction pre with
  | nil =>
    intro cur fuel hc _ hpx _
    obtain ⟨hf, q, hq, hrest⟩ := hc
    obtain ⟨hs, _⟩ := hrest
    subst hf
    have h0 := (deref_inv h cur q hq).1
    unfold find_predecessor_loop
    simp [h0, hq, hs, hx]
  | cons a pre ih =>
    intro cur fuel hc hxp hpx hfuel
    obtain ⟨hf, q, hq, hrest⟩ := hc
    subst hf
    have h0 := (deref_inv h cur q hq).1
    have hne : q.sibling ≠ x := by
      intro e
      cases pre with
      | nil =>
        obtain ⟨hs, _⟩ := hrest
        exact hpx (by omega)
      | cons b pre2 =>
        obtain ⟨hs, _⟩ := hrest
        exact hxp (List.mem_cons_of_mem _ (List.mem_cons.2 (Or.inl (by omega))))
    obtain ⟨f, rfl⟩ : ∃ f, fuel = f + 1 := ⟨fuel - 1, by simp at hfuel; omega⟩
    unfold find_predecessor_loop
    simp only [h0, if_false, hq, hne]
    exact ih q.sibling f hrest (fun e => hxp (List.mem_cons_of_mem _ e)) hpx
      (by simp at hfuel; omega)

theorem isChain_splice (h g : List inode) (x pred : Nat) (post : List Nat) (n q : inode)
    (hn : deref h x = .ok n) (hq : deref h pred = .ok q)
    (hg : ∀ c, c ≠ pred → c ≠ x → deref g c = deref h c)
    (hgp : deref g pred = .ok { q with sibling := n.sibling }) :
    ∀ (pre : List Nat) (cur : Nat),
      isChain h cur (pre ++ pred :: x :: post) → (pre ++ pred :: x :: post).Nodup →
      isChain g cur (pre ++ pred :: post) := by
  intro pre
  induction pre with
  | nil =>
    intro cur hc hnd
    obtain ⟨hf, q2, hq2, hrest⟩ := hc
    obtain ⟨hs, n2, hn2, hpost⟩ := hrest
    rw [hq] at hq2
    cases hq2
    rw [hn] at hn2
    cases hn2
    refine ⟨hf, _, hgp, ?_⟩
    simp only [List.nil_append, List.nodup_cons, List.mem_cons, not_or] at hnd
    refine isChain_congr h g post n.sibling ?_ hpost
    intro c hc a ha
    have h1 : c ≠ pred := fun e => hnd.1.2 (e ▸ hc)
    have h2 : c ≠ x := fun e => hnd.2.1 (e ▸ hc)
    exact ⟨a, by rw [hg c h1 h2]; exact ha, rfl⟩
  | cons a pre ih =>
    intro cur hc hnd
    obtain ⟨hf, m, hm, hrest⟩ := hc
    simp only [List.cons_append, List.nodup_cons, List.mem_append, List.mem_cons, not_or] at hnd
    have h1 : a ≠ pred := fun e => hnd.1.2.1 e
    have h2 : a ≠ x := fun e => hnd.1.2.2.1 e
    refine ⟨hf, m, by rw [hg a h1 h2]; exact hm, ?_⟩
    exact ih m.sibling hrest hnd.2

theorem store_length (h : List inode) (p : Nat) (m : inode) :
    (store h p m).length = h.length := by
  simp [store]

theorem mem_split_pred (x : Nat) (l : List Nat) (hx : x ∈ l) (hnd : l.Nodup)
    (hh : l.head? ≠ some x) :
    ∃ pre pred post, l = pre ++ pred :: x :: post ∧ x ∉ pre ∧ pred ≠ x := by
  obtain ⟨s, t, rfl⟩ := List.append_of_mem hx
  rcases List.eq_nil_or_concat s with rfl | ⟨pre, pred, hs⟩
  · simp at hh
  · rw [List.concat_eq_append] at hs
    subst hs
    refine ⟨pre, pred, t, by simp, ?_, ?_⟩
    · intro hm
      have := (List.nodup_append.1 hnd).2.2
      exact this (List.mem_append_left _ hm) (List.mem_cons_self _ _) 
    · intro e
      have := (List.nodup_append.1 hnd).2.2
      exact this (by simp [e]) (List.mem_cons_self _ _)

theorem unlink_inode_spec (h : List inode) (fuel x p : Nat) (n pc : inode) (l : List Nat)
    (hn : deref h x = .ok n) (hp : n.parent = p) (hpc : deref h p = .ok pc)
    (hch : isChain h pc.child l) (hnd : l.Nodup) (hpl : p ∉ l) (hxl : x ∈ l)
    (hfuel : l.length ≤ fuel) :
    ∃ g, unlink_inode h fuel x = .ok g ∧ g.length = h.length
      ∧ (∀ q, q ≠ p → q ∉ l → deref g q = deref h q)
      ∧ (∀ q a, deref h q = .ok a → ∃ b, deref g q = .ok b ∧ sameData a b
          ∧ (q ≠ p → b.child = a.child) ∧ (q ≠ x → b.parent = a.parent)
          ∧ (q ∉ l → b.sibling = a.sibling))
      ∧ (∃ b, deref g x = .ok b ∧ b.parent = 0 ∧ b.sibling = 0)
      ∧ (∃ pc2, deref g p = .ok pc2 ∧ isChain g pc2.child (l.erase x)) := by
  have hx0 : x ≠ 0 := (deref_inv h x n hn).1
  have hp0 : p ≠ 0 := (deref_inv h p pc hpc).1
  have hxp : x ≠ p := fun e => hpl (e ▸ hxl)
  have hpx : p ≠ x := fun e => hxp e.symm
  have hp0' : ¬ n.parent = 0 := by rw [hp]; exact hp0
  have hn1 : deref (store h x { n with parent := 0 }) x = .ok { n with parent := 0 } :=
    deref_store_same h x n _ hn
  have hpc1 : deref (store h x { n with parent := 0 }) p = .ok pc := by
    rw [deref_store_other h x p _ hx0 hpx]; exact hpc
  by_cases hcx : pc.child = x
  · -- the node is the first child
    have hres : unlink_inode h fuel x
        = .ok (store (store (store h x { n with parent := 0 }) p { pc with child := n.sibling })
            x { n with parent := 0, sibling := 0 }) := by
      have hn2 : deref (store (store h x { n with parent := 0 }) p { pc with child := n.sibling }) x
          = .ok { n with parent := 0 } := by
        rw [deref_store_other _ p x _ hp0 hxp]; exact hn1
      unfold unlink_inode
      simp only [hn, hp0', hp0, if_false, hp, hpc1, hcx, if_true, hn2]
    have hgx : deref (store (store (store h x { n with parent := 0 }) p
        { pc with child := n.sibling }) x { n with parent := 0, sibling := 0 }) x
        = .ok { n with parent := 0, sibling := 0 } := by
      apply deref_store_same _ x { n with parent := 0 }
      rw [deref_store_other _ p x _ hp0 hxp]; exact hn1
    have hgp : deref (store (store (store h x { n with parent := 0 }) p
        { pc with child := n.sibling }) x { n with parent := 0, sibling := 0 }) p
        = .ok { pc with child := n.sibling } := by
      rw [deref_store_other _ x p _ hx0 hpx]
      exact deref_store_same _ p pc _ hpc1
    have hgo : ∀ q, q ≠ p → q ≠ x → deref (store (store (store h x { n with parent := 0 }) p
        { pc with child := n.sibling }) x { n with parent := 0, sibling := 0 }) q
        = deref h q := by
      intro q hq1 hq2
      rw [deref_store_other _ x q _ hx0 hq2, deref_store_other _ p q _ hp0 hq1,
        deref_store_other _ x q _ hx0 hq2]
    refine ⟨_, hres, by simp [store_length], ?_, ?_, ⟨_, hgx, rfl, rfl⟩, ?_⟩
    · intro q hq1 hq2
      exact hgo q hq1 (fun e => hq2 (e ▸ hxl))
    · intro q a ha
      by_cases hqx : q = x
      · subst hqx
        rw [hn] at ha; cases ha
        exact ⟨_, hgx, rfl, fun _ => rfl, fun e => absurd rfl e, fun e => absurd hxl e⟩
      · by_cases hqp : q = p
        · subst hqp
          rw [hpc] at ha; cases ha
          exact ⟨_, hgp, rfl, fun e => absurd rfl e, fun _ => rfl, fun _ => rfl⟩
        · exact ⟨a, by rw [hgo q hqp hqx]; exact ha, rfl, fun _ => rfl, fun _ => rfl,
            fun _ => rfl⟩
    · refine ⟨_, hgp, ?_⟩
      cases l with
      | nil => simp at hxl
      | cons c l0 =>
        obtain ⟨hf, n2, hn2, hrest⟩ := hch
        have hc : c = x := by omega
        subst hc
        rw [hn] at hn2; cases hn2
        simp only [List.erase_cons_head]
        simp only [List.nodup_cons] at hnd
        refine isChain_congr h _ l0 n.sibling ?_ hrest
        intro q hq a ha
        have h1 : q ≠ c := fun e => hnd.1 (e ▸ hq)
        have h2 : q ≠ p := fun e => hpl (e ▸ List.mem_cons_of_mem _ hq)
        exact ⟨a, by rw [hgo q h2 h1]; exact ha, rfl⟩
  · -- the node has a predecessor in the list
    have hhead : l.head? ≠ some x := by
      cases l with
      | nil => simp
      | cons c l0 =>
        obtain ⟨hf, _⟩ := hch
        simp only [List.head?_cons, ne_eq, Option.some.injEq]
        omega
    obtain ⟨pre, pred, post, hl, hxpre, hpredx⟩ := mem_split_pred x l hxl hnd hhead
    subst hl
    have hpredl : pred ∈ pre ++ pred :: x :: post := by simp
    obtain ⟨q, hq⟩ := isChain_valid h _ _ hch pred hpredl
    have hpred0 : pred ≠ 0 := (deref_inv h pred q hq).1
    have hpredp : pred ≠ p := fun e => hpl (e ▸ hpredl)
    have hch1 : isChain (store h x { n with parent := 0 }) pc.child (pre ++ pred :: x :: post) := by
      refine isChain_congr h _ _ pc.child ?_ hch
      intro c _ a ha
      by_cases hcx2 : c = x
      · subst hcx2
        rw [hn] at ha; cases ha
        exact ⟨_, hn1, rfl⟩
      · exact ⟨a, by rw [deref_store_other h x c _ hx0 hcx2]; exact ha, rfl⟩
    have hloop : find_predecessor_loop (store h x { n with parent := 0 }) x fuel pc.child
        = .ok pred :=
      find_predecessor_loop_spec _ x pred post hx0 pre pc.child fuel hch1 hxpre hpredx
        (by simp at hfuel; omega)
    have hq1 : deref (store h x { n with parent := 0 }) pred = .ok q := by
      rw [deref_store_other h x pred _ hx0 hpredx]; exact hq
    have hn2 : deref (store (store h x { n with parent := 0 }) pred
        { q with sibling := n.sibling }) x = .ok { n with parent := 0 } := by
      rw [deref_store_other _ pred x _ hpred0 (fun e => hpredx e.symm)]; exact hn1
    have hres : unlink_inode h fuel x
        = .ok (store (store (store h x { n with parent := 0 }) pred
            { q with sibling := n.sibling }) x { n with parent := 0, sibling := 0 }) := by
      unfold unlink_inode find_predecessor_sibling
      simp only [hn, hp0', hp0, if_false, hp, hpc1, hcx, hloop, hpred0, hq1, hn2]
    have hgx : deref (store (store (store h x { n with parent := 0 }) pred
        { q with sibling := n.sibling }) x { n with parent := 0, sibling := 0 }) x
        = .ok { n with parent := 0, sibling := 0 } :=
      deref_store_same _ x { n with parent := 0 } _ hn2
    have hgpred : deref (store (store (store h x { n with parent := 0 }) pred
        { q with sibling := n.sibling }) x { n with parent := 0, sibling := 0 }) pred
        = .ok { q with sibling := n.sibling } := by
      rw [deref_store_other _ x pred _ hx0 hpredx]
      exact deref_store_same _ pred q _ hq1
    have hgo : ∀ c, c ≠ pred → c ≠ x → deref (store (store (store h x { n with parent := 0 }) pred
        { q with sibling := n.sibling }) x { n with parent := 0, sibling := 0 }) c
        = deref h c := by
      intro c hc1 hc2
      rw [deref_store_other _ x c _ hx0 hc2, deref_store_other _ pred c _ hpred0 hc1,
        deref_store_other _ x c _ hx0 hc2]
    refine ⟨_, hres, by simp [store_length], ?_, ?_, ⟨_, hgx, rfl, rfl⟩, ?_⟩
    · intro c hc1 hc2
      exact hgo c (fun e => hc2 (e ▸ hpredl)) (fun e => hc2 (e ▸ hxl))
    · intro c a ha
      by_cases hcx2 : c = x
      · subst hcx2
        rw [hn] at ha; cases ha
        exact ⟨_, hgx, rfl, fun _ => rfl, fun e => absurd rfl e, fun e => absurd hxl e⟩
      · by_cases hcp : c = pred
        · subst hcp
          rw [hq] at ha; cases ha
          exact ⟨_, hgpred, rfl, fun _ => rfl, fun _ => rfl, fun e => absurd hpredl e⟩
        · exact ⟨a, by rw [hgo c hcp hcx2]; exact ha, rfl, fun _ => rfl, fun _ => rfl,
            fun _ => rfl⟩
    · refine ⟨pc, by rw [hgo p (fun e => hpredp e.symm) hpx]; exact hpc, ?_⟩
      have he : (pre ++ pred :: x :: post).erase x = pre ++ pred :: post := by
        rw [List.erase_append_right _ hxpre]
        simp [List.erase_cons, hpredx]
      rw [he]
      exact isChain_splice h _ x pred post n q hn hq hgo hgpred pre pc.child hch hnd

theorem rep_cons_iff (h : List inode) (first parent id : Nat) (name : List Char)
    (kids rest : Chain) :
    rep h first parent (.cons id name kids rest) = true ↔
      first = id ∧ ∃ n, deref h id = .ok n ∧ n.name = name ∧ n.parent = parent ∧
        rep h n.child id kids = true ∧ rep h n.sibling parent rest = true := by
  constructor
  · intro hrep
    simp only [rep, Bool.and_eq_true, beq_iff_eq, bne_iff_ne] at hrep
    obtain ⟨⟨hf, hid⟩, hm⟩ := hrep
    cases hg : h[id - 1]? with
    | none => simp [hg] at hm
    | some n =>
      simp only [hg, Bool.and_eq_true, beq_iff_eq] at hm
      obtain ⟨⟨⟨h1, h2⟩, h3⟩, h4⟩ := hm
      exact ⟨hf, n, deref_of_get h id n hid hg, h1, h2, h3, h4⟩
  · rintro ⟨hf, n, hn, h1, h2, h3, h4⟩
    obtain ⟨hid, hg⟩ := deref_inv h id n hn
    simp only [rep, Bool.and_eq_true, beq_iff_eq, bne_iff_ne]
    refine ⟨⟨hf, hid⟩, ?_⟩
    simp only [hg, Bool.and_eq_true, beq_iff_eq]
    exact ⟨⟨⟨h1, h2⟩, h3⟩, h4⟩

theorem rep_nil_iff (h : List inode) (first parent : Nat) :
    rep h first parent .nil = true ↔ first = 0 := by
  simp [rep]

theorem rep_congr (h g : List inode) (c : Chain) :
    ∀ (first parent : Nat),
      (∀ q ∈ c.ids, ∀ a, deref h q = .ok a → ∃ b, deref g q = .ok b ∧ b.name = a.name ∧
        b.parent = a.parent ∧ b.sibling = a.sibling ∧ b.child = a.child) →
      rep h first parent c = true → rep g first parent c = true := by
  induction c with
  | nil => intro first parent _ hrep; simpa [rep] using hrep
  | cons id name kids rest ihk ihr =>
    intro first parent hs hrep
    obtain ⟨hf, n, hn, h1, h2, h3, h4⟩ := (rep_cons_iff h first parent id name kids rest).1 hrep
    obtain ⟨b, hb, hb1, hb2, hb3, hb4⟩ := hs id (by simp [Chain.ids]) n hn
    refine (rep_cons_iff g first parent id name kids rest).2
      ⟨hf, b, hb, by rw [hb1, h1], by rw [hb2, h2], ?_, ?_⟩
    · rw [hb4]
      exact ihk n.child id (fun q hq => hs q (by simp [Chain.ids, hq])) h3
    · rw [hb3]
      exact ihr n.sibling parent (fun q hq => hs q (by simp [Chain.ids, hq])) h4

theorem rep_frame (h g : List inode) (c : Chain) (first parent : Nat)
    (hs : ∀ q ∈ c.ids, deref g q = deref h q)
    (hrep : rep h first parent c = true) : rep g first parent c = true := by
  refine rep_congr h g c first parent ?_ hrep
  intro q hq a ha
  exact ⟨a, by rw [hs q hq]; exact ha, rfl, rfl, rfl, rfl⟩

theorem topIds_sublist_ids (c : Chain) : c.topIds.Sublist c.ids := by
  induction c with
  | nil => exact List.Sublist.refl _
  | cons id name kids rest _ ihr =>
    simp only [Chain.topIds, Chain.ids]
    exact List.Sublist.cons₂ _ (ihr.trans (List.sublist_append_right _ _))

theorem topIds_length_le (c : Chain) : c.topIds.length ≤ c.size := by
  induction c with
  | nil => simp [Chain.topIds, Chain.size]
  | cons id name kids rest _ ihr =>
    simp only [Chain.topIds, Chain.size, List.length_cons]
    omega

theorem rep_isChain (h : List inode) (c : Chain) :
    ∀ (first parent : Nat), rep h first parent c = true → isChain h first c.topIds := by
  induction c with
  | nil => intro first parent hrep; simpa [rep, isChain, Chain.topIds] using hrep
  | cons id name kids rest _ ihr =>
    intro first parent hrep
    obtain ⟨hf, n, hn, _, _, _, h4⟩ := (rep_cons_iff h first parent id name kids rest).1 hrep
    exact ⟨hf, n, hn, ihr n.sibling parent h4⟩

theorem rep_entries (h : List inode) (c : Chain) :
    ∀ (first parent : Nat), rep h first parent c = true →
      ∀ e ∈ c.entries, ∃ a, deref h e.1 = .ok a ∧ a.name = e.2.1 ∧ a.parent = parent ∧
        rep h a.child e.1 e.2.2 = true := by
  induction c with
  | nil => intro first parent _ e he; simp [Chain.entries] at he
  | cons id name kids rest _ ihr =>
    intro first parent hrep e he
    obtain ⟨hf, n, hn, h1, h2, h3, h4⟩ := (rep_cons_iff h first parent id name kids rest).1 hrep
    simp only [Chain.entries, List.mem_cons] at he
    rcases he with rfl | he
    · exact ⟨n, hn, h1, h2, h3⟩
    · exact ihr n.sibling parent h4 e he

theorem rep_of_isChain (g : List inode) (parent : Nat) (c : Chain) :
    ∀ (first : Nat), isChain g first c.topIds →
      (∀ e ∈ c.entries, ∃ b, deref g e.1 = .ok b ∧ b.name = e.2.1 ∧ b.parent = parent ∧
        rep g b.child e.1 e.2.2 = true) →
      rep g first parent c = true := by
  induction c with
  | nil => intro first hch _; simpa [rep, isChain, Chain.topIds] using hch
  | cons id name kids rest _ ihr =>
    intro first hch he
    obtain ⟨hf, n, hn, hrest⟩ := hch
    obtain ⟨b, hb, hb1, hb2, hb3⟩ := he (id, name, kids) (by simp [Chain.entries])
    rw [hn] at hb
    cases hb
    refine (rep_cons_iff g first parent id name kids rest).2 ⟨hf, n, hn, hb1, hb2, hb3, ?_⟩
    exact ihr n.sibling hrest (fun e hm => he e (by simp [Chain.entries, hm]))

theorem topIds_eraseId (c : Chain) (x : Nat) : (c.eraseId x).topIds = c.topIds.erase x := by
  induction c with
  | nil => simp [Chain.eraseId, Chain.topIds]
  | cons id name kids rest _ ihr =>
    by_cases hx : id = x
    · subst hx
      simp [Chain.eraseId, Chain.topIds]
    · simp [Chain.eraseId, Chain.topIds, hx, ihr, List.erase_cons]

theorem entries_topIds (c : Chain) : ∀ e ∈ c.entries, e.1 ∈ c.topIds := by
  induction c with
  | nil => intro e he; simp [Chain.entries] at he
  | cons id name kids rest _ ihr =>
    intro e he
    simp only [Chain.entries, List.mem_cons] at he
    rcases he with rfl | he
    · simp [Chain.topIds]
    · simp [Chain.topIds, ihr e he]

theorem entries_eraseId (c : Chain) (x : Nat) (hnd : c.topIds.Nodup) :
    ∀ e ∈ (c.eraseId x).entries, e ∈ c.entries ∧ e.1 ≠ x := by
  induction c with
  | nil => intro e he; simp [Chain.eraseId, Chain.entries] at he
  | cons id name kids rest _ ihr =>
    intro e he
    simp only [Chain.topIds, List.nodup_cons] at hnd
    by_cases hx : id = x
    · subst hx
      simp only [Chain.eraseId, if_true] at he
      refine ⟨by simp [Chain.entries, he], ?_⟩
      intro e1
      exact hnd.1 (e1 ▸ entries_topIds rest e he)
    · simp only [Chain.eraseId, hx, if_false, Chain.entries, List.mem_cons] at he
      rcases he with rfl | he
      · exact ⟨by simp [Chain.entries], hx⟩
      · obtain ⟨h1, h2⟩ := ihr hnd.2 e he
        exact ⟨by simp [Chain.entries, h1], h2⟩

theorem entries_ids (c : Chain) :
    ∀ e ∈ c.entries, ∀ q ∈ e.2.2.ids, q ∈ c.ids ∧ (c.ids.Nodup → q ∉ c.topIds) := by
  induction c with
  | nil => intro e he; simp [Chain.entries] at he
  | cons id name kids rest _ ihr =>
    intro e he q hq
    simp only [Chain.entries, List.mem_cons] at he
    rcases he with rfl | he
    · refine ⟨by simp [Chain.ids, hq], ?_⟩
      intro hnd
      simp only [Chain.ids, List.nodup_cons, List.mem_append, not_or] at hnd
      simp only [Chain.topIds, List.mem_cons, not_or]
      refine ⟨fun e => hnd.1.1 (e ▸ hq), ?_⟩
      intro hm
      exact (List.nodup_append.1 hnd.2).2.2 hq ((topIds_sublist_ids rest).subset hm) 
    · obtain ⟨h1, h2⟩ := ihr e he q hq
      refine ⟨by simp [Chain.ids, h1], ?_⟩
      intro hnd
      simp only [Chain.ids, List.nodup_cons, List.mem_append, not_or] at hnd
      simp only [Chain.topIds, List.mem_cons, not_or]
      exact ⟨fun e => hnd.1.2 (e ▸ h1), h2 (List.nodup_append.1 hnd.2).2.1⟩

theorem unlink_inode_rep (h : List inode) (fuel x p : Nat) (pc : inode) (ch : Chain)
    (hpc : deref h p = .ok pc) (hrep : rep h pc.child p ch = true)
    (hnd : ch.ids.Nodup) (hp : p ∉ ch.ids) (hx : x ∈ ch.topIds)
    (hfuel : ch.size ≤ fuel) :
    ∃ g, unlink_inode h fuel x = .ok g
      ∧ (∀ q, q ≠ p → q ∉ ch.topIds → deref g q = deref h q)
      ∧ (∀ q a, deref h q = .ok a → ∃ b, deref g q = .ok b ∧ sameData a b)
      ∧ (∃ b, deref g p = .ok b ∧ b.name = pc.name ∧ b.parent = pc.parent ∧
          b.sibling = pc.sibling ∧ rep g b.child p (ch.eraseId x) = true) := by
  have hch := rep_isChain h ch pc.child p hrep
  have htop : ch.topIds.Nodup := (topIds_sublist_ids ch).nodup hnd
  have hpt : p ∉ ch.topIds := fun e => hp ((topIds_sublist_ids ch).subset e)
  obtain ⟨n, hn⟩ := isChain_valid h _ _ hch x hx
  have hnp : n.parent = p := by
    have hent := rep_entries h ch pc.child p hrep
    have : ∀ (c : Chain), x ∈ c.topIds → ∃ e ∈ c.entries, e.1 = x := by
      intro c
      induction c with
      | nil => intro hm; simp [Chain.topIds] at hm
      | cons id name kids rest _ ihr =>
        intro hm
        simp only [Chain.topIds, List.mem_cons] at hm
        rcases hm with rfl | hm
        · exact ⟨(x, name, kids), by simp [Chain.entries], rfl⟩
        · obtain ⟨e, he, hex⟩ := ihr hm
          exact ⟨e, by simp [Chain.entries, he], hex⟩
    obtain ⟨e, he, hex⟩ := this ch hx
    obtain ⟨a, ha, _, hap, _⟩ := hent e he
    rw [hex, hn] at ha
    cases ha
    exact hap
  obtain ⟨g, hres, _, hframe, hall, _, pc2, hpc2, hch2⟩ :=
    unlink_inode_spec h fuel x p n pc ch.topIds hn hnp hpc hch htop hpt hx
      (le_trans (topIds_length_le ch) hfuel)
  refine ⟨g, hres, hframe, ?_, ?_⟩
  · intro q a ha
    obtain ⟨b, hb, hsd, _⟩ := hall q a ha
    exact ⟨b, hb, hsd⟩
  · obtain ⟨b, hb, hsd, _, hbp, hbs⟩ := hall p pc hpc
    rw [hpc2] at hb
    cases hb
    have hxp : p ≠ x := fun e => hpt (e ▸ hx)
    refine ⟨pc2, hpc2, ?_, hbp hxp, hbs hpt, ?_⟩
    · have := congrArg inode.name hsd
      simpa using this
    · refine rep_of_isChain g p (ch.eraseId x) pc2.child ?_ ?_
      · rw [topIds_eraseId]; exact hch2
      · intro e he
        obtain ⟨hmem, hne⟩ := entries_eraseId ch x htop e he
        obtain ⟨a, ha, ha1, ha2, ha3⟩ := rep_entries h ch pc.child p hrep e hmem
        obtain ⟨b, hb, hsd, hbc, hbp, _⟩ := hall e.1 a ha
        have hep : e.1 ≠ p := fun e1 => hpt (e1 ▸ entries_topIds ch e hmem)
        refine ⟨b, hb, ?_, ?_, ?_⟩
        · have := congrArg inode.name hsd
          simp only at this
          rw [this, ha1]
        · rw [hbp hne, ha2]
        · rw [hbc hep]
          refine rep_frame h g e.2.2 a.child e.1 ?_ ha3
          intro q hq
          obtain ⟨h1, h2⟩ := entries_ids ch e hmem q hq
          exact hframe q (fun e1 => hp (e1 ▸ h1)) (h2 hnd)

theorem lookup_sublist (c : Chain) :
    ∀ (seg : List Char) (id : Nat) (kids : Chain),
      c.lookup seg = some (id, kids) → (id :: kids.ids).Sublist c.ids := by
  induction c with
  | nil => intro seg id kids hl; simp [Chain.lookup] at hl
  | cons i name ks rest _ ihr =>
    intro seg id kids hl
    by_cases he : name = seg
    · simp only [Chain.lookup, he, if_true, Option.some.injEq, Prod.mk.injEq] at hl
      obtain ⟨rfl, rfl⟩ := hl
      simp only [Chain.ids]
      exact List.Sublist.cons₂ _ (List.sublist_append_left _ _)
    · simp only [Chain.lookup, he, if_false] at hl
      simp only [Chain.ids]
      exact List.Sublist.cons _ ((ihr seg id kids hl).trans (List.sublist_append_right _ _))

theorem walk_sublist (segs : List (List Char)) :
    ∀ (root : Nat) (c : Chain) (p : Nat) (kp : Chain),
      segs ≠ [] → walk root c segs = some (p, kp) → (p :: kp.ids).Sublist c.ids := by
  induction segs with
  | nil => intro root c p kp hne; exact absurd rfl hne
  | cons seg segs ih =>
    intro root c p kp _ hw
    rw [walk_cons] at hw
    cases hl : c.lookup seg with
    | none => simp [hl] at hw
    | some r =>
      obtain ⟨id, kids⟩ := r
      simp only [hl] at hw
      have h1 := lookup_sublist c seg id kids hl
      by_cases hs : segs = []
      · subst hs
        simp only [walk, Option.some.injEq, Prod.mk.injEq] at hw
        obtain ⟨rfl, rfl⟩ := hw
        exact h1
      · exact ((ih id kids p kp hs hw).trans (List.sublist_cons_self _ _)).trans h1

theorem rep_setKids (h g : List inode) (p : Nat) (kp k : Chain)
    (hframe : ∀ q, q ∉ p :: kp.ids → deref g q = deref h q)
    (hp : ∀ a, deref h p = .ok a → ∃ b, deref g p = .ok b ∧ b.name = a.name ∧
      b.parent = a.parent ∧ b.sibling = a.sibling ∧ rep g b.child p k = true) :
    ∀ (c : Chain) (first parent : Nat) (segs : List (List Char)),
      segs ≠ [] → rep h first parent c = true → c.ids.Nodup →
      walk parent c segs = some (p, kp) →
      rep g first parent (c.setKids segs k) = true := by
  intro c
  induction c with
  | nil =>
    intro first parent segs hne _ _ hw
    cases segs with
    | nil => exact absurd rfl hne
    | cons seg segs => simp [walk_cons, Chain.lookup] at hw
  | cons id name kids rest ihk ihr =>
    intro first parent segs hne hrep hnd hw
    cases segs with
    | nil => exact absurd rfl hne
    | cons seg segs =>
      obtain ⟨hf, n, hn, h1, h2, h3, h4⟩ :=
        (rep_cons_iff h first parent id name kids rest).1 hrep
      simp only [Chain.ids, List.nodup_cons, List.mem_append, not_or] at hnd
      obtain ⟨⟨hik, hir⟩, hnd2⟩ := hnd
      obtain ⟨hndk, hndr, hdis⟩ := List.nodup_append.1 hnd2
      by_cases he : name = seg
      · rw [walk_cons] at hw
        simp only [Chain.lookup, he, if_true] at hw
        simp only [Chain.setKids, he, if_true]
        by_cases hs : segs = []
        · subst hs
          simp only [walk, Option.some.injEq, Prod.mk.injEq] at hw
          obtain ⟨rfl, rfl⟩ := hw
          obtain ⟨b, hb, hb1, hb2, hb3, hb4⟩ := hp n hn
          refine (rep_cons_iff g first parent id seg _ rest).2
            ⟨hf, b, hb, by rw [hb1, h1, he], by rw [hb2, h2], ?_, ?_⟩
          · simpa [Chain.setKids] using hb4
          · rw [hb3]
            refine rep_frame h g rest n.sibling parent ?_ h4
            intro q hq
            refine hframe q ?_
            simp only [List.mem_cons, not_or]
            exact ⟨fun e => hir (e ▸ hq), fun hm => hdis hm hq⟩
        · have hsub := walk_sublist segs id kids p kp hs hw
          have hout : ∀ q, q ∉ kids.ids → q ∉ p :: kp.ids := fun q hq hm => hq (hsub.subset hm)
          refine (rep_cons_iff g first parent id seg _ rest).2
            ⟨hf, n, by rw [hframe id (hout id hik)]; exact hn, by rw [h1, he], h2, ?_, ?_⟩
          · exact ihk n.child id segs hs h3 hndk hw
          · refine rep_frame h g rest n.sibling parent ?_ h4
            intro q hq
            exact hframe q (hout q (fun hm => hdis hm hq))
      · have hw2 : walk parent rest (seg :: segs) = some (p, kp) := by
          rw [walk_cons] at hw ⊢
          simpa [Chain.lookup, he] using hw
        have hsub := walk_sublist (seg :: segs) parent rest p kp (by simp) hw2
        have hout : ∀ q, q ∉ rest.ids → q ∉ p :: kp.ids := fun q hq hm => hq (hsub.subset hm)
        simp only [Chain.setKids, he, if_false]
        refine (rep_cons_iff g first parent id name kids _).2
          ⟨hf, n, by rw [hframe id (hout id hir)]; exact hn, h1, h2, ?_, ?_⟩
        · refine rep_frame h g kids n.child id ?_ h3
          intro q hq
          exact hframe q (hout q (fun hm => hdis hq hm))
        · exact ihr n.sibling parent (seg :: segs) (by simp) h4 hndr hw2

theorem tree_setKids (h g : List inode) (start p : Nat) (st : inode) (c kp k : Chain)
    (segs : List (List Char))
    (hst : deref h start = .ok st) (hrep : rep h st.child start c = true)
    (hnd : (start :: c.ids).Nodup) (hw : walk start c segs = some (p, kp))
    (hframe : ∀ q, q ∉ p :: kp.ids → deref g q = deref h q)
    (hp : ∀ a, deref h p = .ok a → ∃ b, deref g p = .ok b ∧ b.name = a.name ∧
      b.parent = a.parent ∧ b.sibling = a.sibling ∧ rep g b.child p k = true) :
    ∃ st2, deref g start = .ok st2 ∧ rep g st2.child start (c.setKids segs k) = true := by
  simp only [List.nodup_cons] at hnd
  by_cases hs : segs = []
  · subst hs
    simp only [walk, Option.some.injEq, Prod.mk.injEq] at hw
    obtain ⟨rfl, rfl⟩ := hw
    obtain ⟨b, hb, _, _, _, hb4⟩ := hp st hst
    exact ⟨b, hb, by simpa [Chain.setKids] using hb4⟩
  · have hsub := walk_sublist segs start c p kp hs hw
    have hout : start ∉ p :: kp.ids := fun hm => hnd.1 (hsub.subset hm)
    refine ⟨st, by rw [hframe start hout]; exact hst, ?_⟩
    exact rep_setKids h g p kp k hframe hp c st.child start segs hs hrep hnd.2 hw

theorem uniqueNames_cons_iff (id : Nat) (name : List Char) (kids rest : Chain) :
    (Chain.cons id name kids rest).uniqueNames = true ↔
      name ∉ rest.names ∧ kids.uniqueNames = true ∧ rest.uniqueNames = true := by
  simp only [Chain.uniqueNames, Chain.names, Bool.and_eq_true, Bool.not_eq_true',
    List.contains_eq_any_beq, List.any_eq_false, beq_iff_eq, List.mem_map, not_exists, not_and]
  constructor
  · rintro ⟨⟨h1, h2⟩, h3⟩
    exact ⟨fun e he hn => h1 _ ⟨e, he, rfl⟩ hn.symm, h2, h3⟩
  · rintro ⟨h1, h2, h3⟩
    refine ⟨⟨?_, h2⟩, h3⟩
    intro x hx hn
    obtain ⟨e, he, rfl⟩ := hx
    exact h1 e he hn.symm

theorem slashFree_cons_iff (id : Nat) (name : List Char) (kids rest : Chain) :
    (Chain.cons id name kids rest).slashFree = true ↔
      '/' ∉ name ∧ kids.slashFree = true ∧ rest.slashFree = true := by
  simp only [Chain.slashFree, Bool.and_eq_true, Bool.not_eq_true',
    List.contains_eq_any_beq, List.any_eq_false, beq_iff_eq]
  constructor
  · rintro ⟨⟨h1, h2⟩, h3⟩
    exact ⟨fun hm => h1 _ hm rfl, h2, h3⟩
  · rintro ⟨h1, h2, h3⟩
    exact ⟨⟨fun x hx e => h1 (e ▸ hx), h2⟩, h3⟩

theorem names_cons (id : Nat) (name : List Char) (kids rest : Chain) :
    (Chain.cons id name kids rest).names = name :: rest.names := by
  simp [Chain.names, Chain.entries]

theorem lookup_setKids (k : Chain) (segs : List (List Char)) (c : Chain) :
    ∀ (seg : List Char) (id : Nat) (kids : Chain),
      c.lookup seg = some (id, kids) →
      (c.setKids (seg :: segs) k).lookup seg = some (id, kids.setKids segs k) := by
  induction c with
  | nil => intro seg id kids hl; simp [Chain.lookup] at hl
  | cons i name ks rest _ ihr =>
    intro seg id kids hl
    by_cases he : name = seg
    · simp only [Chain.lookup, he, if_true, Option.some.injEq, Prod.mk.injEq] at hl
      obtain ⟨rfl, rfl⟩ := hl
      simp [Chain.setKids, Chain.lookup, he]
    · simp only [Chain.lookup, he, if_false] at hl
      simp only [Chain.setKids, he, if_false, Chain.lookup]
      exact ihr seg id kids hl

theorem walk_setKids (k : Chain) (post : List (List Char)) (p : Nat) (kp : Chain) :
    ∀ (pre : List (List Char)) (start : Nat) (c : Chain),
      walk start c pre = some (p, kp) →
      walk start (c.setKids (pre ++ post) k) pre = some (p, kp.setKids post k) := by
  intro pre
  induction pre with
  | nil =>
    intro start c hw
    simp only [walk, Option.some.injEq, Prod.mk.injEq] at hw
    obtain ⟨rfl, rfl⟩ := hw
    simp [walk]
  | cons seg pre ih =>
    intro start c hw
    rw [walk_cons] at hw
    cases hl : c.lookup seg with
    | none => simp [hl] at hw
    | some r =>
      obtain ⟨id, kids⟩ := r
      simp only [hl] at hw
      rw [List.cons_append, walk_cons, lookup_setKids k (pre ++ post) c seg id kids hl]
      exact ih id kids hw

theorem setKids_nil_path (c k : Chain) : c.setKids [] k = k := by
  cases c <;> rfl

theorem names_setKids (k : Chain) (c : Chain) :
    ∀ (segs : List (List Char)), segs ≠ [] → (c.setKids segs k).names = c.names := by
  induction c with
  | nil =>
    intro segs hne
    cases segs with
    | nil => exact absurd rfl hne
    | cons seg segs => rfl
  | cons i name ks rest _ ihr =>
    intro segs hne
    cases segs with
    | nil => exact absurd rfl hne
    | cons seg segs =>
      by_cases he : name = seg
      · simp [Chain.setKids, he, names_cons]
      · simp [Chain.setKids, he, names_cons, ihr (seg :: segs) (by simp)]

theorem setKids_props (p : Nat) (kp k : Chain)
    (hids : k.ids.Sublist kp.ids) (hsize : k.size ≤ kp.size)
    (hsl : kp.slashFree = true → k.slashFree = true)
    (hun : kp.uniqueNames = true → k.uniqueNames = true) :
    ∀ (c : Chain) (segs : List (List Char)) (start : Nat),
      walk start c segs = some (p, kp) →
      (c.setKids segs k).ids.Sublist c.ids ∧ (c.setKids segs k).size ≤ c.size
        ∧ (c.slashFree = true → (c.setKids segs k).slashFree = true)
        ∧ (c.uniqueNames = true → (c.setKids segs k).uniqueNames = true) := by
  intro c
  induction c with
  | nil =>
    intro segs start hw
    cases segs with
    | nil =>
      simp only [walk, Option.some.injEq, Prod.mk.injEq] at hw
      obtain ⟨_, rfl⟩ := hw
      exact ⟨hids, hsize, hsl, hun⟩
    | cons seg segs => simp [walk_cons, Chain.lookup] at hw
  | cons i name ks rest ihk ihr =>
    intro segs start hw
    cases segs with
    | nil =>
      simp only [walk, Option.some.injEq, Prod.mk.injEq] at hw
      obtain ⟨_, rfl⟩ := hw
      rw [setKids_nil_path]
      exact ⟨hids, hsize, hsl, hun⟩
    | cons seg segs =>
      by_cases he : name = seg
      · rw [walk_cons] at hw
        simp only [Chain.lookup, he, if_true] at hw
        obtain ⟨h1, h2, h3, h4⟩ := ihk segs i hw
        simp only [Chain.setKids, he, if_true]
        refine ⟨?_, ?_, ?_, ?_⟩
        · simp only [Chain.ids]
          exact List.Sublist.cons₂ _ (List.Sublist.append h1 (List.Sublist.refl _))
        · simp only [Chain.size]; omega
        · intro hs
          obtain ⟨a, b, c⟩ := (slashFree_cons_iff _ _ _ _).1 hs
          exact (slashFree_cons_iff _ _ _ _).2 ⟨he ▸ a, h3 b, c⟩
        · intro hs
          obtain ⟨a, b, c⟩ := (uniqueNames_cons_iff _ _ _ _).1 hs
          exact (uniqueNames_cons_iff _ _ _ _).2 ⟨he ▸ a, h4 b, c⟩
      · have hw2 : walk start rest (seg :: segs) = some (p, kp) := by
          rw [walk_cons] at hw ⊢
          simpa [Chain.lookup, he] using hw
        obtain ⟨h1, h2, h3, h4⟩ := ihr (seg :: segs) start hw2
        simp only [Chain.setKids, he, if_false]
        refine ⟨?_, ?_, ?_, ?_⟩
        · simp only [Chain.ids]
          exact List.Sublist.cons₂ _ (List.Sublist.append (List.Sublist.refl _) h1)
        · simp only [Chain.size]; omega
        · intro hs
          obtain ⟨a, b, c⟩ := (slashFree_cons_iff _ _ _ _).1 hs
          exact (slashFree_cons_iff _ _ _ _).2 ⟨a, b, h3 c⟩
        · intro hs
          obtain ⟨a, b, c⟩ := (uniqueNames_cons_iff _ _ _ _).1 hs
          refine (uniqueNames_cons_iff _ _ _ _).2 ⟨?_, b, h4 c⟩
          rw [names_setKids k rest (seg :: segs) (by simp)]
          exact a

theorem eraseId_props (x : Nat) (c : Chain) :
    (c.eraseId x).ids.Sublist c.ids ∧ (c.eraseId x).size ≤ c.size
      ∧ (c.eraseId x).names.Sublist c.names
      ∧ (c.slashFree = true → (c.eraseId x).slashFree = true)
      ∧ (c.uniqueNames = true → (c.eraseId x).uniqueNames = true) := by
  induction c with
  | nil => simp [Chain.eraseId]
  | cons i name ks rest _ ihr =>
    obtain ⟨h1, h2, h3, h4, h5⟩ := ihr
    by_cases hx : i = x
    · simp only [Chain.eraseId, hx, if_true]
      refine ⟨?_, ?_, ?_, ?_, ?_⟩
      · simp only [Chain.ids]
        exact List.Sublist.cons _ (List.sublist_append_right _ _)
      · simp only [Chain.size]; omega
      · rw [names_cons]; exact List.sublist_cons_self _ _
      · intro hs; exact ((slashFree_cons_iff _ _ _ _).1 hs).2.2
      · intro hs; exact ((uniqueNames_cons_iff _ _ _ _).1 hs).2.2
    · simp only [Chain.eraseId, hx, if_false]
      refine ⟨?_, ?_, ?_, ?_, ?_⟩
      · simp only [Chain.ids]
        exact List.Sublist.cons₂ _ (List.Sublist.append (List.Sublist.refl _) h1)
      · simp only [Chain.size]; omega
      · rw [names_cons, names_cons]; exact List.Sublist.cons₂ _ h3
      · intro hs
        obtain ⟨a, b, c⟩ := (slashFree_cons_iff _ _ _ _).1 hs
        exact (slashFree_cons_iff _ _ _ _).2 ⟨a, b, h4 c⟩
      · intro hs
        obtain ⟨a, b, c⟩ := (uniqueNames_cons_iff _ _ _ _).1 hs
        exact (uniqueNames_cons_iff _ _ _ _).2 ⟨fun hm => a (h3.subset hm), b, h5 c⟩

theorem lookup_mem_topIds (c : Chain) :
    ∀ (seg : List Char) (id : Nat) (kids : Chain),
      c.lookup seg = some (id, kids) → id ∈ c.topIds := by
  induction c with
  | nil => intro seg id kids hl; simp [Chain.lookup] at hl
  | cons i name ks rest _ ihr =>
    intro seg id kids hl
    by_cases he : name = seg
    · simp only [Chain.lookup, he, if_true, Option.some.injEq, Prod.mk.injEq] at hl
      simp [Chain.topIds, hl.1]
    · simp only [Chain.lookup, he, if_false] at hl
      simp [Chain.topIds, ihr seg id kids hl]

theorem lookup_eraseId (c : Chain) :
    ∀ (seg : List Char) (d : Nat) (k : Chain),
      c.uniqueNames = true → c.topIds.Nodup → c.lookup seg = some (d, k) →
      (c.eraseId d).lookup seg = none := by
  induction c with
  | nil => intro seg d k _ _ hl; simp [Chain.lookup] at hl
  | cons i name ks rest _ ihr =>
    intro seg d k hu hnd hl
    obtain ⟨a, _, hur⟩ := (uniqueNames_cons_iff _ _ _ _).1 hu
    simp only [Chain.topIds, List.nodup_cons] at hnd
    by_cases he : name = seg
    · simp only [Chain.lookup, he, if_true, Option.some.injEq, Prod.mk.injEq] at hl
      obtain ⟨rfl, _⟩ := hl
      simp only [Chain.eraseId, if_true]
      rw [lookup_eq_none_iff]
      intro e hm hn
      exact a (by rw [he, ← hn]; exact List.mem_map.2 ⟨e, hm, rfl⟩)
    · simp only [Chain.lookup, he, if_false] at hl
      have hid : i ≠ d := fun e => hnd.1 (e ▸ lookup_mem_topIds rest seg d k hl)
      simp only [Chain.eraseId, hid, if_false, Chain.lookup, he]
      exact ihr seg d k hur hnd.2 hl

theorem store_same (h : List inode) (p : Nat) (n : inode) (hd : deref h p = .ok n) :
    store h p n = h := by
  unfold store
  exact set_same h (p - 1) n (deref_inv h p n hd).2

theorem filesystem_root_settled (s : FS) (hs : settled s) :
    filesystem_root s = .ok (s.root_node, s) := by
  obtain ⟨_, h0, r, hr, hm⟩ := hs
  unfold filesystem_root
  simp only [h0, if_false, hr]
  have : ({ r with mode := 0o777 } : inode) = r := by rw [← hm]
  rw [this, store_same s.heap s.root_node r hr]

theorem get_cwd_settled (s : FS) (hs : settled s) :
    get_cwd s = .ok (s.cwd_inode, s) := by
  unfold get_cwd
  simp [hs.1]

theorem find_inode_path_abs (s : FS) (fuel : Nat) (rest : List Char) :
    find_inode_path s fuel ('/' :: rest) =
      match filesystem_root s with
      | .fault e => .fault e
      | .ok (root, s1) =>
        match find_inode s1.heap fuel root rest with
        | .fault e => .fault e
        | .ok r => .ok (r, s1) := by
  rfl

theorem find_inode_path_rel (s : FS) (fuel : Nat) (path : List Char)
    (hp : path.head? ≠ some '/') :
    find_inode_path s fuel path =
      match get_cwd s with
      | .fault e => .fault e
      | .ok (root, s1) =>
        match find_inode s1.heap fuel root path with
        | .fault e => .fault e
        | .ok r => .ok (r, s1) := by
  unfold find_inode_path
  split
  · simp at hp
  · rfl

theorem joinPath_head (seg : List Char) (segs : List (List Char))
    (h1 : seg ≠ []) (h2 : '/' ∉ seg) : (joinPath (seg :: segs)).head? ≠ some '/' := by
  cases seg with
  | nil => exact absurd rfl h1
  | cons c r =>
    have hc : c ≠ '/' := fun e => h2 (by simp [e])
    cases segs with
    | nil => simp [joinPath, hc]
    | cons b l => simp [joinPath, hc]

theorem find_inode_path_settled (s : FS) (fuel : Nat) (absolute : Bool)
    (seg : List Char) (segs : List (List Char)) (h1 : seg ≠ []) (h2 : '/' ∉ seg)
    (hs : settled s) :
    find_inode_path s fuel (pathOf absolute (seg :: segs)) =
      match find_inode s.heap fuel (startOf s absolute) (joinPath (seg :: segs)) with
      | .fault e => .fault e
      | .ok r => .ok (r, s) := by
  cases absolute with
  | true =>
    simp only [pathOf, if_true, startOf]
    rw [find_inode_path_abs, filesystem_root_settled s hs]
  | false =>
    simp only [pathOf, startOf, cwdOf, hs.1, if_false, Bool.false_eq_true]
    rw [find_inode_path_rel s fuel _ (joinPath_head seg segs h1 h2), get_cwd_settled s hs]

theorem find_inode_walk (h : List inode) (root : Nat) (r : inode) (c : Chain)
    (segs : List (List Char)) (fuel : Nat)
    (hroot : deref h root = .ok r)
    (hrep : rep h r.child root c = true)
    (hslash : c.slashFree = true)
    (hsegs : ∀ s ∈ segs, s ≠ [] ∧ '/' ∉ s)
    (hfuel : c.size ≤ fuel) :
    find_inode h fuel root (joinPath segs) = .ok (walkResult (walk root c segs)) := by
  have hroot0 : root ≠ 0 := (deref_inv h root r hroot).1
  cases segs with
  | nil => simp [find_inode, hroot0, joinPath, walk, walkResult]
  | cons seg segs =>
    have hs := hsegs seg (by simp)
    have hne := joinPath_ne seg segs hs.1 hs.2
    simp only [find_inode, hroot0, if_false, hne.1, hne.2, or_self, hroot]
    exact find_inode_loop_walk h c r.child root fuel seg segs hrep hslash hsegs hfuel

theorem ids_length (c : Chain) : c.ids.length = c.size := by
  induction c with
  | nil => rfl
  | cons id name kids rest ihk ihr =>
    simp only [Chain.ids, Chain.size, List.length_cons, List.length_append, ihk, ihr]
    omega

theorem walk_lookup (start : Nat) (c : Chain) (pre : List (List Char)) (seg : List Char)
    (x : Nat) (kx : Chain) (hw : walk start c (pre ++ [seg]) = some (x, kx)) :
    ∃ p kp, walk start c pre = some (p, kp) ∧ kp.lookup seg = some (x, kx) := by
  rw [walk_append] at hw
  cases hp : walk start c pre with
  | none => simp [hp] at hw
  | some r =>
    obtain ⟨p, kp⟩ := r
    simp only [hp, walk_cons] at hw
    cases hl : kp.lookup seg with
    | none => simp [hl] at hw
    | some r2 =>
      obtain ⟨i, k⟩ := r2
      simp only [hl, walk, Option.some.injEq, Prod.mk.injEq] at hw
      obtain ⟨rfl, rfl⟩ := hw
      exact ⟨p, kp, rfl, hl⟩

theorem unlink_inode_tree (h : List inode) (fuel start : Nat) (st : inode) (c : Chain)
    (pre : List (List Char)) (seg : List Char) (x : Nat) (kx : Chain)
    (hst : deref h start = .ok st) (hrep : rep h st.child start c = true)
    (hnd : (start :: c.ids).Nodup)
    (hw : walk start c (pre ++ [seg]) = some (x, kx))
    (hfuel : c.size ≤ fuel) :
    ∃ g p kp, walk start c pre = some (p, kp) ∧ kp.lookup seg = some (x, kx)
      ∧ unlink_inode h fuel x = .ok g
      ∧ (∀ q a, deref h q = .ok a → ∃ b, deref g q = .ok b ∧ sameData a b)
      ∧ ∃ st2, deref g start = .ok st2
          ∧ rep g st2.child start (c.setKids pre (kp.eraseId x)) = true := by
  obtain ⟨p, kp, hwp, hl⟩ := walk_lookup start c pre seg x kx hw
  obtain ⟨_, pc, hpc, hrepp⟩ := walk_rep h pre start st c p kp hst hrep hwp
  have hsub : (p :: kp.ids).Sublist (start :: c.ids) := by
    by_cases hs : pre = []
    · subst hs
      simp only [walk, Option.some.injEq, Prod.mk.injEq] at hwp
      obtain ⟨rfl, rfl⟩ := hwp
      exact List.Sublist.refl _
    · exact (walk_sublist pre start c p kp hs hwp).trans (List.sublist_cons_self _ _)
  have hnd2 := hsub.nodup hnd
  simp only [List.nodup_cons] at hnd2
  have hsize : kp.size ≤ c.size := by
    have := hsub.length_le
    simp only [List.length_cons, ids_length] at this
    omega
  obtain ⟨g, hres, hframe, hall, hp⟩ :=
    unlink_inode_rep h fuel x p pc kp hpc hrepp hnd2.2 hnd2.1
      (lookup_mem_topIds kp seg x kx hl) (le_trans hsize hfuel)
  refine ⟨g, p, kp, hwp, hl, hres, hall, ?_⟩
  refine tree_setKids h g start p st c kp (kp.eraseId x) pre hst hrep hnd hwp ?_ ?_
  · intro q hq
    simp only [List.mem_cons, not_or] at hq
    exact hframe q hq.1 (fun hm => hq.2 ((topIds_sublist_ids kp).subset hm))
  · intro a ha
    rw [hpc] at ha
    cases ha
    exact hp

theorem rmdir_unfold (fuel : Nat) (s : FS) (pathname : List Char) (node : Nat)
    (s1 s2 s3 : FS) (root cwd : Nat) (n p : inode)
    (hlen1 : pathname.length ≤ MAX_PATHNAME_LENGTH) (hlen0 : pathname.length ≠ 0)
    (hdot : last_component_is pathname ['.'] = false)
    (hdots : last_component_is pathname ['.', '.'] = false)
    (hfind : find_inode_path s fuel pathname = .ok (node, s1))
    (hnode : node ≠ 0)
    (hroot : filesystem_root s1 = .ok (root, s2)) (hnr : node ≠ root)
    (hcwd : get_cwd s2 = .ok (cwd, s3)) (hnc : node ≠ cwd)
    (hn : deref s3.heap node = .ok n) (hp0 : n.parent ≠ 0)
    (hp : deref s3.heap n.parent = .ok p) (hpw : p.mode &&& 0o222 ≠ 0)
    (hdir : n.type = INODE_DIR) :
    __syscall40 fuel s pathname =
      if n.child ≠ 0 then .ok (-ENOTEMPTY, s3)
      else match unlink_inode s3.heap fuel node with
        | .fault e => .fault e
        | .ok h1 => .ok (0, { s3 with heap := h1 }) := by
  have hlen1' : ¬ pathname.length > MAX_PATHNAME_LENGTH := by omega
  unfold __syscall40
  simp only [hlen1', if_false, hlen0, hdot, hdots, Bool.false_eq_true, hfind, hnode, hroot,
    hnr, hcwd, hnc, hn, hp0, hp, Option.any_some, beq_iff_eq, hpw, hdir, ne_eq,
    not_true_eq_false]

theorem slash_suffix_unique (u v x y : List Char) (hu : '/' ∉ u) (hv : '/' ∉ v)
    (he : u ++ '/' :: x = v ++ '/' :: y) : u = v := by
  induction u generalizing v with
  | nil =>
    cases v with
    | nil => rfl
    | cons c v =>
      simp only [List.nil_append, List.cons_append, List.cons.injEq] at he
      exact absurd (by rw [← he.1]; exact List.mem_cons_self _ _) hv
  | cons c u ih =>
    cases v with
    | nil =>
      simp only [List.nil_append, List.cons_append, List.cons.injEq] at he
      exact absurd (by rw [he.1]; exact List.mem_cons_self _ _) hu
    | cons c2 v =>
      simp only [List.cons_append, List.cons.injEq] at he
      rw [he.1, ih v (fun e => hu (List.mem_cons_of_mem _ e))
        (fun e => hv (List.mem_cons_of_mem _ e)) he.2]

theorem joinPath_snoc (segs : List (List Char)) (seg : List Char) (hne : segs ≠ []) :
    joinPath (segs ++ [seg]) = joinPath segs ++ '/' :: seg := by
  induction segs with
  | nil => exact absurd rfl hne
  | cons a l ih =>
    cases l with
    | nil => simp [joinPath]
    | cons b l =>
      have := ih (by simp)
      simp only [List.cons_append] at this ⊢
      rw [joinPath_cons_cons, joinPath_cons_cons, this]
      simp

theorem pathOf_last (absolute : Bool) (segs : List (List Char)) (seg : List Char) :
    pathOf absolute (segs ++ [seg]) = seg ∨
      ∃ pre, pathOf absolute (segs ++ [seg]) = pre ++ '/' :: seg := by
  by_cases hs : segs = []
  · subst hs
    cases absolute with
    | true => exact Or.inr ⟨[], by simp [pathOf, joinPath]⟩
    | false => exact Or.inl (by simp [pathOf, joinPath])
  · right
    rw [pathOf, joinPath_snoc segs seg hs]
    cases absolute with
    | true => exact ⟨'/' :: joinPath segs, by simp⟩
    | false => exact ⟨joinPath segs, by simp⟩

theorem last_component_of_pathOf (absolute : Bool) (segs : List (List Char))
    (seg t : List Char) (h1 : '/' ∉ seg) (h2 : '/' ∉ t) (hne : seg ≠ t) :
    last_component_is (pathOf absolute (segs ++ [seg])) t = false := by
  rw [← Bool.not_eq_true, last_component_is_iff]
  have hrev : ∀ (a b : List Char), a ++ '/' :: seg = b ++ '/' :: t → seg = t := by
    intro a b he
    have h3 := congrArg List.reverse he
    simp only [List.reverse_append, List.reverse_cons, List.append_assoc,
      List.singleton_append] at h3
    have := slash_suffix_unique seg.reverse t.reverse _ _ (by simpa using h1)
      (by simpa using h2) h3
    simpa using this
  rintro (h | ⟨pre, h⟩)
  · rcases pathOf_last absolute segs seg with h3 | ⟨pre2, h3⟩
    · exact hne (h3.symm.trans h)
    · rw [h] at h3
      exact h2 (by rw [h3]; simp)
  · rcases pathOf_last absolute segs seg with h3 | ⟨pre2, h3⟩
    · rw [h3] at h
      exact h1 (by rw [h]; simp)
    · rw [h3] at h
      exact hne (hrev pre2 pre h)

theorem sameData_fields (a b : inode) (h : sameData a b) :
    b.name = a.name ∧ b.mode = a.mode ∧ b.type = a.type := by
  unfold sameData at h
  exact ⟨by rw [h], by rw [h], by rw [h]⟩

theorem pathOf_snoc (absolute : Bool) (segs : List (List Char)) (seg : List Char)
    (hne : segs ≠ []) :
    pathOf absolute (segs ++ [seg]) = pathOf absolute segs ++ '/' :: seg := by
  cases absolute <;> simp [pathOf, joinPath_snoc segs seg hne]

theorem pathOf_length_pos (absolute : Bool) (segs : List (List Char))
    (hne : segs ≠ []) (hsegs : ∀ x ∈ segs, x ≠ [] ∧ '/' ∉ x) :
    (pathOf absolute segs).length ≠ 0 := by
  cases segs with
  | nil => exact absurd rfl hne
  | cons a l =>
    have ha := hsegs a (by simp)
    have := (joinPath_ne a l ha.1 ha.2).1
    cases absolute with
    | true => simp [pathOf]
    | false =>
      simp only [pathOf, Bool.false_eq_true, if_false]
      intro h0
      exact this (List.length_eq_zero.1 h0)

theorem find_inode_path_tree (s : FS) (fuel : Nat) (absolute : Bool) (st : inode) (c : Chain)
    (segs : List (List Char)) (hs : settled s)
    (hst : deref s.heap (startOf s absolute) = .ok st)
    (hrep : rep s.heap st.child (startOf s absolute) c = true)
    (hslash : c.slashFree = true)
    (hne : segs ≠ []) (hsegs : ∀ x ∈ segs, x ≠ [] ∧ '/' ∉ x)
    (hfuel : c.size ≤ fuel) :
    find_inode_path s fuel (pathOf absolute segs)
      = .ok (walkResult (walk (startOf s absolute) c segs), s) := by
  cases segs with
  | nil => exact absurd rfl hne
  | cons a l =>
    have ha := hsegs a (by simp)
    rw [find_inode_path_settled s fuel absolute a l ha.1 ha.2 hs,
      find_inode_walk s.heap (startOf s absolute) st c (a :: l) fuel hst hrep hslash hsegs hfuel]

theorem settled_heap (s : FS) (g : List inode) (hs : settled s)
    (hall : ∀ q a, deref s.heap q = .ok a → ∃ b, deref g q = .ok b ∧ sameData a b) :
    settled { s with heap := g } := by
  obtain ⟨h1, h2, r, hr, hm⟩ := hs
  obtain ⟨b, hb, hsd⟩ := hall _ r hr
  exact ⟨h1, h2, b, hb, by rw [(sameData_fields r b hsd).2.1, hm]⟩

theorem unlink_then_rmdir_settled (s : FS) (fuel : Nat) (absolute : Bool)
    (st dn pn cn : inode) (c : Chain)
    (segs : List (List Char)) (seg cname : List Char) (d cid : Nat)
    (hs : settled s)
    (hst : deref s.heap (startOf s absolute) = .ok st)
    (hrep : rep s.heap st.child (startOf s absolute) c = true)
    (hslash : c.slashFree = true) (huniq : c.uniqueNames = true)
    (hids : (startOf s absolute :: c.ids).Nodup)
    (hsegs : ∀ x ∈ segs ++ [seg, cname], x ≠ [] ∧ '/' ∉ x)
    (hdot : seg ≠ ['.'] ∧ seg ≠ ['.', '.'])
    (hlen : (pathOf absolute (segs ++ [seg, cname])).length ≤ MAX_PATHNAME_LENGTH)
    (hwalk : walk (startOf s absolute) c (segs ++ [seg]) = some (d, .cons cid cname .nil .nil))
    (hdroot : d ≠ s.root_node) (hdcwd : d ≠ s.cwd_inode)
    (hdn : deref s.heap d = .ok dn) (hdir : dn.type = INODE_DIR)
    (hdw : dn.mode &&& 0o222 ≠ 0)
    (hpn : deref s.heap dn.parent = .ok pn) (hpw : pn.mode &&& 0o222 ≠ 0)
    (hcn : deref s.heap cid = .ok cn) (hcw : cn.mode &&& 0o222 ≠ 0)
    (hfuel : c.size ≤ fuel) :
    ∃ s2 s3,
      __syscall40 fuel s (pathOf absolute (segs ++ [seg])) = .ok (-ENOTEMPTY, s)
      ∧ __syscall10 fuel s (pathOf absolute (segs ++ [seg, cname])) = .ok (0, s2)
      ∧ __syscall40 fuel s2 (pathOf absolute (segs ++ [seg])) = .ok (0, s3)
      ∧ find_inode_path s3 fuel (pathOf absolute (segs ++ [seg])) = .ok (0, s3) := by
  -- the paths
  have hsplit : segs ++ [seg, cname] = (segs ++ [seg]) ++ [cname] := by simp
  have hneD : segs ++ [seg] ≠ [] := by simp
  have hsegsD : ∀ x ∈ segs ++ [seg], x ≠ [] ∧ '/' ∉ x := by
    intro x hx
    exact hsegs x (by rw [hsplit]; exact List.mem_append_left _ hx)
  have hseg := hsegs seg (by simp)
  have hlenC0 : (pathOf absolute (segs ++ [seg, cname])).length ≠ 0 :=
    pathOf_length_pos absolute _ (by simp) hsegs
  have hlenD0 : (pathOf absolute (segs ++ [seg])).length ≠ 0 :=
    pathOf_length_pos absolute _ hneD hsegsD
  have hlenD : (pathOf absolute (segs ++ [seg])).length ≤ MAX_PATHNAME_LENGTH := by
    rw [hsplit, pathOf_snoc absolute _ cname hneD] at hlen
    simp only [List.length_append] at hlen
    omega
  have hdot1 := last_component_of_pathOf absolute segs seg ['.'] hseg.2 (by decide) hdot.1
  have hdot2 := last_component_of_pathOf absolute segs seg ['.', '.'] hseg.2 (by decide) hdot.2
  -- the cells of D, its parent and C in the first heap
  obtain ⟨p, kp, hwp, hlp⟩ := walk_lookup _ c segs seg d _ hwalk
  obtain ⟨hp0, pc, hpc, hrepp⟩ := walk_rep s.heap segs _ st c p kp hst hrep hwp
  obtain ⟨hd0, dn1, hdn1, _, hdpar, hrepd⟩ := lookup_rep s.heap kp pc.child p seg d _ hrepp hlp
  rw [hdn] at hdn1
  cases hdn1
  rw [hdpar] at hpn
  obtain ⟨hdc, cn1, hcn1, _, hcpar, hrepc, _⟩ :=
    (rep_cons_iff s.heap dn.child d cid cname .nil .nil).1 hrepd
  rw [hcn] at hcn1
  cases hcn1
  have hcc : cn.child = 0 := (rep_nil_iff s.heap cn.child cid).1 hrepc
  have hc0 : cid ≠ 0 := (deref_inv s.heap cid cn hcn).1
  have hfr := filesystem_root_settled s hs
  have hgc := get_cwd_settled s hs
  -- the first rmdir
  have hfindD : find_inode_path s fuel (pathOf absolute (segs ++ [seg])) = .ok (d, s) := by
    rw [find_inode_path_tree s fuel absolute st c _ hs hst hrep hslash hneD hsegsD hfuel, hwalk]
    rfl
  have hstep1 : __syscall40 fuel s (pathOf absolute (segs ++ [seg])) = .ok (-ENOTEMPTY, s) := by
    rw [rmdir_unfold fuel s _ d s s s s.root_node s.cwd_inode dn pn hlenD hlenD0 hdot1 hdot2
      hfindD hd0 hfr hdroot hgc hdcwd hdn (by rw [hdpar]; exact hp0) (by rw [hdpar]; exact hpn)
      hpw hdir]
    simp [hdc, hc0]
  -- unlink of C
  have hwalkC : walk (startOf s absolute) c ((segs ++ [seg]) ++ [cname]) = some (cid, .nil) := by
    rw [walk_append, hwalk]
    simp [walk_cons, Chain.lookup, walk]
  have hfindC : find_inode_path s fuel (pathOf absolute (segs ++ [seg, cname])) = .ok (cid, s) := by
    rw [find_inode_path_tree s fuel absolute st c _ hs hst hrep hslash (by simp) hsegs hfuel,
      hsplit, hwalkC]
    rfl
  obtain ⟨g2, p', kp', hwp', _, hun2, hall2, st2, hst2, hrep2⟩ :=
    unlink_inode_tree s.heap fuel _ st c (segs ++ [seg]) cname cid .nil hst hrep hids hwalkC hfuel
  rw [hwalk] at hwp'
  simp only [Option.some.injEq, Prod.mk.injEq] at hwp'
  obtain ⟨rfl, rfl⟩ := hwp'
  have he2 : (Chain.cons cid cname .nil .nil).eraseId cid = .nil := by simp [Chain.eraseId]
  rw [he2] at hrep2
  have hstep2 : __syscall10 fuel s (pathOf absolute (segs ++ [seg, cname]))
      = .ok (0, { s with heap := g2 }) := by
    rw [unlink_unfold fuel s _ cid s cn hlen hlenC0 hfindC hc0 hcn
      (Or.inr ⟨dn, by rw [hcpar]; exact hdn, hdw⟩)]
    simp [hcw, hcc, hun2]
  have hs2 : settled { s with heap := g2 } := settled_heap s g2 hs hall2
  obtain ⟨hsub2, hsize2, hsl2, hu2⟩ :=
    setKids_props d (.cons cid cname .nil .nil) .nil (by simp [Chain.ids]) (by simp [Chain.size])
      (fun _ => rfl) (fun _ => rfl) c (segs ++ [seg]) _ hwalk
  have hids2 : (startOf s absolute :: (c.setKids (segs ++ [seg]) .nil).ids).Nodup :=
    (List.Sublist.cons₂ _ hsub2).nodup hids
  -- the second rmdir
  have hwalk2 : walk (startOf s absolute) (c.setKids (segs ++ [seg]) .nil) (segs ++ [seg])
      = some (d, .nil) := by
    have := walk_setKids .nil [] d (.cons cid cname .nil .nil) (segs ++ [seg]) _ c hwalk
    simpa [setKids_nil_path] using this
  have hwp2 : walk (startOf s absolute) (c.setKids (segs ++ [seg]) .nil) segs
      = some (p, kp.setKids [seg] .nil) :=
    walk_setKids .nil [seg] p kp segs _ c hwp
  obtain ⟨p2, kp2, hwp2', hlp2⟩ := walk_lookup _ _ segs seg d _ hwalk2
  rw [hwp2] at hwp2'
  simp only [Option.some.injEq, Prod.mk.injEq] at hwp2'
  obtain ⟨rfl, rfl⟩ := hwp2'
  obtain ⟨_, pc2, hpc2, hrepp2⟩ := walk_rep g2 segs _ st2 _ p _ hst2 hrep2 hwp2
  obtain ⟨_, dn2, hdn2, _, hdpar2, hrepd2⟩ := lookup_rep g2 _ pc2.child p seg d _ hrepp2 hlp2
  have hdc2 : dn2.child = 0 := (rep_nil_iff g2 dn2.child d).1 hrepd2
  have hdir2 : dn2.type = INODE_DIR := by
    obtain ⟨b, hb, hsd⟩ := hall2 d dn hdn
    rw [hdn2] at hb
    cases hb
    rw [(sameData_fields dn dn2 hsd).2.2, hdir]
  have hpw2 : pc2.mode &&& 0o222 ≠ 0 := by
    obtain ⟨b, hb, hsd⟩ := hall2 p pn hpn
    rw [hpc2] at hb
    cases hb
    rw [(sameData_fields pn pc2 hsd).2.1]
    exact hpw
  have hfindD2 : find_inode_path { s with heap := g2 } fuel (pathOf absolute (segs ++ [seg]))
      = .ok (d, { s with heap := g2 }) := by
    rw [find_inode_path_tree { s with heap := g2 } fuel absolute st2 _ _ hs2 hst2 hrep2
      (hsl2 hslash) hneD hsegsD (le_trans hsize2 hfuel)]
    have : startOf { s with heap := g2 } absolute = startOf s absolute := rfl
    rw [this, hwalk2]
    rfl
  obtain ⟨g3, p3, kp3, hwp3, _, hun3, hall3, st3, hst3, hrep3⟩ :=
    unlink_inode_tree g2 fuel _ st2 _ segs seg d .nil hst2 hrep2 hids2 hwalk2
      (le_trans hsize2 hfuel)
  rw [hwp2] at hwp3
  simp only [Option.some.injEq, Prod.mk.injEq] at hwp3
  obtain ⟨rfl, rfl⟩ := hwp3
  have hstep3 : __syscall40 fuel { s with heap := g2 } (pathOf absolute (segs ++ [seg]))
      = .ok (0, { s with heap := g3 }) := by
    rw [rmdir_unfold fuel { s with heap := g2 } _ d _ _ _ s.root_node s.cwd_inode dn2 pc2
      hlenD hlenD0 hdot1 hdot2 hfindD2 hd0 (filesystem_root_settled _ hs2) hdroot
      (get_cwd_settled _ hs2) hdcwd hdn2 (by rw [hdpar2]; exact hp0)
      (by rw [hdpar2]; exact hpc2) hpw2 hdir2]
    simp [hdc2, hun3]
  -- the path of D afterwards
  have hs3 : settled { s with heap := g3 } :=
    settled_heap { s with heap := g2 } g3 hs2 hall3
  have hnd2 := hids2
  have hsubp : (p :: (kp.setKids [seg] .nil).ids).Sublist
      (startOf s absolute :: (c.setKids (segs ++ [seg]) .nil).ids) := by
    by_cases hsg : segs = []
    · subst hsg
      simp only [walk, Option.some.injEq, Prod.mk.injEq] at hwp2
      obtain ⟨h1, h2⟩ := hwp2
      rw [← h1, ← h2]
    · exact (walk_sublist segs _ _ p _ hsg hwp2).trans (List.sublist_cons_self _ _)
  have htop : (kp.setKids [seg] .nil).topIds.Nodup := by
    have := hsubp.nodup hids2
    simp only [List.nodup_cons] at this
    exact (topIds_sublist_ids _).nodup this.2
  have hukp : (kp.setKids [seg] .nil).uniqueNames = true :=
    walk_unique segs _ _ p _ (hu2 huniq) hwp2
  obtain ⟨_, hsize3, _, hsl3, _⟩ := eraseId_props d (kp.setKids [seg] .nil)
  obtain ⟨_, hsize4, hsl4, _⟩ :=
    setKids_props p (kp.setKids [seg] .nil) ((kp.setKids [seg] .nil).eraseId d)
      (eraseId_props d _).1 hsize3 hsl3 (eraseId_props d _).2.2.2.2
      (c.setKids (segs ++ [seg]) .nil) segs _ hwp2
  have hwalk3 : walk (startOf s absolute)
      ((c.setKids (segs ++ [seg]) .nil).setKids segs ((kp.setKids [seg] .nil).eraseId d))
      (segs ++ [seg]) = none := by
    have := walk_setKids ((kp.setKids [seg] .nil).eraseId d) [] p _ segs _ _ hwp2
    simp only [List.append_nil, setKids_nil_path] at this
    rw [walk_append, this]
    simp only [walk_cons, lookup_eraseId _ seg d .nil hukp htop hlp2]
  have hstep4 : find_inode_path { s with heap := g3 } fuel (pathOf absolute (segs ++ [seg]))
      = .ok (0, { s with heap := g3 }) := by
    rw [find_inode_path_tree { s with heap := g3 } fuel absolute st3 _ _ hs3 hst3 hrep3
      (hsl4 (hsl2 hslash)) hneD hsegsD (le_trans hsize4 (le_trans hsize2 hfuel))]
    have : startOf { s with heap := g3 } absolute = startOf s absolute := rfl
    rw [this, hwalk3]
    rfl
  exact ⟨_, _, hstep1, hstep2, hstep3, hstep4⟩

theorem filesystem_root_valid (s : FS) (r : inode) (h0 : s.root_node ≠ 0)
    (hr : deref s.heap s.root_node = .ok r) :
    filesystem_root s
      = .ok (s.root_node, { s with heap := store s.heap s.root_node { r with mode := 0o777 } }) := by
  unfold filesystem_root
  simp only [h0, if_false, hr]

theorem deref_reset (h : List inode) (root : Nat) (r : inode) (hr : deref h root = .ok r) :
    ∀ q a, deref h q = .ok a →
      ∃ b, deref (store h root { r with mode := 0o777 }) q = .ok b ∧ b.name = a.name ∧
        b.parent = a.parent ∧ b.sibling = a.sibling ∧ b.child = a.child ∧ b.type = a.type ∧
        (q ≠ root → b = a) ∧ (a.mode &&& 0o222 ≠ 0 → b.mode &&& 0o222 ≠ 0) := by
  intro q a ha
  by_cases hq : q = root
  · subst hq
    rw [hr] at ha
    cases ha
    have hm : (0o777 : Nat) &&& 0o222 ≠ 0 := by decide!
    exact ⟨_, deref_store_same h q r _ hr, rfl, rfl, rfl, rfl, rfl, fun e => absurd rfl e,
      fun _ => hm⟩
  · refine ⟨a, ?_, rfl, rfl, rfl, rfl, rfl, fun _ => rfl, fun e => e⟩
    rw [deref_store_other h root q _ (deref_inv h root r hr).1 hq]
    exact ha

theorem linksOf_reset (s : FS) (r : inode) (cwd : Nat)
    (hr : deref s.heap s.root_node = .ok r) :
    linksOf { s with heap := store s.heap s.root_node { r with mode := 0o777 },
                     cwd_inode := cwd } = linksOf s := by
  obtain ⟨_, hg⟩ := deref_inv s.heap s.root_node r hr
  unfold linksOf store
  simp only [List.map_set]
  apply set_same
  simp [hg]

theorem filesystem_root_fixed (s : FS) (r : inode) (h0 : s.root_node ≠ 0)
    (hr : deref s.heap s.root_node = .ok r) (hm : r.mode = 0o777) :
    filesystem_root s = .ok (s.root_node, s) := by
  unfold filesystem_root
  simp only [h0, if_false, hr]
  have : ({ r with mode := 0o777 } : inode) = r := by rw [← hm]
  rw [this, store_same s.heap s.root_node r hr]

theorem cwdOf_ne_zero (s : FS) (h0 : s.root_node ≠ 0) : cwdOf s ≠ 0 := by
  unfold cwdOf
  by_cases hc : s.cwd_inode = 0
  · simpa [hc] using h0
  · simp [hc]

theorem get_cwd_zero (s : FS) (hc : s.cwd_inode = 0) (r : Nat) (s1 : FS)
    (hf : filesystem_root s = .ok (r, s1)) :
    get_cwd s = .ok (r, { s1 with cwd_inode := r }) := by
  unfold get_cwd
  simp only [hc, if_true, hf]

theorem get_cwd_nonzero (s : FS) (hc : s.cwd_inode ≠ 0) :
    get_cwd s = .ok (s.cwd_inode, s) := by
  unfold get_cwd
  simp only [hc, if_false]

theorem get_cwd_reset (s : FS) (r : inode) (h0 : s.root_node ≠ 0)
    (hr : deref s.heap s.root_node = .ok r) :
    get_cwd { s with heap := store s.heap s.root_node { r with mode := 0o777 } }
      = .ok (cwdOf s, { s with heap := store s.heap s.root_node { r with mode := 0o777 },
                               cwd_inode := cwdOf s }) := by
  have hfix := filesystem_root_fixed
    { s with heap := store s.heap s.root_node { r with mode := 0o777 } }
    { r with mode := 0o777 } h0 (deref_store_same s.heap s.root_node r _ hr) rfl
  by_cases hc : s.cwd_inode = 0
  · have hz := get_cwd_zero
      { s with heap := store s.heap s.root_node { r with mode := 0o777 } } hc _ _ hfix
    rw [hz]
    simp only [cwdOf, hc, if_true]
  · have hz := get_cwd_nonzero
      { s with heap := store s.heap s.root_node { r with mode := 0o777 } } hc
    rw [hz]
    simp only [cwdOf, hc, if_false]

theorem get_cwd_fresh (s : FS) (r : inode) (h0 : s.root_node ≠ 0)
    (hr : deref s.heap s.root_node = .ok r) (hc : s.cwd_inode = 0) :
    get_cwd s
      = .ok (cwdOf s, { s with heap := store s.heap s.root_node { r with mode := 0o777 },
                               cwd_inode := cwdOf s }) := by
  rw [get_cwd_zero s hc _ _ (filesystem_root_valid s r h0 hr)]
  simp only [cwdOf, hc, if_true]

/-- The part of C13 that holds, with the links of the cells in the place of
the whole tree: in a state whose root exists, let the tree under the directory
a path is resolved from (the root for an absolute path, the current directory for a
relative one) have distinct cells and '/'-free names that are unique among
siblings, and let a path of non-empty '/'-free segments whose last segment is
neither `.` nor `..` lead to a directory D that is neither the root nor the
current directory, whose parent and D itself have a write bit and whose only
child C has a write bit and no child.  Then, with the paths within the
length limit and fuel for the whole tree, `rmdir` of D's path returns
`-ENOTEMPTY` and leaves every link of every cell as it was; `unlink` of C's
path then returns 0; `rmdir` of D's path then returns 0; and D's path then
resolves to the null pointer. -/
theorem rmdir_after_unlink (s : FS) (fuel : Nat) (absolute : Bool)
    (r st dn pn cn : inode) (c : Chain)
    (segs : List (List Char)) (seg cname : List Char) (d cid : Nat)
    (hroot0 : s.root_node ≠ 0) (hr : deref s.heap s.root_node = .ok r)
    (hst : deref s.heap (startOf s absolute) = .ok st)
    (hrep : rep s.heap st.child (startOf s absolute) c = true)
    (hslash : c.slashFree = true) (huniq : c.uniqueNames = true)
    (hids : (startOf s absolute :: c.ids).Nodup)
    (hsegs : ∀ x ∈ segs ++ [seg, cname], x ≠ [] ∧ '/' ∉ x)
    (hdot : seg ≠ ['.'] ∧ seg ≠ ['.', '.'])
    (hlen : (pathOf absolute (segs ++ [seg, cname])).length ≤ MAX_PATHNAME_LENGTH)
    (hwalk : walk (startOf s absolute) c (segs ++ [seg]) = some (d, .cons cid cname .nil .nil))
    (hdroot : d ≠ s.root_node) (hdcwd : d ≠ cwdOf s)
    (hdn : deref s.heap d = .ok dn) (hdir : dn.type = INODE_DIR)
    (hdw : dn.mode &&& 0o222 ≠ 0)
    (hpn : deref s.heap dn.parent = .ok pn) (hpw : pn.mode &&& 0o222 ≠ 0)
    (hcn : deref s.heap cid = .ok cn) (hcw : cn.mode &&& 0o222 ≠ 0)
    (hfuel : c.size ≤ fuel) :
    ∃ s1 s2 s3,
      __syscall40 fuel s (pathOf absolute (segs ++ [seg])) = .ok (-ENOTEMPTY, s1)
      ∧ linksOf s1 = linksOf s
      ∧ __syscall10 fuel s1 (pathOf absolute (segs ++ [seg, cname])) = .ok (0, s2)
      ∧ __syscall40 fuel s2 (pathOf absolute (segs ++ [seg])) = .ok (0, s3)
      ∧ find_inode_path s3 fuel (pathOf absolute (segs ++ [seg])) = .ok (0, s3) := by
  have hcwd0 := cwdOf_ne_zero s hroot0
  have hres := deref_reset s.heap s.root_node r hr
  have hrr := deref_store_same s.heap s.root_node r { r with mode := 0o777 } hr
  have hs1 : settled { s with heap := store s.heap s.root_node { r with mode := 0o777 },
                              cwd_inode := cwdOf s } :=
    ⟨hcwd0, hroot0, _, hrr, rfl⟩
  have hstart1 : startOf { s with heap := store s.heap s.root_node { r with mode := 0o777 },
                                  cwd_inode := cwdOf s } absolute = startOf s absolute := by
    cases absolute with
    | true => rfl
    | false =>
      simp only [startOf, Bool.false_eq_true, if_false]
      show (if cwdOf s = 0 then s.root_node else cwdOf s) = cwdOf s
      simp [hcwd0]
  -- the facts of the hypotheses in the heap with the root's mode reset
  obtain ⟨st1, hst1, _, _, _, hstc, _, _, _⟩ := hres _ st hst
  have hrep1 : rep (store s.heap s.root_node { r with mode := 0o777 }) st1.child
      (startOf s absolute) c = true := by
    rw [hstc]
    refine rep_congr s.heap _ c st.child _ ?_ hrep
    intro q _ a ha
    obtain ⟨b, hb, h1, h2, h3, h4, _⟩ := hres q a ha
    exact ⟨b, hb, h1, h2, h3, h4⟩
  obtain ⟨dn1, hdn1, _, _, _, _, _, hdeq, _⟩ := hres d dn hdn
  rw [hdeq hdroot] at hdn1
  obtain ⟨pn1, hpn1, _, _, _, _, _, _, hpw1⟩ := hres _ pn hpn
  obtain ⟨cn1, hcn1, _, _, _, _, _, _, hcw1⟩ := hres cid cn hcn
  obtain ⟨s2, s3, hstepS, hstep2, hstep3, hstep4⟩ :=
    unlink_then_rmdir_settled
      { s with heap := store s.heap s.root_node { r with mode := 0o777 }, cwd_inode := cwdOf s }
      fuel absolute st1 dn pn1 cn1 c segs seg cname d cid hs1
      (by rw [hstart1]; exact hst1) (by rw [hstart1]; exact hrep1) hslash huniq
      (by rw [hstart1]; exact hids) hsegs hdot hlen (by rw [hstart1]; exact hwalk)
      hdroot hdcwd hdn1 hdir hdw hpn1 (hpw1 hpw) hcn1 (hcw1 hcw) hfuel
  refine ⟨_, s2, s3, ?_, linksOf_reset s r (cwdOf s) hr, hstep2, hstep3, hstep4⟩
  -- the first rmdir, from the state as given
  have hsplit : segs ++ [seg, cname] = (segs ++ [seg]) ++ [cname] := by simp
  have hneD : segs ++ [seg] ≠ [] := by simp
  have hsegsD : ∀ x ∈ segs ++ [seg], x ≠ [] ∧ '/' ∉ x := by
    intro x hx
    exact hsegs x (by rw [hsplit]; exact List.mem_append_left _ hx)
  have hseg := hsegs seg (by simp)
  have hlenD0 : (pathOf absolute (segs ++ [seg])).length ≠ 0 :=
    pathOf_length_pos absolute _ hneD hsegsD
  have hlenD : (pathOf absolute (segs ++ [seg])).length ≤ MAX_PATHNAME_LENGTH := by
    rw [hsplit, pathOf_snoc absolute _ cname hneD] at hlen
    simp only [List.length_append] at hlen
    omega
  have hdot1 := last_component_of_pathOf absolute segs seg ['.'] hseg.2 (by decide) hdot.1
  have hdot2 := last_component_of_pathOf absolute segs seg ['.', '.'] hseg.2 (by decide) hdot.2
  obtain ⟨p, kp, hwp, hlp⟩ := walk_lookup _ c segs seg d _ hwalk
  obtain ⟨hp0, _, _, hrepp⟩ := walk_rep _ segs _ st1 c p kp hst1 hrep1 hwp
  obtain ⟨hd0, dn2, hdn2, _, hdpar, hrepd⟩ := lookup_rep _ kp _ p seg d _ hrepp hlp
  rw [hdn1] at hdn2
  cases hdn2
  obtain ⟨hdc, cn2, hcn2, _⟩ :=
    (rep_cons_iff _ dn.child d cid cname .nil .nil).1 hrepd
  have hc0 : cid ≠ 0 := (deref_inv _ cid cn2 hcn2).1
  have hfindS : find_inode s.heap fuel (startOf s absolute) (joinPath (segs ++ [seg]))
      = .ok d := by
    rw [find_inode_walk s.heap _ st c _ fuel hst hrep hslash hsegsD hfuel, hwalk]
    rfl
  have hfindR : find_inode (store s.heap s.root_node { r with mode := 0o777 }) fuel
      (startOf s absolute) (joinPath (segs ++ [seg])) = .ok d := by
    rw [find_inode_walk _ _ st1 c _ fuel hst1 hrep1 hslash hsegsD hfuel, hwalk]
    rfl
  have hhead : (joinPath (segs ++ [seg])).head? ≠ some '/' := by
    cases segs with
    | nil => exact joinPath_head seg [] hseg.1 hseg.2
    | cons a l =>
      have ha := hsegs a (by simp)
      exact joinPath_head a (l ++ [seg]) ha.1 ha.2
  have hfinish : ∀ (sm sr : FS),
      find_inode_path s fuel (pathOf absolute (segs ++ [seg])) = .ok (d, sm) →
      filesystem_root sm = .ok (s.root_node, sr) →
      get_cwd sr = .ok (cwdOf s,
        { s with heap := store s.heap s.root_node { r with mode := 0o777 },
                 cwd_inode := cwdOf s }) →
      __syscall40 fuel s (pathOf absolute (segs ++ [seg])) = .ok (-ENOTEMPTY,
        { s with heap := store s.heap s.root_node { r with mode := 0o777 },
                 cwd_inode := cwdOf s }) := by
    intro sm sr h1 h2 h3
    rw [rmdir_unfold fuel s _ d sm sr _ s.root_node (cwdOf s) dn pn1 hlenD hlenD0 hdot1 hdot2
      h1 hd0 h2 hdroot h3 hdcwd hdn1 (by rw [hdpar]; exact hp0) hpn1 (hpw1 hpw) hdir]
    simp [hdc, hc0]
  cases absolute with
  | true =>
    refine hfinish { s with heap := store s.heap s.root_node { r with mode := 0o777 } } _ ?_
      (filesystem_root_fixed _ _ hroot0 hrr rfl) (get_cwd_reset s r hroot0 hr)
    simp only [pathOf, if_true]
    rw [find_inode_path_abs, filesystem_root_valid s r hroot0 hr]
    simp only [startOf, if_true] at hfindR
    simp only [hfindR]
  | false =>
    simp only [pathOf, Bool.false_eq_true, if_false] at hfinish ⊢
    simp only [startOf, Bool.false_eq_true, if_false] at hfindS hfindR
    by_cases hc : s.cwd_inode = 0
    · refine hfinish
        { s with heap := store s.heap s.root_node { r with mode := 0o777 },
                 cwd_inode := cwdOf s }
        { s with heap := store s.heap s.root_node { r with mode := 0o777 },
                 cwd_inode := cwdOf s }
        ?_ (filesystem_root_settled _ hs1) (get_cwd_settled _ hs1)
      rw [find_inode_path_rel s fuel _ hhead, get_cwd_fresh s r hroot0 hr hc]
      simp only [hfindR]
    · refine hfinish s _ ?_ (filesystem_root_valid s r hroot0 hr) (get_cwd_reset s r hroot0 hr)
      rw [find_inode_path_rel s fuel _ hhead, get_cwd_nonzero s hc]
      have : cwdOf s = s.cwd_inode := by simp [cwdOf, hc]
      rw [this] at hfindS
      simp only [hfindS]

theorem rmdir_after_unlink_witness :
    ∃ s1 s2 s3,
      __syscall40 10 treeAbc "/a/b".toList = .ok (-ENOTEMPTY, s1)
      ∧ linksOf s1 = linksOf treeAbc
      ∧ __syscall10 10 s1 "/a/b/c".toList = .ok (0, s2)
      ∧ __syscall40 10 s2 "/a/b".toList = .ok (0, s3)
      ∧ find_inode_path s3 10 "/a/b".toList = .ok (0, s3) :=
  rmdir_after_unlink treeAbc 10 true
    (cell [] 0 0 2 INODE_DIR 0o777) (cell [] 0 0 2 INODE_DIR 0o777)
    (cell "b".toList 2 0 4 INODE_DIR 0o777) (cell "a".toList 1 0 3 INODE_DIR 0o777)
    (cell "c".toList 3 0 0 INODE_DIR 0o777)
    (.cons 2 "a".toList (.cons 3 "b".toList (.cons 4 "c".toList .nil .nil) .nil) .nil)
    ["a".toList] "b".toList "c".toList 3 4
    (by decide) (by decide) (by decide) (by decide) (by decide) (by decide) (by decide)
    (by decide) (by decide) (by decide) (by decide) (by decide) (by decide) (by decide)
    (by decide) (by decide) (by decide) (by decide) (by decide) (by decide) (by decide)

theorem deref_append (h : List inode) (n : inode) (p : Nat) :
    deref (h ++ [n]) p = if p = h.length + 1 then .ok n else deref h p := by
  unfold deref
  by_cases h0 : p = 0
  · simp [h0]
  · by_cases hp : p = h.length + 1
    · subst hp
      simp
    · simp only [h0, if_false, hp]
      rcases Nat.lt_or_ge (p - 1) h.length with hl | hl
      · rw [List.getElem?_append_left hl]
      · have h1 : (h ++ [n])[p - 1]? = none := by
          apply List.getElem?_eq_none
          simp only [List.length_append, List.length_singleton]
          omega
        rw [h1, List.getElem?_eq_none hl]

theorem deref_le (h : List inode) (p : Nat) (n : inode) (hd : deref h p = .ok n) :
    p ≠ 0 ∧ p ≤ h.length := by
  obtain ⟨h0, hg⟩ := deref_inv h p n hd
  refine ⟨h0, ?_⟩
  rcases Nat.lt_or_ge (p - 1) h.length with hl | hl
  · omega
  · rw [List.getElem?_eq_none hl] at hg
    cases hg

theorem deref_append_old (h : List inode) (n a : inode) (p : Nat) (hd : deref h p = .ok a) :
    deref (h ++ [n]) p = .ok a := by
  have := (deref_le h p a hd).2
  rw [deref_append, if_neg (by omega)]
  exact hd

theorem deref_of_le (h : List inode) (p : Nat) (h0 : p ≠ 0) (hl : p ≤ h.length) :
    ∃ n, deref h p = .ok n := by
  have hlt : p - 1 < h.length := by omega
  exact ⟨h[p - 1], by simp [deref, h0, List.getElem?_eq_getElem hlt]⟩

theorem nameAt_eq (h : List inode) (c : Nat) (n : inode) (hd : deref h c = .ok n) :
    nameAt h c = n.name := by
  simp [nameAt, hd]

theorem basename_loop_length :
    ∀ (path s : List Char), (basename_loop path s).length ≤ max s.length path.length := by
  intro path
  induction path with
  | nil => intro s; simp [basename_loop]
  | cons c rest ih =>
    intro s
    simp only [basename_loop, List.length_cons]
    by_cases hc : c = '/'
    · simp only [hc, if_true]
      have := ih rest
      simp only [max_self] at this
      omega
    · simp only [hc, if_false]
      have := ih s
      omega

theorem basename_loop_shorter :
    ∀ (path s : List Char), '/' ∈ path → (basename_loop path s).length < path.length := by
  intro path
  induction path with
  | nil => intro s h; simp at h
  | cons c rest ih =>
    intro s h
    simp only [basename_loop, List.length_cons]
    by_cases hc : c = '/'
    · simp only [hc, if_true]
      have := basename_loop_length rest rest
      simp only [max_self] at this
      omega
    · simp only [hc, if_false]
      have hr : '/' ∈ rest := by
        rcases List.mem_cons.1 h with e | e
        · exact absurd e.symm hc
        · exact e
      have := ih s hr
      omega

theorem path_cmp_some (name : List Char) :
    ∀ (path cp : List Char), '/' ∉ name → path_cmp path name = some cp →
      (cp = [] ∧ path = name) ∨ path = name ++ '/' :: cp := by
  induction name with
  | nil =>
    intro path cp _ h
    cases path with
    | nil =>
      simp only [path_cmp, Option.some.injEq] at h
      exact Or.inl ⟨h.symm, rfl⟩
    | cons c1 r1 =>
      by_cases hc : c1 = '/'
      · simp only [path_cmp, hc, if_true, Option.some.injEq] at h
        exact Or.inr (by simp [hc, h])
      · simp [path_cmp, hc] at h
  | cons c2 r2 ih =>
    intro path cp hn h
    have hc2 : c2 ≠ '/' := fun e => hn (by simp [e])
    have hr2 : '/' ∉ r2 := fun e => hn (List.mem_cons_of_mem _ e)
    cases path with
    | nil => simp [path_cmp, hc2] at h
    | cons c1 r1 =>
      by_cases hc : c1 = c2
      · subst hc
        simp only [path_cmp, if_true, hc2, if_false] at h
        rcases ih r1 cp hr2 h with ⟨h1, h2⟩ | h2
        · exact Or.inl ⟨h1, by rw [h2]⟩
        · exact Or.inr (by rw [h2]; simp)
      · simp [path_cmp, hc] at h

theorem cdh_find_null (h : List inode) (fuel root : Nat) (path : List Char) :
    create_directory_hierarchy_find h fuel root 0 path = .ok (root, some path) := by
  unfold create_directory_hierarchy_find
  simp

theorem store_append_last (h : List inode) (a b : inode) :
    store (h ++ [a]) (h.length + 1) b = h ++ [b] := by
  unfold store
  simp

theorem deref_append_last (h : List inode) (a : inode) :
    deref (h ++ [a]) (h.length + 1) = .ok a := by
  rw [deref_append]
  simp

theorem set_mode_append (h : List inode) (a : inode) (mode : Nat) :
    set_mode (h ++ [a]) (h.length + 1) mode
      = .ok (h ++ [{ a with mode := mode % 4294967296 }]) := by
  unfold set_mode
  simp only [deref_append_last, store_append_last]

theorem create_inode_eq (s : FS) (type : Nat) :
    create_inode s type = (s.heap.length + 1, { s with heap := s.heap ++ [
      { name := [], parent := 0, sibling := 0, child := 0, uid := 0, gid := 0,
        mode := 0, ctime := s.clock, mtime := s.clock, atime := s.clock,
        size := 0, capacity := 0, data := none, type := type, fetch := none }] }) := rfl

/-- The diagnostic call at the entry of `link_inode` is `inode_abspath` on the
array `parentName`: for every content of a block of `PATH_MAX` bytes, the call
with `dstLen = PATH_MAX` faults or changes the state exactly as
`link_inode_parent_name` says. -/
theorem link_inode_parent_name_eq (s : FS) (parent : Nat) (mem : List Char)
    (hm : mem.length = PATH_MAX) :
    (inode_abspath s parent mem PATH_MAX).bind (fun r => .ok r.2)
      = link_inode_parent_name s parent := by
  have hnull : poke mem 0 ("(null)".toList ++ [NUL])
      = .ok (mem.take 0 ++ ("(null)".toList ++ [NUL]) ++ mem.drop (0 + 7)) := by
    unfold poke
    have : 0 + ("(null)".toList ++ [NUL]).length ≤ mem.length := by
      rw [hm]
      decide
    rw [if_pos this]
    rfl
  have hroot : poke mem 0 ['/', NUL] = .ok (mem.take 0 ++ ['/', NUL] ++ mem.drop (0 + 2)) := by
    unfold poke
    have : 0 + (['/', NUL] : List Char).length ≤ mem.length := by
      rw [hm]
      decide
    rw [if_pos this]
    rfl
  have hend : poke mem PATH_MAX [NUL] = .fault .bufferOverflow := by
    unfold poke
    have : ¬ PATH_MAX + ([NUL] : List Char).length ≤ mem.length := by
      rw [hm]
      decide
    rw [if_neg this]
  have h7 : ¬ PATH_MAX < 7 := by decide
  have h2 : ¬ PATH_MAX < 2 := by decide
  unfold inode_abspath link_inode_parent_name
  by_cases h0 : parent = 0
  · simp only [h0, if_true, h7, if_false, hnull]
    rfl
  · simp only [h0, if_false]
    cases hr : filesystem_root s with
    | fault e => rfl
    | ok res =>
      obtain ⟨root, s1⟩ := res
      simp only []
      by_cases hp : parent = root
      · simp only [hp, if_true, h2, if_false, hroot]
        rfl
      · simp only [hp, if_false]
        cases hc : inode_abspath_climb s1.heap MAX_DIRECTORY_DEPTH parent [] with
        | fault e => rfl
        | ok stack =>
          simp only [hend]
          rfl

theorem isChain_store (h : List inode) (p : Nat) (a b : inode) (ha : deref h p = .ok a)
    (hs : b.sibling = a.sibling) (l : List Nat) (first : Nat) (hl : isChain h first l) :
    isChain (store h p b) first l := by
  have hp0 := (deref_inv h p a ha).1
  refine isChain_congr h _ l first ?_ hl
  intro c _ x hx
  by_cases hc : c = p
  · subst hc
    rw [ha] at hx
    cases hx
    exact ⟨b, deref_store_same h c a b ha, hs⟩
  · exact ⟨x, by rw [deref_store_other h p c b hp0 hc]; exact hx, rfl⟩

theorem emscripten_dump_fs_root_state (fuel : Nat) (s s1 : FS)
    (h : emscripten_dump_fs_root fuel s = .ok s1) :
    ∃ root, filesystem_root s = .ok (root, s1) := by
  unfold emscripten_dump_fs_root at h
  cases hr : filesystem_root s with
  | fault e => simp [hr] at h
  | ok res =>
    obtain ⟨root, s2⟩ := res
    simp only [hr] at h
    cases hd : emscripten_dump_fs_tree s2.heap fuel root ['/'] with
    | fault e => simp [hd] at h
    | ok u =>
      simp only [hd, Run.ok.injEq] at h
      exact ⟨root, by rw [h]⟩

theorem notTooLong_fault (e : Fault) : notTooLong (.fault e) := by
  intro v s h
  cases h

theorem notTooLong_ok (a : Int) (s : FS) (ha : a ≠ -ENAMETOOLONG) : notTooLong (.ok (a, s)) := by
  intro v s1 h
  cases h
  exact ha

theorem open_fetch_error (provider : List Char → emscripten_fetch_t) (fuel : Nat) (s : FS)
    (root node : Nat) (pathname relpath : List Char) (flags mode : Nat) (e : Int)
    (h : open_fetch provider fuel s root node pathname relpath flags mode = .ok (.error e)) :
    e = ENOENT := by
  unfold open_fetch at h
  dsimp only at h
  generalize (if flags &&& O_DIRECTORY = 0 ∧ flags &&& O_ACCMODE ≠ O_WRONLY
    then some (provider pathname) else none) = fetch at h
  by_cases c1 : fetch.any (fun f => f.status != 200 || f.totalBytes == 0) = true
  · rw [if_pos c1] at h
    cases h
    rfl
  · rw [if_neg c1] at h
    by_cases c2 : node ≠ 0
    · rw [if_pos c2] at h
      cases hd : deref s.heap node with
      | fault e => simp [hd] at h
      | ok n =>
        simp only [hd] at h
        by_cases c3 : n.type = INODE_FILE
        · rw [if_pos c3] at h
          dsimp only at h
          repeat' split at h
          all_goals cases h
        · rw [if_neg c3] at h
          dsimp only at h
          repeat' split at h
          all_goals cases h
    · rw [if_neg c2] at h
      by_cases c4 : flags &&& O_CREAT ≠ 0 ∨ fetch.isSome = true
      · rw [if_pos c4] at h
        cases hn : open_new_node fuel s root pathname relpath flags mode fetch with
        | fault e => simp [hn] at h
        | ok r =>
          obtain ⟨node1, s1⟩ := r
          simp only [hn] at h
          repeat' split at h
          all_goals cases h
      · rw [if_neg c4] at h
        cases h
        rfl

theorem open_checks_values (n : inode) (flags : Nat) (e : Int)
    (h : open_checks n flags = some e) :
    e = ENOTDIR ∨ e = EACCES ∨ e = EEXIST ∨ e = EISDIR := by
  unfold open_checks at h
  dsimp only at h
  split_ifs at h <;> simp at h <;> simp [← h]

theorem open_checks_bind_values (found : Option inode) (flags : Nat) (e : Int)
    (h : found.bind (fun n => open_checks n flags) = some e) :
    e = ENOTDIR ∨ e = EACCES ∨ e = EEXIST ∨ e = EISDIR := by
  cases found with
  | none => simp at h
  | some n => exact open_checks_values n flags e h

theorem open_finish_value (s : FS) (node flags mode : Nat) (v : Int) (s1 : FS)
    (h : open_finish s node flags mode = .ok (v, s1)) : 3 ≤ v := by
  unfold open_finish at h
  cases hd : deref s.heap node with
  | fault e => simp [hd] at h
  | ok n =>
    simp only [hd] at h
    injection h with h
    injection h with h1 h2
    rw [← h1]
    push_cast
    omega

theorem open_finish_not_too_long (s : FS) (node flags mode : Nat) :
    notTooLong (open_finish s node flags mode) := by
  intro v s1 h
  have := open_finish_value s node flags mode v s1 h
  intro hv
  rw [hv] at this
  exact absurd this (by decide)

theorem open_not_too_long (provider : List Char → emscripten_fetch_t) (fuel : Nat) (s : FS)
    (pathname : List Char) (flags mode : Nat) (hflags : open_flag_checks flags = none)
    (hl : pathname.length ≤ MAX_PATHNAME_LENGTH) :
    notTooLong (__syscall5 provider fuel s pathname flags mode) := by
  unfold __syscall5
  rw [hflags]
  dsimp only
  rw [if_neg (Nat.not_lt.2 hl)]
  repeat' first | split | dsimp only
  all_goals first
    | exact notTooLong_fault _
    | exact open_finish_not_too_long _ _ _ _
    | (refine notTooLong_ok _ _ ?_; decide)
    | (refine notTooLong_ok _ _ ?_
       rename_i e _ _ he
       rcases open_checks_bind_values _ _ _ he with h | h | h | h <;> rw [h] <;> decide)
    | (refine notTooLong_ok _ _ ?_
       rename_i he
       rw [open_fetch_error _ _ _ _ _ _ _ _ _ _ he]
       decide)

theorem mkdir_not_too_long (fuel : Nat) (s : FS) (pathname : List Char) (mode : Nat)
    (hl : pathname.length ≤ MAX_PATHNAME_LENGTH) :
    notTooLong (__syscall39 fuel s pathname mode) := by
  unfold __syscall39
  rw [if_neg (Nat.not_lt.2 hl)]
  dsimp only
  repeat' first | split | dsimp only
  all_goals first | exact notTooLong_fault _ | (refine notTooLong_ok _ _ ?_; decide)

theorem rmdir_not_too_long (fuel : Nat) (s : FS) (pathname : List Char)
    (hl : pathname.length ≤ MAX_PATHNAME_LENGTH) :
    notTooLong (__syscall40 fuel s pathname) := by
  unfold __syscall40
  rw [if_neg (Nat.not_lt.2 hl)]
  repeat' first | split | dsimp only
  all_goals first | exact notTooLong_fault _ | (refine notTooLong_ok _ _ ?_; decide)

theorem unlink_not_too_long (fuel : Nat) (s : FS) (pathname : List Char)
    (hl : pathname.length ≤ MAX_PATHNAME_LENGTH) :
    notTooLong (__syscall10 fuel s pathname) := by
  unfold __syscall10
  rw [if_neg (Nat.not_lt.2 hl)]
  repeat' first | split | dsimp only
  all_goals first | exact notTooLong_fault _ | (refine notTooLong_ok _ _ ?_; decide)

theorem chdir_not_too_long (fuel : Nat) (s : FS) (pathname : List Char)
    (hl : pathname.length ≤ MAX_PATHNAME_LENGTH) :
    notTooLong (__syscall12 fuel s pathname) := by
  unfold __syscall12
  rw [if_neg (Nat.not_lt.2 hl)]
  repeat' first | split | dsimp only
  all_goals first | exact notTooLong_fault _ | (refine notTooLong_ok _ _ ?_; decide)

theorem chmod_not_too_long (fuel : Nat) (s : FS) (pathname : List Char) (mode : Nat)
    (hl : pathname.length ≤ MAX_PATHNAME_LENGTH) :
    notTooLong (__syscall15 fuel s pathname mode) := by
  unfold __syscall15
  rw [if_neg (Nat.not_lt.2 hl)]
  repeat' first | split | dsimp only
  all_goals first | exact notTooLong_fault _ | (refine notTooLong_ok _ _ ?_; decide)

theorem access_not_too_long (fuel : Nat) (s : FS) (pathname : List Char) (mode : Nat)
    (hl : pathname.length ≤ MAX_PATHNAME_LENGTH) :
    notTooLong (__syscall33 fuel s pathname mode) := by
  unfold __syscall33
  rw [if_neg (Nat.not_lt.2 hl)]
  repeat' first | split | dsimp only
  all_goals first | exact notTooLong_fault _ | (refine notTooLong_ok _ _ ?_; decide)

/-- C21: for every state and every flags value that passes the flag checks of
`open`: on a path longer than `MAX_PATHNAME_LENGTH` (2000) bytes each of open,
chdir, chmod, mkdir, rmdir, unlink and access returns `-ENAMETOOLONG`, and on
the empty path each returns `-ENOENT`, in both cases with the state exactly as
it was (no lookup has run, so not even the root has been created); and on a
path of at most 2000 bytes, in particular one of exactly 2000 bytes, none of
them returns `-ENAMETOOLONG`. -/
theorem path_length_checks (provider : List Char → emscripten_fetch_t) (fuel : Nat) (s : FS)
    (pathname : List Char) (flags mode amode : Nat) (hflags : open_flag_checks flags = none) :
    (MAX_PATHNAME_LENGTH < pathname.length →
      __syscall5 provider fuel s pathname flags mode = .ok (-ENAMETOOLONG, s)
      ∧ __syscall12 fuel s pathname = .ok (-ENAMETOOLONG, s)
      ∧ __syscall15 fuel s pathname mode = .ok (-ENAMETOOLONG, s)
      ∧ __syscall39 fuel s pathname mode = .ok (-ENAMETOOLONG, s)
      ∧ __syscall40 fuel s pathname = .ok (-ENAMETOOLONG, s)
      ∧ __syscall10 fuel s pathname = .ok (-ENAMETOOLONG, s)
      ∧ __syscall33 fuel s pathname amode = .ok (-ENAMETOOLONG, s))
    ∧ (pathname = [] →
      __syscall5 provider fuel s pathname flags mode = .ok (-ENOENT, s)
      ∧ __syscall12 fuel s pathname = .ok (-ENOENT, s)
      ∧ __syscall15 fuel s pathname mode = .ok (-ENOENT, s)
      ∧ __syscall39 fuel s pathname mode = .ok (-ENOENT, s)
      ∧ __syscall40 fuel s pathname = .ok (-ENOENT, s)
      ∧ __syscall10 fuel s pathname = .ok (-ENOENT, s)
      ∧ __syscall33 fuel s pathname amode = .ok (-ENOENT, s))
    ∧ (pathname.length ≤ MAX_PATHNAME_LENGTH → ∀ v s1,
      (__syscall5 provider fuel s pathname flags mode = .ok (v, s1)
        ∨ __syscall12 fuel s pathname = .ok (v, s1)
        ∨ __syscall15 fuel s pathname mode = .ok (v, s1)
        ∨ __syscall39 fuel s pathname mode = .ok (v, s1)
        ∨ __syscall40 fuel s pathname = .ok (v, s1)
        ∨ __syscall10 fuel s pathname = .ok (v, s1)
        ∨ __syscall33 fuel s pathname amode = .ok (v, s1)) → v ≠ -ENAMETOOLONG) := by
  refine ⟨fun hl => ?_, fun he => ?_, fun hl v s1 h => ?_⟩
  · have hl1 : pathname.length > MAX_PATHNAME_LENGTH := hl
    refine ⟨?_, ?_, ?_, ?_, ?_, ?_, ?_⟩
    · unfold __syscall5
      rw [hflags]
      dsimp only
      rw [if_pos hl1]
    · unfold __syscall12
      rw [if_pos hl1]
    · unfold __syscall15
      rw [if_pos hl1]
    · unfold __syscall39
      rw [if_pos hl1]
    · unfold __syscall40
      rw [if_pos hl1]
    · unfold __syscall10
      rw [if_pos hl1]
    · unfold __syscall33
      rw [if_pos hl1]
  · subst he
    have h0 : ¬ ([] : List Char).length > MAX_PATHNAME_LENGTH := by decide!
    have h1 : ([] : List Char).length = 0 := rfl
    refine ⟨?_, ?_, ?_, ?_, ?_, ?_, ?_⟩
    · unfold __syscall5
      rw [hflags]
      dsimp only
      rw [if_neg h0, if_pos h1]
    · unfold __syscall12
      rw [if_neg h0, if_pos h1]
    · unfold __syscall15
      rw [if_neg h0, if_pos h1]
    · unfold __syscall39
      rw [if_neg h0, if_pos h1]
    · unfold __syscall40
      rw [if_neg h0, if_pos h1]
    · unfold __syscall10
      rw [if_neg h0, if_pos h1]
    · unfold __syscall33
      rw [if_neg h0, if_pos h1]
  · rcases h with h | h | h | h | h | h | h
    · exact open_not_too_long provider fuel s pathname flags mode hflags hl v s1 h
    · exact chdir_not_too_long fuel s pathname hl v s1 h
    · exact chmod_not_too_long fuel s pathname mode hl v s1 h
    · exact mkdir_not_too_long fuel s pathname mode hl v s1 h
    · exact rmdir_not_too_long fuel s pathname hl v s1 h
    · exact unlink_not_too_long fuel s pathname hl v s1 h
    · exact access_not_too_long fuel s pathname amode hl v s1 h

/-- A path of 2000 bytes: 2000 times the letter `a`. -/
theorem longest_path_length : (List.replicate 2000 'a').length = 2000 :=
  List.length_replicate 2000 'a'

theorem access_fresh_relative (c : Char) (rest : List Char) (hc : c ≠ '/')
    (hl : (c :: rest).length ≤ MAX_PATHNAME_LENGTH) :
    __syscall33 10 FS.init (c :: rest) R_OK
      = .ok (-ENOENT, { rootOnly with cwd_inode := 1 }) := by
  have hg : get_cwd FS.init = .ok (1, { rootOnly with cwd_inode := 1 }) := by decide!
  have hd : deref ({ rootOnly with cwd_inode := 1 } : FS).heap 1
      = .ok (cell [] 0 0 0 INODE_DIR 0o777) := by decide!
  have hf : find_inode_path FS.init 10 (c :: rest)
      = .ok (0, { rootOnly with cwd_inode := 1 }) := by
    unfold find_inode_path
    split
    · rename_i heq
      injection heq with h1 h2
      exact absurd h1 hc
    · rw [hg]
      dsimp only
      unfold find_inode
      rw [if_neg (by decide), if_neg (by
        intro h
        rcases h with h | h
        · cases h
        · injection h with h1 h2
          exact hc h1), hd]
      dsimp only
      unfold find_inode_loop
      rfl
  unfold __syscall33
  rw [if_neg (Nat.not_lt.2 hl), if_neg (by simp), if_neg (by decide), hf]
  rfl

theorem access_longest_path :
    __syscall33 10 FS.init (List.replicate 2000 'a') R_OK
      = .ok (-ENOENT, { rootOnly with cwd_inode := 1 }) :=
  access_fresh_relative 'a' (List.replicate 1999 'a') (by decide)
    (by
      rw [List.length_cons, List.length_replicate]
      decide)

/-- C21, at concrete paths in a fresh process: `mkdir` of a path of 2001
bytes returns `-ENAMETOOLONG` and `chdir("")` returns `-ENOENT`, both leaving
the state untouched; `access` of a path of exactly 2000 bytes goes on to
resolve the path (which creates the root) and returns `-ENOENT`, not
`-ENAMETOOLONG`. -/
theorem path_length_checks_witness :
    __syscall39 10 FS.init (List.replicate 2001 'a') 0o777 = .ok (-ENAMETOOLONG, FS.init)
    ∧ __syscall12 10 FS.init [] = .ok (-ENOENT, FS.init)
    ∧ __syscall33 10 FS.init (List.replicate 2000 'a') R_OK
        = .ok (-ENOENT, { rootOnly with cwd_inode := 1 })
    ∧ -ENOENT ≠ -ENAMETOOLONG :=
  ⟨((path_length_checks notFound 10 FS.init (List.replicate 2001 'a') O_RDONLY 0o777 R_OK rfl).1
      (by rw [List.length_replicate]; decide)).2.2.2.1,
    ((path_length_checks notFound 10 FS.init [] O_RDONLY 0o777 R_OK rfl).2.1 rfl).2.1,
    access_longest_path,
    (path_length_checks notFound 10 FS.init (List.replicate 2000 'a') O_RDONLY 0o777 R_OK rfl).2.2
      (by rw [List.length_replicate]; decide) _ _
      (Or.inr (Or.inr (Or.inr (Or.inr (Or.inr (Or.inr access_longest_path))))))⟩

/-- C22 (the code at the failing input): after `/h` is opened twice and the
first descriptor closed, `readv` on descriptor 4 takes its internal-error
exit `RETURN_ERRNO(-1, ...)` and returns 1, a positive value; `dup` on a
descriptor without a node takes the same kind of exit and returns 1. -/
theorem internal_error_returns_positive :
    __syscall6 openedTwice 3 = .ok (0, closedFirst)
    ∧ __syscall145 closedFirst 4 [⟨some [0, 0, 0, 0, 0], 5⟩] 1
        = .ok (RETURN_ERRNO (-1), [⟨some [0, 0, 0, 0, 0], 5⟩], closedFirst)
    ∧ __syscall41 orphanDesc 3 = .ok (RETURN_ERRNO (-1), orphanDesc)
    ∧ RETURN_ERRNO (-1) = 1
    ∧ RETURN_ERRNO EBADF = -9 := by
  decide!

/-- C23 (the code at the failing input): after `chmod("/", 0)` the root's mode
is 0; `chdir("/x")`, `unlink("/x")` and `open("/x", O_RDONLY)` each fail with
`ENOENT`, and each leaves the root's mode at 0777.  In a fresh process a failed
`unlink("/x")` leaves a heap of one cell, the root, where there was none. -/
theorem failed_call_resets_root_mode :
    __syscall15 10 FS.init "/".toList 0 = .ok (0, chmodRoot)
    ∧ (chmodRoot.heap[0]?).map (fun n => n.mode) = some 0
    ∧ __syscall12 10 chmodRoot "/x".toList = .ok (-ENOENT, accessedRoot)
    ∧ __syscall10 10 chmodRoot "/x".toList = .ok (-ENOENT, accessedRoot)
    ∧ __syscall5 notFound 10 chmodRoot "/x".toList O_RDONLY 0 = .ok (-ENOENT, accessedRoot)
    ∧ (accessedRoot.heap[0]?).map (fun n => n.mode) = some 0o777
    ∧ __syscall10 10 FS.init "/x".toList = .ok (-ENOENT, rootOnly)
    ∧ FS.init.heap.length = 0 ∧ rootOnly.heap.length = 1 := by
  decide!

/-- C28 (the code at the failing input): `/f` in `wrote8` is a regular file
whose 8 bytes were written locally (`data` set, no fetch); `open("/f",
O_WRONLY|O_APPEND)` succeeds and returns descriptor 4 with offset 0, not 8.
On the fetched file `/h` of `openedH` (5 bytes) an open with `O_APPEND` returns
a descriptor with offset 5. -/
theorem open_append_ignores_local_content :
    (wrote8.heap[1]?).map (fun n => (n.type, n.size, n.data, n.fetch))
        = some (INODE_FILE, 8, some [1, 2, 3, 4, 5, 6, 7, 8], none)
    ∧ __syscall5 notFound 10 wrote8 "/f".toList (O_WRONLY ||| O_APPEND) 0o644
        = .ok (4, appendOpen8)
    ∧ check_desc appendOpen8 4
        = .ok (some ⟨EM_FILEDESCRIPTOR_MAGIC, 0, 0o644, O_WRONLY ||| O_APPEND, 2⟩)
    ∧ __syscall5 serveHello 10 openedH "/h".toList (O_RDONLY ||| O_APPEND) 0o644
        = .ok (4, appendOpenH)
    ∧ check_desc appendOpenH 4
        = .ok (some ⟨EM_FILEDESCRIPTOR_MAGIC, 5, 0o644, O_RDONLY ||| O_APPEND, 2⟩) := by
  decide!

/-- The checks of `open` on an existing node, in the state `s1` the lookup
leaves (it differs from the state before the call at most in the root's mode
and the current directory): without `O_DIRECTORY`, a node whose mode has no
read bit gives `EACCES`; otherwise `O_CREAT` with `O_EXCL` gives `EEXIST`;
otherwise a directory opened `O_WRONLY` or `O_RDWR` gives `EISDIR`; in each
case the state returned is `s1`. -/
theorem open_existing_checks (provider : List Char → emscripten_fetch_t) (fuel : Nat)
    (s s1 : FS) (pathname : List Char) (flags mode root node : Nat) (n : inode)
    (hflags : open_flag_checks flags = none)
    (hlen : pathname.length ≤ MAX_PATHNAME_LENGTH) (hne : pathname.length ≠ 0)
    (hroot : path_root s pathname = .ok (root, s1))
    (hfind : find_inode s1.heap fuel root (path_rel pathname) = .ok node)
    (hnode : node ≠ 0) (hn : deref s1.heap node = .ok n)
    (hdir : flags &&& O_DIRECTORY = 0) :
    (n.mode &&& 0o444 = 0 →
      __syscall5 provider fuel s pathname flags mode = .ok (-EACCES, s1))
    ∧ (n.mode &&& 0o444 ≠ 0 → flags &&& O_CREAT ≠ 0 → flags &&& O_EXCL ≠ 0 →
      __syscall5 provider fuel s pathname flags mode = .ok (-EEXIST, s1))
    ∧ (n.mode &&& 0o444 ≠ 0 → ¬ (flags &&& O_CREAT ≠ 0 ∧ flags &&& O_EXCL ≠ 0) →
      n.type = INODE_DIR → flags &&& O_ACCMODE ≠ O_RDONLY →
      __syscall5 provider fuel s pathname flags mode = .ok (-EISDIR, s1)) := by
  have key : ∀ e, open_checks n flags = some e →
      __syscall5 provider fuel s pathname flags mode = .ok (-e, s1) := by
    intro e he
    unfold __syscall5
    rw [hflags]
    simp only [if_neg (Nat.not_lt.mpr hlen), if_neg hne, hroot, hfind, if_neg hnode, hn,
      Option.some_bind, he]
  refine ⟨?_, ?_, ?_⟩
  · intro hm
    apply key
    have : open_checks n flags = some EACCES := by
      unfold open_checks
      simp only [hdir, ne_eq, not_true_eq_false, false_and, if_false, hm, if_true]
    exact this
  · intro hm hc he
    apply key
    have : open_checks n flags = some EEXIST := by
      unfold open_checks
      simp only [hdir, ne_eq, not_true_eq_false, false_and, if_false, hm, hc, he,
        not_false_eq_true, and_self, if_true]
    exact this
  · intro hm hce ht ha
    apply key
    have : open_checks n flags = some EISDIR := by
      unfold open_checks
      simp only [hdir, ne_eq, not_true_eq_false, false_and, if_false, hm]
      rw [if_neg hce, if_pos ⟨ht, ha⟩]
    exact this

/-- An existing directory opened for writing: `open("/a", O_WRONLY)` in
`treeA` fails with `EISDIR` and leaves the state as it was. -/
theorem open_directory_for_writing :
    __syscall5 notFound 10 treeA "/a".toList O_WRONLY 0 = .ok (-EISDIR, treeA) := by
  decide!

/-- C29 (the code at the failing input): after `chmod("/", 0)` the root is an
existing node whose mode has no read bit; `open("/", O_RDONLY)` passes the
flag checks and does not fail with `EACCES`: the lookup resets the root's mode
to 0777, the permission check passes, and the call goes on to ask the
provider, returning `-ENOENT` when the provider has nothing and reading
through the null `node->fetch` when it delivers. -/
theorem open_root_ignores_chmod :
    __syscall15 10 FS.init "/".toList 0 = .ok (0, chmodRoot)
    ∧ find_inode_path chmodRoot 10 "/".toList = .ok (1, accessedRoot)
    ∧ (chmodRoot.heap[0]?).map (fun n => n.mode &&& 0o444) = some 0
    ∧ open_flag_checks O_RDONLY = none ∧ O_RDONLY &&& O_DIRECTORY = 0
    ∧ __syscall5 notFound 10 chmodRoot "/".toList O_RDONLY 0 = .ok (-ENOENT, accessedRoot)
    ∧ __syscall5 serveHello 10 chmodRoot "/".toList O_RDONLY 0 = .fault .nullDeref
    ∧ -ENOENT ≠ -EACCES := by
  decide!

/-- C30 (the code at the failing input): descriptor 3 of `dirOpen` is at offset
0 on the root, which has the children `b` and `a`.  With `count` 4, less than
one record, the record limit is 4 / `sizeof(de)` = 1: the call stores one
whole record of 280 bytes (overrunning a block of 4 bytes) and returns 280.
With `count` 560, the size of two records, the limit is 140: the call stores
all four records and returns 1120. -/
theorem getdents_returns_more_than_count :
    check_desc dirOpen 3 = .ok (some ⟨EM_FILEDESCRIPTOR_MAGIC, 0, 0, O_RDONLY, 1⟩)
    ∧ __syscall220 10 dirOpen 3 4 4 = .fault .bufferOverflow
    ∧ (__syscall220 10 dirOpen 3 280 4).bind
        (fun r => .ok (r.1, r.2.1.map (fun e => e.d_name)))
        = .ok (280, [".".toList])
    ∧ __syscall220 10 dirOpen 3 560 560 = .fault .bufferOverflow
    ∧ (__syscall220 10 dirOpen 3 2000 560).bind
        (fun r => .ok (r.1, r.2.1.map (fun e => e.d_name)))
        = .ok (1120, [".".toList, "..".toList, "b".toList, "a".toList]) := by
  decide!

theorem isChain_head (h : List inode) (first : Nat) (l : List Nat) (hc : isChain h first l) :
    first = l.head?.getD 0 := by
  cases l with
  | nil => exact hc
  | cons c l0 => exact hc.1

theorem isChain_append (h : List inode) :
    ∀ (pre : List Nat) (first x : Nat) (post : List Nat), isChain h first (pre ++ x :: post) →
      ∃ n, deref h x = .ok n ∧ isChain h n.sibling post
        ∧ (pre = [] → first = x)
        ∧ (∀ pre0 pred, pre = pre0 ++ [pred] → ∃ a, deref h pred = .ok a ∧ a.sibling = x) := by
  intro pre
  induction pre with
  | nil =>
    intro first x post hc
    obtain ⟨hf, n, hn, hrest⟩ := hc
    refine ⟨n, hn, hrest, fun _ => hf, ?_⟩
    intro pre0 pred e
    simp at e
  | cons a pre ih =>
    intro first x post hc
    obtain ⟨hf, m, hm, hrest⟩ := hc
    obtain ⟨n, hn, hpost, h1, h2⟩ := ih m.sibling x post hrest
    refine ⟨n, hn, hpost, fun e => by simp at e, ?_⟩
    intro pre0 pred e
    cases pre0 with
    | nil =>
      simp only [List.nil_append, List.cons.injEq] at e
      obtain ⟨rfl, rfl⟩ := e
      exact ⟨m, hm, h1 rfl⟩
    | cons b pre1 =>
      simp only [List.cons_append, List.cons.injEq] at e
      exact h2 pre1 pred e.2

theorem unlink_inode_first (h : List inode) (fuel x p : Nat) (n pc : inode)
    (hn : deref h x = .ok n) (hp : n.parent = p) (hpc : deref h p = .ok pc)
    (hxp : x ≠ p) (hcx : pc.child = x) :
    ∃ g, unlink_inode h fuel x = .ok g ∧ g.length = h.length
      ∧ deref g x = .ok { n with parent := 0, sibling := 0 }
      ∧ deref g p = .ok { pc with child := n.sibling }
      ∧ (∀ q, q ≠ x → q ≠ p → deref g q = deref h q) := by
  have hx0 : x ≠ 0 := (deref_inv h x n hn).1
  have hp0 : p ≠ 0 := (deref_inv h p pc hpc).1
  have hpx : p ≠ x := fun e => hxp e.symm
  have hp0' : ¬ n.parent = 0 := by rw [hp]; exact hp0
  have hn1 : deref (store h x { n with parent := 0 }) x = .ok { n with parent := 0 } :=
    deref_store_same h x n _ hn
  have hpc1 : deref (store h x { n with parent := 0 }) p = .ok pc := by
    rw [deref_store_other h x p _ hx0 hpx]; exact hpc
  have hn2 : deref (store (store h x { n with parent := 0 }) p { pc with child := n.sibling }) x
      = .ok { n with parent := 0 } := by
    rw [deref_store_other _ p x _ hp0 hxp]; exact hn1
  have hres : unlink_inode h fuel x
      = .ok (store (store (store h x { n with parent := 0 }) p { pc with child := n.sibling })
          x { n with parent := 0, sibling := 0 }) := by
    unfold unlink_inode
    simp only [hn, hp0', hp0, if_false, hp, hpc1, hcx, if_true, hn2]
  refine ⟨_, hres, by simp [store_length], ?_, ?_, ?_⟩
  · exact deref_store_same _ x { n with parent := 0 } _ hn2
  · rw [deref_store_other _ x p _ hx0 hpx]
    exact deref_store_same _ p pc _ hpc1
  · intro q hq2 hq1
    rw [deref_store_other _ x q _ hx0 hq2, deref_store_other _ p q _ hp0 hq1,
      deref_store_other _ x q _ hx0 hq2]

theorem unlink_inode_later (h : List inode) (fuel x p pred : Nat) (n pc : inode)
    (pre post : List Nat)
    (hn : deref h x = .ok n) (hp : n.parent = p) (hpc : deref h p = .ok pc)
    (hch : isChain h pc.child (pre ++ pred :: x :: post))
    (hnd : (pre ++ pred :: x :: post).Nodup) (hpl : p ∉ pre ++ pred :: x :: post)
    (hfuel : pre.length ≤ fuel) :
    ∃ g a, unlink_inode h fuel x = .ok g ∧ g.length = h.length
      ∧ deref h pred = .ok a
      ∧ deref g x = .ok { n with parent := 0, sibling := 0 }
      ∧ deref g pred = .ok { a with sibling := n.sibling }
      ∧ (∀ q, q ≠ x → q ≠ pred → deref g q = deref h q) := by
  have hx0 : x ≠ 0 := (deref_inv h x n hn).1
  have hp0 : p ≠ 0 := (deref_inv h p pc hpc).1
  have hxl : x ∈ pre ++ pred :: x :: post := by simp
  have hpredl : pred ∈ pre ++ pred :: x :: post := by simp
  have hxp : x ≠ p := fun e => hpl (e ▸ hxl)
  have hpx : p ≠ x := fun e => hxp e.symm
  have hp0' : ¬ n.parent = 0 := by rw [hp]; exact hp0
  have hxpre : x ∉ pre := by
    intro hm
    have := (List.nodup_append.1 hnd).2.2
    exact this hm (by simp)
  have hpredx : pred ≠ x := by
    intro e
    have := (List.nodup_append.1 hnd).2.1
    simp only [List.nodup_cons, List.mem_cons, not_or] at this
    exact this.1.1 e
  have hcx : ¬ pc.child = x := by
    intro e
    have hh := isChain_head h _ _ hch
    rw [e] at hh
    cases pre with
    | nil =>
      simp only [List.nil_append, List.head?_cons, Option.getD_some] at hh
      exact hpredx hh.symm
    | cons c pre0 =>
      simp only [List.cons_append, List.head?_cons, Option.getD_some] at hh
      exact hxpre (by simp [hh])
  have hn1 : deref (store h x { n with parent := 0 }) x = .ok { n with parent := 0 } :=
    deref_store_same h x n _ hn
  have hpc1 : deref (store h x { n with parent := 0 }) p = .ok pc := by
    rw [deref_store_other h x p _ hx0 hpx]; exact hpc
  obtain ⟨q, hq⟩ := isChain_valid h _ _ hch pred hpredl
  have hpred0 : pred ≠ 0 := (deref_inv h pred q hq).1
  have hch1 : isChain (store h x { n with parent := 0 }) pc.child (pre ++ pred :: x :: post) := by
    refine isChain_congr h _ _ pc.child ?_ hch
    intro c _ a ha
    by_cases hcx2 : c = x
    · subst hcx2
      rw [hn] at ha; cases ha
      exact ⟨_, hn1, rfl⟩
    · exact ⟨a, by rw [deref_store_other h x c _ hx0 hcx2]; exact ha, rfl⟩
  have hloop : find_predecessor_loop (store h x { n with parent := 0 }) x fuel pc.child
      = .ok pred :=
    find_predecessor_loop_spec _ x pred post hx0 pre pc.child fuel hch1 hxpre hpredx hfuel
  have hq1 : deref (store h x { n with parent := 0 }) pred = .ok q := by
    rw [deref_store_other h x pred _ hx0 hpredx]; exact hq
  have hn2 : deref (store (store h x { n with parent := 0 }) pred
      { q with sibling := n.sibling }) x = .ok { n with parent := 0 } := by
    rw [deref_store_other _ pred x _ hpred0 (fun e => hpredx e.symm)]; exact hn1
  have hres : unlink_inode h fuel x
      = .ok (store (store (store h x { n with parent := 0 }) pred
          { q with sibling := n.sibling }) x { n with parent := 0, sibling := 0 }) := by
    unfold unlink_inode find_predecessor_sibling
    simp only [hn, hp0', hp0, if_false, hp, hpc1, hcx, hloop, hpred0, hq1, hn2]
  refine ⟨_, q, hres, by simp [store_length], hq, ?_, ?_, ?_⟩
  · exact deref_store_same _ x { n with parent := 0 } _ hn2
  · rw [deref_store_other _ x pred _ hx0 hpredx]
    exact deref_store_same _ pred q _ hq1
  · intro c hc2 hc1
    rw [deref_store_other _ x c _ hx0 hc2, deref_store_other _ pred c _ hpred0 hc1,
      deref_store_other _ x c _ hx0 hc2]

/-- C27: let `x` be a cell with parent `p`, at any position of the child list
of `p`, which is `pre ++ x :: post` (distinct cells, `p` not among them).  Then
`unlink_inode(x)`, given fuel for the scan up to `x`, returns, and afterwards
the child list of `p` is `pre ++ post`, the old list in the old order with
exactly `x` removed; `x` is as before except that its parent and sibling are
null; the one link that pointed to `x` (the child pointer of `p` when `x` was
first, otherwise the sibling pointer of the predecessor of `x`) now holds the
successor of `x`; and every other cell is unchanged in all its fields. -/
theorem unlink_inode_removes_exactly (h : List inode) (fuel x p : Nat) (n pc : inode)
    (pre post : List Nat)
    (hn : deref h x = .ok n) (hp : n.parent = p) (hpc : deref h p = .ok pc)
    (hch : isChain h pc.child (pre ++ x :: post)) (hnd : (pre ++ x :: post).Nodup)
    (hpl : p ∉ pre ++ x :: post) (hfuel : pre.length ≤ fuel) :
    ∃ g, unlink_inode h fuel x = .ok g
      ∧ (∃ pc2, deref g p = .ok pc2 ∧ isChain g pc2.child (pre ++ post))
      ∧ deref g x = .ok { n with parent := 0, sibling := 0 }
      ∧ (pre = [] →
          deref g p = .ok { pc with child := post.head?.getD 0 }
          ∧ ∀ q, q ≠ x → q ≠ p → deref g q = deref h q)
      ∧ (∀ pre0 pred, pre = pre0 ++ [pred] →
          ∃ a, deref h pred = .ok a
            ∧ deref g pred = .ok { a with sibling := post.head?.getD 0 }
            ∧ ∀ q, q ≠ x → q ≠ pred → deref g q = deref h q) := by
  have hxl : x ∈ pre ++ x :: post := by simp
  have hxp : x ≠ p := fun e => hpl (e ▸ hxl)
  obtain ⟨n1, hn1, hpost, hfirst, _⟩ := isChain_append h pre pc.child x post hch
  rw [hn] at hn1
  cases hn1
  have hsib : n.sibling = post.head?.getD 0 := isChain_head h _ _ hpost
  have hxpost : x ∉ post := by
    have := (List.nodup_append.1 hnd).2.1
    exact (List.nodup_cons.1 this).1
  rcases List.eq_nil_or_concat pre with rfl | ⟨pre0, pred, hs⟩
  · -- `x` is the first child
    have hcx : pc.child = x := hfirst rfl
    obtain ⟨g, hres, _, hgx, hgp, hgo⟩ := unlink_inode_first h fuel x p n pc hn hp hpc hxp hcx
    refine ⟨g, hres, ⟨_, hgp, ?_⟩, hgx, fun _ => ⟨by rw [← hsib]; exact hgp, hgo⟩, ?_⟩
    · refine isChain_congr h g post n.sibling ?_ hpost
      intro c hc a ha
      have h1 : c ≠ x := fun e => hxpost (e ▸ hc)
      have h2 : c ≠ p := fun e => hpl (by simp [← e, hc])
      exact ⟨a, by rw [hgo c h1 h2]; exact ha, rfl⟩
    · intro pre1 pred1 e
      simp at e
  · -- `x` has a predecessor
    rw [List.concat_eq_append] at hs
    subst hs
    have hch2 : isChain h pc.child (pre0 ++ pred :: x :: post) := by
      simpa [List.append_assoc] using hch
    have hnd2 : (pre0 ++ pred :: x :: post).Nodup := by
      simpa [List.append_assoc] using hnd
    have hpl2 : p ∉ pre0 ++ pred :: x :: post := by
      simpa [List.append_assoc] using hpl
    obtain ⟨g, a, hres, _, ha, hgx, hgpred, hgo⟩ :=
      unlink_inode_later h fuel x p pred n pc pre0 post hn hp hpc hch2 hnd2 hpl2
        (by simp at hfuel; omega)
    have hpredp : pred ≠ p := fun e => hpl2 (by simp [← e])
    refine ⟨g, hres, ⟨pc, ?_, ?_⟩, hgx, fun e => by simp at e, ?_⟩
    · rw [hgo p (fun e => hxp e.symm) (fun e => hpredp e.symm)]
      exact hpc
    · have := isChain_splice h g x pred post n a hn ha
        (fun c h1 h2 => hgo c h2 h1) hgpred pre0 pc.child hch2 hnd2
      simpa [List.append_assoc] using this
    · intro pre1 pred1 e
      obtain ⟨_, e2⟩ := List.append_inj' e rfl
      cases e2
      exact ⟨a, ha, by rw [← hsib]; exact hgpred, hgo⟩

/-- C27, at a concrete heap: in `threeKids` the root has the children 4, 3, 2;
`unlink_inode` of the middle one, cell 3, leaves the list 4, 2, clears the
parent and sibling of cell 3, makes cell 2 the sibling of cell 4 and changes
nothing else. -/
theorem unlink_inode_removes_exactly_witness :
    ∃ g, unlink_inode threeKids 1 3 = .ok g
      ∧ (∃ pc2, deref g 1 = .ok pc2 ∧ isChain g pc2.child ([4] ++ [2]))
      ∧ deref g 3 = .ok { cell "b".toList 1 2 0 INODE_DIR 0o777 with parent := 0, sibling := 0 }
      ∧ (([4] : List Nat) = [] →
          deref g 1 = .ok { cell [] 0 0 4 INODE_DIR 0o777 with
            child := ([2] : List Nat).head?.getD 0 }
          ∧ ∀ q, q ≠ 3 → q ≠ 1 → deref g q = deref threeKids q)
      ∧ (∀ pre0 pred, ([4] : List Nat) = pre0 ++ [pred] →
          ∃ a, deref threeKids pred = .ok a
            ∧ deref g pred = .ok { a with sibling := ([2] : List Nat).head?.getD 0 }
            ∧ ∀ q, q ≠ 3 → q ≠ pred → deref g q = deref threeKids q) :=
  unlink_inode_removes_exactly threeKids 1 3 1
    (cell "b".toList 1 2 0 INODE_DIR 0o777) (cell [] 0 0 4 INODE_DIR 0o777) [4] [2]
    rfl rfl rfl
    ⟨rfl, cell "c".toList 1 3 0 INODE_DIR 0o777, rfl, rfl,
      cell "b".toList 1 2 0 INODE_DIR 0o777, rfl, rfl,
      cell "a".toList 1 0 0 INODE_DIR 0o777, rfl, rfl⟩
    (by decide) (by decide) (by decide)

theorem link_inode_spec (h : List inode) (node parent : Nat) (n pc : inode)
    (hn : deref h node = .ok n) (hnp : n.parent = 0) (hns : n.sibling = 0)
    (hpc : deref h parent = .ok pc) (hne : node ≠ parent) :
    ∃ g, link_inode_publish h node parent = .ok g ∧ g.length = h.length
      ∧ deref g node = .ok { n with parent := parent, sibling := pc.child }
      ∧ deref g parent = .ok { pc with child := node }
      ∧ (∀ q, q ≠ node → q ≠ parent → deref g q = deref h q) := by
  have hn0 : node ≠ 0 := (deref_inv h node n hn).1
  have hp0 : parent ≠ 0 := (deref_inv h parent pc hpc).1
  have hne' : parent ≠ node := fun e => hne e.symm
  have d1 : deref (store h node { n with parent := parent }) node
      = .ok { n with parent := parent } := deref_store_same _ _ n _ hn
  have d1p : deref (store h node { n with parent := parent }) parent = .ok pc := by
    rw [deref_store_other _ _ parent _ hn0 hne']
    exact hpc
  have d2p : deref (store (store h node { n with parent := parent })
      node { n with parent := parent, sibling := pc.child }) parent = .ok pc := by
    rw [deref_store_other _ _ parent _ hn0 hne']
    exact d1p
  have hres : link_inode_publish h node parent
      = .ok (store (store (store h node { n with parent := parent })
          node { n with parent := parent, sibling := pc.child })
          parent { pc with child := node }) := by
    have c1 : ¬ n.parent ≠ 0 := by simp [hnp]
    have c2 : ¬ n.sibling ≠ 0 := by simp [hns]
    unfold link_inode_publish
    simp only [bind, Run.bind, hn, c1, c2, if_false, d1p, d1, d2p]
  refine ⟨_, hres, by simp [store_length], ?_, ?_, ?_⟩
  · rw [deref_store_other _ parent _ _ hp0 hne]
    exact deref_store_same _ _ _ _ d1
  · exact deref_store_same _ _ _ _ d2p
  · intro q hq1 hq2
    rw [deref_store_other _ parent q _ hp0 hq2, deref_store_other _ _ q _ hn0 hq1,
      deref_store_other _ _ q _ hn0 hq1]

theorem chain_length_le (l : List Nat) (N : Nat) (hnd : l.Nodup)
    (hb : ∀ c ∈ l, c ≠ 0 ∧ c ≤ N) : l.length ≤ N := by
  have hs : l ⊆ List.range' 1 N := by
    intro c hc
    obtain ⟨h0, hN⟩ := hb c hc
    rw [List.mem_range'_1]
    omega
  have := (List.subperm_of_subset hnd hs).length_le
  simpa using this

theorem treeShape_link (h : List inode) (node parent : Nat) (n pc : inode) (l : List Nat)
    (hts : treeShape h) (hn : deref h node = .ok n) (hnp : n.parent = 0)
    (hpc : deref h parent = .ok pc) (hne : node ≠ parent) (hl : isChain h pc.child l) :
    ∃ g, link_inode_publish h node parent = .ok g ∧ treeShape g
      ∧ deref g node = .ok { n with parent := parent, sibling := pc.child }
      ∧ deref g parent = .ok { pc with child := node }
      ∧ isChain g node (node :: l)
      ∧ (∀ q, q ≠ node → q ≠ parent → deref g q = deref h q) := by
  obtain ⟨h1, h2, h3⟩ := hts
  have hns : n.sibling = 0 := h3 node n hn hnp
  obtain ⟨g, hres, hlen, hgn, hgp, hgo⟩ := link_inode_spec h node parent n pc hn hnp hns hpc hne
  have hp0 : parent ≠ 0 := (deref_inv h parent pc hpc).1
  -- every old cell keeps its parent and sibling unless it is `node`, and its child unless it
  -- is `parent`
  have hfw : ∀ q a, deref h q = .ok a → ∃ b, deref g q = .ok b ∧
      (q ≠ node → b.parent = a.parent ∧ b.sibling = a.sibling) ∧
      (q ≠ parent → b.child = a.child) := by
    intro q a ha
    by_cases hqn : q = node
    · subst hqn
      rw [hn] at ha
      cases ha
      exact ⟨_, hgn, fun e => absurd rfl e, fun _ => rfl⟩
    · by_cases hqp : q = parent
      · subst hqp
        rw [hpc] at ha
        cases ha
        exact ⟨_, hgp, fun _ => ⟨rfl, rfl⟩, fun e => absurd rfl e⟩
      · exact ⟨a, by rw [hgo q hqn hqp]; exact ha, fun _ => ⟨rfl, rfl⟩, fun _ => rfl⟩
  have hbw : ∀ q b, deref g q = .ok b → ∃ a, deref h q = .ok a := by
    intro q b hb
    obtain ⟨h0, hq⟩ := deref_le g q b hb
    exact deref_of_le h q h0 (by omega)
  -- no child list of the old heap contains `node`
  have hnotin : ∀ q a k, deref h q = .ok a → isChain h a.child k → node ∉ k := by
    intro q a k ha hk hm
    obtain ⟨k0, hk0, _, _, hkm⟩ := h1 q a ha
    have : k0 = k := isChain_unique h k0 k a.child hk0 hk
    subst this
    obtain ⟨m, hm1, hm2⟩ := hkm node hm
    rw [hn] at hm1
    cases hm1
    rw [hnp] at hm2
    exact (deref_inv h q a ha).1 hm2.symm
  have hchain : ∀ q a k, deref h q = .ok a → isChain h a.child k → isChain g a.child k := by
    intro q a k ha hk
    refine isChain_congr h g k a.child ?_ hk
    intro c hc x hx
    have hcn : c ≠ node := fun e => hnotin q a k ha hk (e ▸ hc)
    obtain ⟨y, hy, hy1, _⟩ := hfw c x hx
    exact ⟨y, hy, (hy1 hcn).2⟩
  obtain ⟨l0, hl0, hnd, hpl, hmem⟩ := h1 parent pc hpc
  have hll : l0 = l := isChain_unique h l0 l pc.child hl0 hl
  subst hll
  have hnl : node ∉ l0 := hnotin parent pc l0 hpc hl0
  have hparent_chain : isChain g node (node :: l0) :=
    ⟨rfl, _, hgn, hchain parent pc l0 hpc hl0⟩
  have hmembers : ∀ q a k, deref h q = .ok a → isChain h a.child k →
      (∀ c ∈ k, ∃ m, deref h c = .ok m ∧ m.parent = q) →
      ∀ c ∈ k, ∃ m, deref g c = .ok m ∧ m.parent = q := by
    intro q a k ha hk hkm c hc
    obtain ⟨m, hm1, hm2⟩ := hkm c hc
    have hcn : c ≠ node := fun e => hnotin q a k ha hk (e ▸ hc)
    obtain ⟨y, hy, hy1, _⟩ := hfw c m hm1
    exact ⟨y, hy, by rw [(hy1 hcn).1, hm2]⟩
  refine ⟨g, hres, ⟨?_, ?_, ?_⟩, hgn, hgp, hparent_chain, hgo⟩
  · intro q b hb
    by_cases hqp : q = parent
    · subst hqp
      rw [hgp] at hb
      cases hb
      refine ⟨node :: l0, hparent_chain, List.nodup_cons.2 ⟨hnl, hnd⟩, ?_, ?_⟩
      · simp only [List.mem_cons, not_or]
        exact ⟨fun e => hne e.symm, hpl⟩
      · intro c hc
        rcases List.mem_cons.1 hc with rfl | hc
        · exact ⟨_, hgn, rfl⟩
        · exact hmembers q pc l0 hpc hl0 hmem c hc
    · obtain ⟨a, ha⟩ := hbw q b hb
      obtain ⟨b2, hb2, _, hbc⟩ := hfw q a ha
      rw [hb] at hb2
      cases hb2
      obtain ⟨k, hk1, hk2, hk3, hk4⟩ := h1 q a ha
      refine ⟨k, by rw [hbc hqp]; exact hchain q a k ha hk1, hk2, hk3, ?_⟩
      exact hmembers q a k ha hk1 hk4
  · intro q b hb hbp
    by_cases hqn : q = node
    · rw [hqn] at hb ⊢
      rw [hgn] at hb
      cases hb
      refine ⟨_, node :: l0, hgp, hparent_chain, ?_⟩
      rw [List.count_cons_self, List.count_eq_zero_of_not_mem hnl]
    · obtain ⟨a, ha⟩ := hbw q b hb
      obtain ⟨b2, hb2, hb21, _⟩ := hfw q a ha
      rw [hb] at hb2
      cases hb2
      rw [(hb21 hqn).1] at hbp ⊢
      obtain ⟨rc, k, hr1, hr2, hr3⟩ := h2 q a ha hbp
      by_cases hrp : a.parent = parent
      · rw [hrp] at hr1 ⊢
        rw [hpc] at hr1
        cases hr1
        have : k = l0 := isChain_unique h k l0 pc.child hr2 hl0
        subst this
        refine ⟨_, node :: k, hgp, hparent_chain, ?_⟩
        rw [List.count_cons_of_ne hqn]
        exact hr3
      · obtain ⟨y, hy, _, hyc⟩ := hfw _ rc hr1
        exact ⟨y, k, hy, by rw [hyc hrp]; exact hchain _ rc k hr1 hr2, hr3⟩
  · intro q b hb hbp
    by_cases hqn : q = node
    · rw [hqn] at hb
      rw [hgn] at hb
      cases hb
      exact absurd hbp hp0
    · obtain ⟨a, ha⟩ := hbw q b hb
      obtain ⟨b2, hb2, hb21, _⟩ := hfw q a ha
      rw [hb] at hb2
      cases hb2
      rw [(hb21 hqn).2]
      exact h3 q a ha (by rw [← (hb21 hqn).1]; exact hbp)

theorem treeShape_unlink (h : List inode) (fuel x : Nat) (n : inode)
    (hts : treeShape h) (hn : deref h x = .ok n) (hfuel : h.length ≤ fuel) :
    ∃ g, unlink_inode h fuel x = .ok g ∧ treeShape g
      ∧ (∃ b, deref g x = .ok b ∧ b.parent = 0 ∧ b.sibling = 0) := by
  obtain ⟨h1, h2, h3⟩ := hts
  by_cases hp : n.parent = 0
  · refine ⟨h, ?_, ⟨h1, h2, h3⟩, n, hn, hp, h3 x n hn hp⟩
    unfold unlink_inode
    simp only [hn, hp, if_true]
  · obtain ⟨pc, l, hpc, hl, hcount⟩ := h2 x n hn hp
    obtain ⟨l0, hl0, hnd, hpl, hmem⟩ := h1 _ pc hpc
    have hll : l0 = l := isChain_unique h l0 l pc.child hl0 hl
    subst hll
    have hxl : x ∈ l0 := List.count_pos_iff.1 (by omega)
    have hlen0 : l0.length ≤ h.length := by
      refine chain_length_le l0 h.length hnd ?_
      intro c hc
      obtain ⟨m, hm, _⟩ := hmem c hc
      exact deref_le h c m hm
    obtain ⟨g, hres, hlen, _, hall, ⟨xb, hxb, hxbp, hxbs⟩, pc2, hpc2, hch2⟩ :=
      unlink_inode_spec h fuel x n.parent n pc l0 hn rfl hpc hl0 hnd hpl hxl (by omega)
    have hbw : ∀ q b, deref g q = .ok b → ∃ a, deref h q = .ok a := by
      intro q b hb
      obtain ⟨h0, hq⟩ := deref_le g q b hb
      exact deref_of_le h q h0 (by omega)
    -- the child list of every cell other than the parent is as before
    have hother : ∀ q a k, q ≠ n.parent → deref h q = .ok a → isChain h a.child k →
        ∃ b, deref g q = .ok b ∧ isChain g b.child k ∧ (∀ c ∈ k, c ≠ x) := by
      intro q a k hq ha hk
      obtain ⟨k0, hk0, _, _, hkm⟩ := h1 q a ha
      have : k0 = k := isChain_unique h k0 k a.child hk0 hk
      subst this
      have hdis : ∀ c ∈ k0, c ∉ l0 := by
        intro c hc hcl
        obtain ⟨y, hy, hyp⟩ := hkm c hc
        obtain ⟨z, hz, hzp⟩ := hmem c hcl
        rw [hy] at hz
        cases hz
        exact hq (hyp.symm.trans hzp)
      obtain ⟨b, hb, _, hbc, _, _⟩ := hall q a ha
      refine ⟨b, hb, ?_, fun c hc e => hdis c hc (e ▸ hxl)⟩
      rw [hbc hq]
      refine isChain_congr h g k0 a.child ?_ hk0
      intro c hc y hy
      obtain ⟨z, hz, _, _, _, hzs⟩ := hall c y hy
      exact ⟨z, hz, hzs (hdis c hc)⟩
    refine ⟨g, hres, ⟨?_, ?_, ?_⟩, xb, hxb, hxbp, hxbs⟩
    · intro q qc hd
      obtain ⟨a, ha⟩ := hbw q qc hd
      by_cases hq : q = n.parent
      · rw [hq] at hd ⊢
        rw [hpc2] at hd
        cases hd
        refine ⟨l0.erase x, hch2, hnd.erase x, fun hm => hpl (List.mem_of_mem_erase hm), ?_⟩
        intro c hc
        have hcl := List.mem_of_mem_erase hc
        have hcx : c ≠ x := ((List.Nodup.mem_erase_iff hnd).1 hc).1
        obtain ⟨y, hy, hyp⟩ := hmem c hcl
        obtain ⟨z, hz, _, _, hzp, _⟩ := hall c y hy
        exact ⟨z, hz, by rw [hzp hcx, hyp]⟩
      · obtain ⟨k, hk1, hk2, hk3, hk4⟩ := h1 q a ha
        obtain ⟨b, hb, hbk, hkx⟩ := hother q a k hq ha hk1
        rw [hd] at hb
        cases hb
        refine ⟨k, hbk, hk2, hk3, ?_⟩
        intro c hc
        obtain ⟨y, hy, hyp⟩ := hk4 c hc
        obtain ⟨z, hz, _, _, hzp, _⟩ := hall c y hy
        exact ⟨z, hz, by rw [hzp (hkx c hc), hyp]⟩
    · intro y m hd hm
      obtain ⟨a, ha⟩ := hbw y m hd
      have hyx : y ≠ x := by
        intro e
        rw [e] at hd
        rw [hxb] at hd
        cases hd
        exact hm hxbp
      obtain ⟨b, hb, _, _, hbp, _⟩ := hall y a ha
      rw [hd] at hb
      cases hb
      rw [hbp hyx] at hm ⊢
      obtain ⟨pcq, k, hq1, hq2, hq3⟩ := h2 y a ha hm
      by_cases hq : a.parent = n.parent
      · rw [hq] at hq1 ⊢
        rw [hpc] at hq1
        cases hq1
        have : k = l0 := isChain_unique h k l0 pc.child hq2 hl0
        subst this
        refine ⟨pc2, k.erase x, hpc2, hch2, ?_⟩
        rw [List.count_erase_of_ne hyx]
        exact hq3
      · obtain ⟨b, hb, hbk, _⟩ := hother _ pcq k hq hq1 hq2
        exact ⟨b, k, hb, hbk, hq3⟩
    · intro y m hd hm
      by_cases hyx : y = x
      · rw [hyx] at hd
        rw [hxb] at hd
        cases hd
        exact hxbs
      · obtain ⟨a, ha⟩ := hbw y m hd
        obtain ⟨b, hb, _, _, hbp, hbs⟩ := hall y a ha
        rw [hd] at hb
        cases hb
        have hap : a.parent = 0 := by rw [← hbp hyx]; exact hm
        have hyl : y ∉ l0 := by
          intro hyl
          obtain ⟨z, hz, hzp⟩ := hmem y hyl
          rw [ha] at hz
          cases hz
          exact hp (hzp.symm.trans hap)
        rw [hbs hyl]
        exact h3 y a ha hap

/-- The part of C26 that holds: let the heap satisfy the tree-shape invariant
`treeShape` (every cell with a parent appears exactly once in the child list
of that parent, the members of a child list carry that parent, and a cell
without parent has no sibling).  Then the statements of `link_inode` after its
diagnostic call (`link_inode_publish`), on a cell `node` without parent and a
valid `parent` other than `node`, return a heap that satisfies the invariant
again and in which `node` heads the child list of `parent`, followed by the
former children in their former order; and `unlink_inode(x)`, for every valid
cell `x` and fuel of at least the number of cells, returns a heap that
satisfies the invariant again. -/
theorem publish_keeps_tree_shape (h : List inode) (hts : treeShape h) :
    (∀ node parent n pc l, deref h node = .ok n → n.parent = 0 → deref h parent = .ok pc →
        node ≠ parent → isChain h pc.child l →
        ∃ g, link_inode_publish h node parent = .ok g ∧ treeShape g
          ∧ ∃ pc2, deref g parent = .ok pc2 ∧ pc2.child = node
            ∧ isChain g pc2.child (node :: l))
    ∧ (∀ fuel x n, deref h x = .ok n → h.length ≤ fuel →
        ∃ g, unlink_inode h fuel x = .ok g ∧ treeShape g) := by
  constructor
  · intro node parent n pc l hn hnp hpc hne hl
    obtain ⟨g, hres, hg, _, hgp, hch, _⟩ := treeShape_link h node parent n pc l hts hn hnp hpc hne hl
    exact ⟨g, hres, hg, _, hgp, rfl, hch⟩
  · intro fuel x n hn hfuel
    obtain ⟨g, hres, hg, _⟩ := treeShape_unlink h fuel x n hts hn hfuel
    exact ⟨g, hres, hg⟩

theorem treeShape_twoCells : treeShape twoCells := by
  have hcell : ∀ p pc, deref twoCells p = .ok pc →
      pc.child = 0 ∧ pc.parent = 0 ∧ pc.sibling = 0 := by
    intro p pc hd
    obtain ⟨h0, hl⟩ := deref_le twoCells p pc hd
    have hp : p = 1 ∨ p = 2 := by
      simp only [twoCells, List.length_cons, List.length_nil] at hl
      omega
    rcases hp with rfl | rfl
    · cases hd
      exact ⟨rfl, rfl, rfl⟩
    · cases hd
      exact ⟨rfl, rfl, rfl⟩
  refine ⟨?_, ?_, ?_⟩
  · intro p pc hd
    refine ⟨[], ?_, List.nodup_nil, by simp, by simp⟩
    rw [(hcell p pc hd).1]
    rfl
  · intro x n hd hp
    exact absurd (hcell x n hd).2.1 hp
  · intro x n hd _
    exact (hcell x n hd).2.2

/-- The same at a concrete heap: in `twoCells`, which satisfies the invariant,
`link_inode_publish` of cell 2 under cell 1 gives the heap of `treeA`, where
cell 2 heads the child list of cell 1, and that heap satisfies the invariant;
`unlink_inode` of cell 2 there returns a heap that satisfies it as well. -/
theorem publish_keeps_tree_shape_witness :
    treeShape twoCells
    ∧ link_inode_publish twoCells 2 1 = .ok treeA.heap
    ∧ treeShape treeA.heap
    ∧ (∃ g, unlink_inode treeA.heap 2 2 = .ok g ∧ treeShape g) := by
  have hlink : link_inode_publish twoCells 2 1 = .ok treeA.heap := by decide!
  obtain ⟨g, hres, hg, _⟩ := (publish_keeps_tree_shape twoCells treeShape_twoCells).1 2 1
    (cell "a".toList 0 0 0 INODE_DIR 0o777) (cell [] 0 0 0 INODE_DIR 0o777) []
    rfl rfl rfl (by decide) rfl
  rw [hlink] at hres
  cases hres
  exact ⟨treeShape_twoCells, hlink, hg,
    (publish_keeps_tree_shape treeA.heap hg).2 2 2 (cell "a".toList 1 0 0 INODE_DIR 0o777) rfl
      (by decide)⟩

theorem link_publish_step_alone (h g : List inode) (node parent : Nat) (hne : node ≠ parent)
    (hl : link_inode_publish h node parent = .ok g) :
    ∃ h1 h2, link_publish_step h node parent .start = .ok (h1, .load)
      ∧ link_publish_step h1 node parent .load = .ok (h2, .cas)
      ∧ link_publish_step h2 node parent .cas = .ok (g, .done) := by
  unfold link_inode_publish at hl
  simp only [bind, Run.bind] at hl
  cases hn : deref h node with
  | fault e => simp [hn] at hl
  | ok n =>
    simp only [hn] at hl
    by_cases c1 : n.parent ≠ 0
    · rw [if_pos c1] at hl
      cases hl
    rw [if_neg c1] at hl
    by_cases c2 : n.sibling ≠ 0
    · rw [if_pos c2] at hl
      cases hl
    rw [if_neg c2] at hl
    have hn0 : node ≠ 0 := (deref_inv h node n hn).1
    have d1 : deref (store h node { n with parent := parent }) node
        = .ok { n with parent := parent } := deref_store_same _ _ n _ hn
    cases hp : deref (store h node { n with parent := parent }) parent with
    | fault e => simp [hp] at hl
    | ok p =>
      have hp0 : parent ≠ 0 := (deref_inv _ parent p hp).1
      have d2 : deref (store (store h node { n with parent := parent }) node
          { n with parent := parent, sibling := p.child }) node
          = .ok { n with parent := parent, sibling := p.child } :=
        deref_store_same _ _ _ _ d1
      have d2p : deref (store (store h node { n with parent := parent }) node
          { n with parent := parent, sibling := p.child }) parent = .ok p := by
        rw [deref_store_other _ _ parent _ hn0 (fun e => hne e.symm)]
        exact hp
      simp only [hp, d1, d2p, Run.ok.injEq] at hl
      refine ⟨store h node { n with parent := parent },
        store (store h node { n with parent := parent }) node
          { n with parent := parent, sibling := p.child }, ?_, ?_, ?_⟩
      · simp only [link_publish_step, hn, c1, c2, if_false]
      · simp only [link_publish_step, hp, d1]
      · simp only [link_publish_step, d2p, d2, if_true, hl]

theorem link_publish_step_cases (h : List inode) (parent : Nat) (nodes : List Nat) (pcs : Nat → LinkPc)
    (x : Nat) (hok : linkersOk h parent nodes pcs) (hx : x ∈ nodes) :
    ∃ n p h1 pc1, deref h x = .ok n ∧ deref h parent = .ok p
      ∧ link_publish_step h x parent (pcs x) = .ok (h1, pc1)
      ∧ ((pcs x = .start ∧ h1 = store h x { n with parent := parent } ∧ pc1 = .load)
        ∨ (pcs x = .load ∧ h1 = store h x { n with sibling := p.child } ∧ pc1 = .cas)
        ∨ (pcs x = .cas ∧ p.child = n.sibling ∧ h1 = store h parent { p with child := x }
            ∧ pc1 = .done)
        ∨ (pcs x = .cas ∧ p.child ≠ n.sibling ∧ h1 = store h x { n with sibling := p.child }
            ∧ pc1 = .load)
        ∨ (pcs x = .done ∧ h1 = h ∧ pc1 = .done)) := by
  obtain ⟨⟨p, hp⟩, hall⟩ := hok
  obtain ⟨_, n, hn, hstart⟩ := hall x hx
  cases hpc : pcs x with
  | start =>
    obtain ⟨h1, h2⟩ := hstart hpc
    refine ⟨n, p, _, _, hn, hp, ?_, Or.inl ⟨rfl, rfl, rfl⟩⟩
    have c1 : ¬ n.parent ≠ 0 := by simp [h1]
    have c2 : ¬ n.sibling ≠ 0 := by simp [h2]
    simp only [link_publish_step, hn, c1, c2, if_false]
  | load =>
    refine ⟨n, p, _, _, hn, hp, ?_, Or.inr (Or.inl ⟨rfl, rfl, rfl⟩)⟩
    simp only [link_publish_step, hn, hp]
  | cas =>
    by_cases hv : p.child = n.sibling
    · refine ⟨n, p, _, _, hn, hp, ?_, Or.inr (Or.inr (Or.inl ⟨rfl, hv, rfl, rfl⟩))⟩
      simp only [link_publish_step, hn, hp, hv, if_true]
    · refine ⟨n, p, _, _, hn, hp, ?_, Or.inr (Or.inr (Or.inr (Or.inl ⟨rfl, hv, rfl, rfl⟩)))⟩
      simp only [link_publish_step, hn, hp, hv, if_false]
  | done =>
    exact ⟨n, p, _, _, hn, hp, by simp only [link_publish_step],
      Or.inr (Or.inr (Or.inr (Or.inr ⟨rfl, rfl, rfl⟩)))⟩

theorem deref_store (h : List inode) (p q : Nat) (a m : inode) (ha : deref h p = .ok a) :
    deref (store h p m) q = if q = p then .ok m else deref h q := by
  by_cases hq : q = p
  · rw [if_pos hq, hq]
    exact deref_store_same h p a m ha
  · rw [if_neg hq]
    exact deref_store_other h p q m (deref_inv h p a ha).1 hq

theorem linkersOk_step (h h1 : List inode) (parent : Nat) (nodes : List Nat)
    (pcs : Nat → LinkPc) (x : Nat) (pc1 : LinkPc)
    (hok : linkersOk h parent nodes pcs) (hx : x ∈ nodes)
    (hs : link_publish_step h x parent (pcs x) = .ok (h1, pc1)) :
    linkersOk h1 parent nodes (Function.update pcs x pc1) ∧ pc1 ≠ .start
      ∧ (∀ q a, deref h q = .ok a → ∃ b, deref h1 q = .ok b ∧ b.name = a.name)
      ∧ h1.length = h.length := by
  obtain ⟨n, p, g, pc2, hn, hp, hs2, hcases⟩ := link_publish_step_cases h parent nodes pcs x hok hx
  rw [hs] at hs2
  injection hs2 with hs2
  injection hs2 with e1 e2
  subst e1
  subst e2
  have hxp : x ≠ parent := (hok.2 x hx).1
  -- in every case the new heap is the old one with one cell replaced by a cell of the same name
  have hform : ∃ q a b, deref h q = .ok a ∧ h1 = store h q b ∧ b.name = a.name
      ∧ (q = parent ∨ q = x) ∧ pc1 ≠ .start := by
    rcases hcases with ⟨_, rfl, rfl⟩ | ⟨_, rfl, rfl⟩ | ⟨_, _, rfl, rfl⟩ | ⟨_, _, rfl, rfl⟩
      | ⟨_, e, rfl⟩
    · exact ⟨x, n, _, hn, rfl, rfl, Or.inr rfl, by decide⟩
    · exact ⟨x, n, _, hn, rfl, rfl, Or.inr rfl, by decide⟩
    · exact ⟨parent, p, _, hp, rfl, rfl, Or.inl rfl, by decide⟩
    · exact ⟨x, n, _, hn, rfl, rfl, Or.inr rfl, by decide⟩
    · exact ⟨x, n, n, hn, by rw [e]; exact (store_same h x n hn).symm, rfl, Or.inr rfl,
        by decide⟩
  obtain ⟨q, a, b, ha, rfl, hname, hq, hpc1⟩ := hform
  have hfw : ∀ r c, deref h r = .ok c → ∃ d, deref (store h q b) r = .ok d ∧ d.name = c.name
      ∧ (r ≠ q → d = c) := by
    intro r c hc
    rw [deref_store h q r a b ha]
    by_cases hr : r = q
    · rw [if_pos hr]
      rw [hr, ha] at hc
      cases hc
      exact ⟨b, rfl, hname, fun e => absurd hr e⟩
    · rw [if_neg hr]
      exact ⟨c, hc, rfl, fun _ => rfl⟩
  refine ⟨⟨?_, ?_⟩, hpc1, fun r c hc => ?_, store_length h q b⟩
  · obtain ⟨d, hd, _⟩ := hfw parent p hp
    exact ⟨d, hd⟩
  · intro y hy
    obtain ⟨hyp, m, hm, hst⟩ := hok.2 y hy
    obtain ⟨d, hd, _, hsame⟩ := hfw y m hm
    refine ⟨hyp, d, hd, ?_⟩
    intro hstart
    by_cases hyx : y = x
    · rw [hyx, Function.update_same] at hstart
      exact absurd hstart hpc1
    · rw [Function.update_noteq hyx] at hstart
      have hyq : y ≠ q := by
        rcases hq with e | e
        · rw [e]; exact hyp
        · rw [e]; exact hyx
      rw [hsame hyq]
      exact hst hstart
  · obtain ⟨d, hd, hdn, _⟩ := hfw r c hc
    exact ⟨d, hd, hdn⟩

theorem unfinished_update (pcs : Nat → LinkPc) (x : Nat) (v : LinkPc) :
    ∀ (nodes : List Nat), nodes.Nodup → x ∈ nodes →
      unfinished nodes (Function.update pcs x v) + (if pcs x = .done then 0 else 1)
        = unfinished nodes pcs + (if v = .done then 0 else 1) := by
  intro nodes
  induction nodes with
  | nil => intro _ hx; simp at hx
  | cons a t ih =>
    intro hnd hx
    simp only [List.nodup_cons] at hnd
    simp only [unfinished, List.countP_cons] at ih ⊢
    by_cases hax : a = x
    · subst hax
      have ht : List.countP (fun y => Function.update pcs a v y != LinkPc.done) t
          = List.countP (fun y => pcs y != LinkPc.done) t := by
        apply List.countP_congr
        intro y hy
        have hya : y ≠ a := fun e => hnd.1 (e ▸ hy)
        simp [Function.update_noteq hya]
      rw [ht, Function.update_same]
      by_cases h1 : pcs a = .done <;> by_cases h2 : v = .done <;> simp [h1, h2]
    · have hxt : x ∈ t := by
        rcases List.mem_cons.1 hx with e | e
        · exact absurd e.symm hax
        · exact e
      have := ih hnd.2 hxt
      rw [Function.update_noteq hax]
      omega

theorem unfinished_pos (nodes : List Nat) (pcs : Nat → LinkPc) (x : Nat) (hx : x ∈ nodes)
    (hpc : pcs x ≠ .done) : 0 < unfinished nodes pcs := by
  unfold unfinished
  rw [List.countP_pos_iff]
  exact ⟨x, hx, by simp [hpc]⟩

theorem stepsLeft_le (h : List inode) (parent : Nat) (nodes : List Nat) (pcs : Nat → LinkPc)
    (y : Nat) : stepsLeft h parent nodes pcs y ≤ 2 * unfinished nodes pcs + 1 := by
  unfold stepsLeft
  dsimp only
  split
  · omega
  · omega
  · split
    · split <;> omega
    · omega
  · omega

theorem stepsLeft_cas_ge (h : List inode) (parent : Nat) (nodes : List Nat) (pcs : Nat → LinkPc)
    (y : Nat) (hy : pcs y = .cas) :
    2 * unfinished nodes pcs - 1 ≤ stepsLeft h parent nodes pcs y := by
  unfold stepsLeft
  dsimp only
  rw [hy]
  dsimp only
  split
  · split <;> omega
  · omega

theorem stepsLeft_done (h : List inode) (parent : Nat) (nodes : List Nat) (pcs : Nat → LinkPc)
    (y : Nat) (hy : y ∈ nodes) :
    stepsLeft h parent nodes pcs y = 0 ↔ pcs y = .done := by
  constructor
  · intro h0
    by_contra hne
    have hu := unfinished_pos nodes pcs y hy hne
    unfold stepsLeft at h0
    dsimp only at h0
    cases hpc : pcs y with
    | start => rw [hpc] at h0; simp at h0
    | load => rw [hpc] at h0; simp at h0; omega
    | cas =>
      rw [hpc] at h0
      dsimp only at h0
      split at h0
      · split at h0 <;> omega
      · omega
    | done => exact hne hpc
  · intro hd
    unfold stepsLeft
    dsimp only
    rw [hd]

theorem stepsLeft_step (h h1 : List inode) (parent : Nat) (nodes : List Nat)
    (pcs : Nat → LinkPc) (x : Nat) (pc1 : LinkPc)
    (hok : linkersOk h parent nodes pcs) (hnd : nodes.Nodup) (hx : x ∈ nodes)
    (hs : link_publish_step h x parent (pcs x) = .ok (h1, pc1)) :
    (pcs x ≠ .done →
        stepsLeft h1 parent nodes (Function.update pcs x pc1) x + 1
          ≤ stepsLeft h parent nodes pcs x)
    ∧ (∀ y ∈ nodes, y ≠ x →
        stepsLeft h1 parent nodes (Function.update pcs x pc1) y
          ≤ stepsLeft h parent nodes pcs y) := by
  obtain ⟨n, p, g, pc2, hn, hp, hs2, hcases⟩ := link_publish_step_cases h parent nodes pcs x hok hx
  rw [hs] at hs2
  injection hs2 with hs2
  injection hs2 with e1 e2
  subst e1
  subst e2
  have hxp : x ≠ parent := (hok.2 x hx).1
  have hpx : parent ≠ x := fun e => hxp e.symm
  have hcount := unfinished_update pcs x pc1 nodes hnd hx
  -- a step that only writes to the caller's own cell leaves the other callers' bounds as
  -- they are
  have hlocal : ∀ (m : inode), h1 = store h x m → pc1 ≠ .done → pcs x ≠ .done →
      ∀ y ∈ nodes, y ≠ x →
        stepsLeft h1 parent nodes (Function.update pcs x pc1) y
          = stepsLeft h parent nodes pcs y := by
    intro m e hpc1 hpcx y hy hyx
    have hu : unfinished nodes (Function.update pcs x pc1) = unfinished nodes pcs := by
      rw [if_neg hpcx, if_neg hpc1] at hcount
      omega
    unfold stepsLeft
    dsimp only
    rw [hu, Function.update_noteq hyx, e, deref_store h x parent n m hn, if_neg hpx,
      deref_store h x y n m hn, if_neg hyx]
  rcases hcases with ⟨hpc, e, rfl⟩ | ⟨hpc, e, rfl⟩ | ⟨hpc, hv, e, rfl⟩ | ⟨hpc, hv, e, rfl⟩
    | ⟨hpc, e, rfl⟩
  · have hpcx : pcs x ≠ .done := by rw [hpc]; decide
    refine ⟨fun _ => ?_, fun y hy hyx => le_of_eq (hlocal _ e (by decide) hpcx y hy hyx)⟩
    have hu : unfinished nodes (Function.update pcs x .load) = unfinished nodes pcs := by
      rw [if_neg hpcx, if_neg (by decide)] at hcount
      omega
    unfold stepsLeft
    dsimp only
    rw [hu, Function.update_same, hpc]
  · have hpcx : pcs x ≠ .done := by rw [hpc]; decide
    refine ⟨fun _ => ?_, fun y hy hyx => le_of_eq (hlocal _ e (by decide) hpcx y hy hyx)⟩
    have hu : unfinished nodes (Function.update pcs x .cas) = unfinished nodes pcs := by
      rw [if_neg hpcx, if_neg (by decide)] at hcount
      omega
    have hpos := unfinished_pos nodes pcs x hx hpcx
    unfold stepsLeft
    dsimp only
    rw [hu, Function.update_same, hpc, e, deref_store h x parent n _ hn, if_neg hpx,
      deref_store h x x n _ hn, if_pos rfl, hp]
    dsimp only
    rw [if_pos rfl]
    omega
  · have hpcx : pcs x ≠ .done := by rw [hpc]; decide
    have hpos := unfinished_pos nodes pcs x hx hpcx
    have hu : unfinished nodes (Function.update pcs x .done) + 1 = unfinished nodes pcs := by
      rw [if_neg hpcx, if_pos rfl] at hcount
      omega
    constructor
    · intro _
      have h0 : stepsLeft h1 parent nodes (Function.update pcs x .done) x = 0 :=
        (stepsLeft_done h1 parent nodes _ x hx).2 (Function.update_same _ _ _)
      rw [h0]
      have hcur : stepsLeft h parent nodes pcs x = 2 * unfinished nodes pcs - 1 := by
        unfold stepsLeft
        dsimp only
        rw [hpc]
        dsimp only
        rw [hp, hn]
        dsimp only
        rw [if_pos hv]
      rw [hcur]
      omega
    · intro y hy hyx
      have hle := stepsLeft_le h1 parent nodes (Function.update pcs x .done) y
      cases hpy : pcs y with
      | start =>
        have : stepsLeft h parent nodes pcs y = 2 * unfinished nodes pcs + 1 := by
          unfold stepsLeft
          dsimp only
          rw [hpy]
        omega
      | load =>
        have h2 : stepsLeft h parent nodes pcs y = 2 * unfinished nodes pcs := by
          unfold stepsLeft
          dsimp only
          rw [hpy]
        have h3 : stepsLeft h1 parent nodes (Function.update pcs x .done) y
            = 2 * unfinished nodes (Function.update pcs x .done) := by
          unfold stepsLeft
          dsimp only
          rw [Function.update_noteq hyx, hpy]
        omega
      | cas =>
        have := stepsLeft_cas_ge h parent nodes pcs y hpy
        omega
      | done =>
        have h3 : stepsLeft h1 parent nodes (Function.update pcs x .done) y = 0 :=
          (stepsLeft_done h1 parent nodes _ y hy).2 (by rw [Function.update_noteq hyx]; exact hpy)
        omega
  · have hpcx : pcs x ≠ .done := by rw [hpc]; decide
    refine ⟨fun _ => ?_, fun y hy hyx => le_of_eq (hlocal _ e (by decide) hpcx y hy hyx)⟩
    have hu : unfinished nodes (Function.update pcs x .load) = unfinished nodes pcs := by
      rw [if_neg hpcx, if_neg (by decide)] at hcount
      omega
    have hcur : stepsLeft h parent nodes pcs x = 2 * unfinished nodes pcs + 1 := by
      unfold stepsLeft
      dsimp only
      rw [hpc]
      dsimp only
      rw [hp, hn]
      dsimp only
      rw [if_neg hv]
    rw [hcur]
    unfold stepsLeft
    dsimp only
    rw [hu, Function.update_same]
  · refine ⟨fun hne => absurd hpc hne, ?_⟩
    intro y hy hyx
    have hsame : Function.update pcs x LinkPc.done = pcs := by
      rw [← hpc]
      exact Function.update_eq_self x pcs
    rw [hsame, e]

theorem linkedSoFar_step (h h1 : List inode) (parent : Nat) (nodes old l : List Nat)
    (pcs : Nat → LinkPc) (x : Nat) (pc1 : LinkPc)
    (hok : linkersOk h parent nodes pcs) (hx : x ∈ nodes) (hxo : x ∉ old)
    (hl : linkedSoFar h parent nodes pcs old l)
    (hs : link_publish_step h x parent (pcs x) = .ok (h1, pc1)) :
    ∃ l1, linkedSoFar h1 parent nodes (Function.update pcs x pc1) old l1 := by
  obtain ⟨n, p, g, pc2, hn, hp, hs2, hcases⟩ := link_publish_step_cases h parent nodes pcs x hok hx
  rw [hs] at hs2
  injection hs2 with hs2
  injection hs2 with e1 e2
  subst e1
  subst e2
  obtain ⟨hlnd, hliff, p0, hp0, hch⟩ := hl
  rw [hp] at hp0
  cases hp0
  have hxp : x ≠ parent := (hok.2 x hx).1
  have hpx : parent ≠ x := fun e => hxp e.symm
  -- a step that only writes to the caller's own cell, which is not linked yet
  have hlocal : ∀ (m : inode), h1 = store h x m → pc1 ≠ .done → pcs x ≠ .done →
      linkedSoFar h1 parent nodes (Function.update pcs x pc1) old l := by
    intro m e hpc1 hpcx
    have hxl : x ∉ l := fun hm => hpcx ((hliff x).1 hm).2
    refine ⟨hlnd, ?_, p, ?_, ?_⟩
    · intro y
      by_cases hyx : y = x
      · rw [hyx, Function.update_same]
        constructor
        · intro hm
          exact absurd hm hxl
        · intro hm
          exact absurd hm.2 hpc1
      · rw [Function.update_noteq hyx]
        exact hliff y
    · rw [e, deref_store h x parent n m hn, if_neg hpx]
      exact hp
    · refine isChain_congr h h1 _ p.child ?_ hch
      intro c hc a ha
      have hcx : c ≠ x := by
        intro e2
        rw [e2] at hc
        rcases List.mem_append.1 hc with hc | hc
        · exact hxl hc
        · exact hxo hc
      exact ⟨a, by rw [e, deref_store h x c n m hn, if_neg hcx]; exact ha, rfl⟩
  rcases hcases with ⟨hpc, e, rfl⟩ | ⟨hpc, e, rfl⟩ | ⟨hpc, hv, e, rfl⟩ | ⟨hpc, hv, e, rfl⟩
    | ⟨hpc, e, rfl⟩
  · exact ⟨l, hlocal _ e (by decide) (by rw [hpc]; decide)⟩
  · exact ⟨l, hlocal _ e (by decide) (by rw [hpc]; decide)⟩
  · have hxl : x ∉ l := by
      intro hm
      have := ((hliff x).1 hm).2
      rw [hpc] at this
      cases this
    have hgx : deref h1 x = .ok n := by
      rw [e, deref_store h parent x p _ hp, if_neg hxp]
      exact hn
    have hgp : deref h1 parent = .ok { p with child := x } := by
      rw [e, deref_store h parent parent p _ hp, if_pos rfl]
    refine ⟨x :: l, List.nodup_cons.2 ⟨hxl, hlnd⟩, ?_, _, hgp, ?_⟩
    · intro y
      by_cases hyx : y = x
      · rw [hyx, Function.update_same]
        simp [hx]
      · rw [Function.update_noteq hyx, List.mem_cons]
        constructor
        · rintro (e2 | hm)
          · exact absurd e2 hyx
          · exact (hliff y).1 hm
        · intro hm
          exact Or.inr ((hliff y).2 hm)
    · refine ⟨rfl, n, hgx, ?_⟩
      rw [← hv]
      refine isChain_congr h h1 _ p.child ?_ hch
      intro c _ a ha
      rw [e, deref_store h parent c p _ hp]
      by_cases hcp : c = parent
      · rw [if_pos hcp]
        rw [hcp, hp] at ha
        cases ha
        exact ⟨_, rfl, rfl⟩
      · rw [if_neg hcp]
        exact ⟨a, ha, rfl⟩
  · exact ⟨l, hlocal _ e (by decide) (by rw [hpc]; decide)⟩
  · have hsame : Function.update pcs x LinkPc.done = pcs := by
      rw [← hpc]
      exact Function.update_eq_self x pcs
    rw [hsame, e]
    exact ⟨l, hlnd, hliff, p, hp, hch⟩

theorem run_publish_spec (parent : Nat) (nodes old : List Nat) (hnd : nodes.Nodup)
    (hdis : ∀ x ∈ nodes, x ∉ old) :
    ∀ (sched : List Nat) (h : List inode) (pcs : Nat → LinkPc) (l : List Nat),
      linkersOk h parent nodes pcs → linkedSoFar h parent nodes pcs old l →
      ∃ h1 pcs1 l1, run_publish parent nodes sched h pcs = .ok (h1, pcs1)
        ∧ linkersOk h1 parent nodes pcs1 ∧ linkedSoFar h1 parent nodes pcs1 old l1
        ∧ (∀ q a, deref h q = .ok a → ∃ b, deref h1 q = .ok b ∧ b.name = a.name)
        ∧ (∀ x ∈ nodes, stepsLeft h parent nodes pcs x ≤ sched.count x → pcs1 x = .done) := by
  intro sched
  induction sched with
  | nil =>
    intro h pcs l hok hl
    refine ⟨h, pcs, l, rfl, hok, hl, fun q a ha => ⟨a, ha, rfl⟩, ?_⟩
    intro x hx hle
    exact (stepsLeft_done h parent nodes pcs x hx).1 (by simpa using hle)
  | cons y rest ih =>
    intro h pcs l hok hl
    by_cases hy : y ∈ nodes
    · obtain ⟨n, p, g, pc1, _, _, hs, _⟩ := link_publish_step_cases h parent nodes pcs y hok hy
      obtain ⟨hok1, hpc1, hnames, _⟩ := linkersOk_step h g parent nodes pcs y pc1 hok hy hs
      obtain ⟨l1, hl1⟩ := linkedSoFar_step h g parent nodes old l pcs y pc1 hok hy (hdis y hy) hl hs
      obtain ⟨hown, hothers⟩ := stepsLeft_step h g parent nodes pcs y pc1 hok hnd hy hs
      obtain ⟨h2, pcs2, l2, hrun, hok2, hl2, hnames2, hdone⟩ :=
        ih g (Function.update pcs y pc1) l1 hok1 hl1
      refine ⟨h2, pcs2, l2, ?_, hok2, hl2, ?_, ?_⟩
      · rw [run_publish, if_pos hy, hs]
        exact hrun
      · intro q a ha
        obtain ⟨b, hb, hbn⟩ := hnames q a ha
        obtain ⟨c, hc, hcn⟩ := hnames2 q b hb
        exact ⟨c, hc, by rw [hcn, hbn]⟩
      · intro x hx hle
        apply hdone x hx
        by_cases hxy : x = y
        · subst hxy
          rw [List.count_cons_self] at hle
          by_cases hd : pcs x = .done
          · have hpc1d : pc1 = .done := by
              rw [hd] at hs
              simp only [link_publish_step, Run.ok.injEq, Prod.mk.injEq] at hs
              exact hs.2.symm
            have : stepsLeft g parent nodes (Function.update pcs x pc1) x = 0 :=
              (stepsLeft_done g parent nodes _ x hx).2 (by rw [Function.update_same, hpc1d])
            omega
          · have := hown hd
            omega
        · rw [List.count_cons_of_ne hxy] at hle
          have := hothers x hx hxy
          omega
    · obtain ⟨h2, pcs2, l2, hrun, hok2, hl2, hnames2, hdone⟩ := ih h pcs l hok hl
      refine ⟨h2, pcs2, l2, ?_, hok2, hl2, hnames2, ?_⟩
      · rw [run_publish, if_neg hy]
        exact hrun
      · intro x hx hle
        apply hdone x hx
        have hxy : x ≠ y := fun e => hy (e ▸ hx)
        rw [List.count_cons_of_ne hxy] at hle
        exact hle

theorem path_cmp_self (nm : List Char) (hnm : '/' ∉ nm) : path_cmp nm nm = some [] := by
  induction nm with
  | nil => rfl
  | cons c r ih =>
    simp only [List.mem_cons, not_or] at hnm
    have hc : ¬ c = '/' := fun e => hnm.1 e.symm
    simp only [path_cmp, if_true, hc, if_false]
    exact ih hnm.2

theorem path_cmp_other (nm name : List Char) (hnm : '/' ∉ nm) (hname : '/' ∉ name)
    (hne : name ≠ nm) : path_cmp nm name = none := by
  cases hc : path_cmp nm name with
  | none => rfl
  | some cp =>
    rcases path_cmp_some name nm cp hname hc with ⟨_, e⟩ | e
    · exact absurd e.symm hne
    · exfalso
      apply hnm
      rw [e]
      simp

theorem mem_split_first (x : Nat) :
    ∀ (l : List Nat), x ∈ l → ∃ pre post, l = pre ++ x :: post ∧ x ∉ pre := by
  intro l
  induction l with
  | nil => intro hx; simp at hx
  | cons a t ih =>
    intro hx
    by_cases hax : a = x
    · exact ⟨[], t, by simp [hax], by simp⟩
    · have hxt : x ∈ t := by
        rcases List.mem_cons.1 hx with e | e
        · exact absurd e.symm hax
        · exact e
      obtain ⟨pre, post, e, hpre⟩ := ih hxt
      refine ⟨a :: pre, post, by simp [e], ?_⟩
      simp only [List.mem_cons, not_or]
      exact ⟨fun e2 => hax e2.symm, hpre⟩

theorem find_inode_loop_hit (h : List inode) (nm : List Char) (hnm : '/' ∉ nm) (x : Nat)
    (post : List Nat) (hx : nameAt h x = nm) :
    ∀ (pre : List Nat) (first fuel : Nat), isChain h first (pre ++ x :: post) →
      (∀ c ∈ pre, '/' ∉ nameAt h c ∧ nameAt h c ≠ nm) → pre.length < fuel →
      find_inode_loop h fuel first nm = .ok x := by
  intro pre
  induction pre with
  | nil =>
    intro first fuel hc _ hfuel
    obtain ⟨hf, n, hn, _⟩ := hc
    subst hf
    have h0 : first ≠ 0 := (deref_inv h first n hn).1
    obtain ⟨f, rfl⟩ : ∃ f, fuel = f + 1 := ⟨fuel - 1, by simp at hfuel; omega⟩
    have hname : n.name = nm := by rw [← nameAt_eq h first n hn]; exact hx
    unfold find_inode_loop
    simp only [h0, if_false, hn, hname, path_cmp_self nm hnm, if_true]
  | cons a pre ih =>
    intro first fuel hc hpre hfuel
    obtain ⟨hf, n, hn, hrest⟩ := hc
    subst hf
    have h0 : first ≠ 0 := (deref_inv h first n hn).1
    obtain ⟨f, rfl⟩ : ∃ f, fuel = f + 1 := ⟨fuel - 1, by simp at hfuel; omega⟩
    obtain ⟨hs, hne⟩ := hpre first (List.mem_cons_self _ _)
    rw [nameAt_eq h first n hn] at hs hne
    unfold find_inode_loop
    simp only [h0, if_false, hn, path_cmp_other nm n.name hnm hs hne]
    exact ih n.sibling f hrest (fun c hc => hpre c (List.mem_cons_of_mem _ hc))
      (by simp at hfuel; omega)

theorem find_inode_hit (h : List inode) (fuel root x : Nat) (r : inode) (nm : List Char)
    (pre post : List Nat) (hr : deref h root = .ok r) (hnm : '/' ∉ nm) (hne : nm ≠ [])
    (hx : nameAt h x = nm) (hc : isChain h r.child (pre ++ x :: post))
    (hpre : ∀ c ∈ pre, '/' ∉ nameAt h c ∧ nameAt h c ≠ nm) (hfuel : pre.length < fuel) :
    find_inode h fuel root nm = .ok x := by
  have h0 : root ≠ 0 := (deref_inv h root r hr).1
  have h1 : ¬ (nm = [] ∨ nm = ['/']) := by
    rintro (e | e)
    · exact hne e
    · apply hnm
      rw [e]
      simp
  unfold find_inode
  simp only [h0, if_false, h1, hr]
  exact find_inode_loop_hit h nm hnm x post hx pre r.child fuel hc hpre hfuel

/-- The part of C24 that holds, for the statements of `link_inode` after its
diagnostic call: let `parent` be a valid cell with the child list `old`, and
let `nodes` be distinct valid cells, none of them `parent` or in `old`, each
without parent and sibling, with non-empty '/'-free names that differ from one
another and from the ('/'-free) names of the cells of `old`.  One caller of
`link_inode_publish(x, parent)` per cell `x` of `nodes` runs, interleaved with
the others step by step as the schedule `sched` says, where the steps are the
atomic operations of the compare-and-swap loop.  Then for every schedule no
step faults; if the schedule gives every caller at least `2 * N + 1` steps
(`N` the number of callers), every caller has finished at its end; and
whenever every caller has finished, the child list of `parent` consists of the
cells of `nodes`, each exactly once, in some order, followed by `old`, and
`find_inode` from `parent` finds each cell of `nodes` by its name. -/
theorem publish_links_not_lost (h : List inode) (parent : Nat) (p : inode)
    (nodes old sched : List Nat) (fuel : Nat)
    (hp : deref h parent = .ok p) (hold : isChain h p.child old) (hnd : nodes.Nodup)
    (hnodes : ∀ x ∈ nodes, x ≠ parent ∧ x ∉ old ∧
      ∃ n, deref h x = .ok n ∧ n.parent = 0 ∧ n.sibling = 0 ∧ n.name ≠ [] ∧ '/' ∉ n.name)
    (hdistinct : ∀ x ∈ nodes, ∀ y ∈ nodes, nameAt h x = nameAt h y → x = y)
    (holdnames : ∀ c ∈ old, '/' ∉ nameAt h c ∧ ∀ x ∈ nodes, nameAt h c ≠ nameAt h x)
    (hfuel : nodes.length + old.length ≤ fuel) :
    ∃ h1 pcs1, run_publish parent nodes sched h (fun _ => .start) = .ok (h1, pcs1)
      ∧ ((∀ x ∈ nodes, 2 * nodes.length + 1 ≤ sched.count x) → ∀ x ∈ nodes, pcs1 x = .done)
      ∧ ((∀ x ∈ nodes, pcs1 x = .done) →
          ∃ l, l.Perm nodes
            ∧ (∃ p1, deref h1 parent = .ok p1 ∧ isChain h1 p1.child (l ++ old))
            ∧ ∀ x ∈ nodes, find_inode h1 fuel parent (nameAt h x) = .ok x) := by
  have hok : linkersOk h parent nodes (fun _ => LinkPc.start) := by
    refine ⟨⟨p, hp⟩, fun x hx => ?_⟩
    obtain ⟨h1, _, n, hn, h2, h3, _⟩ := hnodes x hx
    exact ⟨h1, n, hn, fun _ => ⟨h2, h3⟩⟩
  have hl : linkedSoFar h parent nodes (fun _ => LinkPc.start) old [] := by
    refine ⟨List.nodup_nil, fun x => ?_, p, hp, by simpa using hold⟩
    simp
  obtain ⟨h1, pcs1, l1, hrun, hok1, hl1, hnames, hdone⟩ :=
    run_publish_spec parent nodes old hnd (fun x hx => (hnodes x hx).2.1) sched h
      (fun _ => LinkPc.start) [] hok hl
  refine ⟨h1, pcs1, hrun, ?_, ?_⟩
  · intro hfair x hx
    apply hdone x hx
    have hle := stepsLeft_le h parent nodes (fun _ => LinkPc.start) x
    have hu : unfinished nodes (fun _ => LinkPc.start) ≤ nodes.length := by
      unfold unfinished
      exact List.countP_le_length _
    have := hfair x hx
    omega
  · intro hall
    obtain ⟨hlnd, hliff, p1, hp1, hch⟩ := hl1
    have hperm : l1.Perm nodes := by
      rw [List.perm_ext_iff_of_nodup hlnd hnd]
      intro x
      rw [hliff x]
      exact ⟨fun hm => hm.1, fun hm => ⟨hm, hall x hm⟩⟩
    have hname1 : ∀ q a, deref h q = .ok a → nameAt h1 q = nameAt h q := by
      intro q a ha
      obtain ⟨b, hb, hbn⟩ := hnames q a ha
      rw [nameAt_eq h1 q b hb, nameAt_eq h q a ha, hbn]
    have hvalid_old : ∀ c ∈ old, ∃ a, deref h c = .ok a := isChain_valid h old p.child hold
    refine ⟨l1, hperm, ⟨p1, hp1, hch⟩, ?_⟩
    intro x hx
    obtain ⟨_, _, n, hn, _, _, hne, hslash⟩ := hnodes x hx
    have hxl : x ∈ l1 ++ old := List.mem_append_left _ ((hliff x).2 ⟨hx, hall x hx⟩)
    obtain ⟨pre, post, hsplit, hxpre⟩ := mem_split_first x (l1 ++ old) hxl
    rw [hsplit] at hch
    have hnx : nameAt h x = n.name := nameAt_eq h x n hn
    rw [hnx]
    refine find_inode_hit h1 fuel parent x p1 n.name pre post hp1 hslash hne ?_ hch ?_ ?_
    · rw [hname1 x n hn, hnx]
    · intro c hc
      have hcl : c ∈ l1 ++ old := by
        rw [hsplit]
        exact List.mem_append_left _ hc
      have hcx : c ≠ x := fun e => hxpre (e ▸ hc)
      rcases List.mem_append.1 hcl with hcl | hco
      · have hcn : c ∈ nodes := ((hliff c).1 hcl).1
        obtain ⟨_, _, m, hm, _, _, _, hms⟩ := hnodes c hcn
        rw [hname1 c m hm, nameAt_eq h c m hm]
        refine ⟨hms, fun e => hcx ?_⟩
        apply hdistinct c hcn x hx
        rw [nameAt_eq h c m hm, hnx]
        exact e
      · obtain ⟨a, ha⟩ := hvalid_old c hco
        rw [hname1 c a ha]
        obtain ⟨h1s, h2⟩ := holdnames c hco
        refine ⟨h1s, ?_⟩
        rw [← hnx]
        exact h2 x hx
    · have hlen : (pre ++ x :: post).length = nodes.length + old.length := by
        rw [← hsplit, List.length_append, hperm.length_eq]
      simp only [List.length_append, List.length_cons] at hlen
      omega

theorem racingSchedule_run :
    (run_publish 1 [3, 4] racingSchedule twoToLink (fun _ => .start)).bind
        (fun r => .ok (r.1, [3, 4].map r.2))
      = .ok (twoLinked, [LinkPc.done, LinkPc.done]) := by
  decide!

/-- The compare-and-swap loop at a concrete race: in `twoToLink` the callers
for the cells 3 (`b`) and 4 (`c`) run under `racingSchedule`, in which the
compare-and-exchange of cell 4 fails once; both finish, the root's child list
is then a permutation of 3, 4 followed by the old child 2 (in fact 4, 3, 2, the
heap `twoLinked`), and both cells are found by name. -/
theorem publish_links_not_lost_witness :
    (run_publish 1 [3, 4] racingSchedule twoToLink (fun _ => .start)).bind
        (fun r => .ok (r.1, [3, 4].map r.2))
      = .ok (twoLinked, [LinkPc.done, LinkPc.done])
    ∧ ∃ h1 pcs1, run_publish 1 [3, 4] racingSchedule twoToLink (fun _ => .start) = .ok (h1, pcs1)
      ∧ (∀ x ∈ [3, 4], pcs1 x = .done)
      ∧ ∃ l, l.Perm [3, 4]
        ∧ (∃ p1, deref h1 1 = .ok p1 ∧ isChain h1 p1.child (l ++ [2]))
        ∧ ∀ x ∈ [3, 4], find_inode h1 3 1 (nameAt twoToLink x) = .ok x := by
  obtain ⟨h1, pcs1, hrun, hfin, hres⟩ :=
    publish_links_not_lost twoToLink 1 (cell [] 0 0 2 INODE_DIR 0o777) [3, 4] [2]
      racingSchedule 3 rfl ⟨rfl, cell "a".toList 1 0 0 INODE_DIR 0o777, rfl, rfl⟩ (by decide)
      (by
        intro x hx
        simp only [List.mem_cons, List.mem_singleton, List.not_mem_nil, or_false] at hx
        rcases hx with rfl | rfl
        · exact ⟨by decide, by decide, cell "b".toList 0 0 0 INODE_DIR 0o777, rfl, rfl, rfl,
            by decide, by decide⟩
        · exact ⟨by decide, by decide, cell "c".toList 0 0 0 INODE_DIR 0o777, rfl, rfl, rfl,
            by decide, by decide⟩)
      (by decide) (by decide) (by decide)
  have hdone := hfin (by decide)
  exact ⟨racingSchedule_run, h1, pcs1, hrun, hdone, hres hdone⟩

theorem strcpy_inodename_component (rest : List Char) :
    ∀ (comp : List Char), '/' ∉ comp → strcpy_inodename (comp ++ '/' :: rest) = comp := by
  intro comp
  induction comp with
  | nil => intro _; simp [strcpy_inodename]
  | cons c r ih =>
    intro hc
    simp only [List.mem_cons, not_or] at hc
    have h1 : ¬ c = '/' := fun e => hc.1 e.symm
    rw [List.cons_append]
    unfold strcpy_inodename
    rw [if_neg h1, ih hc.2]

theorem cdh_long_component (fuel : Nat) (s : FS) (root : Nat) (r : inode)
    (comp rest : List Char) (mode : Nat)
    (hr : deref s.heap root = .ok r) (hc : r.child = 0) (hcomp : '/' ∉ comp)
    (hlong : NAME_MAX < comp.length) :
    create_directory_hierarchy_for_file fuel s root (comp ++ '/' :: rest) mode
      = .fault .bufferOverflow := by
  have h0 : root ≠ 0 := (deref_inv s.heap root r hr).1
  have hne : comp ++ '/' :: rest ≠ [] := by simp
  have hshort : (basename_part (comp ++ '/' :: rest)).length < (comp ++ '/' :: rest).length :=
    basename_loop_shorter _ _ (by simp)
  obtain ⟨k, hk⟩ : ∃ k, (comp ++ '/' :: rest).length = k + 1 :=
    ⟨comp.length + rest.length, by simp; omega⟩
  unfold create_directory_hierarchy_for_file
  simp only [h0, if_false, hr, hc, cdh_find_null, hk]
  unfold create_directory_hierarchy_make
  rw [if_pos ⟨hne, hshort⟩]
  simp only [create_inode_eq, set_mode_append, strcpy_inodename_component rest comp hcomp]
  unfold set_name
  rw [deref_append_last]
  simp only [gt_iff_lt, hlong, if_true]

/-- C25 (the code at the failing input): in `rootOnly` the root (cell 1) has
no children.  The path `longComponentPath` has 302 bytes, within the 2000
bytes `open` accepts, and its first component has 300 bytes;
`strcpy_inodename` stores them into the 256-byte `name` array of the new inode,
so `create_directory_hierarchy_for_file(root, path, 0755)` overruns the array
instead of returning the directory. -/
theorem long_component_overruns_name :
    deref rootOnly.heap 1 = .ok (cell [] 0 0 0 INODE_DIR 0o777)
    ∧ longComponentPath.length = 302
    ∧ (strcpy_inodename longComponentPath).length = 300
    ∧ NAME_MAX + 1 = 256
    ∧ create_directory_hierarchy_for_file 10 rootOnly 1 longComponentPath 0o755
        = .fault .bufferOverflow := by
  have hcomp : '/' ∉ List.replicate 300 'a' := by
    intro hm
    have := List.eq_of_mem_replicate hm
    exact absurd this (by decide)
  refine ⟨rfl, ?_, ?_, rfl, ?_⟩
  · show (List.replicate 300 'a' ++ "/f".toList).length = 302
    rw [List.length_append, List.length_replicate]
    rfl
  · show (strcpy_inodename (List.replicate 300 'a' ++ '/' :: "f".toList)).length = 300
    rw [strcpy_inodename_component _ _ hcomp, List.length_replicate]
  · exact cdh_long_component 10 rootOnly 1 _ (List.replicate 300 'a') "f".toList 0o755 rfl rfl
      hcomp (by rw [List.length_replicate]; decide)

/-- C32 (the code at the failing input): after `mkdir("/a")` and
`chmod("/", 0)` the root has mode 0.  `chmod("/a", 0700)` resolves to the
directory `/a`, sets its mode to 0700 and returns 0, and leaves the root with
mode 0777: something else in the tree has changed.  On the regular file `/f`
of `readOnlyF`, `chmod` fails with `ENOTDIR` and the mode stays 0444. -/
theorem chmod_resets_root_mode :
    __syscall15 10 treeA "/".toList 0 = .ok (0, treeARootZero)
    ∧ treeARootZero.heap.map (fun n => n.mode) = [0, 0o777]
    ∧ __syscall15 10 treeARootZero "/a".toList 0o700 = .ok (0, treeAChmod)
    ∧ treeAChmod.heap.map (fun n => n.mode) = [0o777, 0o700]
    ∧ (readOnlyF.heap[1]?).map (fun n => (n.type, n.mode)) = some (INODE_FILE, 0o444)
    ∧ (__syscall15 10 readOnlyF "/f".toList 0o644).bind
        (fun r => .ok (r.1, (r.2.heap[1]?).map (fun n => n.mode)))
        = .ok (-ENOTDIR, some 0o444) := by
  decide!


theorem print_scan_newlines :
    ∀ (n : Nat), print_scan (List.replicate n 10) [] = (List.replicate n [], []) := by
  intro n
  induction n with
  | zero => rfl
  | succ k ih =>
    rw [List.replicate_succ, List.replicate_succ]
    unfold print_scan
    rw [if_pos rfl, ih]
    rfl


theorem toS32_small (n : Nat) (hn : n < 2147483648) : toS32 ((0 : Int) + (n : Nat)) = (n : Nat) := by
  unfold toS32
  omega

theorem iov_total_single (b : List Nat) (hb2 : b.length < 2147483648) :
    iov_total [⟨some b, b.length⟩] 0 = some ((b.length : Nat) : Int) := by
  have h32 := toS32_small b.length hb2
  have c1 : ¬ ((b.length : Nat) : Int) < 0 := by omega
  have c2 : ¬ ((some b : Option (List Nat)).isNone = true ∧ b.length > 0) := by simp
  unfold iov_total
  dsimp only
  rw [h32, if_neg c1, if_neg c2]
  rfl

theorem iov_bytes_whole (b : List Nat) (hb : 0 < b.length) :
    iov_bytes ⟨some b, b.length⟩ = .ok b := by
  have c1 : ¬ b.length = 0 := by omega
  unfold iov_bytes
  dsimp only
  rw [if_neg c1, if_pos (le_refl _), List.take_length]

theorem print_stream_overrun (s : FS) (b : List Nat)
    (hlen : 4096 < s.stdout_buffer.length + b.length) :
    print_stream s b true = .fault .bufferOverflow := by
  have c1 : s.stdout_buffer.length + b.length > 4096 := hlen
  unfold print_stream
  dsimp only
  rw [if_pos rfl, if_pos c1]

theorem writev_stdout_overrun (uninit : Nat → Nat) (s : FS) (b : List Nat)
    (hlen : 4096 < s.stdout_buffer.length + b.length) (hb : 0 < b.length)
    (hb2 : b.length < 2147483648) :
    __syscall146 uninit s 1 [⟨some b, b.length⟩] 1 = .fault .bufferOverflow := by
  have c1 : ¬ ((1 : Nat) ≠ 1 ∧ (1 : Nat) ≠ 2) := by decide!
  have c2 : ¬ ((1 : Int) < 0) := by decide!
  have c3 : ¬ ((1 : Int) ≠ (([⟨some b, b.length⟩] : List iovec).length : Int)) := by simp
  have hw : writev_print (decide ((1 : Nat) = 1)) [⟨some b, b.length⟩] s 0
      = .fault .bufferOverflow := by
    have h1 : (decide ((1 : Nat) = 1)) = true := rfl
    unfold writev_print
    rw [iov_bytes_whole b hb, h1]
    simp only [print_stream_overrun s b hlen]
  unfold __syscall146
  simp only [c1, if_false, c2, c3, iov_total_single b hb2]
  exact hw

/-- A block without a NUL byte is printed whole. -/
theorem stringify_id (l : List Nat) (h : ∀ b ∈ l, b ≠ 0) : stringify l = l := by
  unfold stringify
  rw [List.takeWhile_eq_self_iff]
  intro b hb
  simpa using h b hb

/-- The scan of `print_stream` on bytes without a NUL: the lines printed, each
followed by a newline, and then the bytes kept, are the pending line followed
by the bytes scanned; the bytes kept contain no newline. -/
theorem print_scan_spec : ∀ (bs line : List Nat), (∀ b ∈ line, b ≠ 0) → (∀ b ∈ bs, b ≠ 0) →
    10 ∉ line →
    ((print_scan bs line).1.map (fun l => l ++ [10])).flatten ++ (print_scan bs line).2
        = line ++ bs
      ∧ 10 ∉ (print_scan bs line).2
  | [], line, _, _, h10 => by
    simp only [print_scan, List.map_nil, List.flatten_nil, List.nil_append, List.append_nil]
    exact ⟨trivial, h10⟩
  | b :: rest, line, hl, hb, h10 => by
    have hrest : ∀ x ∈ rest, x ≠ 0 := fun x hx => hb x (List.mem_cons_of_mem _ hx)
    by_cases h : b = 10
    · have ih := print_scan_spec rest [] (by simp) hrest (by simp)
      have e : print_scan (b :: rest) line
          = (stringify line :: (print_scan rest []).1, (print_scan rest []).2) := by
        rw [print_scan, if_pos h]
      rw [e, stringify_id line hl]
      refine ⟨?_, ih.2⟩
      simp only [List.map_cons, List.flatten_cons, List.append_assoc]
      rw [ih.1, h]
      simp
    · have ih := print_scan_spec rest (line ++ [b])
        (by
          intro x hx
          rcases List.mem_append.mp hx with hx | hx
          · exact hl x hx
          · rw [List.mem_singleton.mp hx]
            exact hb b (List.mem_cons_self _ _))
        hrest
        (by
          intro hx
          rcases List.mem_append.mp hx with hx | hx
          · exact h10 hx
          · exact h (List.mem_singleton.mp hx).symm)
      have e : print_scan (b :: rest) line = print_scan rest (line ++ [b]) := by
        rw [print_scan, if_neg h]
      rw [e]
      refine ⟨?_, ih.2⟩
      rw [ih.1]
      simp

/-- One call of `print_stream` that fits the line buffer, on bytes without a
NUL: the log grows by the lines completed, which together with the bytes kept
are the old buffer content followed by the new bytes; the bytes kept contain no
newline; the other stream's buffer, the tree and the descriptors are as
before. -/
theorem print_stream_lines (s : FS) (bytes : List Nat) (stdout : Bool)
    (hfit : (if stdout then s.stdout_buffer else s.stderr_buffer).length + bytes.length ≤ 4096)
    (hold : ∀ b ∈ (if stdout then s.stdout_buffer else s.stderr_buffer), b ≠ 0 ∧ b ≠ 10)
    (hnew : ∀ b ∈ bytes, b ≠ 0) :
    ∃ (lines : List (List Nat)) (s1 : FS),
      print_stream s bytes stdout = .ok s1
      ∧ s1.log = s.log ++ lines.map (fun l => (stdout, l))
      ∧ (lines.map (fun l => l ++ [10])).flatten
            ++ (if stdout then s1.stdout_buffer else s1.stderr_buffer)
          = (if stdout then s.stdout_buffer else s.stderr_buffer) ++ bytes
      ∧ 10 ∉ (if stdout then s1.stdout_buffer else s1.stderr_buffer)
      ∧ (if stdout then s1.stderr_buffer else s1.stdout_buffer)
          = (if stdout then s.stderr_buffer else s.stdout_buffer)
      ∧ s1.heap = s.heap ∧ s1.fds = s.fds := by
  have hall : ∀ b ∈ (if stdout then s.stdout_buffer else s.stderr_buffer) ++ bytes, b ≠ 0 := by
    intro b hb
    rcases List.mem_append.mp hb with hb | hb
    · exact (hold b hb).1
    · exact hnew b hb
  have hspec := print_scan_spec ((if stdout then s.stdout_buffer else s.stderr_buffer) ++ bytes)
    [] (by simp) hall (by simp)
  rw [List.nil_append] at hspec
  refine ⟨(print_scan ((if stdout then s.stdout_buffer else s.stderr_buffer) ++ bytes) []).1, ?_⟩
  unfold print_stream
  simp only [if_neg (Nat.not_lt.mpr hfit)]
  cases stdout
  · simp only [Bool.false_eq_true, if_false] at hspec ⊢
    exact ⟨_, rfl, rfl, hspec.1, hspec.2, rfl, rfl, rfl⟩
  · simp only [if_true] at hspec ⊢
    exact ⟨_, rfl, rfl, hspec.1, hspec.2, rfl, rfl, rfl⟩

/-- C31 (the code at the failing input): one `writev` to standard output with
a single buffer of 4097 newline bytes.  The bytes contain no NUL, and the
pending partial line is empty throughout: every byte ends a line, so the scan
would leave nothing in the buffer.  `print_stream` copies the whole block into
its 4096-byte line buffer before it scans for lines: the call overruns the
buffer instead of emitting 4097 lines and returning 4097. -/
theorem writev_overruns_line_buffer :
    manyNewlines.length = 4097
    ∧ (∀ b ∈ manyNewlines, b ≠ 0)
    ∧ FS.init.stdout_buffer = []
    ∧ (print_scan manyNewlines []).2 = []
    ∧ __syscall146 stale FS.init 1 [⟨some manyNewlines, 4097⟩] 1 = .fault .bufferOverflow := by
  have hl : manyNewlines.length = 4097 := List.length_replicate 4097 10
  refine ⟨hl, ?_, rfl, ?_, ?_⟩
  · intro b hb
    rw [List.eq_of_mem_replicate hb]
    decide
  · show (print_scan (List.replicate 4097 10) []).2 = []
    rw [print_scan_newlines]
  · have := writev_stdout_overrun stale FS.init manyNewlines
      (by rw [hl]; decide) (by rw [hl]; decide) (by rw [hl]; decide)
    rw [hl] at this
    exact this

theorem filesystem_root_deref (s : FS) (root : Nat) (s1 : FS) (q : Nat) (a : inode)
    (h : filesystem_root s = .ok (root, s1)) (ha : deref s.heap q = .ok a) :
    ∃ m, deref s1.heap q = .ok { a with mode := m } := by
  unfold filesystem_root at h
  by_cases h0 : s.root_node = 0
  · simp only [h0, if_true, create_inode_eq, deref_append_last, store_append_last,
      Run.ok.injEq, Prod.mk.injEq] at h
    obtain ⟨_, rfl⟩ := h
    exact ⟨a.mode, deref_append_old s.heap _ a q ha⟩
  · simp only [h0, if_false] at h
    cases hr : deref s.heap s.root_node with
    | fault e => simp [hr] at h
    | ok n =>
      simp only [hr, Run.ok.injEq, Prod.mk.injEq] at h
      obtain ⟨_, rfl⟩ := h
      by_cases hq : q = s.root_node
      · subst hq
        rw [hr] at ha
        cases ha
        exact ⟨0o777, deref_store_same s.heap _ a _ hr⟩
      · refine ⟨a.mode, ?_⟩
        show deref (store s.heap s.root_node { n with mode := 0o777 }) q = _
        rw [deref_store_other s.heap _ q _ h0 hq]
        exact ha

/-- C10 (as amended): closing a valid descriptor on a node whose content lives
in its fetch (no data block) returns 0, invalidates the descriptor, clears the
node's fetch and changes no other field of that cell and no other cell, so
every path resolves as before; the node then has no content block at all; and
a later open of a path that resolves to it, without create flags and with read
access, consults the provider again: it fails with `ENOENT` when the provider
then has nothing, and otherwise attaches the transfer the provider delivers
then, dumps the tree (`emscripten_dump_fs_root`, which leaves every cell as it
is up to its mode) and allocates the descriptor. -/
theorem close_then_reopen (s : FS) (fd : Nat) (desc : FileDescriptor) (n : inode)
    (f : emscripten_fetch_t)
    (hd : check_desc s fd = .ok (some desc)) (hnz : desc.node ≠ 0)
    (hn : deref s.heap desc.node = .ok n)
    (hf : n.fetch = some f) (hdata : n.data = none) :
    ∃ s1, __syscall6 s fd = .ok (0, s1)
      ∧ check_desc s1 fd = .ok none
      ∧ deref s1.heap desc.node = .ok { n with fetch := none }
      ∧ file_data { n with fetch := none } = none
      ∧ (∀ q, q ≠ desc.node → deref s1.heap q = deref s.heap q)
      ∧ (∀ fuel root path, find_inode s1.heap fuel root path = find_inode s.heap fuel root path)
      ∧ (∀ (provider : List Char → emscripten_fetch_t) (fuel : Nat) (pathname : List Char)
          (flags mode root : Nat) (s2 : FS) (n2 : inode),
          open_flag_checks flags = none →
          pathname.length ≤ MAX_PATHNAME_LENGTH → pathname.length ≠ 0 →
          path_root s1 pathname = .ok (root, s2) →
          find_inode s2.heap fuel root (path_rel pathname) = .ok desc.node →
          deref s2.heap desc.node = .ok n2 →
          open_checks n2 flags = none →
          flags &&& O_CREAT = 0 → flags &&& O_TRUNC = 0 → flags &&& O_EXCL = 0 →
          n2.fetch = none → n2.data = none → n2.type = INODE_FILE →
          flags &&& O_DIRECTORY = 0 → flags &&& O_ACCMODE ≠ O_WRONLY →
          (__syscall5 provider fuel s1 pathname flags mode
            = if (provider pathname).status ≠ 200 ∨ (provider pathname).totalBytes = 0 then
                .ok (-ENOENT, s2)
              else
                (emscripten_dump_fs_root fuel
                  { s2 with heap := store s2.heap desc.node { n2 with fetch := some (provider pathname), size := (provider pathname).totalBytes % 4294967296 } }).bind
                  (fun s3 => open_finish s3 desc.node flags mode))
              ∧ ∀ s3, emscripten_dump_fs_root fuel
                  { s2 with heap := store s2.heap desc.node { n2 with fetch := some (provider pathname), size := (provider pathname).totalBytes % 4294967296 } } = .ok s3 →
                ∃ m, deref s3.heap desc.node
                  = .ok { n2 with fetch := some (provider pathname), size := (provider pathname).totalBytes % 4294967296, mode := m }) := by
  have hclose : __syscall6 s fd = .ok (0, put_desc { s with heap := store s.heap desc.node { n with fetch := none } } fd { desc with magic := 0 }) := by
    unfold __syscall6
    simp only [hd, hnz, if_false, hn, hf, Option.isSome_some, if_true]
  obtain ⟨h3, hg, _⟩ := check_desc_cell s fd desc hd
  have hlt : fd - 3 < s.fds.length := by
    rcases Nat.lt_or_ge (fd - 3) s.fds.length with hl | hl
    · exact hl
    · rw [List.getElem?_eq_none hl] at hg; simp at hg
  refine ⟨_, hclose, ?_, ?_, ?_, ?_, ?_, ?_⟩
  · have h0 : fd ≠ 0 := by omega
    have h3' : ¬ fd < 3 := by omega
    have hm : ¬ (0 = EM_FILEDESCRIPTOR_MAGIC) := by decide!
    unfold check_desc get_desc put_desc
    simp [h0, h3', hlt, hm]
  · exact deref_store_same s.heap desc.node n _ hn
  · simp [file_data, hdata]
  · intro q hq
    exact deref_store_other s.heap desc.node q _ hnz hq
  · intro fuel root path
    exact (find_inode_store s.heap desc.node n { n with fetch := none } hn rfl rfl rfl
      fuel root path).symm
  · intro provider fuel pathname flags mode root s2 n2 h1 h2 h3 h4 h5 h6 h7 h8 h9 h10 h11 h12
      h13 h14 h15
    refine ⟨open_existing_without_content provider fuel _ pathname flags mode root s2 desc.node n2
      h1 h2 h3 h4 h5 hnz h6 h7 h8 h9 h10 h11 h12 h13 h14 h15, ?_⟩
    intro s3 hdump
    obtain ⟨root3, hroot3⟩ := emscripten_dump_fs_root_state fuel _ s3 hdump
    obtain ⟨m, hm⟩ := filesystem_root_deref _ root3 s3 desc.node _ hroot3
      (deref_store_same s2.heap desc.node n2 _ h6)
    exact ⟨m, hm⟩

/-- C10, at a concrete file: closing descriptor 3 of `openedH` leaves `/h`
resolving to cell 2, and a later `open("/h", O_RDONLY)` fails with `ENOENT`
when the provider has nothing by then. -/
theorem close_then_reopen_witness :
    ∃ s1, __syscall6 openedH 3 = .ok (0, s1)
      ∧ find_inode s1.heap 10 1 "h".toList = find_inode openedH.heap 10 1 "h".toList
      ∧ __syscall5 notFound 10 s1 "/h".toList O_RDONLY 0o644 = .ok (-ENOENT, closedH) := by
  obtain ⟨s1, h1, _, _, _, _, h6, h7⟩ := close_then_reopen openedH 3
    ⟨EM_FILEDESCRIPTOR_MAGIC, 0, 0o644, O_RDWR, 2⟩
    { cell "h".toList 1 0 0 INODE_FILE 0o644 with size := 5, fetch := some (serveHello []) }
    (serveHello []) (by decide!) (by decide!) (by decide!) rfl rfl
  have hs1 : s1 = closedH := by
    have h2 : __syscall6 openedH 3 = .ok (0, closedH) := by decide!
    rw [h1] at h2
    injection h2 with h2
    injection h2
  subst hs1
  refine ⟨closedH, h1, h6 10 1 "h".toList, ?_⟩
  have := h7 notFound 10 "/h".toList O_RDONLY 0o644 1 closedH
    { cell "h".toList 1 0 0 INODE_FILE 0o644 with size := 5 }
    (by decide!) (by decide!) (by decide!) (by decide!) (by decide!) (by decide!) (by decide!)
    (by decide!) (by decide!) (by decide!) (by decide!) (by decide!) (by decide!) (by decide!)
    (by decide!)
  simpa [notFound] using this.1

/-- C10 (counterexample): after `/h` is opened with the provider serving
`hello` and the descriptor is closed, the inode is still linked (the path
resolves to cell 2, size 5) but holds no bytes (no data block, no fetch); a
later `open("/h", O_RDONLY)` asks the provider again and fails with `ENOENT`
when it has nothing by then. -/
theorem close_does_not_cache :
    __syscall5 serveHello 10 FS.init "/h".toList O_RDWR 0o644 = .ok (3, openedH)
    ∧ __syscall6 openedH 3 = .ok (0, closedH)
    ∧ find_inode_path closedH 10 "/h".toList = .ok (2, closedH)
    ∧ (closedH.heap[1]?).map (fun n => (n.size, n.data, n.fetch, file_data n))
        = some (5, none, none, none)
    ∧ __syscall5 notFound 10 closedH "/h".toList O_RDONLY 0o644 = .ok (-ENOENT, closedH) := by
  decide!

theorem unlink_inode_splices (h : List inode) (fuel x p : Nat) (n pc : inode)
    (pre post : List Nat)
    (hn : deref h x = .ok n) (hp : n.parent = p) (hpc : deref h p = .ok pc)
    (hch : isChain h pc.child (pre ++ x :: post)) (hnd : (pre ++ x :: post).Nodup)
    (hpl : p ∉ pre ++ x :: post) (hfuel : pre.length ≤ fuel) :
    ∃ g, unlink_inode h fuel x = .ok g
      ∧ (∃ pc2, deref g p = .ok pc2 ∧ isChain g pc2.child (pre ++ post))
      ∧ deref g x = .ok { n with parent := 0, sibling := 0 } := by
  have hxl : x ∈ pre ++ x :: post := by simp
  have hxp : x ≠ p := fun e => hpl (e ▸ hxl)
  obtain ⟨n1, hn1, hpost, hfirst, _⟩ := isChain_append h pre pc.child x post hch
  rw [hn] at hn1
  cases hn1
  have hxpost : x ∉ post := by
    have := (List.nodup_append.1 hnd).2.1
    exact (List.nodup_cons.1 this).1
  rcases List.eq_nil_or_concat pre with rfl | ⟨pre0, pred, hs⟩
  · have hcx : pc.child = x := hfirst rfl
    obtain ⟨g, hres, _, hgx, hgp, hgo⟩ := unlink_inode_first h fuel x p n pc hn hp hpc hxp hcx
    refine ⟨g, hres, ⟨_, hgp, ?_⟩, hgx⟩
    refine isChain_congr h g post n.sibling ?_ hpost
    intro c hc a ha
    have h1 : c ≠ x := fun e => hxpost (e ▸ hc)
    have h2 : c ≠ p := fun e => hpl (by simp [← e, hc])
    exact ⟨a, by rw [hgo c h1 h2]; exact ha, rfl⟩
  · rw [List.concat_eq_append] at hs
    subst hs
    have hch2 : isChain h pc.child (pre0 ++ pred :: x :: post) := by
      simpa [List.append_assoc] using hch
    have hnd2 : (pre0 ++ pred :: x :: post).Nodup := by
      simpa [List.append_assoc] using hnd
    have hpl2 : p ∉ pre0 ++ pred :: x :: post := by
      simpa [List.append_assoc] using hpl
    obtain ⟨g, a, hres, _, ha, hgx, hgpred, hgo⟩ :=
      unlink_inode_later h fuel x p pred n pc pre0 post hn hp hpc hch2 hnd2 hpl2
        (by simp at hfuel; omega)
    have hpredp : pred ≠ p := fun e => hpl2 (by simp [← e])
    refine ⟨g, hres, ⟨pc, ?_, ?_⟩, hgx⟩
    · rw [hgo p (fun e => hxp e.symm) (fun e => hpredp e.symm)]
      exact hpc
    · have := isChain_splice h g x pred post n a hn ha
        (fun c h1 h2 => hgo c h2 h1) hgpred pre0 pc.child hch2 hnd2
      simpa [List.append_assoc] using this

/-- C15 (as amended): for a path of valid length that resolves to a directory
whose parent is writable (or which has no parent), `unlink` fails with
`EISDIR`, leaving the state as the lookup left it, when the directory has no
write permission bit or has at least one child.  A directory with a write bit
and no child is not refused: `unlink` returns 0 and takes it out of the tree,
that is, wherever it stands in the child list of its parent (distinct cells,
fuel for the scan up to it), that list is afterwards the old one without the
directory, and the parent and sibling pointers of the directory are null; a
directory that has no parent is left as it is. -/
theorem unlink_directory (fuel : Nat) (s : FS) (pathname : List Char) (node : Nat) (s1 : FS)
    (n : inode)
    (hlen1 : pathname.length ≤ MAX_PATHNAME_LENGTH) (hlen0 : pathname.length ≠ 0)
    (hfind : find_inode_path s fuel pathname = .ok (node, s1))
    (hnode : node ≠ 0) (hn : deref s1.heap node = .ok n)
    (hdir : n.type = INODE_DIR)
    (hparent : n.parent = 0 ∨ ∃ p, deref s1.heap n.parent = .ok p ∧ p.mode &&& 0o222 ≠ 0) :
    (n.mode &&& 0o222 = 0 → __syscall10 fuel s pathname = .ok (-EISDIR, s1))
    ∧ (n.child ≠ 0 → __syscall10 fuel s pathname = .ok (-EISDIR, s1))
    ∧ (n.mode &&& 0o222 ≠ 0 → n.child = 0 → n.parent = 0 →
        __syscall10 fuel s pathname = .ok (0, s1))
    ∧ (n.mode &&& 0o222 ≠ 0 → n.child = 0 →
        ∀ (p : inode) (pre post : List Nat), deref s1.heap n.parent = .ok p →
          isChain s1.heap p.child (pre ++ node :: post) → (pre ++ node :: post).Nodup →
          n.parent ∉ pre ++ node :: post → pre.length ≤ fuel →
          ∃ g, __syscall10 fuel s pathname = .ok (0, { s1 with heap := g })
            ∧ (∃ p2, deref g n.parent = .ok p2 ∧ isChain g p2.child (pre ++ post))
            ∧ deref g node = .ok { n with parent := 0, sibling := 0 }) := by
  have hu := unlink_unfold fuel s pathname node s1 n hlen1 hlen0 hfind hnode hn hparent
  refine ⟨?_, ?_, ?_, ?_⟩
  · intro hm
    rw [hu]
    simp only [hm, if_true, hdir]
  · intro hc
    rw [hu]
    by_cases hm : n.mode &&& 0o222 = 0
    · simp only [hm, if_true, hdir]
    · simp only [hm, if_false, hc, ne_eq, not_false_eq_true, if_true]
  · intro hm hc hp0
    rw [hu]
    simp only [hm, if_false, hc, ne_eq, not_true_eq_false]
    have : unlink_inode s1.heap fuel node = .ok s1.heap := by
      unfold unlink_inode
      simp only [hn, hp0, if_true]
    rw [this]
  · intro hm hc p pre post hp hch hnd hpl hfuel
    obtain ⟨g, hres, hchain, hgx⟩ :=
      unlink_inode_splices s1.heap fuel node n.parent n p pre post hn rfl hp hch hnd hpl hfuel
    refine ⟨g, ?_, hchain, hgx⟩
    rw [hu]
    simp only [hm, if_false, hc, ne_eq, not_true_eq_false, hres]

/-- C15, at concrete directories: in `treeAb` the directory `/a` has the child
`b`, and `unlink("/a")` fails with `EISDIR` and changes nothing; in `treeA`
the directory `/a` is writable and empty, and `unlink("/a")` returns 0, leaves
the root without children and clears the parent pointer of cell 2. -/
theorem unlink_directory_witness :
    __syscall10 10 treeAb "/a".toList = .ok (-EISDIR, treeAb)
    ∧ ∃ g, __syscall10 10 treeA "/a".toList = .ok (0, { treeA with heap := g })
      ∧ (∃ p2, deref g 1 = .ok p2 ∧ isChain g p2.child ([] ++ []))
      ∧ deref g 2 = .ok { cell "a".toList 1 0 0 INODE_DIR 0o777 with parent := 0, sibling := 0 } :=
  ⟨(unlink_directory 10 treeAb "/a".toList 2 treeAb (cell "a".toList 1 0 3 INODE_DIR 0o777)
      (by decide) (by decide) (by decide) (by decide) (by decide) (by decide)
      (Or.inr ⟨cell [] 0 0 2 INODE_DIR 0o777, by decide, by decide⟩)).2.1 (by decide),
   (unlink_directory 10 treeA "/a".toList 2 treeA (cell "a".toList 1 0 0 INODE_DIR 0o777)
      (by decide) (by decide) (by decide) (by decide) (by decide) (by decide)
      (Or.inr ⟨cell [] 0 0 2 INODE_DIR 0o777, by decide, by decide⟩)).2.2.2 (by decide) (by decide)
      (cell [] 0 0 2 INODE_DIR 0o777) [] [] (by decide)
      ⟨rfl, cell "a".toList 1 0 0 INODE_DIR 0o777, by decide, rfl⟩
      (by decide) (by decide) (by decide)⟩

/-- C13 (the code at the failing input): in `treeAbcChmod` the directory
`/a/b` (cell 3) is neither the root nor the current directory, it and its
parent `/a` have mode 0777, and its only child `c` has mode 0777 and no child.
`rmdir("/a/b")` returns `-ENOTEMPTY`, but it does not leave the tree as it
was: the mode of the root, 0 before the call, is 0777 after it, because the
lookup and the root test go through `filesystem_root`.  (The current
directory, not set before the call, is made the root by `get_cwd`.) -/
theorem rmdir_not_empty_changes_root_mode :
    __syscall15 10 treeAbc "/".toList 0 = .ok (0, treeAbcChmod)
    ∧ treeAbcChmod.root_node = 1 ∧ treeAbcChmod.cwd_inode = 0
    ∧ find_inode_path treeAbcChmod 10 "/a/b".toList = .ok (3, treeAbc)
    ∧ treeAbcChmod.heap.map (fun n => (n.type, n.mode, n.parent, n.sibling, n.child))
        = [(INODE_DIR, 0, 0, 0, 2), (INODE_DIR, 0o777, 1, 0, 3), (INODE_DIR, 0o777, 2, 0, 4),
           (INODE_DIR, 0o777, 3, 0, 0)]
    ∧ __syscall40 10 treeAbcChmod "/a/b".toList = .ok (-ENOTEMPTY, { treeAbc with cwd_inode := 1 })
    ∧ treeAbc.heap.map (fun n => (n.type, n.mode, n.parent, n.sibling, n.child))
        = [(INODE_DIR, 0o777, 0, 0, 2), (INODE_DIR, 0o777, 1, 0, 3), (INODE_DIR, 0o777, 2, 0, 4),
           (INODE_DIR, 0o777, 3, 0, 0)]
    ∧ treeAbcChmod.heap ≠ treeAbc.heap := by
  decide!

theorem treeShape_congr (h g : List inode) (hts : treeShape h)
    (hfw : ∀ q a, deref h q = .ok a → ∃ b, deref g q = .ok b ∧
      b.parent = a.parent ∧ b.sibling = a.sibling ∧ b.child = a.child)
    (hbw : ∀ q b, deref g q = .ok b → ∃ a, deref h q = .ok a) : treeShape g := by
  obtain ⟨h1, h2, h3⟩ := hts
  have hch : ∀ (l : List Nat) (first : Nat), isChain h first l → isChain g first l := by
    intro l first hl
    refine isChain_congr h g l first ?_ hl
    intro c _ x hx
    obtain ⟨y, hy, _, hys, _⟩ := hfw c x hx
    exact ⟨y, hy, hys⟩
  refine ⟨?_, ?_, ?_⟩
  · intro p pc hd
    obtain ⟨a, ha⟩ := hbw p pc hd
    obtain ⟨b, hb, _, _, hbc⟩ := hfw p a ha
    rw [hd] at hb
    cases hb
    obtain ⟨l, hl, hnd, hpl, hmem⟩ := h1 p a ha
    refine ⟨l, ?_, hnd, hpl, ?_⟩
    · rw [hbc]
      exact hch l a.child hl
    · intro c hc
      obtain ⟨x, hx, hxp⟩ := hmem c hc
      obtain ⟨y, hy, hyp, _⟩ := hfw c x hx
      exact ⟨y, hy, by rw [hyp, hxp]⟩
  · intro x m hd hm
    obtain ⟨a, ha⟩ := hbw x m hd
    obtain ⟨b, hb, hbp, _, _⟩ := hfw x a ha
    rw [hd] at hb
    cases hb
    rw [hbp] at hm ⊢
    obtain ⟨pc, l, hpc, hl, hcount⟩ := h2 x a ha hm
    obtain ⟨pc2, hpc2, _, _, hc2⟩ := hfw _ pc hpc
    refine ⟨pc2, l, hpc2, ?_, hcount⟩
    rw [hc2]
    exact hch l pc.child hl
  · intro x m hd hm
    obtain ⟨a, ha⟩ := hbw x m hd
    obtain ⟨b, hb, hbp, hbs, _⟩ := hfw x a ha
    rw [hd] at hb
    cases hb
    rw [hbs]
    exact h3 x a ha (by rw [← hbp]; exact hm)

theorem treeShape_store (h : List inode) (p : Nat) (a b : inode) (hts : treeShape h)
    (ha : deref h p = .ok a) (h2 : b.parent = a.parent)
    (h3 : b.sibling = a.sibling) (h4 : b.child = a.child) : treeShape (store h p b) := by
  have hp0 := (deref_inv h p a ha).1
  refine treeShape_congr h _ hts ?_ ?_
  · intro q x hx
    by_cases hq : q = p
    · subst hq
      rw [ha] at hx
      cases hx
      exact ⟨b, deref_store_same h q a b ha, h2, h3, h4⟩
    · exact ⟨x, by rw [deref_store_other h p q b hp0 hq]; exact hx, rfl, rfl, rfl⟩
  · intro q x hx
    by_cases hq : q = p
    · subst hq
      exact ⟨a, ha⟩
    · rw [deref_store_other h p q b hp0 hq] at hx
      exact ⟨x, hx⟩

theorem treeShape_unlinked (h : List inode)
    (hall : ∀ n ∈ h, n.child = 0 ∧ n.parent = 0 ∧ n.sibling = 0) : treeShape h := by
  have hcell : ∀ p pc, deref h p = .ok pc →
      pc.child = 0 ∧ pc.parent = 0 ∧ pc.sibling = 0 := by
    intro p pc hd
    exact hall pc (List.mem_iff_getElem?.2 ⟨p - 1, (deref_inv h p pc hd).2⟩)
  refine ⟨?_, ?_, ?_⟩
  · intro p pc hd
    refine ⟨[], ?_, List.nodup_nil, by simp, by simp⟩
    rw [(hcell p pc hd).1]
    rfl
  · intro x n hd hp
    exact absurd (hcell x n hd).2.1 hp
  · intro x n hd _
    exact (hcell x n hd).2.2

/-- What holds of `link_inode` for the root as parent: on a heap that
satisfies `treeShape`, called on a cell without parent, it returns, the heap
satisfies the invariant again, and the node heads the children of the root,
followed by the former children in their order. -/
theorem link_inode_under_root (s : FS) (node : Nat) (n pc : inode) (l : List Nat)
    (hroot : s.root_node ≠ 0) (hts : treeShape s.heap)
    (hn : deref s.heap node = .ok n) (hnp : n.parent = 0)
    (hpc : deref s.heap s.root_node = .ok pc) (hne : node ≠ s.root_node)
    (hl : isChain s.heap pc.child l) :
    ∃ s1, link_inode s node s.root_node = .ok s1 ∧ treeShape s1.heap
      ∧ ∃ pc2, deref s1.heap s.root_node = .ok pc2 ∧ pc2.child = node
        ∧ isChain s1.heap pc2.child (node :: l) := by
  have hfr := filesystem_root_valid s pc hroot hpc
  have hname : link_inode_parent_name s s.root_node
      = .ok { s with heap := store s.heap s.root_node { pc with mode := 0o777 } } := by
    unfold link_inode_parent_name
    simp only [hroot, if_false, hfr, if_true]
  have hts1 : treeShape (store s.heap s.root_node { pc with mode := 0o777 }) :=
    treeShape_store s.heap s.root_node pc { pc with mode := 0o777 } hts hpc rfl rfl rfl
  have hn1 : deref (store s.heap s.root_node { pc with mode := 0o777 }) node = .ok n := by
    rw [deref_store_other s.heap s.root_node node _ hroot hne]
    exact hn
  have hpc1 : deref (store s.heap s.root_node { pc with mode := 0o777 }) s.root_node
      = .ok { pc with mode := 0o777 } :=
    deref_store_same s.heap s.root_node pc { pc with mode := 0o777 } hpc
  have hl1 : isChain (store s.heap s.root_node { pc with mode := 0o777 })
      ({ pc with mode := 0o777 } : inode).child l :=
    isChain_store s.heap s.root_node pc { pc with mode := 0o777 } hpc rfl l pc.child hl
  obtain ⟨g, hres, hg, _, hgp, hch, _⟩ :=
    treeShape_link _ node s.root_node n { pc with mode := 0o777 } l hts1 hn1 hnp hpc1 hne hl1
  refine ⟨{ s with heap := g }, ?_, hg, _, hgp, rfl, hch⟩
  unfold link_inode
  simp only [hname, hres]

/-- C26 (the code at the failing input): the heap `twoToLink` satisfies the
tree-shape invariant; cell 3 is not linked and cell 2, the directory `a`, is a
valid parent.  `link_inode(cell 3, cell 2)` does not return with cell 3 at the
head of the children of cell 2: its first statement, the diagnostic call
`inode_abspath(parent, parentName, PATH_MAX)`, stores past the array
`parentName` for this parent, as for every parent other than the root.  The
statements after it would link the cell; under the root, cell 1, the call
returns with cell 3 linked. -/
theorem link_inode_overruns_parent_name :
    treeShape twoToLink
    ∧ linksOf linkersStart
        = [([], 0, 0, 2), ("a".toList, 1, 0, 0), ("b".toList, 0, 0, 0), ("c".toList, 0, 0, 0)]
    ∧ link_inode_parent_name linkersStart 2 = .fault .bufferOverflow
    ∧ link_inode linkersStart 3 2 = .fault .bufferOverflow
    ∧ (link_inode_publish twoToLink 3 2).bind (fun g => .ok (linksOf (fsOf g 1 0 [])))
        = .ok [([], 0, 0, 2), ("a".toList, 1, 0, 3), ("b".toList, 2, 0, 0), ("c".toList, 0, 0, 0)]
    ∧ (link_inode linkersStart 3 1).bind (fun s => .ok (linksOf s))
        = .ok [([], 0, 0, 3), ("a".toList, 1, 0, 0), ("b".toList, 1, 2, 0), ("c".toList, 0, 0, 0)] := by
  refine ⟨?_, by decide!, by decide!, by decide!, by decide!, by decide!⟩
  have h0 : treeShape
      [ cell [] 0 0 0 INODE_DIR 0o777, cell "a".toList 0 0 0 INODE_DIR 0o777,
        cell "b".toList 0 0 0 INODE_DIR 0o777, cell "c".toList 0 0 0 INODE_DIR 0o777 ] := by
    refine treeShape_unlinked _ ?_
    intro n hn
    simp only [List.mem_cons, List.mem_singleton, List.not_mem_nil, or_false] at hn
    rcases hn with rfl | rfl | rfl | rfl <;> exact ⟨rfl, rfl, rfl⟩
  obtain ⟨g, hres, hg, _⟩ := treeShape_link _ 2 1 (cell "a".toList 0 0 0 INODE_DIR 0o777)
    (cell [] 0 0 0 INODE_DIR 0o777) [] h0 rfl rfl rfl (by decide) rfl
  have he : link_inode_publish
      [ cell [] 0 0 0 INODE_DIR 0o777, cell "a".toList 0 0 0 INODE_DIR 0o777,
        cell "b".toList 0 0 0 INODE_DIR 0o777, cell "c".toList 0 0 0 INODE_DIR 0o777 ] 2 1
      = .ok twoToLink := by decide!
  rw [he] at hres
  cases hres
  exact hg

theorem link_publish_step_mode (h h1 : List inode) (node parent : Nat) (pc pc1 : LinkPc)
    (hs : link_publish_step h node parent pc = .ok (h1, pc1)) :
    ∀ q a, deref h q = .ok a → ∃ b, deref h1 q = .ok b ∧ b.mode = a.mode := by
  have key : ∀ (x : Nat) (c m : inode), deref h x = .ok c → m.mode = c.mode →
      ∀ q a, deref h q = .ok a → ∃ b, deref (store h x m) q = .ok b ∧ b.mode = a.mode := by
    intro x c m hc hm q a ha
    rw [deref_store h x q c m hc]
    by_cases hq : q = x
    · subst hq
      rw [hc] at ha
      cases ha
      exact ⟨m, by simp, hm⟩
    · exact ⟨a, by simp [hq, ha], rfl⟩
  cases pc with
  | start =>
    unfold link_publish_step at hs
    cases hn : deref h node with
    | fault e => simp [hn] at hs
    | ok n =>
      simp only [hn] at hs
      by_cases c1 : n.parent ≠ 0
      · simp [c1] at hs
      · by_cases c2 : n.sibling ≠ 0
        · simp [c1, c2] at hs
        · simp only [c1, c2, if_false, Run.ok.injEq, Prod.mk.injEq] at hs
          rw [← hs.1]
          exact key node n _ hn rfl
  | load =>
    unfold link_publish_step at hs
    cases hp : deref h parent with
    | fault e => simp [hp] at hs
    | ok p =>
      cases hn : deref h node with
      | fault e => simp [hp, hn] at hs
      | ok n =>
        simp only [hp, hn, Run.ok.injEq, Prod.mk.injEq] at hs
        rw [← hs.1]
        exact key node n _ hn rfl
  | cas =>
    unfold link_publish_step at hs
    cases hp : deref h parent with
    | fault e => simp [hp] at hs
    | ok p =>
      cases hn : deref h node with
      | fault e => simp [hp, hn] at hs
      | ok n =>
        simp only [hp, hn] at hs
        by_cases hv : p.child = n.sibling
        · simp only [hv, if_true, Run.ok.injEq, Prod.mk.injEq] at hs
          rw [← hs.1]
          exact key parent p _ hp rfl
        · simp only [hv, if_false, Run.ok.injEq, Prod.mk.injEq] at hs
          rw [← hs.1]
          exact key node n _ hn rfl
  | done =>
    unfold link_publish_step at hs
    simp only [Run.ok.injEq, Prod.mk.injEq] at hs
    rw [← hs.1]
    intro q a ha
    exact ⟨a, ha, rfl⟩

theorem link_step_under_root (s : FS) (node : Nat) (pc : LinkPc) (r : inode)
    (hroot : s.root_node ≠ 0) (hr : deref s.heap s.root_node = .ok r) (hm : r.mode = 0o777) :
    link_step s node s.root_node pc
      = (link_publish_step s.heap node s.root_node pc).bind
          (fun x => .ok ({ s with heap := x.1 }, x.2)) := by
  have hname : link_inode_parent_name s s.root_node = .ok s := by
    unfold link_inode_parent_name
    simp only [hroot, if_false, filesystem_root_fixed s r hroot hr hm, if_true]
  unfold link_step
  cases pc with
  | start =>
    simp only [hname]
    cases link_publish_step s.heap node s.root_node .start with
    | fault e => rfl
    | ok x => rfl
  | load =>
    simp only []
    cases link_publish_step s.heap node s.root_node .load with
    | fault e => rfl
    | ok x => rfl
  | cas =>
    simp only []
    cases link_publish_step s.heap node s.root_node .cas with
    | fault e => rfl
    | ok x => rfl
  | done =>
    simp only []
    cases link_publish_step s.heap node s.root_node .done with
    | fault e => rfl
    | ok x => rfl

theorem run_links_under_root (nodes : List Nat) :
    ∀ (sched : List Nat) (s : FS) (pcs : Nat → LinkPc) (r : inode),
      s.root_node ≠ 0 → deref s.heap s.root_node = .ok r → r.mode = 0o777 →
      run_links s.root_node nodes sched s pcs
        = (run_publish s.root_node nodes sched s.heap pcs).bind
            (fun x => .ok ({ s with heap := x.1 }, x.2)) := by
  intro sched
  induction sched with
  | nil =>
    intro s pcs r _ _ _
    rfl
  | cons node sched ih =>
    intro s pcs r hroot hr hm
    unfold run_links run_publish
    by_cases hx : node ∈ nodes
    · rw [if_pos hx, if_pos hx, link_step_under_root s node (pcs node) r hroot hr hm]
      cases hs : link_publish_step s.heap node s.root_node (pcs node) with
      | fault e => rfl
      | ok x =>
        obtain ⟨h1, pc1⟩ := x
        obtain ⟨b, hb, hbm⟩ := link_publish_step_mode s.heap h1 node s.root_node (pcs node) pc1 hs
          s.root_node r hr
        exact ih { s with heap := h1 } (Function.update pcs node pc1) b hroot hb
          (by rw [hbm, hm])
    · rw [if_neg hx, if_neg hx]
      exact ih s pcs r hroot hr hm

/-- What holds of C24 for the root as parent, when its mode is the 0777 that
`filesystem_root` gives it: let `old` be the child list of the root and let
`nodes` be distinct valid cells, none of them the root or in `old`, each
without parent and sibling, with non-empty '/'-free names that differ from one
another and from the ('/'-free) names of the cells of `old`.  One caller of
`link_inode(x, root)` per cell `x` of `nodes` runs, interleaved with the
others step by step as the schedule says.  Then for every schedule no step
faults; a schedule that gives every caller at least `2 * N + 1` steps ends with
every caller out of `link_inode`; and whenever every caller has left it, the
child list of the root consists of the cells of `nodes`, each exactly once, in
some order, followed by `old`, and `find_inode` finds each of them by its
name. -/
theorem concurrent_links_under_root (s : FS) (p : inode)
    (nodes old sched : List Nat) (fuel : Nat)
    (hroot : s.root_node ≠ 0) (hp : deref s.heap s.root_node = .ok p) (hmode : p.mode = 0o777)
    (hold : isChain s.heap p.child old) (hnd : nodes.Nodup)
    (hnodes : ∀ x ∈ nodes, x ≠ s.root_node ∧ x ∉ old ∧
      ∃ n, deref s.heap x = .ok n ∧ n.parent = 0 ∧ n.sibling = 0 ∧ n.name ≠ [] ∧ '/' ∉ n.name)
    (hdistinct : ∀ x ∈ nodes, ∀ y ∈ nodes, nameAt s.heap x = nameAt s.heap y → x = y)
    (holdnames : ∀ c ∈ old, '/' ∉ nameAt s.heap c ∧ ∀ x ∈ nodes, nameAt s.heap c ≠ nameAt s.heap x)
    (hfuel : nodes.length + old.length ≤ fuel) :
    ∃ s1 pcs1, run_links s.root_node nodes sched s (fun _ => .start) = .ok (s1, pcs1)
      ∧ ((∀ x ∈ nodes, 2 * nodes.length + 1 ≤ sched.count x) → ∀ x ∈ nodes, pcs1 x = .done)
      ∧ ((∀ x ∈ nodes, pcs1 x = .done) →
          ∃ l, l.Perm nodes
            ∧ (∃ p1, deref s1.heap s.root_node = .ok p1 ∧ isChain s1.heap p1.child (l ++ old))
            ∧ ∀ x ∈ nodes, find_inode s1.heap fuel s.root_node (nameAt s.heap x) = .ok x) := by
  obtain ⟨h1, pcs1, hrun, hfin, hres⟩ :=
    publish_links_not_lost s.heap s.root_node p nodes old sched fuel hp hold hnd hnodes
      hdistinct holdnames hfuel
  refine ⟨{ s with heap := h1 }, pcs1, ?_, hfin, hres⟩
  rw [run_links_under_root nodes sched s _ p hroot hp hmode, hrun]
  rfl

/-- C24 (the code at the failing input): in `linkersStart` the root (cell 1)
has the child `a` (cell 2), and the cells 3 and 4 are new and not linked.  A
caller that links cell 3 under cell 2 faults in its first step, whatever the
other callers do: `link_inode` begins with the diagnostic call
`inode_abspath(parent, parentName, PATH_MAX)`, which for cell 2, as for every
parent other than the root, stores past the array `parentName`; so with the
callers of cells 3 and 4 under the parent `a`, no schedule ends with the two
cells in the child list of `a`.  The compare-and-swap loop alone links both
under `a`, and under the root both callers finish with both cells linked. -/
theorem concurrent_link_overruns_parent_name :
    linksOf linkersStart
        = [([], 0, 0, 2), ("a".toList, 1, 0, 0), ("b".toList, 0, 0, 0), ("c".toList, 0, 0, 0)]
    ∧ link_step linkersStart 3 2 .start = .fault .bufferOverflow
    ∧ link_step linkersStart 4 2 .start = .fault .bufferOverflow
    ∧ (run_links 2 [3, 4] [3] linkersStart (fun _ => .start)).bind (fun r => .ok r.1)
        = .fault .bufferOverflow
    ∧ (run_links 2 [3, 4] racingSchedule linkersStart (fun _ => .start)).bind (fun r => .ok r.1)
        = .fault .bufferOverflow
    ∧ (run_publish 2 [3, 4] racingSchedule twoToLink (fun _ => .start)).bind
          (fun r => .ok (linksOf (fsOf r.1 1 0 []), [3, 4].map r.2))
        = .ok ([([], 0, 0, 2), ("a".toList, 1, 0, 4), ("b".toList, 2, 0, 0),
                 ("c".toList, 2, 3, 0)], [LinkPc.done, LinkPc.done])
    ∧ (run_links 1 [3, 4] racingSchedule linkersStart (fun _ => .start)).bind
          (fun r => .ok (linksOf r.1, [3, 4].map r.2))
        = .ok ([([], 0, 0, 4), ("a".toList, 1, 0, 0), ("b".toList, 1, 2, 0),
                 ("c".toList, 1, 3, 0)], [LinkPc.done, LinkPc.done]) := by
  repeat' apply And.intro
  all_goals decide!

end Asmfs
